import Mathlib

/-! # Generic seed fill (morphological reconstruction), `imageproc/SeedFillGeneric.h`

A shallow embedding of the hybrid grayscale reconstruction kernel of
`src/imageproc/SeedFillGeneric.h`, together with theorems about it, followed by a
model of the page-detection dependencies of `src/filters/select_content/Dependencies.cpp`
and of the page parameters of `src/filters/select_content/Settings.cpp`.

Modelling conventions.

* A buffer is a total function `Int → α`; the argument is the offset of an
  element from the pointer that the caller passes (`seed`, `mask`).  A pointer
  into a buffer is therefore an `Int`, and pointer arithmetic is integer
  arithmetic.  A store `*p = v` is `Function.update buf p v`.
* `int` values (coordinates, strides, deltas, bit masks) are `Int`; the C++
  operator `&` on them is `Int.land` (two's complement, unbounded width).
* The `while (!queue.empty())` loops take a fuel argument: the result is
  `none` when the fuel runs out before the queue drains.  Termination theorems
  show that enough fuel always exists.
* The mask buffer is reached through a `T const*`: it is an input that the
  model never returns, so it cannot change.
-/

namespace imageproc

/-- The selector `Connectivity` of `Connectivity.h`: four or eight neighbours. -/
inductive Connectivity where
  | CONN4
  | CONN8
deriving DecidableEq, Repr

/-- The `QSize` argument: a width and a height, both `int`. -/
structure QSize where
  width : Int
  height : Int
deriving DecidableEq, Repr

/-- Qt's `QSize::isEmpty`: either dimension is less than one. -/
def QSize.isEmpty (size : QSize) : Bool :=
  decide (size.width < 1) || decide (size.height < 1)

namespace detail
namespace seed_fill_generic

/-- Horizontal transition: the pointer deltas to the west and east neighbour. -/
structure HTransition where
  west_delta : Int
  east_delta : Int
deriving DecidableEq, Repr

/-- Vertical transition: bit masks that enable the step to the north and south row. -/
structure VTransition where
  north_mask : Int
  south_mask : Int
deriving DecidableEq, Repr

/-- A work item: pointers into the seed and the mask buffer and the coordinates. -/
structure Position where
  seed : Int
  mask : Int
  x : Int
  y : Int
deriving DecidableEq, Repr

/-- Modelled from the spec: `initHorTransitions` is only declared in the header
(its body is in a translation unit that is not part of the sources).  Element
`i` of the table holds `(west_delta, east_delta)`; the west delta is `0` in
column `0` and `-1` elsewhere, the east delta is `0` in the last column and
`1` elsewhere. -/
def initHorTransitions (width : Nat) : List HTransition :=
  (List.range width).map fun i =>
    { west_delta := if i = 0 then 0 else -1,
      east_delta := if i + 1 = width then 0 else 1 }

/-- Modelled from the spec: `initVertTransitions` is only declared in the
header.  Element `i` of the table holds `(north_mask, south_mask)`; the north
mask is all zeros in row `0` and all ones (`-1`) elsewhere, the south mask is
all zeros in the last row and all ones elsewhere. -/
def initVertTransitions (height : Nat) : List VTransition :=
  (List.range height).map fun i =>
    { north_mask := if i = 0 then 0 else -1,
      south_mask := if i + 1 = height then 0 else -1 }

/-- The mutable part of a run: the seed buffer and the FIFO queue
(`FastQueue<Position<T>>`; `push` appends at the back, `front`/`pop` take the head). -/
structure FillState (α : Type) where
  seed : Int → α
  queue : List Position

variable {α : Type} [DecidableEq α]

/-- The function `seedFillSingleLine`, first loop (`for i = 1 .. line_len - 1`, ascending):
`n` iterations remain, `seed`/`mask` are the pointers before the increment. -/
def singleLineFwd (spread_op mask_op : α → α → α) (maskBuf : Int → α)
    (seed_stride mask_stride : Int) : Nat → Int → Int → (Int → α) → (Int → α) × Int × Int
  | 0, seed, mask, buf => (buf, seed, mask)
  | n + 1, seed, mask, buf =>
    let seed := seed + seed_stride
    let mask := mask + mask_stride
    singleLineFwd spread_op mask_op maskBuf seed_stride mask_stride n seed mask
      (Function.update buf seed
        (mask_op (maskBuf mask) (spread_op (buf seed) (buf (seed - seed_stride)))))

/-- The function `seedFillSingleLine`, second loop (descending). -/
def singleLineBwd (spread_op mask_op : α → α → α) (maskBuf : Int → α)
    (seed_stride mask_stride : Int) : Nat → Int → Int → (Int → α) → (Int → α)
  | 0, _, _, buf => buf
  | n + 1, seed, mask, buf =>
    let seed := seed - seed_stride
    let mask := mask - mask_stride
    singleLineBwd spread_op mask_op maskBuf seed_stride mask_stride n seed mask
      (Function.update buf seed
        (mask_op (maskBuf mask) (spread_op (buf seed) (buf (seed + seed_stride)))))

/-- The function `seedFillSingleLine`. -/
def seedFillSingleLine (spread_op mask_op : α → α → α) (line_len : Nat)
    (buf : Int → α) (seed_stride : Int) (maskBuf : Int → α) (mask_stride : Int) : Int → α :=
  if line_len = 0 then buf
  else
    let buf := Function.update buf 0 (mask_op (buf 0) (maskBuf 0))
    let r := singleLineFwd spread_op mask_op maskBuf seed_stride mask_stride (line_len - 1) 0 0 buf
    singleLineBwd spread_op mask_op maskBuf seed_stride mask_stride (line_len - 1) r.2.1 r.2.2 r.1

/-- The function `processNeighbor`. -/
def processNeighbor (spread_op mask_op : α → α → α) (maskBuf : Int → α)
    (st : FillState α) (this_val : α) (neighbor neighbor_mask : Int)
    (base_pos : Position) (x_delta y_delta : Int) : FillState α :=
  let new_val := mask_op (maskBuf neighbor_mask) (spread_op this_val (st.seed neighbor))
  if new_val ≠ st.seed neighbor then
    { seed := Function.update st.seed neighbor new_val,
      queue := st.queue ++ [⟨neighbor, neighbor_mask, base_pos.x + x_delta, base_pos.y + y_delta⟩] }
  else st

/-- Table lookup `h_transitions[x]`. -/
def hAt (h_transitions : List HTransition) (x : Int) : HTransition :=
  h_transitions.getD x.toNat ⟨0, 0⟩

/-- Table lookup `v_transitions[y]`. -/
def vAt (v_transitions : List VTransition) (y : Int) : VTransition :=
  v_transitions.getD y.toNat ⟨0, 0⟩

/-- One iteration of the loop of `spread4`, after `pos` has been popped. -/
def spread4Body (spread_op mask_op : α → α → α) (maskBuf : Int → α)
    (h_transitions : List HTransition) (v_transitions : List VTransition)
    (seed_stride mask_stride : Int) (pos : Position) (st : FillState α) : FillState α :=
  let this_val := st.seed pos.seed
  let ht := hAt h_transitions pos.x
  let vt := vAt v_transitions pos.y
  let st := processNeighbor spread_op mask_op maskBuf st this_val
    (pos.seed + ht.west_delta) (pos.mask + ht.west_delta) pos ht.west_delta 0
  let st := processNeighbor spread_op mask_op maskBuf st this_val
    (pos.seed + ht.east_delta) (pos.mask + ht.east_delta) pos ht.east_delta 0
  let st := processNeighbor spread_op mask_op maskBuf st this_val
    (pos.seed - Int.land seed_stride vt.north_mask) (pos.mask - Int.land mask_stride vt.north_mask)
    pos 0 (Int.land (-1) vt.north_mask)
  processNeighbor spread_op mask_op maskBuf st this_val
    (pos.seed + Int.land seed_stride vt.south_mask) (pos.mask + Int.land mask_stride vt.south_mask)
    pos 0 (Int.land 1 vt.south_mask)

/-- The function `spread4`: pop the front item and spread from it until the queue is
empty.  The first argument is the fuel. -/
def spread4 (spread_op mask_op : α → α → α) (maskBuf : Int → α)
    (h_transitions : List HTransition) (v_transitions : List VTransition)
    (seed_stride mask_stride : Int) : Nat → FillState α → Option (Int → α)
  | 0, _ => none
  | fuel + 1, st =>
    match st.queue with
    | [] => some st.seed
    | pos :: rest =>
      spread4 spread_op mask_op maskBuf h_transitions v_transitions seed_stride mask_stride fuel
        (spread4Body spread_op mask_op maskBuf h_transitions v_transitions seed_stride mask_stride
          pos { st with queue := rest })

/-- One iteration of the loop of `spread8`, after `pos` has been popped.  The last call
computes the mask pointer from `seed_stride`, as the source does. -/
def spread8Body (spread_op mask_op : α → α → α) (maskBuf : Int → α)
    (h_transitions : List HTransition) (v_transitions : List VTransition)
    (seed_stride mask_stride : Int) (pos : Position) (st : FillState α) : FillState α :=
  let this_val := st.seed pos.seed
  let ht := hAt h_transitions pos.x
  let vt := vAt v_transitions pos.y
  let st := processNeighbor spread_op mask_op maskBuf st this_val
    (pos.seed - Int.land seed_stride vt.north_mask) (pos.mask - Int.land mask_stride vt.north_mask)
    pos 0 (Int.land (-1) vt.north_mask)
  let st := processNeighbor spread_op mask_op maskBuf st this_val
    (pos.seed - Int.land seed_stride vt.north_mask + ht.west_delta)
    (pos.mask - Int.land mask_stride vt.north_mask + ht.west_delta)
    pos ht.west_delta (Int.land (-1) vt.north_mask)
  let st := processNeighbor spread_op mask_op maskBuf st this_val
    (pos.seed - Int.land seed_stride vt.north_mask + ht.east_delta)
    (pos.mask - Int.land mask_stride vt.north_mask + ht.east_delta)
    pos ht.east_delta (Int.land (-1) vt.north_mask)
  let st := processNeighbor spread_op mask_op maskBuf st this_val
    (pos.seed + ht.east_delta) (pos.mask + ht.east_delta) pos ht.east_delta 0
  let st := processNeighbor spread_op mask_op maskBuf st this_val
    (pos.seed + ht.west_delta) (pos.mask + ht.west_delta) pos ht.west_delta 0
  let st := processNeighbor spread_op mask_op maskBuf st this_val
    (pos.seed + Int.land seed_stride vt.south_mask) (pos.mask + Int.land mask_stride vt.south_mask)
    pos 0 (Int.land 1 vt.south_mask)
  let st := processNeighbor spread_op mask_op maskBuf st this_val
    (pos.seed + Int.land seed_stride vt.south_mask + ht.east_delta)
    (pos.mask + Int.land mask_stride vt.south_mask + ht.east_delta)
    pos ht.east_delta (Int.land 1 vt.south_mask)
  processNeighbor spread_op mask_op maskBuf st this_val
    (pos.seed + Int.land seed_stride vt.south_mask + ht.west_delta)
    (pos.mask + Int.land seed_stride vt.south_mask + ht.west_delta)
    pos ht.west_delta (Int.land 1 vt.south_mask)

/-- The function `spread8`.  The first argument is the fuel. -/
def spread8 (spread_op mask_op : α → α → α) (maskBuf : Int → α)
    (h_transitions : List HTransition) (v_transitions : List VTransition)
    (seed_stride mask_stride : Int) : Nat → FillState α → Option (Int → α)
  | 0, _ => none
  | fuel + 1, st =>
    match st.queue with
    | [] => some st.seed
    | pos :: rest =>
      spread8 spread_op mask_op maskBuf h_transitions v_transitions seed_stride mask_stride fuel
        (spread8Body spread_op mask_op maskBuf h_transitions v_transitions seed_stride mask_stride
          pos { st with queue := rest })

/-- Forward pass of `seedFill4`, the inner loop `while (++x < w)`: `n` iterations remain and
`x` is the column about to be written; `prev` is the value written to column `x - 1`. -/
def fwdRow4 (spread_op mask_op : α → α → α) (maskBuf : Int → α)
    (seed_line mask_line prev_line : Int) : Nat → Nat → α → (Int → α) → (Int → α)
  | 0, _, _, buf => buf
  | n + 1, x, prev, buf =>
    let prev := mask_op (maskBuf (mask_line + x))
      (spread_op prev (spread_op (buf (seed_line + x)) (buf (prev_line + x))))
    fwdRow4 spread_op mask_op maskBuf seed_line mask_line prev_line n (x + 1) prev
      (Function.update buf (seed_line + x) prev)

/-- Forward pass of `seedFill4`, the outer loop `for (y = 0; y < h; ++y)`: `n` rows remain.
Returns the buffer and the line pointers after the loop. -/
def fwdRows4 (spread_op mask_op : α → α → α) (maskBuf : Int → α)
    (seed_stride mask_stride : Int) (w : Nat) :
    Nat → Int → Int → Int → (Int → α) → (Int → α) × Int × Int
  | 0, seed_line, mask_line, _, buf => (buf, seed_line, mask_line)
  | n + 1, seed_line, mask_line, prev_line, buf =>
    let prev := mask_op (maskBuf (mask_line + 0))
      (spread_op (buf (seed_line + 0)) (buf (prev_line + 0)))
    let buf := Function.update buf (seed_line + 0) prev
    let buf := fwdRow4 spread_op mask_op maskBuf seed_line mask_line prev_line (w - 1) 1 prev buf
    fwdRows4 spread_op mask_op maskBuf seed_stride mask_stride w n
      (seed_line + seed_stride) (mask_line + mask_stride) seed_line buf

/-- Backward scan of `seedFill4`, the body of the inner loop at column `x` of row `y`. -/
def scanCell4 (spread_op mask_op : α → α → α) (maskBuf : Int → α)
    (h_transitions : List HTransition) (vt : VTransition)
    (seed_stride mask_stride : Int) (seed_line mask_line : Int) (x y : Int)
    (st : FillState α) : FillState α :=
  let ht := hAt h_transitions x
  let p_base_seed := seed_line + x
  let p_base_mask := mask_line + x
  let p_east_seed := p_base_seed + ht.east_delta
  let p_south_seed := p_base_seed + Int.land seed_stride vt.south_mask
  let new_val := mask_op (maskBuf p_base_mask)
    (spread_op (st.seed p_base_seed) (spread_op (st.seed p_east_seed) (st.seed p_south_seed)))
  if new_val = st.seed p_base_seed then st
  else
    let st : FillState α := { st with seed := Function.update st.seed p_base_seed new_val }
    let pos : Position := ⟨p_base_seed, p_base_mask, x, y⟩
    let p_east_mask := p_base_mask + ht.east_delta
    let p_south_mask := p_base_mask + Int.land mask_stride vt.south_mask
    let st := processNeighbor spread_op mask_op maskBuf st new_val
      p_east_seed p_east_mask pos ht.east_delta 0
    processNeighbor spread_op mask_op maskBuf st new_val
      p_south_seed p_south_mask pos 0 (Int.land 1 vt.south_mask)

/-- Backward scan of `seedFill4`, the inner loop `for (x = w - 1; x >= 0; --x)`:
the first argument is the number of columns that remain. -/
def scanRow4 (spread_op mask_op : α → α → α) (maskBuf : Int → α)
    (h_transitions : List HTransition) (vt : VTransition)
    (seed_stride mask_stride : Int) (seed_line mask_line : Int) (y : Int) :
    Nat → FillState α → FillState α
  | 0, st => st
  | x + 1, st =>
    scanRow4 spread_op mask_op maskBuf h_transitions vt seed_stride mask_stride seed_line mask_line
      y x
      (scanCell4 spread_op mask_op maskBuf h_transitions vt seed_stride mask_stride
        seed_line mask_line x y st)

/-- Backward scan of `seedFill4`, the outer loop `for (y = h - 1; y >= 0; --y)`:
the first argument is the number of rows that remain. -/
def scanRows4 (spread_op mask_op : α → α → α) (maskBuf : Int → α)
    (h_transitions : List HTransition) (v_transitions : List VTransition)
    (seed_stride mask_stride : Int) (w : Nat) :
    Nat → Int → Int → FillState α → FillState α
  | 0, _, _, st => st
  | y + 1, seed_line, mask_line, st =>
    let st := scanRow4 spread_op mask_op maskBuf h_transitions (vAt v_transitions y)
      seed_stride mask_stride seed_line mask_line y w st
    scanRows4 spread_op mask_op maskBuf h_transitions v_transitions seed_stride mask_stride w y
      (seed_line - seed_stride) (mask_line - mask_stride) st

/-- The state of `seedFill4` when it calls `spread4`: after the forward pass and the
backward scan. -/
def seedFill4Scan (spread_op mask_op : α → α → α) (buf : Int → α) (seed_stride : Int)
    (w h : Nat) (maskBuf : Int → α) (mask_stride : Int) : FillState α :=
  let r := fwdRows4 spread_op mask_op maskBuf seed_stride mask_stride w h 0 0 0 buf
  let seed_line := r.2.1 - seed_stride
  let mask_line := r.2.2 - mask_stride
  scanRows4 spread_op mask_op maskBuf (initHorTransitions w) (initVertTransitions h)
    seed_stride mask_stride w h seed_line mask_line { seed := r.1, queue := [] }

/-- The function `seedFill4`.  The first argument is the fuel of `spread4`. -/
def seedFill4 (fuel : Nat) (spread_op mask_op : α → α → α) (buf : Int → α) (seed_stride : Int)
    (w h : Nat) (maskBuf : Int → α) (mask_stride : Int) : Option (Int → α) :=
  spread4 spread_op mask_op maskBuf (initHorTransitions w) (initVertTransitions h)
    seed_stride mask_stride fuel
    (seedFill4Scan spread_op mask_op buf seed_stride w h maskBuf mask_stride)

/-- Forward pass of `seedFill8`, first row: `for (x = 1; x < w; ++x)`; `n` iterations remain. -/
def fwdFirstRow8 (spread_op mask_op : α → α → α) (maskBuf : Int → α)
    (seed_line mask_line : Int) : Nat → Nat → (Int → α) → (Int → α)
  | 0, _, buf => buf
  | n + 1, x, buf =>
    fwdFirstRow8 spread_op mask_op maskBuf seed_line mask_line n (x + 1)
      (Function.update buf (seed_line + x)
        (mask_op (maskBuf (mask_line + x))
          (spread_op (buf (seed_line + x)) (buf (seed_line + (x - 1 : Int))))))

/-- Forward pass of `seedFill8`, the inner loop `while (++x < w - 1)` of a later row:
`n` iterations remain and `x` is the column about to be written.  Returns the buffer and
the value of `x` after the loop. -/
def fwdMid8 (spread_op mask_op : α → α → α) (maskBuf : Int → α)
    (seed_line mask_line prev_line : Int) : Nat → Nat → (Int → α) → (Int → α) × Nat
  | 0, x, buf => (buf, x)
  | n + 1, x, buf =>
    fwdMid8 spread_op mask_op maskBuf seed_line mask_line prev_line n (x + 1)
      (Function.update buf (seed_line + x)
        (mask_op (maskBuf (mask_line + x))
          (spread_op
            (spread_op
              (spread_op (buf (seed_line + x)) (buf (seed_line + (x - 1 : Int))))
              (spread_op (buf (prev_line + x)) (buf (prev_line + (x - 1 : Int)))))
            (buf (prev_line + (x + 1 : Int))))))

/-- Forward pass of `seedFill8`, the loop `for (y = 1; y < h; ++y)`: `n` rows remain;
`seed_line`/`mask_line` are the pointers before the increment.  Returns the buffer and
the line pointers after the loop. -/
def fwdRows8 (spread_op mask_op : α → α → α) (maskBuf : Int → α)
    (seed_stride mask_stride : Int) (w : Nat) :
    Nat → Int → Int → Int → (Int → α) → (Int → α) × Int × Int
  | 0, seed_line, mask_line, _, buf => (buf, seed_line, mask_line)
  | n + 1, seed_line, mask_line, prev_line, buf =>
    let seed_line := seed_line + seed_stride
    let mask_line := mask_line + mask_stride
    let buf := Function.update buf (seed_line + 0)
      (mask_op (maskBuf (mask_line + 0))
        (spread_op (buf (seed_line + 0))
          (spread_op (buf (prev_line + 0)) (buf (prev_line + (0 + 1))))))
    let r := fwdMid8 spread_op mask_op maskBuf seed_line mask_line prev_line (w - 2) 1 buf
    let buf := r.1
    let x : Int := r.2
    let buf := Function.update buf (seed_line + x)
      (mask_op (maskBuf (mask_line + x))
        (spread_op
          (spread_op (buf (seed_line + x)) (buf (seed_line + (x - 1))))
          (spread_op (buf (prev_line + x)) (buf (prev_line + (x - 1))))))
    fwdRows8 spread_op mask_op maskBuf seed_stride mask_stride w n seed_line mask_line seed_line buf

/-- Backward scan of `seedFill8`, the body of the inner loop at column `x` of row `y`. -/
def scanCell8 (spread_op mask_op : α → α → α) (maskBuf : Int → α)
    (h_transitions : List HTransition) (vt : VTransition)
    (seed_stride mask_stride : Int) (seed_line mask_line : Int) (x y : Int)
    (st : FillState α) : FillState α :=
  let ht := hAt h_transitions x
  let p_base_seed := seed_line + x
  let p_base_mask := mask_line + x
  let p_east_seed := p_base_seed + ht.east_delta
  let p_south_seed := p_base_seed + Int.land seed_stride vt.south_mask
  let p_south_west_seed := p_south_seed + ht.west_delta
  let p_south_east_seed := p_south_seed + ht.east_delta
  let new_val := mask_op (maskBuf p_base_mask)
    (spread_op (st.seed p_base_seed)
      (spread_op
        (spread_op (st.seed p_east_seed) (st.seed p_south_east_seed))
        (spread_op (st.seed p_south_seed) (st.seed p_south_west_seed))))
  if new_val = st.seed p_base_seed then st
  else
    let st : FillState α := { st with seed := Function.update st.seed p_base_seed new_val }
    let pos : Position := ⟨p_base_seed, p_base_mask, x, y⟩
    let p_east_mask := p_base_mask + ht.east_delta
    let p_south_mask := p_base_mask + Int.land mask_stride vt.south_mask
    let p_south_west_mask := p_south_mask + ht.west_delta
    let p_south_east_mask := p_south_mask + ht.east_delta
    let st := processNeighbor spread_op mask_op maskBuf st new_val
      p_east_seed p_east_mask pos ht.east_delta 0
    let st := processNeighbor spread_op mask_op maskBuf st new_val
      p_south_east_seed p_south_east_mask pos ht.east_delta (Int.land 1 vt.south_mask)
    let st := processNeighbor spread_op mask_op maskBuf st new_val
      p_south_seed p_south_mask pos 0 (Int.land 1 vt.south_mask)
    processNeighbor spread_op mask_op maskBuf st new_val
      p_south_west_seed p_south_west_mask pos ht.west_delta (Int.land 1 vt.south_mask)

/-- Backward scan of `seedFill8`, the inner loop `for (x = w - 1; x >= 0; --x)`:
the first argument is the number of columns that remain. -/
def scanRow8 (spread_op mask_op : α → α → α) (maskBuf : Int → α)
    (h_transitions : List HTransition) (vt : VTransition)
    (seed_stride mask_stride : Int) (seed_line mask_line : Int) (y : Int) :
    Nat → FillState α → FillState α
  | 0, st => st
  | x + 1, st =>
    scanRow8 spread_op mask_op maskBuf h_transitions vt seed_stride mask_stride seed_line mask_line
      y x
      (scanCell8 spread_op mask_op maskBuf h_transitions vt seed_stride mask_stride
        seed_line mask_line x y st)

/-- Backward scan of `seedFill8`, the outer loop `for (y = h - 1; y >= 0; --y)`:
the first argument is the number of rows that remain. -/
def scanRows8 (spread_op mask_op : α → α → α) (maskBuf : Int → α)
    (h_transitions : List HTransition) (v_transitions : List VTransition)
    (seed_stride mask_stride : Int) (w : Nat) :
    Nat → Int → Int → FillState α → FillState α
  | 0, _, _, st => st
  | y + 1, seed_line, mask_line, st =>
    let st := scanRow8 spread_op mask_op maskBuf h_transitions (vAt v_transitions y)
      seed_stride mask_stride seed_line mask_line y w st
    scanRows8 spread_op mask_op maskBuf h_transitions v_transitions seed_stride mask_stride w y
      (seed_line - seed_stride) (mask_line - mask_stride) st

/-- The state of `seedFill8` (both dimensions different from one) when it calls `spread8`:
after the forward pass and the backward scan. -/
def seedFill8Scan (spread_op mask_op : α → α → α) (buf : Int → α) (seed_stride : Int)
    (w h : Nat) (maskBuf : Int → α) (mask_stride : Int) : FillState α :=
  let buf := Function.update buf (0 + 0) (mask_op (buf (0 + 0)) (maskBuf (0 + 0)))
  let buf := fwdFirstRow8 spread_op mask_op maskBuf 0 0 (w - 1) 1 buf
  let r := fwdRows8 spread_op mask_op maskBuf seed_stride mask_stride w (h - 1) 0 0 0 buf
  scanRows8 spread_op mask_op maskBuf (initHorTransitions w) (initVertTransitions h)
    seed_stride mask_stride w h r.2.1 r.2.2 { seed := r.1, queue := [] }

/-- The function `seedFill8`.  The first argument is the fuel of `spread8`. -/
def seedFill8 (fuel : Nat) (spread_op mask_op : α → α → α) (buf : Int → α) (seed_stride : Int)
    (w h : Nat) (maskBuf : Int → α) (mask_stride : Int) : Option (Int → α) :=
  if w = 1 then
    some (seedFillSingleLine spread_op mask_op h buf seed_stride maskBuf mask_stride)
  else if h = 1 then
    some (seedFillSingleLine spread_op mask_op w buf 1 maskBuf 1)
  else
    spread8 spread_op mask_op maskBuf (initHorTransitions w) (initVertTransitions h)
      seed_stride mask_stride fuel
      (seedFill8Scan spread_op mask_op buf seed_stride w h maskBuf mask_stride)

end seed_fill_generic
end detail

open detail.seed_fill_generic in
/-- The entry point `seedFillGenericInPlace`.  The first argument is the fuel of the
queue-draining loop; the result is the seed buffer after the call, `none` when the fuel
does not suffice. -/
def seedFillGenericInPlace {α : Type} [DecidableEq α] (fuel : Nat)
    (spread_op mask_op : α → α → α) (conn : Connectivity)
    (seed : Int → α) (seed_stride : Int) (size : QSize)
    (mask : Int → α) (mask_stride : Int) : Option (Int → α) :=
  if size.isEmpty then some seed
  else
    match conn with
    | Connectivity.CONN4 =>
      seedFill4 fuel spread_op mask_op seed seed_stride size.width.toNat size.height.toNat
        mask mask_stride
    | Connectivity.CONN8 =>
      seedFill8 fuel spread_op mask_op seed seed_stride size.width.toNat size.height.toNat
        mask mask_stride

end imageproc

/-! ## Page-detection parameters and settings (`filters/select_content`)

From `Dependencies.cpp`: the class `Dependencies::Params`, its conversion to and from an XML
element and its compatibility tests, and the class `Dependencies` with the two overloads of
`compatibleWith`.  Qt's `QDomElement` is reduced to a tag name and a list of attributes; the
conversions of modes and numbers to strings and the comparison of outlines, which live
outside the sources, are parameters.

From `Settings.cpp`: the page parameters `m_pageParams`, a `std::map` kept as a list in key
order, the deviation provider, and the member functions that read or write them. -/

namespace select_content

/-- Modelled from the spec: the enumeration `AutoManualMode` is declared in a header that
is not part of the sources; its enumerators are the three that the sources name. -/
inductive AutoManualMode where
  | MODE_AUTO
  | MODE_MANUAL
  | MODE_DISABLED
deriving DecidableEq, Repr

/-- Modelled from the spec: the Qt class `QDomElement`, reduced to what `Dependencies.cpp`
uses of it: a tag name and the attributes, a list of key/value pairs with distinct keys. -/
structure QDomElement where
  tagName : String
  attributes : List (String × String)
deriving DecidableEq, Repr

/-- Modelled from the spec: Qt's `QDomDocument::createElement`, an element without
attributes. -/
def createElement (name : String) : QDomElement := ⟨name, []⟩

/-- Modelled from the spec: Qt's `QDomElement::setAttribute`.  It adds an attribute; if an
attribute with that name exists already, its value is replaced. -/
def QDomElement.setAttribute (el : QDomElement) (name value : String) : QDomElement :=
  { el with
    attributes :=
      if el.attributes.any (fun kv => kv.1 == name) then
        el.attributes.map fun kv => if kv.1 == name then (name, value) else kv
      else el.attributes ++ [(name, value)] }

/-- Modelled from the spec: Qt's `QDomElement::attribute` with the default default value, the
empty string, for an attribute that is not there. -/
def QDomElement.attribute (el : QDomElement) (name : String) : String :=
  match el.attributes.find? (fun kv => kv.1 == name) with
  | some kv => kv.2
  | none => ""

/-- Modelled from the spec: the conversions that `Dependencies.cpp` calls and that are
defined outside the sources: how a detection mode (`autoManualModeToString`,
`stringToAutoManualMode`) and a `double` (`setAttribute(name, double)`,
`QString::toDouble`) are written to and read from an attribute value.  Nothing is assumed
about them. -/
structure Conversions (R : Type) where
  autoManualModeToString : AutoManualMode → String
  stringToAutoManualMode : String → AutoManualMode
  numberToString : R → String
  toDouble : String → R

/-- The class `QPointF`, a pair of coordinates; `R` stands for `double`. -/
structure QPointF (R : Type) where
  x : R
  y : R

/-- The class `Dependencies::Params` with the members of the source (spelling included). -/
structure Dependencies.Params (R : Type) where
  m_contentDetectionMode : AutoManualMode
  m_pageDetectionMode : AutoManualMode
  m_fineTuneCorners : Bool
  m_enableAxisCorrecion : Bool
  m_axisCorrectoinValue : QPointF R

/-- The constructor `Dependencies::Params::Params(const QDomElement& el)`. -/
def Dependencies.Params.fromElement {R : Type} (c : Conversions R) (el : QDomElement) :
    Dependencies.Params R where
  m_contentDetectionMode := c.stringToAutoManualMode (el.attribute "contentDetectionMode")
  m_pageDetectionMode := c.stringToAutoManualMode (el.attribute "pageDetectionMode")
  m_fineTuneCorners := el.attribute "fineTuneCorners" == "1"
  m_enableAxisCorrecion := el.attribute "enableAxisCorrection" == "1"
  m_axisCorrectoinValue :=
    ⟨c.toDouble (el.attribute "xAxisCorrectionValue"),
      c.toDouble (el.attribute "yAxisCorrectionValue")⟩

/-- The function `Dependencies::Params::toXml`. -/
def Dependencies.Params.toXml {R : Type} (c : Conversions R) (p : Dependencies.Params R)
    (name : String) : QDomElement :=
  let el := createElement name
  let el := el.setAttribute "contentDetectionMode"
    (c.autoManualModeToString p.m_contentDetectionMode)
  let el := el.setAttribute "pageDetectionMode" (c.autoManualModeToString p.m_pageDetectionMode)
  let el := el.setAttribute "fineTuneCorners" (if p.m_fineTuneCorners then "1" else "0")
  let el := el.setAttribute "fineTuneCorners" (if p.m_enableAxisCorrecion then "1" else "0")
  let el := el.setAttribute "xAxisCorrectionValue" (c.numberToString p.m_axisCorrectoinValue.x)
  let el := el.setAttribute "xAxisCorrectionValue" (c.numberToString p.m_axisCorrectoinValue.y)
  el

/-- The function `Dependencies::Params::compatibleWith`. -/
def Dependencies.Params.compatibleWith {R : Type} (self other : Dependencies.Params R) : Bool :=
  if self.m_contentDetectionMode ≠ AutoManualMode.MODE_MANUAL ∧
      self.m_contentDetectionMode ≠ other.m_contentDetectionMode then false
  else if self.m_pageDetectionMode ≠ AutoManualMode.MODE_MANUAL ∧
      self.m_pageDetectionMode ≠ other.m_pageDetectionMode then false
  else if self.m_pageDetectionMode = AutoManualMode.MODE_AUTO ∧
      self.m_fineTuneCorners ≠ other.m_fineTuneCorners then false
  else true

/-- The function `Dependencies::Params::needUpdateContentBox`. -/
def Dependencies.Params.needUpdateContentBox {R : Type} (self other : Dependencies.Params R) :
    Bool :=
  if self.m_contentDetectionMode ≠ AutoManualMode.MODE_MANUAL ∧
      self.m_contentDetectionMode ≠ other.m_contentDetectionMode then true
  else if self.m_contentDetectionMode = AutoManualMode.MODE_MANUAL ∧
      self.m_enableAxisCorrecion ≠ other.m_enableAxisCorrecion then true
  else false

/-- The function `Dependencies::Params::needUpdatePageBox`. -/
def Dependencies.Params.needUpdatePageBox {R : Type} (self other : Dependencies.Params R) :
    Bool :=
  if self.m_pageDetectionMode ≠ AutoManualMode.MODE_MANUAL ∧
      self.m_pageDetectionMode ≠ other.m_pageDetectionMode then true
  else if self.m_pageDetectionMode = AutoManualMode.MODE_AUTO ∧
      self.m_fineTuneCorners ≠ other.m_fineTuneCorners then true
  else false

/-- The class `Dependencies`: the rotated page outline and the parameters.  `P` stands for
`QPolygonF`. -/
structure Dependencies (P R : Type) where
  m_rotatedPageOutline : P
  m_params : Dependencies.Params R

/-- The function `Dependencies::compatibleWith(const Dependencies&)`.  The predicate
`PolygonUtils::fuzzyCompare`, defined outside the sources, is the parameter `fuzzyCompare`. -/
def Dependencies.compatibleWith {P R : Type} (fuzzyCompare : P → P → Bool)
    (self other : Dependencies P R) : Bool :=
  if ¬ self.m_params.compatibleWith other.m_params then false
  else fuzzyCompare self.m_rotatedPageOutline other.m_rotatedPageOutline

/-- The function `Dependencies::compatibleWith(const Dependencies&, bool*, bool*)`.  An
out-parameter is `none` for a null pointer and `some b` for a pointer to a `bool` that holds
`b`; the result is the returned value and the two pointees after the call. -/
def Dependencies.compatibleWithUpdate {P R : Type} (fuzzyCompare : P → P → Bool)
    (self other : Dependencies P R) (update_content_box update_page_box : Option Bool) :
    Bool × Option Bool × Option Bool :=
  let r : Bool × Bool × Bool :=
    if ¬ fuzzyCompare self.m_rotatedPageOutline other.m_rotatedPageOutline then
      (false, true, true)
    else
      let need_update_content_box := self.m_params.needUpdateContentBox other.m_params
      let need_update_page_box := self.m_params.needUpdatePageBox other.m_params
      (!(need_update_content_box || need_update_page_box), need_update_content_box,
        need_update_page_box)
  (r.1, update_content_box.map (fun _ => r.2.1), update_page_box.map (fun _ => r.2.2))

/-- Modelled from the spec: `std::map::find` on the container `std::map<PageId, Params>`
(`Settings::PageParams`).  The container is a list of key/value pairs in ascending key order
with distinct keys, and iterating over it is going through the list; `K` with its linear
order stands for `PageId` with its `operator<`, `V` for `Params`.  The result is `none` for
`end()`. -/
def mapFind {K V : Type} [LinearOrder K] (m : List (K × V)) (key : K) : Option (K × V) :=
  m.find? (fun kv => decide (kv.1 = key))

/-- Modelled from the spec: `std::map::insert(value_type)`.  The pair is inserted at its
place in the key order; if the key is there already, nothing changes. -/
def mapInsert {K V : Type} [LinearOrder K] : List (K × V) → K → V → List (K × V)
  | [], key, val => [(key, val)]
  | kv :: rest, key, val =>
    if key < kv.1 then (key, val) :: kv :: rest
    else if kv.1 < key then kv :: mapInsert rest key val
    else kv :: rest

/-- Modelled from the spec: `Utils::mapSetValue`, which is defined outside the sources: the
value of the key is set, and the key is inserted at its place if it was not there. -/
def mapSetValue {K V : Type} [LinearOrder K] : List (K × V) → K → V → List (K × V)
  | [], key, val => [(key, val)]
  | kv :: rest, key, val =>
    if key < kv.1 then (key, val) :: kv :: rest
    else if kv.1 < key then kv :: mapSetValue rest key val
    else (key, val) :: rest

/-- Modelled from the spec: `std::map::erase(key)`. -/
def mapErase {K V : Type} [LinearOrder K] (m : List (K × V)) (key : K) : List (K × V) :=
  m.filter (fun kv => decide (kv.1 ≠ key))

/-- Modelled from the spec: the class template `DeviationProvider`, declared in a header
that is not part of the sources, reduced to what `Settings.cpp` uses of it: the table
`m_keyValueMap` of the tracked keys and their values (`R` stands for `double`). -/
structure DeviationProvider (K R : Type) where
  m_keyValueMap : K → Option R

/-- Modelled from the spec: `DeviationProvider::clear`, no key is tracked afterwards. -/
def DeviationProvider.clear {K R : Type} (_self : DeviationProvider K R) :
    DeviationProvider K R :=
  ⟨fun _ => none⟩

/-- Modelled from the spec: `DeviationProvider::addOrUpdate(key)`: the key is tracked with
the value that the function set by `setComputeValueByKey` computes for it. -/
def DeviationProvider.addOrUpdate {K R : Type} [LinearOrder K] (self : DeviationProvider K R)
    (computeValueByKey : K → R) (key : K) : DeviationProvider K R :=
  ⟨Function.update self.m_keyValueMap key (some (computeValueByKey key))⟩

/-- Modelled from the spec: `DeviationProvider::remove(key)`: the key is no longer
tracked. -/
def DeviationProvider.remove {K R : Type} [LinearOrder K] (self : DeviationProvider K R)
    (key : K) : DeviationProvider K R :=
  ⟨Function.update self.m_keyValueMap key none⟩

/-- The key is tracked by the deviation provider. -/
def DeviationProvider.tracks {K R : Type} (self : DeviationProvider K R) (key : K) : Bool :=
  (self.m_keyValueMap key).isSome

/-- Modelled from the spec: the two values of the function that the constructor of `Settings`
hands to `setComputeValueByKey`: `std::sqrt(contentSizeMM.width() * contentSizeMM.height() /
4 / 25.4)` for stored parameters (the class `Params` is not part of the sources) and `.0`
otherwise. -/
structure DeviationValues (V R : Type) where
  ofParams : V → R
  zero : R

/-- Modelled from the spec: what `performRelinking` uses of the classes `PageId`, `ImageId`
and `RelinkablePath`: the file path of the image of a page id, and the page id with another
file path. -/
structure PageIdAccess (K P : Type) where
  filePath : K → P
  setFilePath : K → P → K

/-- Modelled from the spec: the interface `AbstractRelinker`, the path that is substituted
for a path. -/
structure AbstractRelinker (P : Type) where
  substitutionPathFor : P → P

/-- The class `Settings`, the members that `clear`, `performRelinking`, `setPageParams`,
`clearPageParams`, `isParamsNull` and `getPPrevParams` read or write. -/
structure Settings (K V R : Type) where
  m_pageParams : List (K × V)
  m_deviationProvider : DeviationProvider K R

/-- The function that the constructor `Settings::Settings` sets with
`setComputeValueByKey`, for the page parameters `m_pageParams` at the time of the call. -/
def Settings.computeValueByKey {K V R : Type} [LinearOrder K] (dv : DeviationValues V R)
    (m_pageParams : List (K × V)) (pageId : K) : R :=
  match mapFind m_pageParams pageId with
  | some it => dv.ofParams it.2
  | none => dv.zero

/-- The state after the constructor `Settings::Settings`: no page parameters, nothing
tracked. -/
def Settings.init {K V R : Type} : Settings K V R :=
  ⟨[], ⟨fun _ => none⟩⟩

/-- The function `Settings::clear`. -/
def Settings.clear {K V R : Type} (self : Settings K V R) : Settings K V R :=
  ⟨[], self.m_deviationProvider.clear⟩

/-- The function `Settings::performRelinking`. -/
def Settings.performRelinking {K V R P : Type} [LinearOrder K] (dv : DeviationValues V R)
    (ids : PageIdAccess K P) (self : Settings K V R) (relinker : AbstractRelinker P) :
    Settings K V R :=
  let new_params : List (K × V) :=
    self.m_pageParams.foldl
      (fun new_params kv =>
        let old_path := ids.filePath kv.1
        let new_page_id := ids.setFilePath kv.1 (relinker.substitutionPathFor old_path)
        mapInsert new_params new_page_id kv.2)
      []
  ⟨new_params,
    new_params.foldl
      (fun provider kv => provider.addOrUpdate (Settings.computeValueByKey dv new_params) kv.1)
      self.m_deviationProvider.clear⟩

/-- The function `Settings::setPageParams`. -/
def Settings.setPageParams {K V R : Type} [LinearOrder K] (dv : DeviationValues V R)
    (self : Settings K V R) (page_id : K) (params : V) : Settings K V R :=
  let m_pageParams := mapSetValue self.m_pageParams page_id params
  ⟨m_pageParams,
    self.m_deviationProvider.addOrUpdate (Settings.computeValueByKey dv m_pageParams) page_id⟩

/-- The function `Settings::clearPageParams`. -/
def Settings.clearPageParams {K V R : Type} [LinearOrder K] (self : Settings K V R)
    (page_id : K) : Settings K V R :=
  ⟨mapErase self.m_pageParams page_id, self.m_deviationProvider.remove page_id⟩

/-- The function `Settings::isParamsNull`. -/
def Settings.isParamsNull {K V R : Type} [LinearOrder K] (self : Settings K V R)
    (page_id : K) : Bool :=
  (mapFind self.m_pageParams page_id).isNone

/-- The first loop of `Settings::getPPrevParams`, over the reverse iterators from `rbegin()`:
a reverse iterator is the rest of the reverse sequence, `[]` for `rend()`.  The result is
`find_ret`. -/
def getPPrevParams.find {K V : Type} [LinearOrder K] : List (K × V) → K → List (K × V)
  | [], _ => []
  | it :: rest, page_id =>
    if it.1 = page_id then it :: rest else getPPrevParams.find rest page_id

/-- The second loop of `Settings::getPPrevParams`, from `find_ret` with the counter `i`. -/
def getPPrevParams.count {K V : Type} : List (K × V) → Int → Option V
  | [], _ => none
  | it :: rest, i => if i = 0 then some it.2 else getPPrevParams.count rest (i - 1)

/-- The function `Settings::getPPrevParams`; `none` is the null pointer.  The function is
`const`: it has no state to return. -/
def Settings.getPPrevParams {K V R : Type} [LinearOrder K] (self : Settings K V R)
    (page_id : K) : Option V :=
  if self.isParamsNull page_id then none
  else
    let find_ret := getPPrevParams.find self.m_pageParams.reverse page_id
    getPPrevParams.count find_ret 2

/-- The states of `Settings` that are reachable from construction by `clear`,
`setPageParams`, `clearPageParams` and `performRelinking`. -/
inductive Settings.Reachable {K V R P : Type} [LinearOrder K] (dv : DeviationValues V R)
    (ids : PageIdAccess K P) : Settings K V R → Prop
  | init : Settings.Reachable dv ids Settings.init
  | clear {s : Settings K V R} : Settings.Reachable dv ids s → Settings.Reachable dv ids s.clear
  | performRelinking {s : Settings K V R} (relinker : AbstractRelinker P) :
    Settings.Reachable dv ids s → Settings.Reachable dv ids (s.performRelinking dv ids relinker)
  | setPageParams {s : Settings K V R} (page_id : K) (params : V) :
    Settings.Reachable dv ids s → Settings.Reachable dv ids (s.setPageParams dv page_id params)
  | clearPageParams {s : Settings K V R} (page_id : K) :
    Settings.Reachable dv ids s → Settings.Reachable dv ids (s.clearPageParams page_id)

end select_content

/-! ## The naive fixpoint loop of the specification

The specification cross-checks the kernel against a brute-force loop: "recombine every cell
with its neighbors via spreadOp/maskOp until no cell changes".  The definitions below follow
those words; a sweep computes every cell from the grid as it was before the sweep. -/

namespace imageproc

/-- The offsets of the neighbours of a cell under a connectivity. -/
def neighbourOffsets : Connectivity → List (Int × Int)
  | Connectivity.CONN4 => [(-1, 0), (1, 0), (0, -1), (0, 1)]
  | Connectivity.CONN8 =>
    [(-1, -1), (0, -1), (1, -1), (-1, 0), (1, 0), (-1, 1), (0, 1), (1, 1)]

/-- The neighbours of the cell `(x, y)` that lie in the `w × h` grid. -/
def neighbours (conn : Connectivity) (w h : Nat) (x y : Int) : List (Int × Int) :=
  ((neighbourOffsets conn).map fun d => (x + d.1, y + d.2)).filter fun c =>
    decide (0 ≤ c.1 ∧ c.1 < w ∧ 0 ≤ c.2 ∧ c.2 < h)

/-- One sweep of the naive loop: every cell `c` of the grid is replaced by
`mask_op(mask[c], spread_op(c, each of its in-grid neighbours))`. -/
def naiveSweep {α : Type} (spread_op mask_op : α → α → α) (conn : Connectivity) (w h : Nat)
    (M g : Int → Int → α) : Int → Int → α :=
  fun x y =>
    if 0 ≤ x ∧ x < w ∧ 0 ≤ y ∧ y < h then
      mask_op (M x y)
        ((neighbours conn w h x y).foldl (fun acc c => spread_op acc (g c.1 c.2)) (g x y))
    else g x y

/-- No cell of the grid differs between `g` and `g'`. -/
def gridUnchanged {α : Type} [DecidableEq α] (w h : Nat) (g g' : Int → Int → α) : Bool :=
  (List.range h).all fun y => (List.range w).all fun x => decide (g x y = g' x y)

/-- The naive loop: sweep until a full sweep changes no cell.  The first argument is the
fuel; the result is `none` when the fuel runs out first. -/
def naiveLoop {α : Type} [DecidableEq α] (spread_op mask_op : α → α → α) (conn : Connectivity)
    (w h : Nat) (M : Int → Int → α) : Nat → (Int → Int → α) → Option (Int → Int → α)
  | 0, _ => none
  | fuel + 1, g =>
    if gridUnchanged w h g (naiveSweep spread_op mask_op conn w h M g) then some g
    else naiveLoop spread_op mask_op conn w h M fuel (naiveSweep spread_op mask_op conn w h M g)

end imageproc

/-! ## Further definitions that follow the specification

The queue-draining loop with the queue discipline left open, the pseudocode of the
documentation, the closed form of the one-dimensional reconstruction, and the propagation
phase with a log of its stores and calls. -/

namespace imageproc
open detail.seed_fill_generic

/-- The queue-draining loop of `spread4`/`spread8` with the queue discipline left open.
`body` is one iteration of the loop (`spread4Body` or `spread8Body`); `pick` chooses, from
the number of items taken so far and the current state, the index (modulo the queue length)
of the pending work item that is taken next, and that item is removed from the queue.  New
items are still appended at the back.  `pick = fun _ _ => 0` is the FIFO discipline of the
source, `pick = fun _ st => st.queue.length - 1` is LIFO; every sequence of choices is some
`pick`.  The first numeric argument is the number of items taken so far, the second is the
fuel. -/
def drainAnyOrder {α : Type} (pick : Nat → FillState α → Nat)
    (body : Position → FillState α → FillState α) : Nat → Nat → FillState α → Option (Int → α)
  | _, 0, _ => none
  | t, fuel + 1, st =>
    match st.queue with
    | [] => some st.seed
    | first :: _ =>
      let i := pick t st % st.queue.length
      let pos := (st.queue.drop i).headD first
      let rest := st.queue.take i ++ (st.queue.drop i).tail
      drainAnyOrder pick body (t + 1) fuel (body pos { st with queue := rest })

/-- The entry point with the queue discipline left open: `seedFillGenericInPlace`,
`seedFill4` and `seedFill8` as in the source, except that the calls of `spread4` and
`spread8` are replaced by `drainAnyOrder pick` around the same loop bodies. -/
def seedFillAnyOrder {α : Type} [DecidableEq α] (pick : Nat → FillState α → Nat) (fuel : Nat)
    (spread_op mask_op : α → α → α) (conn : Connectivity)
    (seed : Int → α) (seed_stride : Int) (size : QSize)
    (mask : Int → α) (mask_stride : Int) : Option (Int → α) :=
  let w := size.width.toNat
  let h := size.height.toNat
  if size.isEmpty then some seed
  else
    match conn with
    | Connectivity.CONN4 =>
      drainAnyOrder pick
        (spread4Body spread_op mask_op mask (initHorTransitions w) (initVertTransitions h)
          seed_stride mask_stride) 0 fuel
        (seedFill4Scan spread_op mask_op seed seed_stride w h mask mask_stride)
    | Connectivity.CONN8 =>
      if w = 1 then
        some (seedFillSingleLine spread_op mask_op h seed seed_stride mask mask_stride)
      else if h = 1 then
        some (seedFillSingleLine spread_op mask_op w seed 1 mask 1)
      else
        drainAnyOrder pick
          (spread8Body spread_op mask_op mask (initHorTransitions w) (initVertTransitions h)
            seed_stride mask_stride) 0 fuel
          (seedFill8Scan spread_op mask_op seed seed_stride w h mask mask_stride)

/-- The grid `g` after the store `g[x, y] = v`. -/
def setCell {α : Type} (g : Int → Int → α) (x y : Int) (v : α) : Int → Int → α :=
  fun x' y' => if x' = x ∧ y' = y then v else g x' y'

/-- The documented pseudocode, inner loop `foreach (<neighbor at nx, ny>)
seed[nx, ny] = mask_op(mask[nx, ny], spread_op(seed[nx, ny], val))` over the neighbours that
remain.  The state is the seed grid together with the flag "changes to seed were made on
this iteration". -/
def docNeighbours {α : Type} [DecidableEq α] (spread_op mask_op : α → α → α)
    (M : Int → Int → α) (val : α) :
    List (Int × Int) → (Int → Int → α) × Bool → (Int → Int → α) × Bool
  | [], s => s
  | n :: ns, s =>
    let v := mask_op (M n.1 n.2) (spread_op (s.1 n.1 n.2) val)
    docNeighbours spread_op mask_op M val ns (setCell s.1 n.1 n.2 v, s.2 || decide (v ≠ s.1 n.1 n.2))

/-- The documented pseudocode, outer loop `foreach (<point at x, y>)` over the points that
remain: `val = mask_op(mask[x, y], seed[x, y])`, then the loop over the neighbours. -/
def docPoints {α : Type} [DecidableEq α] (spread_op mask_op : α → α → α) (conn : Connectivity)
    (w h : Nat) (M : Int → Int → α) :
    List (Int × Int) → (Int → Int → α) × Bool → (Int → Int → α) × Bool
  | [], s => s
  | p :: ps, s =>
    let val := mask_op (M p.1 p.2) (s.1 p.1 p.2)
    docPoints spread_op mask_op conn w h M ps
      (docNeighbours spread_op mask_op M val (neighbours conn w h p.1 p.2) s)

/-- The points of the `w × h` grid in raster order. -/
def gridPoints (w h : Nat) : List (Int × Int) :=
  (List.range h).flatMap fun y : Nat => (List.range w).map fun x : Nat => ((x : Int), (y : Int))

/-- The documented pseudocode `do { foreach point … } while (<changes to seed were made on
this iteration>)`.  The first argument is the fuel; the result is `none` when the fuel runs
out first. -/
def docLoop {α : Type} [DecidableEq α] (spread_op mask_op : α → α → α) (conn : Connectivity)
    (w h : Nat) (M : Int → Int → α) : Nat → (Int → Int → α) → Option (Int → Int → α)
  | 0, _ => none
  | fuel + 1, g =>
    let s := docPoints spread_op mask_op conn w h M (gridPoints w h) (g, false)
    if s.2 then docLoop spread_op mask_op conn w h M fuel s.1 else some s.1

/-- The smallest of the `len + 1` mask elements `m a, m (a + 1), …, m (a + len)`. -/
def segMin {α : Type} [LinearOrder α] (m : Int → α) (a : Int) : Nat → α
  | 0 => m a
  | len + 1 => min (segMin m a len) (m (a + (len + 1 : Nat)))

/-- What the seed at position `j` can bring to position `i` of a line: `min(seed0[j], min of
mask[k] for every k between j and i inclusive)`. -/
def pathMin {α : Type} [LinearOrder α] (s m : Int → α) (j i : Int) : α :=
  min (s j) (segMin m (min i j) (max i j - min i j).toNat)

/-- The one-dimensional reconstruction of the specification: the maximum over all positions
`j` of the line of `pathMin s m j i`. -/
def lineRecon {α : Type} [LinearOrder α] (s m : Int → α) (n : Nat) (i : Int) : α :=
  ((List.range n).map fun j : Nat => pathMin s m j i).foldl max (pathMin s m i i)

/-- An observation of the propagation phase: either the store `*p_base_seed = new_val` of a
backward scan, or a call of `processNeighbor`; each with the state right before it and with
its arguments. -/
inductive Event (α : Type) where
  | store (st : FillState α) (p_base_seed p_base_mask : Int) (new_val : α)
  | call (st : FillState α) (this_val : α) (neighbor neighbor_mask : Int) (base_pos : Position)
      (x_delta y_delta : Int)

/-- The function `processNeighbor`, run on a state with a log: the call is appended to the
log. -/
def processNeighborTraced {α : Type} [DecidableEq α] (spread_op mask_op : α → α → α)
    (maskBuf : Int → α) (s : FillState α × List (Event α)) (this_val : α)
    (neighbor neighbor_mask : Int) (base_pos : Position) (x_delta y_delta : Int) :
    FillState α × List (Event α) :=
  (processNeighbor spread_op mask_op maskBuf s.1 this_val neighbor neighbor_mask base_pos
      x_delta y_delta,
    s.2 ++ [Event.call s.1 this_val neighbor neighbor_mask base_pos x_delta y_delta])

/-- One iteration of the loop of `spread4` with a log: `spread4Body` with every call of
`processNeighbor` logged. -/
def spread4BodyTraced {α : Type} [DecidableEq α] (spread_op mask_op : α → α → α)
    (maskBuf : Int → α) (h_transitions : List HTransition) (v_transitions : List VTransition)
    (seed_stride mask_stride : Int) (pos : Position) (s : FillState α × List (Event α)) :
    FillState α × List (Event α) :=
  let this_val := s.1.seed pos.seed
  let ht := hAt h_transitions pos.x
  let vt := vAt v_transitions pos.y
  let s := processNeighborTraced spread_op mask_op maskBuf s this_val
    (pos.seed + ht.west_delta) (pos.mask + ht.west_delta) pos ht.west_delta 0
  let s := processNeighborTraced spread_op mask_op maskBuf s this_val
    (pos.seed + ht.east_delta) (pos.mask + ht.east_delta) pos ht.east_delta 0
  let s := processNeighborTraced spread_op mask_op maskBuf s this_val
    (pos.seed - Int.land seed_stride vt.north_mask) (pos.mask - Int.land mask_stride vt.north_mask)
    pos 0 (Int.land (-1) vt.north_mask)
  processNeighborTraced spread_op mask_op maskBuf s this_val
    (pos.seed + Int.land seed_stride vt.south_mask) (pos.mask + Int.land mask_stride vt.south_mask)
    pos 0 (Int.land 1 vt.south_mask)

/-- One iteration of the loop of `spread8` with a log. -/
def spread8BodyTraced {α : Type} [DecidableEq α] (spread_op mask_op : α → α → α)
    (maskBuf : Int → α) (h_transitions : List HTransition) (v_transitions : List VTransition)
    (seed_stride mask_stride : Int) (pos : Position) (s : FillState α × List (Event α)) :
    FillState α × List (Event α) :=
  let this_val := s.1.seed pos.seed
  let ht := hAt h_transitions pos.x
  let vt := vAt v_transitions pos.y
  let s := processNeighborTraced spread_op mask_op maskBuf s this_val
    (pos.seed - Int.land seed_stride vt.north_mask) (pos.mask - Int.land mask_stride vt.north_mask)
    pos 0 (Int.land (-1) vt.north_mask)
  let s := processNeighborTraced spread_op mask_op maskBuf s this_val
    (pos.seed - Int.land seed_stride vt.north_mask + ht.west_delta)
    (pos.mask - Int.land mask_stride vt.north_mask + ht.west_delta)
    pos ht.west_delta (Int.land (-1) vt.north_mask)
  let s := processNeighborTraced spread_op mask_op maskBuf s this_val
    (pos.seed - Int.land seed_stride vt.north_mask + ht.east_delta)
    (pos.mask - Int.land mask_stride vt.north_mask + ht.east_delta)
    pos ht.east_delta (Int.land (-1) vt.north_mask)
  let s := processNeighborTraced spread_op mask_op maskBuf s this_val
    (pos.seed + ht.east_delta) (pos.mask + ht.east_delta) pos ht.east_delta 0
  let s := processNeighborTraced spread_op mask_op maskBuf s this_val
    (pos.seed + ht.west_delta) (pos.mask + ht.west_delta) pos ht.west_delta 0
  let s := processNeighborTraced spread_op mask_op maskBuf s this_val
    (pos.seed + Int.land seed_stride vt.south_mask) (pos.mask + Int.land mask_stride vt.south_mask)
    pos 0 (Int.land 1 vt.south_mask)
  let s := processNeighborTraced spread_op mask_op maskBuf s this_val
    (pos.seed + Int.land seed_stride vt.south_mask + ht.east_delta)
    (pos.mask + Int.land mask_stride vt.south_mask + ht.east_delta)
    pos ht.east_delta (Int.land 1 vt.south_mask)
  processNeighborTraced spread_op mask_op maskBuf s this_val
    (pos.seed + Int.land seed_stride vt.south_mask + ht.west_delta)
    (pos.mask + Int.land seed_stride vt.south_mask + ht.west_delta)
    pos ht.west_delta (Int.land 1 vt.south_mask)

/-- The queue-draining loop of `spread4`/`spread8` with a log; `body` is one iteration
(`spread4BodyTraced` or `spread8BodyTraced`).  The first argument is the fuel. -/
def spreadTraced {α : Type}
    (body : Position → FillState α × List (Event α) → FillState α × List (Event α)) :
    Nat → FillState α × List (Event α) → Option ((Int → α) × List (Event α))
  | 0, _ => none
  | fuel + 1, s =>
    match s.1.queue with
    | [] => some (s.1.seed, s.2)
    | pos :: rest => spreadTraced body fuel (body pos ({ s.1 with queue := rest }, s.2))

/-- Backward scan of `seedFill4` with a log, the body of the inner loop: `scanCell4` with
the store to the scanned cell and the calls of `processNeighbor` logged. -/
def scanCell4Traced {α : Type} [DecidableEq α] (spread_op mask_op : α → α → α)
    (maskBuf : Int → α) (h_transitions : List HTransition) (vt : VTransition)
    (seed_stride mask_stride : Int) (seed_line mask_line : Int) (x y : Int)
    (s : FillState α × List (Event α)) : FillState α × List (Event α) :=
  let ht := hAt h_transitions x
  let p_base_seed := seed_line + x
  let p_base_mask := mask_line + x
  let p_east_seed := p_base_seed + ht.east_delta
  let p_south_seed := p_base_seed + Int.land seed_stride vt.south_mask
  let new_val := mask_op (maskBuf p_base_mask)
    (spread_op (s.1.seed p_base_seed)
      (spread_op (s.1.seed p_east_seed) (s.1.seed p_south_seed)))
  if new_val = s.1.seed p_base_seed then s
  else
    let s : FillState α × List (Event α) :=
      ({ s.1 with seed := Function.update s.1.seed p_base_seed new_val },
        s.2 ++ [Event.store s.1 p_base_seed p_base_mask new_val])
    let pos : Position := ⟨p_base_seed, p_base_mask, x, y⟩
    let p_east_mask := p_base_mask + ht.east_delta
    let p_south_mask := p_base_mask + Int.land mask_stride vt.south_mask
    let s := processNeighborTraced spread_op mask_op maskBuf s new_val
      p_east_seed p_east_mask pos ht.east_delta 0
    processNeighborTraced spread_op mask_op maskBuf s new_val
      p_south_seed p_south_mask pos 0 (Int.land 1 vt.south_mask)

/-- Backward scan of `seedFill8` with a log, the body of the inner loop. -/
def scanCell8Traced {α : Type} [DecidableEq α] (spread_op mask_op : α → α → α)
    (maskBuf : Int → α) (h_transitions : List HTransition) (vt : VTransition)
    (seed_stride mask_stride : Int) (seed_line mask_line : Int) (x y : Int)
    (s : FillState α × List (Event α)) : FillState α × List (Event α) :=
  let ht := hAt h_transitions x
  let p_base_seed := seed_line + x
  let p_base_mask := mask_line + x
  let p_east_seed := p_base_seed + ht.east_delta
  let p_south_seed := p_base_seed + Int.land seed_stride vt.south_mask
  let p_south_west_seed := p_south_seed + ht.west_delta
  let p_south_east_seed := p_south_seed + ht.east_delta
  let new_val := mask_op (maskBuf p_base_mask)
    (spread_op (s.1.seed p_base_seed)
      (spread_op
        (spread_op (s.1.seed p_east_seed) (s.1.seed p_south_east_seed))
        (spread_op (s.1.seed p_south_seed) (s.1.seed p_south_west_seed))))
  if new_val = s.1.seed p_base_seed then s
  else
    let s : FillState α × List (Event α) :=
      ({ s.1 with seed := Function.update s.1.seed p_base_seed new_val },
        s.2 ++ [Event.store s.1 p_base_seed p_base_mask new_val])
    let pos : Position := ⟨p_base_seed, p_base_mask, x, y⟩
    let p_east_mask := p_base_mask + ht.east_delta
    let p_south_mask := p_base_mask + Int.land mask_stride vt.south_mask
    let p_south_west_mask := p_south_mask + ht.west_delta
    let p_south_east_mask := p_south_mask + ht.east_delta
    let s := processNeighborTraced spread_op mask_op maskBuf s new_val
      p_east_seed p_east_mask pos ht.east_delta 0
    let s := processNeighborTraced spread_op mask_op maskBuf s new_val
      p_south_east_seed p_south_east_mask pos ht.east_delta (Int.land 1 vt.south_mask)
    let s := processNeighborTraced spread_op mask_op maskBuf s new_val
      p_south_seed p_south_mask pos 0 (Int.land 1 vt.south_mask)
    processNeighborTraced spread_op mask_op maskBuf s new_val
      p_south_west_seed p_south_west_mask pos ht.west_delta (Int.land 1 vt.south_mask)

/-- Backward scan with a log, the inner loop `for (x = w - 1; x >= 0; --x)`; `cell` is the
body (`scanCell4Traced` or `scanCell8Traced` of the row).  The first argument is the number
of columns that remain. -/
def scanRowTraced {α : Type}
    (cell : Int → FillState α × List (Event α) → FillState α × List (Event α)) :
    Nat → FillState α × List (Event α) → FillState α × List (Event α)
  | 0, s => s
  | x + 1, s => scanRowTraced cell x (cell x s)

/-- Backward scan with a log, the outer loop `for (y = h - 1; y >= 0; --y)`; `cell vt
seed_line mask_line x y` is the body of the inner loop.  The first argument is the number
of rows that remain. -/
def scanRowsTraced {α : Type}
    (cell : VTransition → Int → Int → Int → Int →
      FillState α × List (Event α) → FillState α × List (Event α))
    (v_transitions : List VTransition) (seed_stride mask_stride : Int) (w : Nat) :
    Nat → Int → Int → FillState α × List (Event α) → FillState α × List (Event α)
  | 0, _, _, s => s
  | y + 1, seed_line, mask_line, s =>
    let s := scanRowTraced (fun x => cell (vAt v_transitions y) seed_line mask_line x y) w s
    scanRowsTraced cell v_transitions seed_stride mask_stride w y
      (seed_line - seed_stride) (mask_line - mask_stride) s

/-- The propagation phase of `seedFill4` with a log: the forward pass as in `seedFill4`, then
the backward scan and `spread4` with their stores and calls logged.  The result is the seed
buffer and the log. -/
def seedFill4Traced {α : Type} [DecidableEq α] (fuel : Nat) (spread_op mask_op : α → α → α)
    (buf : Int → α) (seed_stride : Int) (w h : Nat) (maskBuf : Int → α) (mask_stride : Int) :
    Option ((Int → α) × List (Event α)) :=
  let r := fwdRows4 spread_op mask_op maskBuf seed_stride mask_stride w h 0 0 0 buf
  let seed_line := r.2.1 - seed_stride
  let mask_line := r.2.2 - mask_stride
  spreadTraced
    (spread4BodyTraced spread_op mask_op maskBuf (initHorTransitions w) (initVertTransitions h)
      seed_stride mask_stride) fuel
    (scanRowsTraced
      (fun vt sl ml x y =>
        scanCell4Traced spread_op mask_op maskBuf (initHorTransitions w) vt seed_stride
          mask_stride sl ml x y)
      (initVertTransitions h) seed_stride mask_stride w h seed_line mask_line
      ({ seed := r.1, queue := [] }, []))

/-- The propagation phase of `seedFill8` with a log.  A single line (width or height one)
has no propagation phase: its log is empty. -/
def seedFill8Traced {α : Type} [DecidableEq α] (fuel : Nat) (spread_op mask_op : α → α → α)
    (buf : Int → α) (seed_stride : Int) (w h : Nat) (maskBuf : Int → α) (mask_stride : Int) :
    Option ((Int → α) × List (Event α)) :=
  if w = 1 then
    some (seedFillSingleLine spread_op mask_op h buf seed_stride maskBuf mask_stride, [])
  else if h = 1 then
    some (seedFillSingleLine spread_op mask_op w buf 1 maskBuf 1, [])
  else
    let buf := Function.update buf (0 + 0) (mask_op (buf (0 + 0)) (maskBuf (0 + 0)))
    let buf := fwdFirstRow8 spread_op mask_op maskBuf 0 0 (w - 1) 1 buf
    let r := fwdRows8 spread_op mask_op maskBuf seed_stride mask_stride w (h - 1) 0 0 0 buf
    spreadTraced
      (spread8BodyTraced spread_op mask_op maskBuf (initHorTransitions w) (initVertTransitions h)
        seed_stride mask_stride) fuel
      (scanRowsTraced
        (fun vt sl ml x y =>
          scanCell8Traced spread_op mask_op maskBuf (initHorTransitions w) vt seed_stride
            mask_stride sl ml x y)
        (initVertTransitions h) seed_stride mask_stride w h r.2.1 r.2.2
        ({ seed := r.1, queue := [] }, []))

/-- The entry point with a log: `seedFillGenericInPlace` with the stores of the backward
scan and the calls of `processNeighbor` logged in the order in which they happen. -/
def seedFillTraced {α : Type} [DecidableEq α] (fuel : Nat)
    (spread_op mask_op : α → α → α) (conn : Connectivity)
    (seed : Int → α) (seed_stride : Int) (size : QSize)
    (mask : Int → α) (mask_stride : Int) : Option ((Int → α) × List (Event α)) :=
  if size.isEmpty then some (seed, [])
  else
    match conn with
    | Connectivity.CONN4 =>
      seedFill4Traced fuel spread_op mask_op seed seed_stride size.width.toNat
        size.height.toNat mask mask_stride
    | Connectivity.CONN8 =>
      seedFill8Traced fuel spread_op mask_op seed seed_stride size.width.toNat
        size.height.toNat mask mask_stride

end imageproc

/-! ## Predicates and invariants of the verification -/

namespace imageproc
open detail.seed_fill_generic

variable {α : Type} [LinearOrder α]

/-- The address of the cell in column `x` of row `y` of a buffer with the given stride. -/
def cellAddr (stride x y : Int) : Int := y * stride + x

/-- The cell `(x, y)` lies in the `w × h` grid. -/
def InGrid (w h : Nat) (x y : Int) : Prop := 0 ≤ x ∧ x < w ∧ 0 ≤ y ∧ y < h

instance (w h : Nat) (x y : Int) : Decidable (InGrid w h x y) := by
  unfold InGrid; infer_instance

/-- Delta to the west neighbour of column `x`. -/
def westD (x : Int) : Int := if x = 0 then 0 else -1

/-- Delta to the east neighbour of column `x` in a grid of width `w`. -/
def eastD (w : Nat) (x : Int) : Int := if x + 1 = w then 0 else 1

/-- Row delta to the north neighbour of row `y`. -/
def northD (y : Int) : Int := if y = 0 then 0 else -1

/-- Row delta to the south neighbour of row `y` in a grid of height `h`. -/
def southD (h : Nat) (y : Int) : Int := if y + 1 = h then 0 else 1

/-- The cells `(x, y)` and `(x', y')` are edge-adjacent. -/
def Adj4 (x y x' y' : Int) : Prop :=
  (x' = x ∧ (y' = y + 1 ∨ y' + 1 = y)) ∨ (y' = y ∧ (x' = x + 1 ∨ x' + 1 = x))

/-- The cells `(x, y)` and `(x', y')` are different and edge- or corner-adjacent. -/
def Adj8 (x y x' y' : Int) : Prop :=
  (x' ≠ x ∨ y' ≠ y) ∧ x' ≤ x + 1 ∧ x ≤ x' + 1 ∧ y' ≤ y + 1 ∧ y ≤ y' + 1

/-- Adjacency under a connectivity. -/
def Adj : Connectivity → Int → Int → Int → Int → Prop
  | Connectivity.CONN4 => Adj4
  | Connectivity.CONN8 => Adj8

/-- The cell `(x, y)` comes before `(x', y')` in raster order. -/
def Before (x y x' y' : Int) : Prop := y < y' ∨ (y = y' ∧ x < x')

/-- The grid held by a buffer with the given stride. -/
def view {α : Type} (buf : Int → α) (stride : Int) : Int → Int → α :=
  fun x y => buf (cellAddr stride x y)

/-- The data of one run: sizes, strides, the seed before the call, the mask, a finite set
of values and the neighbourhood relation. -/
structure Ctx (α : Type) where
  w : Nat
  h : Nat
  ss : Int
  ms : Int
  s0 : Int → α
  mask : Int → α
  V : Finset α
  adj : Int → Int → Int → Int → Prop

/-- The seed grid before the call. -/
def Ctx.S0 (C : Ctx α) : Int → Int → α := view C.s0 C.ss

/-- The mask grid. -/
def Ctx.M (C : Ctx α) : Int → Int → α := view C.mask C.ms

/-- The context is well formed: strides are at least the width, no cell is its own
neighbour, and the value set contains all seed and mask values of the grid. -/
structure Ctx.WF (C : Ctx α) : Prop where
  hss : (C.w : Int) ≤ C.ss
  hms : (C.w : Int) ≤ C.ms
  hS : ∀ x y, InGrid C.w C.h x y → C.S0 x y ∈ C.V
  hM : ∀ x y, InGrid C.w C.h x y → C.M x y ∈ C.V
  hirr : ∀ x y x' y', C.adj x y x' y' → x ≠ x' ∨ y ≠ y'

/-- A grid `f` is a super-solution of the reconstruction problem `(S0, M)`: it lies above
the clamped seed, and no cell can raise a neighbour. -/
def SuperSol (w h : Nat) (adj : Int → Int → Int → Int → Prop) (S0 M f : Int → Int → α) : Prop :=
  (∀ x y, InGrid w h x y → min (S0 x y) (M x y) ≤ f x y) ∧
  (∀ x y x' y', InGrid w h x y → InGrid w h x' y' → adj x y x' y' →
    min (M x' y') (f x y) ≤ f x' y')

/-- The grid `R` is the reconstruction of the seed grid `S0` under the mask grid `M`: it is
bounded by the mask, lies above the clamped seed, is stable under propagation along every
edge, and lies below every super-solution. -/
structure IsRecon (w h : Nat) (adj : Int → Int → Int → Int → Prop)
    (S0 M R : Int → Int → α) : Prop where
  clamped : ∀ x y, InGrid w h x y → R x y ≤ M x y
  above : ∀ x y, InGrid w h x y → min (S0 x y) (M x y) ≤ R x y
  stable : ∀ x y x' y', InGrid w h x y → InGrid w h x' y' → adj x y x' y' →
    min (M x' y') (R x y) ≤ R x' y'
  sound : ∀ f, SuperSol w h adj S0 M f → ∀ x y, InGrid w h x y → R x y ≤ f x y

/-- The value `v` may be spread into the cell `(x, y)`: clamped by the mask of the cell it
stays below every super-solution. -/
def Src (C : Ctx α) (x y : Int) (v : α) : Prop :=
  v ∈ C.V ∧ ∀ f, SuperSol C.w C.h C.adj C.S0 C.M f → min (C.M x y) v ≤ f x y

/-- The value `v` is an admissible content of the cell `(x, y)` once the cell has been
clamped. -/
def CellOK (C : Ctx α) (x y : Int) (v : α) : Prop :=
  v ≤ C.M x y ∧ min (C.S0 x y) (C.M x y) ≤ v ∧ v ∈ C.V ∧
    ∀ f, SuperSol C.w C.h C.adj C.S0 C.M f → v ≤ f x y

/-- Invariant of the seed buffer: the cells selected by `P` have been clamped and hold
admissible values, the other cells and everything outside the grid are as before the call. -/
structure GoodOn (C : Ctx α) (P : Int → Int → Prop) (buf : Int → α) : Prop where
  ok : ∀ x y, InGrid C.w C.h x y → P x y → CellOK C x y (buf (cellAddr C.ss x y))
  untouched : ∀ x y, InGrid C.w C.h x y → ¬ P x y →
    buf (cellAddr C.ss x y) = C.s0 (cellAddr C.ss x y)
  frame : ∀ a, (∀ x y, InGrid C.w C.h x y → a ≠ cellAddr C.ss x y) → buf a = C.s0 a

/-- The cells of the grid, as a finite set. -/
def cells (w h : Nat) : Finset (Int × Int) :=
  Finset.Ico (0 : Int) w ×ˢ Finset.Ico (0 : Int) h

/-- Termination measure of the propagation: for every cell, the number of values of `V`
above its content. -/
def Phi (C : Ctx α) (buf : Int → α) : Nat :=
  ∑ c ∈ cells C.w C.h, (C.V.filter (fun v => buf (cellAddr C.ss c.1 c.2) < v)).card

/-- The work item refers to a cell of the grid and its pointers are the addresses of
that cell. -/
def ValidPos (C : Ctx α) (pos : Position) : Prop :=
  InGrid C.w C.h pos.x pos.y ∧ pos.seed = cellAddr C.ss pos.x pos.y ∧
    pos.mask = cellAddr C.ms pos.x pos.y

/-- Invariant of the propagation phase.  Every cell is admissible, every work item is
valid, and along every edge `p → q` either `p` cannot raise `q`, or `p` is queued, or the
edge is exempt (`ex`). -/
structure Inv (C : Ctx α) (ex : Int → Int → Int → Int → Prop) (st : FillState α) : Prop where
  good : GoodOn C (fun _ _ => True) st.seed
  qvalid : ∀ pos ∈ st.queue, ValidPos C pos
  edges : ∀ x y x' y', InGrid C.w C.h x y → InGrid C.w C.h x' y' → C.adj x y x' y' →
    min (C.M x' y') (st.seed (cellAddr C.ss x y)) ≤ st.seed (cellAddr C.ss x' y') ∨
    (∃ pos ∈ st.queue, pos.x = x ∧ pos.y = y) ∨ ex x y x' y'

/-- State of the propagation while the neighbours of the cell `(px, py)` are processed:
the invariant holds, the cell still holds `tv`, the edges to the neighbours in `Q` are
settled, and the measure is bounded by `μ`. -/
structure After (C : Ctx α) (ex : Int → Int → Int → Int → Prop) (px py : Int) (tv : α)
    (Q : Int → Int → Prop) (μ : Nat) (st : FillState α) : Prop where
  inv : Inv C ex st
  keep : st.seed (cellAddr C.ss px py) = tv
  sat : ∀ qx qy, Q qx qy → InGrid C.w C.h qx qy →
    min (C.M qx qy) tv ≤ st.seed (cellAddr C.ss qx qy)
  meas : st.queue.length + 2 * Phi C st.seed ≤ μ

/-- The propagation is complete: every cell is admissible and no edge can raise its
target. -/
structure Done (C : Ctx α) (r : Int → α) : Prop where
  good : GoodOn C (fun _ _ => True) r
  stable : ∀ x y x' y', InGrid C.w C.h x y → InGrid C.w C.h x' y' → C.adj x y x' y' →
    min (C.M x' y') (r (cellAddr C.ss x y)) ≤ r (cellAddr C.ss x' y')

/-- Edges that are exempt while the backward scan is about to visit column `x - 1` of row
`y`: the target has not been scanned yet and the source comes after the target. -/
def exScan (x y : Int) : Int → Int → Int → Int → Prop :=
  fun x1 y1 x2 y2 => Before x2 y2 x y ∧ Before x2 y2 x1 y1

/-- Invariant of the forward pass when the cell `(x, y)` is about to be written: the cells
before it in raster order are admissible and cannot be raised by their earlier neighbours;
the other cells are untouched. -/
structure Fwd (C : Ctx α) (x y : Int) (buf : Int → α) : Prop where
  good : GoodOn C (fun x' y' => Before x' y' x y) buf
  sat : ∀ x1 y1 x2 y2, InGrid C.w C.h x1 y1 → InGrid C.w C.h x2 y2 → C.adj x1 y1 x2 y2 →
    Before x1 y1 x2 y2 → Before x2 y2 x y →
    min (C.M x2 y2) (buf (cellAddr C.ss x1 y1)) ≤ buf (cellAddr C.ss x2 y2)

/-- The grid is a single line of `n` cells: cell `i` of the line is the grid cell
`(X i, Y i)`, and its seed and mask elements are `ls` and `lm` apart. -/
structure Line (C : Ctx α) (n : Nat) (ls lm : Int) (X Y : Int → Int) : Prop where
  addrS : ∀ i : Int, cellAddr C.ss (X i) (Y i) = i * ls
  addrM : ∀ i : Int, cellAddr C.ms (X i) (Y i) = i * lm
  inGrid : ∀ i : Int, 0 ≤ i → i < n → InGrid C.w C.h (X i) (Y i)
  surj : ∀ x y, InGrid C.w C.h x y → ∃ i : Int, 0 ≤ i ∧ i < n ∧ x = X i ∧ y = Y i
  before : ∀ i j : Int, Before (X i) (Y i) (X j) (Y j) ↔ i < j
  next : ∀ (i a b : Int), InGrid C.w C.h a b →
    (Before a b (X (i + 1)) (Y (i + 1)) ↔ Before a b (X i + 1) (Y i))
  adj : ∀ i j : Int, 0 ≤ i → i < n → 0 ≤ j → j < n →
    (C.adj (X i) (Y i) (X j) (Y j) ↔ (j = i + 1 ∨ i = j + 1))

/-- Invariant of the backward sweep along a line when cell `i` is the last one written. -/
structure BwdL (C : Ctx α) (n : Nat) (X Y : Int → Int) (i : Int) (buf : Int → α) : Prop where
  good : GoodOn C (fun _ _ => True) buf
  fsat : ∀ j : Int, 0 ≤ j → j + 1 < n →
    min (C.M (X (j + 1)) (Y (j + 1))) (buf (cellAddr C.ss (X j) (Y j))) ≤
      buf (cellAddr C.ss (X (j + 1)) (Y (j + 1)))
  bsat : ∀ j : Int, i ≤ j → j + 1 < n →
    min (C.M (X j) (Y j)) (buf (cellAddr C.ss (X (j + 1)) (Y (j + 1)))) ≤
      buf (cellAddr C.ss (X j) (Y j))

/-- The context of a call of `seedFillGenericInPlace`. -/
def mkCtx (conn : Connectivity) (w h : Nat) (ss ms : Int) (s0 mask : Int → α) : Ctx α where
  w := w
  h := h
  ss := ss
  ms := ms
  s0 := s0
  mask := mask
  V := (cells w h).image (fun c => s0 (cellAddr ss c.1 c.2)) ∪
    (cells w h).image (fun c => mask (cellAddr ms c.1 c.2))
  adj := Adj conn

/-- The operator pairs that the kernel is meant for: `max`/`min` (reconstruction by
dilation) and `min`/`max` (reconstruction by erosion). -/
def IsOpPair (spread_op mask_op : α → α → α) : Prop :=
  (spread_op = max ∧ mask_op = min) ∨ (spread_op = min ∧ mask_op = max)

section Frame

variable {β : Type} [DecidableEq β]

/-- Outside the grid the buffer `buf` still holds what `s0` holds. -/
def FrameOK (w h : Nat) (ss : Int) (s0 buf : Int → β) : Prop :=
  ∀ a, (∀ x y, InGrid w h x y → a ≠ cellAddr ss x y) → buf a = s0 a

/-- Frame invariant of the propagation phase: the buffer is untouched outside the grid and
every work item carries the seed pointer of a grid cell together with its coordinates. -/
structure FInv (w h : Nat) (ss : Int) (s0 : Int → β) (st : FillState β) : Prop where
  frame : FrameOK w h ss s0 st.seed
  q : ∀ pos ∈ st.queue, InGrid w h pos.x pos.y ∧ pos.seed = cellAddr ss pos.x pos.y

end Frame

/-- Termination measure of the naive loop. -/
def PhiG (V : Finset α) (w h : Nat) (g : Int → Int → α) : Nat :=
  ∑ c ∈ cells w h, (V.filter (fun v => g c.1 c.2 < v)).card

/-- The seed of the counterexample to C1: the row `[0, 9, 0]`. -/
def c1Seed : Int → Nat := fun i => if i = 1 then 9 else 0

/-- The mask of the counterexample to C1: the row `[9, 0, 9]`. -/
def c1Mask : Int → Nat := fun i => if i = 1 then 0 else 9

/-- Seed buffer of the failing input of C3: rows `[1, 0, 0, 1]` and `[2, 1, 0, 2]` stored
with stride five (padding `7`). -/
def c3Seed : Int → Nat :=
  fun i => if i < 0 then 7 else [1, 0, 0, 1, 7, 2, 1, 0, 2, 7].getD i.toNat 7

/-- Mask buffer of the failing input of C3: rows `[2, 2, 2, 2]` and `[2, 0, 1, 1]` stored
densely (stride four). -/
def c3Mask : Int → Nat :=
  fun i => if i < 0 then 9 else [2, 2, 2, 2, 2, 0, 1, 1].getD i.toNat 9

/-- Seed buffer of the failing input of C4: rows `[0, 0, 0]` and `[1, 0, 0]`, stride three. -/
def c4Seed : Int → Nat :=
  fun i => if i < 0 then 7 else [0, 0, 0, 1, 0, 0].getD i.toNat 7

/-- Mask buffer of the failing input of C4: rows `[1, 1, 1]` and `[1, 0, 0]` stored with
stride four (padding `0`), eight elements in all. -/
def c4Mask : Int → Nat :=
  fun i => if i < 0 then 9 else [1, 1, 1, 0, 1, 0, 0, 0].getD i.toNat 9

/-- Seed buffer of the flood scenario on a `3 × 2` grid stored with stride four: `255` in
cell `(0, 0)`, `0` in the other cells, padding `7`. -/
def c12Seed : Int → Nat := fun i => if i = 0 then 255 else if i = 3 ∨ i = 7 then 7 else 0

/-- Mask buffer of the flood scenario: `255` in every cell, padding `1`. -/
def c12Mask : Int → Nat := fun i => if i = 3 ∨ i = 7 then 1 else 255

/-- A checkerboard mask stored with stride `stride`: `0` where `x + y` is even, `255`
elsewhere. -/
def checkerMask (stride : Int) : Int → Nat :=
  fun i => if (i / stride + i % stride) % 2 = 0 then 0 else 255

/-- Every cell of the grid holds its original seed or an admissible value. -/
def Mixed {α : Type} [LinearOrder α] (C : Ctx α) (g : Int → Int → α) : Prop :=
  ∀ x y, InGrid C.w C.h x y → g x y = C.S0 x y ∨ CellOK C x y (g x y)

/-- What is known whenever the propagation phase stores to a scanned cell or calls
`processNeighbor`: the seed buffer is admissible, the pointers are those of grid cells,
the base cell holds `this_val`, and a scan store raises its cell to an admissible value. -/
def EventOK {α : Type} [LinearOrder α] (C : Ctx α) : Event α → Prop
  | Event.store st p pm v =>
    ∃ x y, InGrid C.w C.h x y ∧ p = cellAddr C.ss x y ∧ pm = cellAddr C.ms x y ∧
      GoodOn C (fun _ _ => True) st.seed ∧ st.seed p < v ∧ CellOK C x y v
  | Event.call st tv nb nbm pos dx dy =>
    GoodOn C (fun _ _ => True) st.seed ∧ InGrid C.w C.h pos.x pos.y ∧
      pos.seed = cellAddr C.ss pos.x pos.y ∧ st.seed pos.seed = tv ∧
      InGrid C.w C.h (pos.x + dx) (pos.y + dy) ∧
      nb = cellAddr C.ss (pos.x + dx) (pos.y + dy) ∧
      nbm = cellAddr C.ms (pos.x + dx) (pos.y + dy)

/-- The invariant `Inv` of a state, and every logged event is in order. -/
def TInv {α : Type} [LinearOrder α] (C : Ctx α) (ex : Int → Int → Int → Int → Prop)
    (s : FillState α × List (Event α)) : Prop :=
  Inv C ex s.1 ∧ ∀ e ∈ s.2, EventOK C e

/-- The invariant `After` of a state, and every logged event is in order. -/
def TAfter {α : Type} [LinearOrder α] (C : Ctx α) (ex : Int → Int → Int → Int → Prop)
    (px py : Int) (tv : α) (Q : Int → Int → Prop) (μ : Nat)
    (s : FillState α × List (Event α)) : Prop :=
  After C ex px py tv Q μ s.1 ∧ ∀ e ∈ s.2, EventOK C e

/-- The property of claim C17 for one logged event of a run with `max`/`min` on a grid with
a common stride.  In the state right before the event no cell of the grid exceeds its mask;
a store of the backward scan goes to a cell of the grid and stores a value strictly greater
than the cell held and not greater than the mask of that cell; a call of `processNeighbor`
either leaves the state as it is or makes exactly one store, to a cell of the grid, of a
value strictly greater than the cell held and not greater than the mask of that cell. -/
def RaisesWithinMask {α : Type} [LinearOrder α] (w h : Nat) (stride : Int) (mask : Int → α) :
    Event α → Prop
  | Event.store st p _ v =>
    (∀ x y, InGrid w h x y → st.seed (cellAddr stride x y) ≤ mask (cellAddr stride x y)) ∧
    ∃ x y, InGrid w h x y ∧ p = cellAddr stride x y ∧ st.seed p < v ∧
      v ≤ mask (cellAddr stride x y)
  | Event.call st tv nb nbm pos dx dy =>
    (∀ x y, InGrid w h x y → st.seed (cellAddr stride x y) ≤ mask (cellAddr stride x y)) ∧
    (processNeighbor max min mask st tv nb nbm pos dx dy = st ∨
      ∃ x y v, InGrid w h x y ∧ nb = cellAddr stride x y ∧
        (processNeighbor max min mask st tv nb nbm pos dx dy).seed =
          Function.update st.seed nb v ∧
        st.seed nb < v ∧ v ≤ mask (cellAddr stride x y))

/-- The property of claim C18 for one logged event: a call of `processNeighbor` whose
neighbour pointer is the pointer of the current cell leaves the state (seed buffer and
queue) as it is. -/
def SelfCallIsNoop {α : Type} [DecidableEq α] (spread_op mask_op : α → α → α)
    (mask : Int → α) : Event α → Prop
  | Event.store _ _ _ _ => True
  | Event.call st tv nb nbm pos dx dy =>
    nb = pos.seed → processNeighbor spread_op mask_op mask st tv nb nbm pos dx dy = st

/-- Marks the logged calls of `processNeighbor` whose neighbour is the current cell. -/
def isSelfCall {α : Type} : Event α → Bool
  | Event.store _ _ _ _ => false
  | Event.call _ _ nb _ pos _ _ => decide (nb = pos.seed)

end imageproc

/-! ## Auxiliary facts: bit masks, transition tables, addresses -/

namespace imageproc

open detail.seed_fill_generic

theorem land_zero_right (s : Int) : Int.land s 0 = 0 := by
  cases s <;> simp [Int.land, Nat.ldiff]

theorem land_neg_one_right (s : Int) : Int.land s (-1) = s := by
  cases s with
  | ofNat n =>
    show Int.land (Int.ofNat n) (Int.negSucc 0) = _
    simp [Int.land, Nat.ldiff]
  | negSucc n =>
    show Int.land (Int.negSucc n) (Int.negSucc 0) = _
    simp [Int.land]

theorem hAt_init (w : Nat) (x : Int) (h0 : 0 ≤ x) (h1 : x < w) :
    hAt (initHorTransitions w) x = ⟨westD x, eastD w x⟩ := by
  obtain ⟨n, rfl⟩ := Int.eq_ofNat_of_zero_le h0
  have hn : n < w := by exact_mod_cast h1
  simp only [hAt, initHorTransitions, Int.toNat_ofNat, westD, eastD]
  rw [List.getD_eq_getElem _ _ (by simpa using hn)]
  simp only [List.getElem_map, List.getElem_range]
  congr 1
  · by_cases h : n = 0 <;> simp [h]
  · by_cases h : n + 1 = w
    · have : (n : Int) + 1 = w := by exact_mod_cast h
      simp [h, this]
    · have : ¬ ((n : Int) + 1 = w) := by exact_mod_cast h
      simp [h, this]

theorem vAt_init (h : Nat) (y : Int) (h0 : 0 ≤ y) (h1 : y < h) :
    vAt (initVertTransitions h) y =
      ⟨if y = 0 then 0 else -1, if y + 1 = h then 0 else -1⟩ := by
  obtain ⟨n, rfl⟩ := Int.eq_ofNat_of_zero_le h0
  have hn : n < h := by exact_mod_cast h1
  simp only [vAt, initVertTransitions, Int.toNat_ofNat]
  rw [List.getD_eq_getElem _ _ (by simpa using hn)]
  simp only [List.getElem_map, List.getElem_range]
  congr 1
  · by_cases h : n = 0 <;> simp [h]
  · by_cases h' : n + 1 = h
    · have : (n : Int) + 1 = h := by exact_mod_cast h'
      simp [h', this]
    · have : ¬ ((n : Int) + 1 = h) := by exact_mod_cast h'
      simp [h', this]

theorem land_north (s y : Int) :
    Int.land s (if y = 0 then 0 else -1) = -(northD y) * s := by
  unfold northD; split_ifs <;> simp [land_zero_right, land_neg_one_right]

theorem land_south (h : Nat) (s y : Int) :
    Int.land s (if y + 1 = h then 0 else -1) = southD h y * s := by
  unfold southD; split_ifs <;> simp [land_zero_right, land_neg_one_right]

theorem land_one_south (h : Nat) (y : Int) :
    Int.land 1 (if y + 1 = h then 0 else -1) = southD h y := by
  have := land_south h 1 y; simpa using this

theorem land_neg_one_north (y : Int) :
    Int.land (-1) (if y = 0 then 0 else -1) = northD y := by
  have := land_north (-1) y; simpa using this

theorem westD_spec (x : Int) : (x = 0 ∧ westD x = 0) ∨ (x ≠ 0 ∧ westD x = -1) := by
  unfold westD; split_ifs with h
  · exact Or.inl ⟨h, rfl⟩
  · exact Or.inr ⟨h, rfl⟩

theorem eastD_spec (w : Nat) (x : Int) :
    (x + 1 = w ∧ eastD w x = 0) ∨ (x + 1 ≠ w ∧ eastD w x = 1) := by
  unfold eastD; split_ifs with h
  · exact Or.inl ⟨h, rfl⟩
  · exact Or.inr ⟨h, rfl⟩

theorem northD_spec (y : Int) : (y = 0 ∧ northD y = 0) ∨ (y ≠ 0 ∧ northD y = -1) := by
  unfold northD; split_ifs with h
  · exact Or.inl ⟨h, rfl⟩
  · exact Or.inr ⟨h, rfl⟩

theorem southD_spec (h : Nat) (y : Int) :
    (y + 1 = h ∧ southD h y = 0) ∨ (y + 1 ≠ h ∧ southD h y = 1) := by
  unfold southD; split_ifs with h'
  · exact Or.inl ⟨h', rfl⟩
  · exact Or.inr ⟨h', rfl⟩

theorem delta_inGrid {w h : Nat} {x y dx dy : Int} (hc : InGrid w h x y)
    (hdx : dx = westD x ∨ dx = 0 ∨ dx = eastD w x)
    (hdy : dy = northD y ∨ dy = 0 ∨ dy = southD h y) : InGrid w h (x + dx) (y + dy) := by
  obtain ⟨a0, a1, a2, a3⟩ := hc
  have hx : 0 ≤ x + dx ∧ x + dx < w := by
    rcases hdx with rfl | rfl | rfl
    · rcases westD_spec x with ⟨h1, h2⟩ | ⟨h1, h2⟩ <;> omega
    · omega
    · rcases eastD_spec w x with ⟨h1, h2⟩ | ⟨h1, h2⟩ <;> omega
  have hy : 0 ≤ y + dy ∧ y + dy < h := by
    rcases hdy with rfl | rfl | rfl
    · rcases northD_spec y with ⟨h1, h2⟩ | ⟨h1, h2⟩ <;> omega
    · omega
    · rcases southD_spec h y with ⟨h1, h2⟩ | ⟨h1, h2⟩ <;> omega
  exact ⟨hx.1, hx.2, hy.1, hy.2⟩

theorem cellAddr_shift (s x y dx dy : Int) :
    cellAddr s (x + dx) (y + dy) = cellAddr s x y + dy * s + dx := by
  unfold cellAddr; ring

theorem cellAddr_inj {w hh : Nat} {s x y x' y' : Int} (hs : (w : Int) ≤ s)
    (h1 : InGrid w hh x y) (h2 : InGrid w hh x' y')
    (he : cellAddr s x y = cellAddr s x' y') : x = x' ∧ y = y' := by
  unfold cellAddr at he
  obtain ⟨a0, a1, _, _⟩ := h1
  obtain ⟨b0, b1, _, _⟩ := h2
  have hy : y = y' := by
    rcases lt_trichotomy y y' with hlt | heq | hgt
    · exfalso
      have h3 : (y' - y) * s ≥ 1 * s := by
        apply mul_le_mul_of_nonneg_right <;> omega
      have h4 : (y' - y) * s = y' * s - y * s := by ring
      omega
    · exact heq
    · exfalso
      have h3 : (y - y') * s ≥ 1 * s := by
        apply mul_le_mul_of_nonneg_right <;> omega
      have h4 : (y - y') * s = y * s - y' * s := by ring
      omega
  subst hy
  exact ⟨by omega, rfl⟩

end imageproc

/-! ## Grid-level notions: neighbourhood, super-solutions, reconstruction -/

namespace imageproc

open detail.seed_fill_generic

theorem delta_adj8 (w h : Nat) {x y dx dy : Int}
    (hdx : dx = westD x ∨ dx = 0 ∨ dx = eastD w x)
    (hdy : dy = northD y ∨ dy = 0 ∨ dy = southD h y) :
    (dx = 0 ∧ dy = 0) ∨ Adj8 x y (x + dx) (y + dy) := by
  have hx : -1 ≤ dx ∧ dx ≤ 1 := by
    rcases hdx with rfl | rfl | rfl
    · rcases westD_spec x with ⟨h1, h2⟩ | ⟨h1, h2⟩ <;> omega
    · omega
    · rcases eastD_spec w x with ⟨h1, h2⟩ | ⟨h1, h2⟩ <;> omega
  have hy : -1 ≤ dy ∧ dy ≤ 1 := by
    rcases hdy with rfl | rfl | rfl
    · rcases northD_spec y with ⟨h1, h2⟩ | ⟨h1, h2⟩ <;> omega
    · omega
    · rcases southD_spec h y with ⟨h1, h2⟩ | ⟨h1, h2⟩ <;> omega
  unfold Adj8
  by_cases h0 : dx = 0 ∧ dy = 0
  · exact Or.inl h0
  · right
    refine ⟨?_, by omega, by omega, by omega, by omega⟩
    by_cases h1 : dx = 0
    · right; omega
    · left; omega

theorem delta_adj4_hor {w h : Nat} {x y dx : Int} (hc : InGrid w h x y)
    (hdx : dx = westD x ∨ dx = eastD w x) :
    (dx = 0 ∧ (0 : Int) = 0) ∨ Adj4 x y (x + dx) (y + 0) := by
  obtain ⟨a0, a1, a2, a3⟩ := hc
  unfold Adj4
  rcases hdx with rfl | rfl
  · rcases westD_spec x with ⟨h1, h2⟩ | ⟨h1, h2⟩
    · left; omega
    · right; right; omega
  · rcases eastD_spec w x with ⟨h1, h2⟩ | ⟨h1, h2⟩
    · left; omega
    · right; right; omega

theorem delta_adj4_ver {w h : Nat} {x y dy : Int} (hc : InGrid w h x y)
    (hdy : dy = northD y ∨ dy = southD h y) :
    ((0 : Int) = 0 ∧ dy = 0) ∨ Adj4 x y (x + 0) (y + dy) := by
  obtain ⟨a0, a1, a2, a3⟩ := hc
  unfold Adj4
  rcases hdy with rfl | rfl
  · rcases northD_spec y with ⟨h1, h2⟩ | ⟨h1, h2⟩
    · left; omega
    · right; left; omega
  · rcases southD_spec h y with ⟨h1, h2⟩ | ⟨h1, h2⟩
    · left; omega
    · right; left; omega

theorem adj4_cover {w h : Nat} {x y x' y' : Int} (hc : InGrid w h x y)
    (hc' : InGrid w h x' y') (ha : Adj4 x y x' y') :
    (x' = x + westD x ∧ y' = y + 0) ∨ (x' = x + eastD w x ∧ y' = y + 0) ∨
    (x' = x + 0 ∧ y' = y + northD y) ∨ (x' = x + 0 ∧ y' = y + southD h y) := by
  obtain ⟨a0, a1, a2, a3⟩ := hc
  obtain ⟨b0, b1, b2, b3⟩ := hc'
  rcases ha with ⟨rfl, rfl | h⟩ | ⟨rfl, rfl | h⟩
  · right; right; right
    rcases southD_spec h y with ⟨h1, h2⟩ | ⟨h1, h2⟩ <;> omega
  · right; right; left
    rcases northD_spec y with ⟨h1, h2⟩ | ⟨h1, h2⟩ <;> omega
  · right; left
    rcases eastD_spec w x with ⟨h1, h2⟩ | ⟨h1, h2⟩ <;> omega
  · left
    rcases westD_spec x with ⟨h1, h2⟩ | ⟨h1, h2⟩ <;> omega

theorem adj8_cover {w h : Nat} {x y x' y' : Int} (hc : InGrid w h x y)
    (hc' : InGrid w h x' y') (ha : Adj8 x y x' y') :
    ∃ dx dy, (dx = westD x ∨ dx = 0 ∨ dx = eastD w x) ∧
      (dy = northD y ∨ dy = 0 ∨ dy = southD h y) ∧ ¬ (dx = 0 ∧ dy = 0) ∧
      x' = x + dx ∧ y' = y + dy := by
  obtain ⟨a0, a1, a2, a3⟩ := hc
  obtain ⟨b0, b1, b2, b3⟩ := hc'
  obtain ⟨hne, c1, c2, c3, c4⟩ := ha
  refine ⟨x' - x, y' - y, ?_, ?_, by omega, by omega, by omega⟩
  · rcases westD_spec x with ⟨h1, h2⟩ | ⟨h1, h2⟩ <;>
      rcases eastD_spec w x with ⟨h3, h4⟩ | ⟨h3, h4⟩ <;> omega
  · rcases northD_spec y with ⟨h1, h2⟩ | ⟨h1, h2⟩ <;>
      rcases southD_spec h y with ⟨h3, h4⟩ | ⟨h3, h4⟩ <;> omega

variable {α : Type} [LinearOrder α]

theorem IsRecon.superSol {w h : Nat} {adj : Int → Int → Int → Int → Prop}
    {S0 M R : Int → Int → α} (hR : IsRecon w h adj S0 M R) : SuperSol w h adj S0 M R :=
  ⟨hR.above, hR.stable⟩

/-- Two reconstructions of the same problem agree on the grid. -/
theorem IsRecon.unique {w h : Nat} {adj : Int → Int → Int → Int → Prop}
    {S0 M R R' : Int → Int → α} (hR : IsRecon w h adj S0 M R) (hR' : IsRecon w h adj S0 M R')
    (x y : Int) (hc : InGrid w h x y) : R x y = R' x y :=
  le_antisymm (hR.sound R' hR'.superSol x y hc) (hR'.sound R hR.superSol x y hc)

/-- The reconstruction only depends on the values of seed and mask inside the grid. -/
theorem IsRecon.congrData {w h : Nat} {adj : Int → Int → Int → Int → Prop}
    {S0 M S0' M' R : Int → Int → α} (hR : IsRecon w h adj S0 M R)
    (hS : ∀ x y, InGrid w h x y → S0 x y = S0' x y)
    (hM : ∀ x y, InGrid w h x y → M x y = M' x y) : IsRecon w h adj S0' M' R where
  clamped x y hc := hM x y hc ▸ hR.clamped x y hc
  above x y hc := hM x y hc ▸ hS x y hc ▸ hR.above x y hc
  stable x y x' y' hc hc' ha := hM x' y' hc' ▸ hR.stable x y x' y' hc hc' ha
  sound f hf x y hc := by
    apply hR.sound f _ x y hc
    refine ⟨fun x y hc => ?_, fun x y x' y' hc hc' ha => ?_⟩
    · rw [hS x y hc, hM x y hc]; exact hf.1 x y hc
    · rw [hM x' y' hc']; exact hf.2 x y x' y' hc hc' ha

theorem Src.max {C : Ctx α} {x y : Int} {a b : α} (ha : Src C x y a) (hb : Src C x y b) :
    Src C x y (max a b) := by
  refine ⟨?_, fun f hf => ?_⟩
  · rcases max_choice a b with h | h <;> rw [h]
    · exact ha.1
    · exact hb.1
  · rw [min_max_distrib_left]
    exact max_le (ha.2 f hf) (hb.2 f hf)

theorem Src.seed {C : Ctx α} (hC : C.WF) {x y : Int} (hc : InGrid C.w C.h x y) :
    Src C x y (C.S0 x y) :=
  ⟨hC.hS x y hc, fun f hf => by rw [min_comm]; exact hf.1 x y hc⟩

theorem Src.self {C : Ctx α} {x y : Int} {v : α} (hv : CellOK C x y v) : Src C x y v :=
  ⟨hv.2.2.1, fun f hf => le_trans (min_le_right _ _) (hv.2.2.2 f hf)⟩

theorem Src.nbr {C : Ctx α} {x y x' y' : Int} {v : α} (hp : InGrid C.w C.h x y)
    (hc : InGrid C.w C.h x' y') (ha : C.adj x y x' y') (hv : CellOK C x y v) :
    Src C x' y' v :=
  ⟨hv.2.2.1, fun f hf =>
    le_trans (min_le_min le_rfl (hv.2.2.2 f hf)) (hf.2 x y x' y' hp hc ha)⟩

theorem CellOK.clamp {C : Ctx α} (hC : C.WF) {x y : Int} {e : α} (hc : InGrid C.w C.h x y)
    (he : Src C x y e) (hlow : min (C.S0 x y) (C.M x y) ≤ e) :
    CellOK C x y (min (C.M x y) e) := by
  refine ⟨min_le_left _ _, le_min (min_le_right _ _) hlow, ?_, he.2⟩
  rcases min_choice (C.M x y) e with h | h <;> rw [h]
  · exact hC.hM x y hc
  · exact he.1

end imageproc

/-! ## Buffer-level invariants -/

namespace imageproc

open detail.seed_fill_generic

variable {α : Type} [LinearOrder α]

omit [LinearOrder α] in
theorem update_cell {C : Ctx α} (hC : C.WF) (buf : Int → α) {x y x' y' : Int} (v : α)
    (hc : InGrid C.w C.h x y) (hc' : InGrid C.w C.h x' y') :
    Function.update buf (cellAddr C.ss x y) v (cellAddr C.ss x' y') =
      if x' = x ∧ y' = y then v else buf (cellAddr C.ss x' y') := by
  by_cases h : x' = x ∧ y' = y
  · obtain ⟨rfl, rfl⟩ := h; simp
  · rw [if_neg h, Function.update_noteq]
    intro he
    exact h (cellAddr_inj hC.hss hc' hc he)

theorem GoodOn.initial (C : Ctx α) : GoodOn C (fun _ _ => False) C.s0 :=
  ⟨fun _ _ _ h => h.elim, fun _ _ _ _ => rfl, fun _ _ => rfl⟩

theorem GoodOn.congrP {C : Ctx α} {P P' : Int → Int → Prop} {buf : Int → α}
    (hg : GoodOn C P buf) (h : ∀ x y, InGrid C.w C.h x y → (P' x y ↔ P x y)) :
    GoodOn C P' buf :=
  ⟨fun x y hc hp => hg.ok x y hc ((h x y hc).1 hp),
   fun x y hc hp => hg.untouched x y hc (fun hp' => hp ((h x y hc).2 hp')),
   hg.frame⟩

theorem GoodOn.store {C : Ctx α} (hC : C.WF) {P : Int → Int → Prop} {buf : Int → α}
    (hg : GoodOn C P buf) {x y : Int} {v : α} (hc : InGrid C.w C.h x y)
    (hv : CellOK C x y v) :
    GoodOn C (fun x' y' => P x' y' ∨ (x' = x ∧ y' = y))
      (Function.update buf (cellAddr C.ss x y) v) := by
  refine ⟨fun x' y' hc' hp => ?_, fun x' y' hc' hp => ?_, fun a ha => ?_⟩
  · rw [update_cell hC buf v hc hc']
    split_ifs with h
    · obtain ⟨rfl, rfl⟩ := h; exact hv
    · rcases hp with hp | hp
      · exact hg.ok x' y' hc' hp
      · exact (h hp).elim
  · rw [update_cell hC buf v hc hc']
    have h1 : ¬ (x' = x ∧ y' = y) := fun h => hp (Or.inr h)
    rw [if_neg h1]
    exact hg.untouched x' y' hc' (fun h => hp (Or.inl h))
  · rw [Function.update_noteq (ha x y hc)]
    exact hg.frame a ha

theorem mem_cells {w h : Nat} {c : Int × Int} : c ∈ cells w h ↔ InGrid w h c.1 c.2 := by
  simp only [cells, Finset.mem_product, Finset.mem_Ico, InGrid]; tauto

theorem Phi_write_lt {C : Ctx α} (hC : C.WF) (buf : Int → α) {x y : Int} {v : α}
    (hc : InGrid C.w C.h x y) (hv : v ∈ C.V) (hlt : buf (cellAddr C.ss x y) < v) :
    Phi C (Function.update buf (cellAddr C.ss x y) v) < Phi C buf := by
  unfold Phi
  apply Finset.sum_lt_sum
  · intro c hcm
    rw [mem_cells] at hcm
    rw [update_cell hC buf v hc hcm]
    split_ifs with h
    · obtain ⟨h1, h2⟩ := h
      rw [h1, h2]
      apply Finset.card_le_card
      intro u hu
      simp only [Finset.mem_filter] at hu ⊢
      exact ⟨hu.1, lt_trans hlt hu.2⟩
    · exact le_rfl
  · refine ⟨(x, y), mem_cells.2 hc, ?_⟩
    rw [update_cell hC buf v hc hc]
    simp only [and_self, if_true]
    apply Finset.card_lt_card
    refine ⟨fun u hu => ?_, fun hsub => ?_⟩
    · simp only [Finset.mem_filter] at hu ⊢
      exact ⟨hu.1, lt_trans hlt hu.2⟩
    · have : v ∈ C.V.filter (fun u => v < u) := hsub (by simp [hv, hlt])
      simp at this

end imageproc

/-! ## The step `processNeighbor` -/

namespace imageproc

open detail.seed_fill_generic

variable {α : Type} [LinearOrder α]

theorem After.step {C : Ctx α} (hC : C.WF) {ex : Int → Int → Int → Int → Prop}
    {tv : α} {Q : Int → Int → Prop} {μ : Nat} {st : FillState α} (pos : Position)
    (ha : After C ex pos.x pos.y tv Q μ st) (hp : InGrid C.w C.h pos.x pos.y)
    (dx dy : Int) (n nm : Int)
    (hq : InGrid C.w C.h (pos.x + dx) (pos.y + dy))
    (hadj : (dx = 0 ∧ dy = 0) ∨ C.adj pos.x pos.y (pos.x + dx) (pos.y + dy))
    (hn : n = cellAddr C.ss (pos.x + dx) (pos.y + dy))
    (hnm : nm = cellAddr C.ms (pos.x + dx) (pos.y + dy)) :
    After C ex pos.x pos.y tv (fun x y => Q x y ∨ (x = pos.x + dx ∧ y = pos.y + dy)) μ
      (processNeighbor max min C.mask st tv n nm pos dx dy) := by
  subst hn hnm
  have hMq : C.mask (cellAddr C.ms (pos.x + dx) (pos.y + dy)) = C.M (pos.x + dx) (pos.y + dy) := rfl
  have hokq := ha.inv.good.ok _ _ hq trivial
  have hokp := ha.inv.good.ok _ _ hp trivial
  unfold processNeighbor
  simp only [hMq]
  by_cases hch : min (C.M (pos.x + dx) (pos.y + dy))
      (max tv (st.seed (cellAddr C.ss (pos.x + dx) (pos.y + dy)))) ≠
      st.seed (cellAddr C.ss (pos.x + dx) (pos.y + dy))
  · rw [if_pos hch]
    -- the neighbour is a different cell
    have hne : ¬ (dx = 0 ∧ dy = 0) := by
      rintro ⟨rfl, rfl⟩
      apply hch
      simp only [add_zero] at hokp ⊢
      rw [← ha.keep, max_self]
      exact min_eq_right hokp.1
    have hadj' : C.adj pos.x pos.y (pos.x + dx) (pos.y + dy) := hadj.resolve_left hne
    have hneq : ¬ (pos.x = pos.x + dx ∧ pos.y = pos.y + dy) := by
      intro h; apply hne; constructor <;> omega
    have hsrc : Src C (pos.x + dx) (pos.y + dy)
        (max tv (st.seed (cellAddr C.ss (pos.x + dx) (pos.y + dy)))) :=
      Src.max (Src.nbr hp hq hadj' (ha.keep ▸ hokp)) (Src.self hokq)
    have hnew := CellOK.clamp hC hq hsrc (le_trans hokq.2.1 (le_max_right _ _))
    have hge : st.seed (cellAddr C.ss (pos.x + dx) (pos.y + dy)) ≤
        min (C.M (pos.x + dx) (pos.y + dy))
          (max tv (st.seed (cellAddr C.ss (pos.x + dx) (pos.y + dy)))) :=
      le_min hokq.1 (le_max_right _ _)
    have hlt := lt_of_le_of_ne hge (Ne.symm hch)
    have hmono : ∀ a, st.seed a ≤ Function.update st.seed
        (cellAddr C.ss (pos.x + dx) (pos.y + dy))
        (min (C.M (pos.x + dx) (pos.y + dy))
          (max tv (st.seed (cellAddr C.ss (pos.x + dx) (pos.y + dy))))) a := by
      intro a
      by_cases h : a = cellAddr C.ss (pos.x + dx) (pos.y + dy)
      · subst h; rw [Function.update_same]; exact hge
      · rw [Function.update_noteq h]
    refine ⟨⟨?_, ?_, ?_⟩, ?_, ?_, ?_⟩
    · exact (GoodOn.store hC ha.inv.good hq hnew).congrP (fun _ _ _ => by simp)
    · intro p hpm
      simp only [List.mem_append, List.mem_singleton] at hpm
      rcases hpm with hpm | rfl
      · exact ha.inv.qvalid p hpm
      · exact ⟨hq, rfl, rfl⟩
    · intro x y x' y' hc hc' hxy
      by_cases hsrcq : x = pos.x + dx ∧ y = pos.y + dy
      · right; left
        exact ⟨_, List.mem_append_right _ (List.mem_singleton_self _), hsrcq.1.symm, hsrcq.2.symm⟩
      · rcases ha.inv.edges x y x' y' hc hc' hxy with h | ⟨p, hpm, hpp⟩ | h
        · left
          simp only
          rw [update_cell hC st.seed _ hq hc, if_neg hsrcq]
          exact le_trans h (hmono _)
        · right; left
          exact ⟨p, List.mem_append_left _ hpm, hpp⟩
        · right; right; exact h
    · simp only
      rw [update_cell hC st.seed _ hq hp, if_neg hneq]
      exact ha.keep
    · intro qx qy hQ hcq
      simp only
      rcases hQ with hQ | ⟨rfl, rfl⟩
      · exact le_trans (ha.sat qx qy hQ hcq) (hmono _)
      · rw [Function.update_same]
        exact min_le_min le_rfl (le_max_left _ _)
    · have h1 := Phi_write_lt hC st.seed hq hnew.2.2.1 hlt
      have h2 := ha.meas
      simp only [List.length_append, List.length_singleton]
      omega
  · rw [if_neg hch]
    push_neg at hch
    refine ⟨ha.inv, ha.keep, ?_, ha.meas⟩
    intro qx qy hQ hcq
    rcases hQ with hQ | ⟨rfl, rfl⟩
    · exact ha.sat qx qy hQ hcq
    · rw [← hch]
      exact min_le_min le_rfl (le_max_left _ _)

theorem After.finish {C : Ctx α} {ex : Int → Int → Int → Int → Prop} {px py : Int}
    {tv : α} {Q : Int → Int → Prop} {μ : Nat} {st : FillState α}
    (ha : After C (fun x y x' y' => ex x y x' y' ∨ (x = px ∧ y = py)) px py tv Q μ st)
    (hQ : ∀ x' y', InGrid C.w C.h x' y' → C.adj px py x' y' → Q x' y' ∨ ex px py x' y') :
    Inv C ex st := by
  refine ⟨ha.inv.good, ha.inv.qvalid, fun x y x' y' hc hc' hxy => ?_⟩
  rcases ha.inv.edges x y x' y' hc hc' hxy with h | h | h | ⟨rfl, rfl⟩
  · exact Or.inl h
  · exact Or.inr (Or.inl h)
  · exact Or.inr (Or.inr h)
  · rcases hQ x' y' hc' hxy with h | h
    · left; rw [ha.keep]; exact ha.sat x' y' h hc'
    · exact Or.inr (Or.inr h)

/-- Popping a work item: its outgoing edges become exempt until its neighbours have been
processed. -/
theorem After.pop {C : Ctx α} {ex : Int → Int → Int → Int → Prop} {seed : Int → α}
    {pos : Position} {rest : List Position} (hinv : Inv C ex ⟨seed, pos :: rest⟩) :
    After C (fun x y x' y' => ex x y x' y' ∨ (x = pos.x ∧ y = pos.y)) pos.x pos.y
      (seed pos.seed) (fun _ _ => False) (rest.length + 2 * Phi C seed) ⟨seed, rest⟩ := by
  have hv := hinv.qvalid pos (List.mem_cons_self _ _)
  refine ⟨⟨hinv.good, fun p hp => hinv.qvalid p (List.mem_cons_of_mem _ hp), ?_⟩, ?_, ?_, le_rfl⟩
  · intro x y x' y' hc hc' hxy
    rcases hinv.edges x y x' y' hc hc' hxy with h | ⟨p, hp, hpx, hpy⟩ | h
    · exact Or.inl h
    · rcases List.mem_cons.1 hp with rfl | hp
      · exact Or.inr (Or.inr (Or.inr ⟨hpx.symm, hpy.symm⟩))
      · exact Or.inr (Or.inl ⟨p, hp, hpx, hpy⟩)
    · exact Or.inr (Or.inr (Or.inl h))
  · show seed (cellAddr C.ss pos.x pos.y) = seed pos.seed
    rw [hv.2.1]
  · intro _ _ h; exact h.elim

theorem spread4Body_inv {C : Ctx α} (hC : C.WF) (hadj : C.adj = Adj4) {seed : Int → α}
    {pos : Position} {rest : List Position}
    (hinv : Inv C (fun _ _ _ _ => False) ⟨seed, pos :: rest⟩) :
    Inv C (fun _ _ _ _ => False)
      (spread4Body max min C.mask (initHorTransitions C.w) (initVertTransitions C.h)
        C.ss C.ms pos ⟨seed, rest⟩) ∧
    (spread4Body max min C.mask (initHorTransitions C.w) (initVertTransitions C.h)
        C.ss C.ms pos ⟨seed, rest⟩).queue.length +
      2 * Phi C (spread4Body max min C.mask (initHorTransitions C.w) (initVertTransitions C.h)
        C.ss C.ms pos ⟨seed, rest⟩).seed < (pos :: rest).length + 2 * Phi C seed := by
  have hv := hinv.qvalid pos (List.mem_cons_self _ _)
  obtain ⟨hp, hps, hpm⟩ := hv
  have hp' := hp
  obtain ⟨hx0, hx1, hy0, hy1⟩ := hp'
  have a0 := After.pop hinv
  have a1 := After.step hC pos a0 hp (westD pos.x) 0
    (pos.seed + westD pos.x) (pos.mask + westD pos.x)
    (delta_inGrid hp (Or.inl rfl) (Or.inr (Or.inl rfl)))
    (by rw [hadj]; exact delta_adj4_hor hp (Or.inl rfl))
    (by rw [hps]; unfold cellAddr; ring) (by rw [hpm]; unfold cellAddr; ring)
  have a2 := After.step hC pos a1 hp (eastD C.w pos.x) 0
    (pos.seed + eastD C.w pos.x) (pos.mask + eastD C.w pos.x)
    (delta_inGrid hp (Or.inr (Or.inr rfl)) (Or.inr (Or.inl rfl)))
    (by rw [hadj]; exact delta_adj4_hor hp (Or.inr rfl))
    (by rw [hps]; unfold cellAddr; ring) (by rw [hpm]; unfold cellAddr; ring)
  have a3 := After.step hC pos a2 hp 0 (northD pos.y)
    (pos.seed - -northD pos.y * C.ss) (pos.mask - -northD pos.y * C.ms)
    (delta_inGrid hp (Or.inr (Or.inl rfl)) (Or.inl rfl))
    (by rw [hadj]; exact delta_adj4_ver hp (Or.inl rfl))
    (by rw [hps]; unfold cellAddr; ring) (by rw [hpm]; unfold cellAddr; ring)
  have a4 := After.step hC pos a3 hp 0 (southD C.h pos.y)
    (pos.seed + southD C.h pos.y * C.ss) (pos.mask + southD C.h pos.y * C.ms)
    (delta_inGrid hp (Or.inr (Or.inl rfl)) (Or.inr (Or.inr rfl)))
    (by rw [hadj]; exact delta_adj4_ver hp (Or.inr rfl))
    (by rw [hps]; unfold cellAddr; ring) (by rw [hpm]; unfold cellAddr; ring)
  have hfin := After.finish a4 (by
    intro x' y' hc' hxy
    left
    rw [hadj] at hxy
    rcases adj4_cover hp hc' hxy with h | h | h | h
    · exact Or.inl (Or.inl (Or.inl (Or.inr h)))
    · exact Or.inl (Or.inl (Or.inr h))
    · exact Or.inl (Or.inr h)
    · exact Or.inr h)
  have hm := a4.meas
  simp only [spread4Body, hAt_init C.w pos.x hx0 hx1, vAt_init C.h pos.y hy0 hy1,
    land_north, land_south, mul_one, mul_neg, neg_neg]
  refine ⟨hfin, ?_⟩
  simp only [List.length_cons]
  omega

theorem Done.isRecon {C : Ctx α} {r : Int → α} (hd : Done C r) :
    IsRecon C.w C.h C.adj C.S0 C.M (view r C.ss) where
  clamped x y hc := (hd.good.ok x y hc trivial).1
  above x y hc := (hd.good.ok x y hc trivial).2.1
  stable := hd.stable
  sound f hf x y hc := (hd.good.ok x y hc trivial).2.2.2 f hf

theorem Done.frame {C : Ctx α} {r : Int → α} (hd : Done C r) (a : Int)
    (ha : ∀ x y, InGrid C.w C.h x y → a ≠ cellAddr C.ss x y) : r a = C.s0 a :=
  hd.good.frame a ha

theorem Inv.toDone {C : Ctx α} {seed : Int → α}
    (hinv : Inv C (fun _ _ _ _ => False) ⟨seed, []⟩) : Done C seed := by
  refine ⟨hinv.good, fun x y x' y' hc hc' hxy => ?_⟩
  rcases hinv.edges x y x' y' hc hc' hxy with h | ⟨p, hp, _⟩ | h
  · exact h
  · simp at hp
  · exact h.elim

theorem spread4_terminates {C : Ctx α} (hC : C.WF) (hadj : C.adj = Adj4) :
    ∀ (n : Nat) (st : FillState α), Inv C (fun _ _ _ _ => False) st →
      st.queue.length + 2 * Phi C st.seed ≤ n →
      ∃ r, spread4 max min C.mask (initHorTransitions C.w) (initVertTransitions C.h)
        C.ss C.ms (n + 1) st = some r ∧ Done C r := by
  intro n
  induction n with
  | zero =>
    intro st hinv hm
    obtain ⟨seed, queue⟩ := st
    have hq : queue = [] := by
      cases queue with
      | nil => rfl
      | cons a l => simp at hm
    subst hq
    exact ⟨seed, rfl, hinv.toDone⟩
  | succ n ih =>
    intro st hinv hm
    obtain ⟨seed, queue⟩ := st
    cases queue with
    | nil => exact ⟨seed, rfl, hinv.toDone⟩
    | cons pos rest =>
      obtain ⟨h1, h2⟩ := spread4Body_inv hC hadj hinv
      have h3 : (spread4Body max min C.mask (initHorTransitions C.w) (initVertTransitions C.h)
          C.ss C.ms pos ⟨seed, rest⟩).queue.length +
          2 * Phi C (spread4Body max min C.mask (initHorTransitions C.w)
            (initVertTransitions C.h) C.ss C.ms pos ⟨seed, rest⟩).seed ≤ n := by
        simp only at hm; omega
      obtain ⟨r, hr, hd⟩ := ih _ h1 h3
      exact ⟨r, hr, hd⟩

omit [LinearOrder α] in
theorem spread4_fuel_mono [DecidableEq α] (spread_op mask_op : α → α → α) (maskBuf : Int → α)
    (ht : List HTransition) (vt : List VTransition) (ss ms : Int) :
    ∀ (n : Nat) (st : FillState α) (r : Int → α),
      spread4 spread_op mask_op maskBuf ht vt ss ms n st = some r →
      ∀ k, spread4 spread_op mask_op maskBuf ht vt ss ms (n + k) st = some r := by
  intro n
  induction n with
  | zero => intro st r h; simp [spread4] at h
  | succ n ih =>
    intro st r h k
    obtain ⟨seed, queue⟩ := st
    have e : n + 1 + k = (n + k) + 1 := by omega
    rw [e]
    cases queue with
    | nil => simpa [spread4] using h
    | cons pos rest =>
      simp only [spread4] at h ⊢
      exact ih _ r h k

omit [LinearOrder α] in
theorem spread8_fuel_mono [DecidableEq α] (spread_op mask_op : α → α → α) (maskBuf : Int → α)
    (ht : List HTransition) (vt : List VTransition) (ss ms : Int) :
    ∀ (n : Nat) (st : FillState α) (r : Int → α),
      spread8 spread_op mask_op maskBuf ht vt ss ms n st = some r →
      ∀ k, spread8 spread_op mask_op maskBuf ht vt ss ms (n + k) st = some r := by
  intro n
  induction n with
  | zero => intro st r h; simp [spread8] at h
  | succ n ih =>
    intro st r h k
    obtain ⟨seed, queue⟩ := st
    have e : n + 1 + k = (n + k) + 1 := by omega
    rw [e]
    cases queue with
    | nil => simpa [spread8] using h
    | cons pos rest =>
      simp only [spread8] at h ⊢
      exact ih _ r h k

/-! ## The forward raster pass -/

theorem Fwd.start (C : Ctx α) : Fwd C 0 0 C.s0 := by
  refine ⟨(GoodOn.initial C).congrP ?_, ?_⟩
  · intro x y hc
    unfold InGrid at hc; unfold Before
    constructor
    · intro h; omega
    · intro h; exact h.elim
  · intro x1 y1 x2 y2 _ hc2 _ _ hb
    unfold InGrid at hc2; unfold Before at hb
    omega

theorem Fwd.congrPos {C : Ctx α} {x y x' y' : Int} {buf : Int → α} (hf : Fwd C x y buf)
    (h : ∀ a b, InGrid C.w C.h a b → (Before a b x' y' ↔ Before a b x y)) :
    Fwd C x' y' buf :=
  ⟨hf.good.congrP h, fun x1 y1 x2 y2 hc1 hc2 ha hb hb' =>
    hf.sat x1 y1 x2 y2 hc1 hc2 ha hb ((h x2 y2 hc2).1 hb')⟩

theorem Fwd.nextRow {C : Ctx α} {y : Int} {buf : Int → α} (hf : Fwd C C.w y buf) :
    Fwd C 0 (y + 1) buf := by
  apply hf.congrPos
  intro a b hc
  unfold InGrid at hc; unfold Before
  constructor <;> intro h <;> omega

/-- The value of a cell that the forward pass has not reached yet is a source for it. -/
theorem Fwd.src_self {C : Ctx α} (hC : C.WF) {x y : Int} {buf : Int → α} (hf : Fwd C x y buf)
    (hc : InGrid C.w C.h x y) : Src C x y (buf (cellAddr C.ss x y)) := by
  rw [hf.good.untouched x y hc (by unfold Before; omega)]
  exact Src.seed hC hc

/-- The value of an earlier cell that is a neighbour or, at a border, the cell itself. -/
theorem Fwd.src_nbr {C : Ctx α} (hC : C.WF) {x y : Int} {buf : Int → α} (hf : Fwd C x y buf)
    (hc : InGrid C.w C.h x y) {x' y' : Int} (hc' : InGrid C.w C.h x' y')
    (h : (x' = x ∧ y' = y) ∨ (C.adj x' y' x y ∧ Before x' y' x y)) :
    Src C x y (buf (cellAddr C.ss x' y')) := by
  rcases h with ⟨rfl, rfl⟩ | ⟨ha, hb⟩
  · exact hf.src_self hC hc
  · exact Src.nbr hc' hc ha (hf.good.ok x' y' hc' hb)

theorem Fwd.writeCell {C : Ctx α} (hC : C.WF) {x y : Int} {buf : Int → α} (hf : Fwd C x y buf)
    (hc : InGrid C.w C.h x y) (e : α) (hsrc : Src C x y e)
    (hlow : buf (cellAddr C.ss x y) ≤ e)
    (hcov : ∀ x1 y1, InGrid C.w C.h x1 y1 → C.adj x1 y1 x y → Before x1 y1 x y →
      buf (cellAddr C.ss x1 y1) ≤ e) :
    Fwd C (x + 1) y (Function.update buf (cellAddr C.ss x y) (min (C.M x y) e)) := by
  have hun := hf.good.untouched x y hc (by unfold Before; omega)
  have hok : CellOK C x y (min (C.M x y) e) :=
    CellOK.clamp hC hc hsrc (le_trans (min_le_left _ _)
      (show C.s0 (cellAddr C.ss x y) ≤ e from hun ▸ hlow))
  refine ⟨(GoodOn.store hC hf.good hc hok).congrP ?_, ?_⟩
  · intro a b _
    unfold Before
    constructor <;> intro h <;> omega
  · intro x1 y1 x2 y2 hc1 hc2 ha hb hb'
    have hne1 : ¬ (x1 = x ∧ y1 = y) := by
      unfold Before at hb hb'; omega
    rw [update_cell hC buf _ hc hc1, if_neg hne1, update_cell hC buf _ hc hc2]
    split_ifs with h2
    · obtain ⟨rfl, rfl⟩ := h2
      exact min_le_min le_rfl (hcov x1 y1 hc1 ha hb)
    · exact hf.sat x1 y1 x2 y2 hc1 hc2 ha hb (by unfold Before at hb' ⊢; omega)

/-- After the forward pass every cell is admissible and no cell can be raised by an
earlier neighbour. -/
theorem Fwd.toInv {C : Ctx α} (hC : C.WF) {buf : Int → α} (hf : Fwd C 0 C.h buf) :
    Inv C (exScan C.w (C.h - 1)) ⟨buf, []⟩ := by
  refine ⟨hf.good.congrP ?_, fun _ hp => by simp at hp, ?_⟩
  · intro a b hc
    unfold InGrid at hc; unfold Before
    constructor
    · intro _; omega
    · intro _; trivial
  · intro x1 y1 x2 y2 hc1 hc2 ha
    have hne := hC.hirr _ _ _ _ ha
    by_cases hb : Before x1 y1 x2 y2
    · left
      exact hf.sat x1 y1 x2 y2 hc1 hc2 ha hb (by unfold InGrid at hc2; unfold Before; omega)
    · right; right
      unfold InGrid at hc1 hc2
      unfold exScan
      unfold Before at hb ⊢
      omega

theorem cellAddr_col (s x y : Int) : cellAddr s 0 y + x = cellAddr s x y := by
  unfold cellAddr; ring

theorem cellAddr_row (s x y : Int) : cellAddr s x y + s = cellAddr s x (y + 1) := by
  unfold cellAddr; ring

theorem cellAddr_row_sub (s x y : Int) : cellAddr s x y - s = cellAddr s x (y - 1) := by
  unfold cellAddr; ring

theorem fwdRow4_fwd {C : Ctx α} (hC : C.WF) (hadj : C.adj = Adj4) (y : Int)
    (hy0 : 0 ≤ y) (hy1 : y < C.h) :
    ∀ (n x : Nat) (prev : α) (buf : Int → α), x + n = C.w → 1 ≤ x → Fwd C x y buf →
      prev = buf (cellAddr C.ss (x - 1) y) →
      Fwd C C.w y (fwdRow4 max min C.mask (cellAddr C.ss 0 y) (cellAddr C.ms 0 y)
        (cellAddr C.ss 0 (y + northD y)) n x prev buf) := by
  intro n
  induction n with
  | zero =>
    intro x prev buf hx _ hf _
    have : x = C.w := by omega
    subst this
    exact hf
  | succ n ih =>
    intro x prev buf hx hx1 hf hprev
    have hc : InGrid C.w C.h x y := by unfold InGrid; omega
    have hcW : InGrid C.w C.h ((x : Int) - 1) y := by unfold InGrid; omega
    have hN := northD_spec y
    have hcN : InGrid C.w C.h x (y + northD y) := by unfold InGrid; omega
    simp only [fwdRow4, cellAddr_col]
    have hsW : Src C x y prev := by
      rw [hprev]
      refine hf.src_nbr hC hc hcW (Or.inr ⟨?_, ?_⟩)
      · rw [hadj]; unfold Adj4; omega
      · unfold Before; omega
    have hsN : Src C x y (buf (cellAddr C.ss x (y + northD y))) := by
      refine hf.src_nbr hC hc hcN ?_
      rw [hadj]; unfold Adj4 Before; omega
    have hw := Fwd.writeCell hC hf hc
      (max prev (max (buf (cellAddr C.ss x y)) (buf (cellAddr C.ss x (y + northD y)))))
      (Src.max hsW (Src.max (hf.src_self hC hc) hsN))
      (le_trans (le_max_left _ _) (le_max_right _ _))
      (by
        intro x1 y1 hc1 ha hb
        rw [hadj] at ha
        unfold Adj4 at ha; unfold Before at hb; unfold InGrid at hc1
        have h : (x1 = x - 1 ∧ y1 = y) ∨ (x1 = x ∧ y1 = y + northD y) := by omega
        rcases h with ⟨rfl, rfl⟩ | ⟨rfl, rfl⟩
        · rw [hprev]; exact le_max_left _ _
        · exact le_trans (le_max_right _ _) (le_max_right _ _))
    have hcast : ((x + 1 : Nat) : Int) = (x : Int) + 1 := by push_cast; ring
    have := ih (x + 1) _ _ (by omega) (by omega) (hcast ▸ hw)
      (by rw [hcast, add_sub_cancel_right, Function.update_same])
    exact this

theorem fwdRows4_fwd {C : Ctx α} (hC : C.WF) (hadj : C.adj = Adj4) (hw : 0 < C.w) :
    ∀ (n y : Nat) (buf : Int → α), y + n = C.h → Fwd C 0 y buf →
      Fwd C 0 C.h (fwdRows4 max min C.mask C.ss C.ms C.w n (cellAddr C.ss 0 y)
        (cellAddr C.ms 0 y) (cellAddr C.ss 0 (y + northD y)) buf).1 ∧
      (fwdRows4 max min C.mask C.ss C.ms C.w n (cellAddr C.ss 0 y)
        (cellAddr C.ms 0 y) (cellAddr C.ss 0 (y + northD y)) buf).2.1 = cellAddr C.ss 0 C.h ∧
      (fwdRows4 max min C.mask C.ss C.ms C.w n (cellAddr C.ss 0 y)
        (cellAddr C.ms 0 y) (cellAddr C.ss 0 (y + northD y)) buf).2.2 = cellAddr C.ms 0 C.h := by
  intro n
  induction n with
  | zero =>
    intro y buf hy hf
    have : y = C.h := by omega
    subst this
    exact ⟨hf, rfl, rfl⟩
  | succ n ih =>
    intro y buf hy hf
    have hc : InGrid C.w C.h 0 y := by unfold InGrid; omega
    have hN := northD_spec y
    have hcN : InGrid C.w C.h 0 (y + northD y) := by unfold InGrid; omega
    have hsN : Src C 0 y (buf (cellAddr C.ss 0 (y + northD y))) := by
      refine hf.src_nbr hC hc hcN ?_
      rw [hadj]; unfold Adj4 Before; omega
    have hw1 := Fwd.writeCell hC hf hc
      (max (buf (cellAddr C.ss 0 y)) (buf (cellAddr C.ss 0 (y + northD y))))
      (Src.max (hf.src_self hC hc) hsN) (le_max_left _ _)
      (by
        intro x1 y1 hc1 ha hb
        rw [hadj] at ha
        unfold Adj4 at ha; unfold Before at hb; unfold InGrid at hc1
        have h : x1 = 0 ∧ y1 = y + northD y := by omega
        obtain ⟨rfl, rfl⟩ := h
        exact le_max_right _ _)
    have hrow := fwdRow4_fwd hC hadj y (by omega) (by omega) (C.w - 1) 1
      (min (C.M 0 y) (max (buf (cellAddr C.ss 0 y)) (buf (cellAddr C.ss 0 (y + northD y)))))
      (Function.update buf (cellAddr C.ss 0 y)
        (min (C.M 0 y) (max (buf (cellAddr C.ss 0 y)) (buf (cellAddr C.ss 0 (y + northD y))))))
      (by omega) le_rfl (by simpa using hw1)
      (by simp)
    have hnext := hrow.nextRow
    have hcast : ((y + 1 : Nat) : Int) = (y : Int) + 1 := by push_cast; ring
    have hpl : cellAddr C.ss 0 (y : Int) = cellAddr C.ss 0 (((y + 1 : Nat) : Int) +
        northD ((y + 1 : Nat) : Int)) := by
      have := northD_spec ((y + 1 : Nat) : Int)
      congr 1; omega
    have := ih (y + 1) _ (by omega) (hcast ▸ hnext)
    simp only [fwdRows4, add_zero, cellAddr_row]
    rw [hcast] at this hpl
    rw [← hpl] at this
    exact this

/-! ## The backward scan -/

theorem Inv.congr_ex {C : Ctx α} {ex ex' : Int → Int → Int → Int → Prop} {st : FillState α}
    (hinv : Inv C ex st)
    (h : ∀ x y x' y', InGrid C.w C.h x y → InGrid C.w C.h x' y' → ex x y x' y' → ex' x y x' y') :
    Inv C ex' st := by
  refine ⟨hinv.good, hinv.qvalid, fun x y x' y' hc hc' ha => ?_⟩
  rcases hinv.edges x y x' y' hc hc' ha with h1 | h1 | h1
  · exact Or.inl h1
  · exact Or.inr (Or.inl h1)
  · exact Or.inr (Or.inr (h x y x' y' hc hc' h1))

/-- The scanned cell keeps its value: its later neighbours cannot raise it. -/
theorem scan_keep {C : Ctx α} {x y : Int} {st : FillState α}
    (hinv : Inv C (exScan (x + 1) y) st) (e : α)
    (hcov : ∀ x1 y1, InGrid C.w C.h x1 y1 → C.adj x1 y1 x y → Before x y x1 y1 →
      st.seed (cellAddr C.ss x1 y1) ≤ e)
    (heq : min (C.M x y) e = st.seed (cellAddr C.ss x y)) : Inv C (exScan x y) st := by
  refine ⟨hinv.good, hinv.qvalid, fun x1 y1 x2 y2 hc1 hc2 ha => ?_⟩
  rcases hinv.edges x1 y1 x2 y2 hc1 hc2 ha with h1 | h1 | ⟨h1, h2⟩
  · exact Or.inl h1
  · exact Or.inr (Or.inl h1)
  · by_cases ht : x2 = x ∧ y2 = y
    · obtain ⟨rfl, rfl⟩ := ht
      left
      rw [← heq]
      exact min_le_min le_rfl (hcov x1 y1 hc1 ha h2)
    · right; right
      refine ⟨?_, h2⟩
      unfold Before at h1 ⊢; omega

/-- The scanned cell is raised: until its later neighbours have been processed, its
outgoing edges are exempt. -/
theorem scan_write {C : Ctx α} (hC : C.WF) {x y : Int} {st : FillState α}
    (hinv : Inv C (exScan (x + 1) y) st) (hc : InGrid C.w C.h x y) (e : α)
    (hsrc : Src C x y e) (hself : st.seed (cellAddr C.ss x y) ≤ e)
    (hcov : ∀ x1 y1, InGrid C.w C.h x1 y1 → C.adj x1 y1 x y → Before x y x1 y1 →
      st.seed (cellAddr C.ss x1 y1) ≤ e) :
    After C (fun a b c d => exScan x y a b c d ∨ (a = x ∧ b = y)) x y (min (C.M x y) e)
      (fun _ _ => False)
      (st.queue.length +
        2 * Phi C (Function.update st.seed (cellAddr C.ss x y) (min (C.M x y) e)))
      ⟨Function.update st.seed (cellAddr C.ss x y) (min (C.M x y) e), st.queue⟩ := by
  have hokc := hinv.good.ok x y hc trivial
  have hnew : CellOK C x y (min (C.M x y) e) :=
    CellOK.clamp hC hc hsrc (le_trans hokc.2.1 hself)
  have hge : st.seed (cellAddr C.ss x y) ≤ min (C.M x y) e := le_min hokc.1 hself
  have hmono : ∀ a, st.seed a ≤
      Function.update st.seed (cellAddr C.ss x y) (min (C.M x y) e) a := by
    intro a
    by_cases h : a = cellAddr C.ss x y
    · subst h; rw [Function.update_same]; exact hge
    · rw [Function.update_noteq h]
  refine ⟨⟨?_, hinv.qvalid, ?_⟩, ?_, fun _ _ h => h.elim, le_rfl⟩
  · exact (GoodOn.store hC hinv.good hc hnew).congrP (fun _ _ _ => by simp)
  · intro x1 y1 x2 y2 hc1 hc2 ha
    by_cases hs : x1 = x ∧ y1 = y
    · exact Or.inr (Or.inr (Or.inr hs))
    · simp only
      rw [update_cell hC st.seed _ hc hc1, if_neg hs]
      rcases hinv.edges x1 y1 x2 y2 hc1 hc2 ha with h1 | h1 | ⟨h1, h2⟩
      · exact Or.inl (le_trans h1 (hmono _))
      · exact Or.inr (Or.inl h1)
      · by_cases ht : x2 = x ∧ y2 = y
        · obtain ⟨rfl, rfl⟩ := ht
          left
          rw [Function.update_same]
          exact min_le_min le_rfl (hcov x1 y1 hc1 ha h2)
        · right; right; left
          refine ⟨?_, h2⟩
          unfold Before at h1 ⊢; omega
  · simp only [Function.update_same]

/-- After the calls of `processNeighbor` for the later neighbours of the scanned cell the
scan invariant holds for the next cell. -/
theorem scan_finish {C : Ctx α} (hC : C.WF) {x y : Int} {tv : α} {Q : Int → Int → Prop}
    {μ : Nat} {st : FillState α}
    (ha : After C (fun a b c d => exScan x y a b c d ∨ (a = x ∧ b = y)) x y tv Q μ st)
    (hQ : ∀ x' y', InGrid C.w C.h x' y' → C.adj x y x' y' → Before x y x' y' → Q x' y') :
    Inv C (exScan x y) st := by
  apply After.finish ha
  intro x' y' hc' hxy
  by_cases hb : Before x y x' y'
  · exact Or.inl (hQ x' y' hc' hxy hb)
  · right
    have := hC.hirr _ _ _ _ hxy
    unfold exScan
    unfold Before at hb ⊢
    omega

/-- A cell that is a neighbour or, at a border, the cell itself is a source. -/
theorem Inv.src {C : Ctx α} {ex : Int → Int → Int → Int → Prop} {st : FillState α}
    (hinv : Inv C ex st) {x y x' y' : Int} (hc : InGrid C.w C.h x y)
    (hc' : InGrid C.w C.h x' y') (h : (x' = x ∧ y' = y) ∨ C.adj x' y' x y) :
    Src C x y (st.seed (cellAddr C.ss x' y')) := by
  rcases h with ⟨rfl, rfl⟩ | ha
  · exact Src.self (hinv.good.ok _ _ hc trivial)
  · exact Src.nbr hc' hc ha (hinv.good.ok _ _ hc' trivial)

theorem adj4_symm {x y x' y' : Int} (h : Adj4 x y x' y') : Adj4 x' y' x y := by
  unfold Adj4 at h ⊢; omega

theorem adj8_symm {x y x' y' : Int} (h : Adj8 x y x' y') : Adj8 x' y' x y := by
  unfold Adj8 at h ⊢; omega

theorem adj4_after_cover {w h : Nat} {x y x' y' : Int}
    (hc' : InGrid w h x' y') (ha : Adj4 x y x' y') (hb : Before x y x' y') :
    (x' = x + eastD w x ∧ y' = y + 0) ∨ (x' = x + 0 ∧ y' = y + southD h y) := by
  obtain ⟨b0, b1, b2, b3⟩ := hc'
  unfold Before at hb
  rcases ha with ⟨rfl, rfl | h1⟩ | ⟨rfl, rfl | h1⟩
  · right
    rcases southD_spec h y with ⟨h1, h2⟩ | ⟨h1, h2⟩ <;> omega
  · omega
  · left
    rcases eastD_spec w x with ⟨h1, h2⟩ | ⟨h1, h2⟩ <;> omega
  · omega

theorem adj8_after_cover {w h : Nat} {x y x' y' : Int} (hc : InGrid w h x y)
    (hc' : InGrid w h x' y') (ha : Adj8 x y x' y') (hb : Before x y x' y') :
    (x' = x + eastD w x ∧ y' = y + 0) ∨ (x' = x + eastD w x ∧ y' = y + southD h y) ∨
    (x' = x + 0 ∧ y' = y + southD h y) ∨ (x' = x + westD x ∧ y' = y + southD h y) := by
  obtain ⟨a0, a1, a2, a3⟩ := hc
  obtain ⟨b0, b1, b2, b3⟩ := hc'
  obtain ⟨hne, c1, c2, c3, c4⟩ := ha
  unfold Before at hb
  by_cases hy : y' = y
  · left
    rcases eastD_spec w x with ⟨h1, h2⟩ | ⟨h1, h2⟩ <;> omega
  · right
    have hS : southD h y = 1 := by
      rcases southD_spec h y with ⟨h1, h2⟩ | ⟨h1, h2⟩ <;> omega
    rw [hS]
    by_cases h1 : x' = x
    · right; left; omega
    · by_cases h2 : x' = x + 1
      · left
        rcases eastD_spec w x with ⟨h1, h2⟩ | ⟨h1, h2⟩ <;> omega
      · right; right
        rcases westD_spec x with ⟨h1, h2⟩ | ⟨h1, h2⟩ <;> omega

theorem scanCell4_inv {C : Ctx α} (hC : C.WF) (hadj : C.adj = Adj4) {x y : Int}
    (hc : InGrid C.w C.h x y) {st : FillState α} (hinv : Inv C (exScan (x + 1) y) st) :
    Inv C (exScan x y)
      (scanCell4 max min C.mask (initHorTransitions C.w)
        ⟨if y = 0 then 0 else -1, if y + 1 = C.h then 0 else -1⟩
        C.ss C.ms (cellAddr C.ss 0 y) (cellAddr C.ms 0 y) x y st) := by
  have e1 : cellAddr C.ss x y + eastD C.w x = cellAddr C.ss (x + eastD C.w x) (y + 0) := by
    unfold cellAddr; ring
  have e2 : cellAddr C.ss x y + southD C.h y * C.ss =
      cellAddr C.ss (x + 0) (y + southD C.h y) := by
    unfold cellAddr; ring
  have hcE : InGrid C.w C.h (x + eastD C.w x) (y + 0) :=
    delta_inGrid hc (Or.inr (Or.inr rfl)) (Or.inr (Or.inl rfl))
  have hcS : InGrid C.w C.h (x + 0) (y + southD C.h y) :=
    delta_inGrid hc (Or.inr (Or.inl rfl)) (Or.inr (Or.inr rfl))
  have haE := delta_adj4_hor hc (Or.inr rfl : eastD C.w x = westD x ∨ eastD C.w x = eastD C.w x)
  have haS := delta_adj4_ver hc
    (Or.inr rfl : southD C.h y = northD y ∨ southD C.h y = southD C.h y)
  obtain ⟨hx0, hx1, hy0, hy1⟩ := id hc
  have hsE : Src C x y (st.seed (cellAddr C.ss (x + eastD C.w x) (y + 0))) := by
    refine hinv.src hc hcE ?_
    rcases haE with h | h
    · left; omega
    · right; rw [hadj]; exact adj4_symm h
  have hsS : Src C x y (st.seed (cellAddr C.ss (x + 0) (y + southD C.h y))) := by
    refine hinv.src hc hcS ?_
    rcases haS with h | h
    · left; omega
    · right; rw [hadj]; exact adj4_symm h
  have hcov : ∀ x1 y1, InGrid C.w C.h x1 y1 → C.adj x1 y1 x y → Before x y x1 y1 →
      st.seed (cellAddr C.ss x1 y1) ≤
        max (st.seed (cellAddr C.ss x y))
          (max (st.seed (cellAddr C.ss (x + eastD C.w x) (y + 0)))
            (st.seed (cellAddr C.ss (x + 0) (y + southD C.h y)))) := by
    intro x1 y1 hc1 ha hb
    rw [hadj] at ha
    rcases adj4_after_cover hc1 (adj4_symm ha) hb with ⟨rfl, rfl⟩ | ⟨rfl, rfl⟩
    · exact le_trans (le_max_left _ _) (le_max_right _ _)
    · exact le_trans (le_max_right _ _) (le_max_right _ _)
  simp only [scanCell4, hAt_init C.w x hx0 hx1, land_south, mul_one, cellAddr_col, e1, e2]
  split_ifs with heq
  · exact scan_keep hinv _ hcov heq
  · have a0 := scan_write hC hinv hc _ (Src.max (hinv.src hc hc (Or.inl ⟨rfl, rfl⟩))
      (Src.max hsE hsS)) (le_max_left _ _) hcov
    have a1 := After.step hC ⟨cellAddr C.ss x y, cellAddr C.ms x y, x, y⟩ a0 hc
      (eastD C.w x) 0 (cellAddr C.ss (x + eastD C.w x) (y + 0))
      (cellAddr C.ms x y + eastD C.w x) hcE (by rw [hadj]; exact haE) rfl
      (by unfold cellAddr; ring)
    have a2 := After.step hC ⟨cellAddr C.ss x y, cellAddr C.ms x y, x, y⟩ a1 hc
      0 (southD C.h y) (cellAddr C.ss (x + 0) (y + southD C.h y))
      (cellAddr C.ms x y + southD C.h y * C.ms) hcS (by rw [hadj]; exact haS) rfl
      (by unfold cellAddr; ring)
    have a2' : After C (fun a b c d => exScan x y a b c d ∨ (a = x ∧ b = y)) x y _
      (fun x' y' => (False ∨ (x' = x + eastD C.w x ∧ y' = y + 0)) ∨
        (x' = x + 0 ∧ y' = y + southD C.h y)) _ _ := a2
    refine scan_finish hC a2' ?_
    intro x' y' hc' hxy hb
    rw [hadj] at hxy
    rcases adj4_after_cover hc' hxy hb with h | h
    · exact Or.inl (Or.inr h)
    · exact Or.inr h

theorem scanRow4_inv {C : Ctx α} (hC : C.WF) (hadj : C.adj = Adj4) {y : Int}
    (hy0 : 0 ≤ y) (hy1 : y < C.h) :
    ∀ (n : Nat) (st : FillState α), n ≤ C.w → Inv C (exScan n y) st →
      Inv C (exScan 0 y)
        (scanRow4 max min C.mask (initHorTransitions C.w)
          ⟨if y = 0 then 0 else -1, if y + 1 = C.h then 0 else -1⟩
          C.ss C.ms (cellAddr C.ss 0 y) (cellAddr C.ms 0 y) y n st) := by
  intro n
  induction n with
  | zero => intro st _ hinv; exact hinv
  | succ n ih =>
    intro st hn hinv
    have hc : InGrid C.w C.h n y := by unfold InGrid; omega
    have hcast : ((n + 1 : Nat) : Int) = (n : Int) + 1 := by push_cast; ring
    rw [hcast] at hinv
    exact ih _ (by omega) (scanCell4_inv hC hadj hc hinv)

theorem scanRows4_inv {C : Ctx α} (hC : C.WF) (hadj : C.adj = Adj4) :
    ∀ (n : Nat) (st : FillState α), n ≤ C.h → Inv C (exScan C.w ((n : Int) - 1)) st →
      Inv C (fun _ _ _ _ => False)
        (scanRows4 max min C.mask (initHorTransitions C.w) (initVertTransitions C.h)
          C.ss C.ms C.w n (cellAddr C.ss 0 ((n : Int) - 1)) (cellAddr C.ms 0 ((n : Int) - 1)) st) := by
  intro n
  induction n with
  | zero =>
    intro st _ hinv
    refine hinv.congr_ex ?_
    intro x y x' y' _ hc' h
    unfold InGrid at hc'; unfold exScan Before at h
    omega
  | succ n ih =>
    intro st hn hinv
    have hcast : ((n + 1 : Nat) : Int) - 1 = (n : Int) := by push_cast; ring
    rw [hcast] at hinv ⊢
    have hrow := scanRow4_inv hC hadj (Int.natCast_nonneg n) (by omega : (n : Int) < C.h)
      C.w st le_rfl hinv
    have hnext : Inv C (exScan C.w ((n : Int) - 1)) _ := hrow.congr_ex (by
      intro x y x' y' _ hc' h
      unfold InGrid at hc'; unfold exScan Before at h ⊢
      omega)
    have := ih _ (by omega) hnext
    simp only [scanRows4, vAt_init C.h n (Int.natCast_nonneg n) (by omega), cellAddr_row_sub]
    exact this

theorem cellAddr_zero (s : Int) : cellAddr s 0 0 = 0 := by
  unfold cellAddr; ring

theorem seedFill4Scan_inv {C : Ctx α} (hC : C.WF) (hadj : C.adj = Adj4) (hw : 0 < C.w) :
    Inv C (fun _ _ _ _ => False) (seedFill4Scan max min C.s0 C.ss C.w C.h C.mask C.ms) := by
  have h0 := fwdRows4_fwd hC hadj hw C.h 0 C.s0 (by omega) (by simpa using Fwd.start C)
  have hN : northD 0 = 0 := by simp [northD]
  simp only [Nat.cast_zero, hN, add_zero, cellAddr_zero] at h0
  obtain ⟨hf, h1, h2⟩ := h0
  unfold seedFill4Scan
  simp only [h1, h2, cellAddr_row_sub]
  exact scanRows4_inv hC hadj C.h _ le_rfl (Fwd.toInv hC hf)

theorem seedFill4_done {C : Ctx α} (hC : C.WF) (hadj : C.adj = Adj4) (hw : 0 < C.w) :
    ∃ n r, seedFill4 n max min C.s0 C.ss C.w C.h C.mask C.ms = some r ∧ Done C r := by
  obtain ⟨r, hr, hd⟩ := spread4_terminates hC hadj _ _ (seedFill4Scan_inv hC hadj hw) le_rfl
  exact ⟨_, r, hr, hd⟩

/-! ## Eight-connectivity -/

theorem spread8Body_inv {C : Ctx α} (hC : C.WF) (hadj : C.adj = Adj8) (hsm : C.ss = C.ms)
    {seed : Int → α} {pos : Position} {rest : List Position}
    (hinv : Inv C (fun _ _ _ _ => False) ⟨seed, pos :: rest⟩) :
    Inv C (fun _ _ _ _ => False)
      (spread8Body max min C.mask (initHorTransitions C.w) (initVertTransitions C.h)
        C.ss C.ms pos ⟨seed, rest⟩) ∧
    (spread8Body max min C.mask (initHorTransitions C.w) (initVertTransitions C.h)
        C.ss C.ms pos ⟨seed, rest⟩).queue.length +
      2 * Phi C (spread8Body max min C.mask (initHorTransitions C.w) (initVertTransitions C.h)
        C.ss C.ms pos ⟨seed, rest⟩).seed < (pos :: rest).length + 2 * Phi C seed := by
  have hv := hinv.qvalid pos (List.mem_cons_self _ _)
  obtain ⟨hp, hps, hpm⟩ := hv
  obtain ⟨hx0, hx1, hy0, hy1⟩ := id hp
  have a0 := After.pop hinv
  have a1 := After.step hC pos a0 hp 0 (northD pos.y)
    (pos.seed - -northD pos.y * C.ss) (pos.mask - -northD pos.y * C.ms)
    (delta_inGrid hp (Or.inr (Or.inl rfl)) (Or.inl rfl))
    (by rw [hadj]; exact delta_adj8 C.w C.h (Or.inr (Or.inl rfl)) (Or.inl rfl))
    (by rw [hps]; unfold cellAddr; ring) (by rw [hpm]; unfold cellAddr; ring)
  have a2 := After.step hC pos a1 hp (westD pos.x) (northD pos.y)
    (pos.seed - -northD pos.y * C.ss + westD pos.x)
    (pos.mask - -northD pos.y * C.ms + westD pos.x)
    (delta_inGrid hp (Or.inl rfl) (Or.inl rfl))
    (by rw [hadj]; exact delta_adj8 C.w C.h (Or.inl rfl) (Or.inl rfl))
    (by rw [hps]; unfold cellAddr; ring) (by rw [hpm]; unfold cellAddr; ring)
  have a3 := After.step hC pos a2 hp (eastD C.w pos.x) (northD pos.y)
    (pos.seed - -northD pos.y * C.ss + eastD C.w pos.x)
    (pos.mask - -northD pos.y * C.ms + eastD C.w pos.x)
    (delta_inGrid hp (Or.inr (Or.inr rfl)) (Or.inl rfl))
    (by rw [hadj]; exact delta_adj8 C.w C.h (Or.inr (Or.inr rfl)) (Or.inl rfl))
    (by rw [hps]; unfold cellAddr; ring) (by rw [hpm]; unfold cellAddr; ring)
  have a4 := After.step hC pos a3 hp (eastD C.w pos.x) 0
    (pos.seed + eastD C.w pos.x) (pos.mask + eastD C.w pos.x)
    (delta_inGrid hp (Or.inr (Or.inr rfl)) (Or.inr (Or.inl rfl)))
    (by rw [hadj]; exact delta_adj8 C.w C.h (Or.inr (Or.inr rfl)) (Or.inr (Or.inl rfl)))
    (by rw [hps]; unfold cellAddr; ring) (by rw [hpm]; unfold cellAddr; ring)
  have a5 := After.step hC pos a4 hp (westD pos.x) 0
    (pos.seed + westD pos.x) (pos.mask + westD pos.x)
    (delta_inGrid hp (Or.inl rfl) (Or.inr (Or.inl rfl)))
    (by rw [hadj]; exact delta_adj8 C.w C.h (Or.inl rfl) (Or.inr (Or.inl rfl)))
    (by rw [hps]; unfold cellAddr; ring) (by rw [hpm]; unfold cellAddr; ring)
  have a6 := After.step hC pos a5 hp 0 (southD C.h pos.y)
    (pos.seed + southD C.h pos.y * C.ss) (pos.mask + southD C.h pos.y * C.ms)
    (delta_inGrid hp (Or.inr (Or.inl rfl)) (Or.inr (Or.inr rfl)))
    (by rw [hadj]; exact delta_adj8 C.w C.h (Or.inr (Or.inl rfl)) (Or.inr (Or.inr rfl)))
    (by rw [hps]; unfold cellAddr; ring) (by rw [hpm]; unfold cellAddr; ring)
  have a7 := After.step hC pos a6 hp (eastD C.w pos.x) (southD C.h pos.y)
    (pos.seed + southD C.h pos.y * C.ss + eastD C.w pos.x)
    (pos.mask + southD C.h pos.y * C.ms + eastD C.w pos.x)
    (delta_inGrid hp (Or.inr (Or.inr rfl)) (Or.inr (Or.inr rfl)))
    (by rw [hadj]; exact delta_adj8 C.w C.h (Or.inr (Or.inr rfl)) (Or.inr (Or.inr rfl)))
    (by rw [hps]; unfold cellAddr; ring) (by rw [hpm]; unfold cellAddr; ring)
  have a8 := After.step hC pos a7 hp (westD pos.x) (southD C.h pos.y)
    (pos.seed + southD C.h pos.y * C.ss + westD pos.x)
    (pos.mask + southD C.h pos.y * C.ss + westD pos.x)
    (delta_inGrid hp (Or.inl rfl) (Or.inr (Or.inr rfl)))
    (by rw [hadj]; exact delta_adj8 C.w C.h (Or.inl rfl) (Or.inr (Or.inr rfl)))
    (by rw [hps]; unfold cellAddr; ring) (by rw [hpm, hsm]; unfold cellAddr; ring)
  have hfin := After.finish a8 (by
    intro x' y' hc' hxy
    left
    rw [hadj] at hxy
    obtain ⟨dx, dy, hdx, hdy, hne, rfl, rfl⟩ := adj8_cover hp hc' hxy
    rcases hdx with rfl | rfl | rfl
    · rcases hdy with rfl | rfl | rfl
      · exact Or.inl (Or.inl (Or.inl (Or.inl (Or.inl (Or.inl (Or.inr ⟨rfl, rfl⟩))))))
      · exact Or.inl (Or.inl (Or.inl (Or.inr ⟨rfl, rfl⟩)))
      · exact Or.inr ⟨rfl, rfl⟩
    · rcases hdy with rfl | rfl | rfl
      · exact Or.inl (Or.inl (Or.inl (Or.inl (Or.inl (Or.inl (Or.inl (Or.inr ⟨rfl, rfl⟩)))))))
      · exact absurd ⟨rfl, rfl⟩ hne
      · exact Or.inl (Or.inl (Or.inr ⟨rfl, rfl⟩))
    · rcases hdy with rfl | rfl | rfl
      · exact Or.inl (Or.inl (Or.inl (Or.inl (Or.inl (Or.inr ⟨rfl, rfl⟩)))))
      · exact Or.inl (Or.inl (Or.inl (Or.inl (Or.inr ⟨rfl, rfl⟩))))
      · exact Or.inl (Or.inr ⟨rfl, rfl⟩))
  have hm := a8.meas
  simp only [spread8Body, hAt_init C.w pos.x hx0 hx1, vAt_init C.h pos.y hy0 hy1,
    land_north, land_south, mul_one, mul_neg, neg_neg]
  refine ⟨hfin, ?_⟩
  simp only [List.length_cons]
  omega

theorem spread8_terminates {C : Ctx α} (hC : C.WF) (hadj : C.adj = Adj8) (hsm : C.ss = C.ms) :
    ∀ (n : Nat) (st : FillState α), Inv C (fun _ _ _ _ => False) st →
      st.queue.length + 2 * Phi C st.seed ≤ n →
      ∃ r, spread8 max min C.mask (initHorTransitions C.w) (initVertTransitions C.h)
        C.ss C.ms (n + 1) st = some r ∧ Done C r := by
  intro n
  induction n with
  | zero =>
    intro st hinv hm
    obtain ⟨seed, queue⟩ := st
    have hq : queue = [] := by
      cases queue with
      | nil => rfl
      | cons a l => simp at hm
    subst hq
    exact ⟨seed, rfl, hinv.toDone⟩
  | succ n ih =>
    intro st hinv hm
    obtain ⟨seed, queue⟩ := st
    cases queue with
    | nil => exact ⟨seed, rfl, hinv.toDone⟩
    | cons pos rest =>
      obtain ⟨h1, h2⟩ := spread8Body_inv hC hadj hsm hinv
      have h3 : (spread8Body max min C.mask (initHorTransitions C.w) (initVertTransitions C.h)
          C.ss C.ms pos ⟨seed, rest⟩).queue.length +
          2 * Phi C (spread8Body max min C.mask (initHorTransitions C.w)
            (initVertTransitions C.h) C.ss C.ms pos ⟨seed, rest⟩).seed ≤ n := by
        simp only at hm; omega
      obtain ⟨r, hr, hd⟩ := ih _ h1 h3
      exact ⟨r, hr, hd⟩

theorem adj8_before_cover {x y x' y' : Int}
    (ha : Adj8 x' y' x y) (hb : Before x' y' x y) :
    (x' = x - 1 ∧ y' = y) ∨ (x' = x ∧ y' = y - 1) ∨ (x' = x - 1 ∧ y' = y - 1) ∨
      (x' = x + 1 ∧ y' = y - 1) := by
  obtain ⟨hne, c1, c2, c3, c4⟩ := ha
  unfold Before at hb
  by_cases hy : y' = y
  · left; omega
  · right
    by_cases h1 : x' = x
    · left; omega
    · by_cases h2 : x' = x - 1
      · right; left; omega
      · right; right; omega

theorem fwdFirstRow8_fwd {C : Ctx α} (hC : C.WF) (hadj : C.adj = Adj8) (hh : 0 < C.h) :
    ∀ (n x : Nat) (buf : Int → α), 1 ≤ x → x + n = C.w → Fwd C x 0 buf →
      Fwd C C.w 0 (fwdFirstRow8 max min C.mask (cellAddr C.ss 0 0) (cellAddr C.ms 0 0) n x buf) := by
  intro n
  induction n with
  | zero =>
    intro x buf _ hx hf
    have : x = C.w := by omega
    subst this
    exact hf
  | succ n ih =>
    intro x buf hx1 hx hf
    have hc : InGrid C.w C.h x 0 := by unfold InGrid; omega
    have hcW : InGrid C.w C.h ((x : Int) - 1) 0 := by unfold InGrid; omega
    simp only [fwdFirstRow8, cellAddr_col]
    have hsW : Src C x 0 (buf (cellAddr C.ss ((x : Int) - 1) 0)) := by
      refine hf.src_nbr hC hc hcW (Or.inr ⟨?_, ?_⟩)
      · rw [hadj]; unfold Adj8; omega
      · unfold Before; omega
    have hw := Fwd.writeCell hC hf hc
      (max (buf (cellAddr C.ss x 0)) (buf (cellAddr C.ss ((x : Int) - 1) 0)))
      (Src.max (hf.src_self hC hc) hsW) (le_max_left _ _)
      (by
        intro x1 y1 hc1 ha hb
        rw [hadj] at ha
        unfold InGrid at hc1
        rcases adj8_before_cover ha hb with
          ⟨rfl, rfl⟩ | ⟨_, h⟩ | ⟨_, h⟩ | ⟨_, h⟩
        · exact le_max_right _ _
        · omega
        · omega
        · omega)
    have hcast : ((x + 1 : Nat) : Int) = (x : Int) + 1 := by push_cast; ring
    exact ih (x + 1) _ (by omega) (by omega) (hcast ▸ hw)

theorem fwdMid8_fwd {C : Ctx α} (hC : C.WF) (hadj : C.adj = Adj8) {y : Int}
    (hy0 : 1 ≤ y) (hy1 : y < C.h) :
    ∀ (n x : Nat) (buf : Int → α), 1 ≤ x → x + n + 1 = C.w → Fwd C x y buf →
      Fwd C ((C.w : Int) - 1) y
        (fwdMid8 max min C.mask (cellAddr C.ss 0 y) (cellAddr C.ms 0 y)
          (cellAddr C.ss 0 (y - 1)) n x buf).1 ∧
      (((fwdMid8 max min C.mask (cellAddr C.ss 0 y) (cellAddr C.ms 0 y)
          (cellAddr C.ss 0 (y - 1)) n x buf).2 : Nat) : Int) = (C.w : Int) - 1 := by
  intro n
  induction n with
  | zero =>
    intro x buf _ hx hf
    have hxw : (x : Int) = (C.w : Int) - 1 := by omega
    simp only [fwdMid8]
    exact ⟨hxw ▸ hf, hxw⟩
  | succ n ih =>
    intro x buf hx1 hx hf
    have hc : InGrid C.w C.h x y := by unfold InGrid; omega
    have hcW : InGrid C.w C.h ((x : Int) - 1) y := by unfold InGrid; omega
    have hcN : InGrid C.w C.h x (y - 1) := by unfold InGrid; omega
    have hcNW : InGrid C.w C.h ((x : Int) - 1) (y - 1) := by unfold InGrid; omega
    have hcNE : InGrid C.w C.h ((x : Int) + 1) (y - 1) := by unfold InGrid; omega
    simp only [fwdMid8, cellAddr_col]
    have hsW : Src C x y (buf (cellAddr C.ss ((x : Int) - 1) y)) := by
      refine hf.src_nbr hC hc hcW (Or.inr ⟨?_, ?_⟩)
      · rw [hadj]; unfold Adj8; omega
      · unfold Before; omega
    have hsN : Src C x y (buf (cellAddr C.ss x (y - 1))) := by
      refine hf.src_nbr hC hc hcN (Or.inr ⟨?_, ?_⟩)
      · rw [hadj]; unfold Adj8; omega
      · unfold Before; omega
    have hsNW : Src C x y (buf (cellAddr C.ss ((x : Int) - 1) (y - 1))) := by
      refine hf.src_nbr hC hc hcNW (Or.inr ⟨?_, ?_⟩)
      · rw [hadj]; unfold Adj8; omega
      · unfold Before; omega
    have hsNE : Src C x y (buf (cellAddr C.ss ((x : Int) + 1) (y - 1))) := by
      refine hf.src_nbr hC hc hcNE (Or.inr ⟨?_, ?_⟩)
      · rw [hadj]; unfold Adj8; omega
      · unfold Before; omega
    have hw := Fwd.writeCell hC hf hc
      (max (max (max (buf (cellAddr C.ss x y)) (buf (cellAddr C.ss ((x : Int) - 1) y)))
        (max (buf (cellAddr C.ss x (y - 1))) (buf (cellAddr C.ss ((x : Int) - 1) (y - 1)))))
        (buf (cellAddr C.ss ((x : Int) + 1) (y - 1))))
      (Src.max (Src.max (Src.max (hf.src_self hC hc) hsW) (Src.max hsN hsNW)) hsNE)
      (le_trans (le_max_left _ _) (le_trans (le_max_left _ _) (le_max_left _ _)))
      (by
        intro x1 y1 hc1 ha hb
        rw [hadj] at ha
        rcases adj8_before_cover ha hb with
          ⟨rfl, rfl⟩ | ⟨rfl, rfl⟩ | ⟨rfl, rfl⟩ | ⟨rfl, rfl⟩
        · exact le_trans (le_max_right _ _) (le_trans (le_max_left _ _) (le_max_left _ _))
        · exact le_trans (le_max_left _ _) (le_trans (le_max_right _ _) (le_max_left _ _))
        · exact le_trans (le_max_right _ _) (le_trans (le_max_right _ _) (le_max_left _ _))
        · exact le_max_right _ _)
    have hcast : ((x + 1 : Nat) : Int) = (x : Int) + 1 := by push_cast; ring
    exact ih (x + 1) _ (by omega) (by omega) (hcast ▸ hw)

theorem fwdRows8_fwd {C : Ctx α} (hC : C.WF) (hadj : C.adj = Adj8) (hw : 2 ≤ C.w) :
    ∀ (n y : Nat) (buf : Int → α), 1 ≤ y → y + n = C.h → Fwd C 0 y buf →
      Fwd C 0 C.h (fwdRows8 max min C.mask C.ss C.ms C.w n (cellAddr C.ss 0 ((y : Int) - 1))
        (cellAddr C.ms 0 ((y : Int) - 1)) (cellAddr C.ss 0 ((y : Int) - 1)) buf).1 ∧
      (fwdRows8 max min C.mask C.ss C.ms C.w n (cellAddr C.ss 0 ((y : Int) - 1))
        (cellAddr C.ms 0 ((y : Int) - 1)) (cellAddr C.ss 0 ((y : Int) - 1)) buf).2.1 =
          cellAddr C.ss 0 ((C.h : Int) - 1) ∧
      (fwdRows8 max min C.mask C.ss C.ms C.w n (cellAddr C.ss 0 ((y : Int) - 1))
        (cellAddr C.ms 0 ((y : Int) - 1)) (cellAddr C.ss 0 ((y : Int) - 1)) buf).2.2 =
          cellAddr C.ms 0 ((C.h : Int) - 1) := by
  intro n
  induction n with
  | zero =>
    intro y buf _ hy hf
    have : y = C.h := by omega
    subst this
    exact ⟨hf, rfl, rfl⟩
  | succ n ih =>
    intro y buf hy1 hy hf
    have hc : InGrid C.w C.h 0 y := by unfold InGrid; omega
    have hcN : InGrid C.w C.h 0 ((y : Int) - 1) := by unfold InGrid; omega
    have hcNE : InGrid C.w C.h (0 + 1) ((y : Int) - 1) := by unfold InGrid; omega
    have hsN : Src C 0 y (buf (cellAddr C.ss 0 ((y : Int) - 1))) := by
      refine hf.src_nbr hC hc hcN (Or.inr ⟨?_, ?_⟩)
      · rw [hadj]; unfold Adj8; omega
      · unfold Before; omega
    have hsNE : Src C 0 y (buf (cellAddr C.ss (0 + 1) ((y : Int) - 1))) := by
      refine hf.src_nbr hC hc hcNE (Or.inr ⟨?_, ?_⟩)
      · rw [hadj]; unfold Adj8; omega
      · unfold Before; omega
    -- the first cell of the row
    have hw1 := Fwd.writeCell hC hf hc
      (max (buf (cellAddr C.ss 0 y))
        (max (buf (cellAddr C.ss 0 ((y : Int) - 1))) (buf (cellAddr C.ss (0 + 1) ((y : Int) - 1)))))
      (Src.max (hf.src_self hC hc) (Src.max hsN hsNE)) (le_max_left _ _)
      (by
        intro x1 y1 hc1 ha hb
        rw [hadj] at ha
        unfold InGrid at hc1
        rcases adj8_before_cover ha hb with ⟨h, _⟩ | ⟨rfl, rfl⟩ | ⟨h, _⟩ | ⟨rfl, rfl⟩
        · omega
        · exact le_trans (le_max_left _ _) (le_max_right _ _)
        · omega
        · exact le_trans (le_max_right _ _) (le_max_right _ _))
    -- the inner cells
    obtain ⟨hm1, hm2⟩ := fwdMid8_fwd hC hadj (by omega : (1 : Int) ≤ y) (by omega) (C.w - 2) 1
      _ le_rfl (by omega) (by simpa using hw1)
    -- the last cell
    have hcl : InGrid C.w C.h ((C.w : Int) - 1) y := by unfold InGrid; omega
    have hclW : InGrid C.w C.h ((C.w : Int) - 1 - 1) y := by unfold InGrid; omega
    have hclN : InGrid C.w C.h ((C.w : Int) - 1) ((y : Int) - 1) := by unfold InGrid; omega
    have hclNW : InGrid C.w C.h ((C.w : Int) - 1 - 1) ((y : Int) - 1) := by unfold InGrid; omega
    have hsW := hm1.src_nbr hC hcl hclW
      (Or.inr ⟨by rw [hadj]; unfold Adj8; omega, by unfold Before; omega⟩)
    have hsN' := hm1.src_nbr hC hcl hclN
      (Or.inr ⟨by rw [hadj]; unfold Adj8; omega, by unfold Before; omega⟩)
    have hsNW := hm1.src_nbr hC hcl hclNW
      (Or.inr ⟨by rw [hadj]; unfold Adj8; omega, by unfold Before; omega⟩)
    have hw2 := Fwd.writeCell hC hm1 hcl _
      (Src.max (Src.max (hm1.src_self hC hcl) hsW) (Src.max hsN' hsNW))
      (le_trans (le_max_left _ _) (le_max_left _ _))
      (by
        intro x1 y1 hc1 ha hb
        rw [hadj] at ha
        unfold InGrid at hc1
        rcases adj8_before_cover ha hb with ⟨rfl, rfl⟩ | ⟨rfl, rfl⟩ | ⟨rfl, rfl⟩ | ⟨h, _⟩
        · exact le_trans (le_max_right _ _) (le_max_left _ _)
        · exact le_trans (le_max_left _ _) (le_max_right _ _)
        · exact le_trans (le_max_right _ _) (le_max_right _ _)
        · omega)
    rw [sub_add_cancel] at hw2
    have hnext := hw2.nextRow
    have hcast : ((y + 1 : Nat) : Int) - 1 = (y : Int) := by push_cast; ring
    have hcast2 : ((y + 1 : Nat) : Int) = (y : Int) + 1 := by push_cast; ring
    have := ih (y + 1) _ (by omega) (by omega) (hcast2 ▸ hnext)
    rw [hcast] at this
    simp only [Ctx.M, view] at hm2 this
    simp only [fwdRows8, cellAddr_row, sub_add_cancel, cellAddr_col, zero_add, hm2]
    exact this

theorem scanCell8_inv {C : Ctx α} (hC : C.WF) (hadj : C.adj = Adj8) {x y : Int}
    (hc : InGrid C.w C.h x y) {st : FillState α} (hinv : Inv C (exScan (x + 1) y) st) :
    Inv C (exScan x y)
      (scanCell8 max min C.mask (initHorTransitions C.w)
        ⟨if y = 0 then 0 else -1, if y + 1 = C.h then 0 else -1⟩
        C.ss C.ms (cellAddr C.ss 0 y) (cellAddr C.ms 0 y) x y st) := by
  have e1 : cellAddr C.ss x y + eastD C.w x = cellAddr C.ss (x + eastD C.w x) (y + 0) := by
    unfold cellAddr; ring
  have e2 : cellAddr C.ss (x + 0) (y + southD C.h y) + eastD C.w x =
      cellAddr C.ss (x + eastD C.w x) (y + southD C.h y) := by
    unfold cellAddr; ring
  have e3 : cellAddr C.ss (x + 0) (y + southD C.h y) + westD x =
      cellAddr C.ss (x + westD x) (y + southD C.h y) := by
    unfold cellAddr; ring
  have e4 : cellAddr C.ss x y + southD C.h y * C.ss =
      cellAddr C.ss (x + 0) (y + southD C.h y) := by
    unfold cellAddr; ring
  have hcE : InGrid C.w C.h (x + eastD C.w x) (y + 0) :=
    delta_inGrid hc (Or.inr (Or.inr rfl)) (Or.inr (Or.inl rfl))
  have hcSE : InGrid C.w C.h (x + eastD C.w x) (y + southD C.h y) :=
    delta_inGrid hc (Or.inr (Or.inr rfl)) (Or.inr (Or.inr rfl))
  have hcS : InGrid C.w C.h (x + 0) (y + southD C.h y) :=
    delta_inGrid hc (Or.inr (Or.inl rfl)) (Or.inr (Or.inr rfl))
  have hcSW : InGrid C.w C.h (x + westD x) (y + southD C.h y) :=
    delta_inGrid hc (Or.inl rfl) (Or.inr (Or.inr rfl))
  have haE : (eastD C.w x = 0 ∧ (0 : Int) = 0) ∨ Adj8 x y (x + eastD C.w x) (y + 0) :=
    delta_adj8 C.w C.h (Or.inr (Or.inr rfl)) (Or.inr (Or.inl rfl))
  have haSE : (eastD C.w x = 0 ∧ southD C.h y = 0) ∨
      Adj8 x y (x + eastD C.w x) (y + southD C.h y) :=
    delta_adj8 C.w C.h (Or.inr (Or.inr rfl)) (Or.inr (Or.inr rfl))
  have haS : ((0 : Int) = 0 ∧ southD C.h y = 0) ∨ Adj8 x y (x + 0) (y + southD C.h y) :=
    delta_adj8 C.w C.h (Or.inr (Or.inl rfl)) (Or.inr (Or.inr rfl))
  have haSW : (westD x = 0 ∧ southD C.h y = 0) ∨ Adj8 x y (x + westD x) (y + southD C.h y) :=
    delta_adj8 C.w C.h (Or.inl rfl) (Or.inr (Or.inr rfl))
  obtain ⟨hx0, hx1, hy0, hy1⟩ := id hc
  have hsrc : ∀ dx dy, InGrid C.w C.h (x + dx) (y + dy) →
      ((dx = 0 ∧ dy = 0) ∨ Adj8 x y (x + dx) (y + dy)) →
      Src C x y (st.seed (cellAddr C.ss (x + dx) (y + dy))) := by
    intro dx dy hcd had
    refine hinv.src hc hcd ?_
    rcases had with h | h
    · left; omega
    · right; rw [hadj]; exact adj8_symm h
  have hcov : ∀ x1 y1, InGrid C.w C.h x1 y1 → C.adj x1 y1 x y → Before x y x1 y1 →
      st.seed (cellAddr C.ss x1 y1) ≤
        max (st.seed (cellAddr C.ss x y))
          (max (max (st.seed (cellAddr C.ss (x + eastD C.w x) (y + 0)))
              (st.seed (cellAddr C.ss (x + eastD C.w x) (y + southD C.h y))))
            (max (st.seed (cellAddr C.ss (x + 0) (y + southD C.h y)))
              (st.seed (cellAddr C.ss (x + westD x) (y + southD C.h y))))) := by
    intro x1 y1 hc1 ha hb
    rw [hadj] at ha
    rcases adj8_after_cover hc hc1 (adj8_symm ha) hb with
      ⟨rfl, rfl⟩ | ⟨rfl, rfl⟩ | ⟨rfl, rfl⟩ | ⟨rfl, rfl⟩
    · exact le_trans (le_max_left _ _) (le_trans (le_max_left _ _) (le_max_right _ _))
    · exact le_trans (le_max_right _ _) (le_trans (le_max_left _ _) (le_max_right _ _))
    · exact le_trans (le_max_left _ _) (le_trans (le_max_right _ _) (le_max_right _ _))
    · exact le_trans (le_max_right _ _) (le_trans (le_max_right _ _) (le_max_right _ _))
  simp only [scanCell8, hAt_init C.w x hx0 hx1, land_south, mul_one, cellAddr_col, e1, e4, e2, e3]
  split_ifs with heq
  · exact scan_keep hinv _ hcov heq
  · have a0 := scan_write hC hinv hc _ (Src.max (hinv.src hc hc (Or.inl ⟨rfl, rfl⟩))
      (Src.max (Src.max (hsrc _ _ hcE haE) (hsrc _ _ hcSE haSE))
        (Src.max (hsrc _ _ hcS haS) (hsrc _ _ hcSW haSW)))) (le_max_left _ _) hcov
    have a1 := After.step hC ⟨cellAddr C.ss x y, cellAddr C.ms x y, x, y⟩ a0 hc
      (eastD C.w x) 0 (cellAddr C.ss (x + eastD C.w x) (y + 0))
      (cellAddr C.ms x y + eastD C.w x) hcE (by rw [hadj]; exact haE) rfl
      (by unfold cellAddr; ring)
    have a2 := After.step hC ⟨cellAddr C.ss x y, cellAddr C.ms x y, x, y⟩ a1 hc
      (eastD C.w x) (southD C.h y) (cellAddr C.ss (x + eastD C.w x) (y + southD C.h y))
      (cellAddr C.ms x y + southD C.h y * C.ms + eastD C.w x) hcSE (by rw [hadj]; exact haSE) rfl
      (by unfold cellAddr; ring)
    have a3 := After.step hC ⟨cellAddr C.ss x y, cellAddr C.ms x y, x, y⟩ a2 hc
      0 (southD C.h y) (cellAddr C.ss (x + 0) (y + southD C.h y))
      (cellAddr C.ms x y + southD C.h y * C.ms) hcS (by rw [hadj]; exact haS) rfl
      (by unfold cellAddr; ring)
    have a4 := After.step hC ⟨cellAddr C.ss x y, cellAddr C.ms x y, x, y⟩ a3 hc
      (westD x) (southD C.h y) (cellAddr C.ss (x + westD x) (y + southD C.h y))
      (cellAddr C.ms x y + southD C.h y * C.ms + westD x) hcSW (by rw [hadj]; exact haSW) rfl
      (by unfold cellAddr; ring)
    have a4' : After C (fun a b c d => exScan x y a b c d ∨ (a = x ∧ b = y)) x y _
      (fun x' y' => ((((False ∨ (x' = x + eastD C.w x ∧ y' = y + 0)) ∨
        (x' = x + eastD C.w x ∧ y' = y + southD C.h y)) ∨
        (x' = x + 0 ∧ y' = y + southD C.h y)) ∨
        (x' = x + westD x ∧ y' = y + southD C.h y))) _ _ := a4
    refine scan_finish hC a4' ?_
    intro x' y' hc' hxy hb
    rw [hadj] at hxy
    rcases adj8_after_cover hc hc' hxy hb with h | h | h | h
    · exact Or.inl (Or.inl (Or.inl (Or.inr h)))
    · exact Or.inl (Or.inl (Or.inr h))
    · exact Or.inl (Or.inr h)
    · exact Or.inr h

theorem scanRow8_inv {C : Ctx α} (hC : C.WF) (hadj : C.adj = Adj8) {y : Int}
    (hy0 : 0 ≤ y) (hy1 : y < C.h) :
    ∀ (n : Nat) (st : FillState α), n ≤ C.w → Inv C (exScan n y) st →
      Inv C (exScan 0 y)
        (scanRow8 max min C.mask (initHorTransitions C.w)
          ⟨if y = 0 then 0 else -1, if y + 1 = C.h then 0 else -1⟩
          C.ss C.ms (cellAddr C.ss 0 y) (cellAddr C.ms 0 y) y n st) := by
  intro n
  induction n with
  | zero => intro st _ hinv; exact hinv
  | succ n ih =>
    intro st hn hinv
    have hc : InGrid C.w C.h n y := by unfold InGrid; omega
    have hcast : ((n + 1 : Nat) : Int) = (n : Int) + 1 := by push_cast; ring
    rw [hcast] at hinv
    exact ih _ (by omega) (scanCell8_inv hC hadj hc hinv)

theorem scanRows8_inv {C : Ctx α} (hC : C.WF) (hadj : C.adj = Adj8) :
    ∀ (n : Nat) (st : FillState α), n ≤ C.h → Inv C (exScan C.w ((n : Int) - 1)) st →
      Inv C (fun _ _ _ _ => False)
        (scanRows8 max min C.mask (initHorTransitions C.w) (initVertTransitions C.h)
          C.ss C.ms C.w n (cellAddr C.ss 0 ((n : Int) - 1)) (cellAddr C.ms 0 ((n : Int) - 1)) st) := by
  intro n
  induction n with
  | zero =>
    intro st _ hinv
    refine hinv.congr_ex ?_
    intro x y x' y' _ hc' h
    unfold InGrid at hc'; unfold exScan Before at h
    omega
  | succ n ih =>
    intro st hn hinv
    have hcast : ((n + 1 : Nat) : Int) - 1 = (n : Int) := by push_cast; ring
    rw [hcast] at hinv ⊢
    have hrow := scanRow8_inv hC hadj (Int.natCast_nonneg n) (by omega : (n : Int) < C.h)
      C.w st le_rfl hinv
    have hnext : Inv C (exScan C.w ((n : Int) - 1)) _ := hrow.congr_ex (by
      intro x y x' y' _ hc' h
      unfold InGrid at hc'; unfold exScan Before at h ⊢
      omega)
    have := ih _ (by omega) hnext
    simp only [scanRows8, vAt_init C.h n (Int.natCast_nonneg n) (by omega), cellAddr_row_sub]
    exact this

theorem seedFill8Scan_inv {C : Ctx α} (hC : C.WF) (hadj : C.adj = Adj8) (hw : 2 ≤ C.w)
    (hh : 2 ≤ C.h) :
    Inv C (fun _ _ _ _ => False) (seedFill8Scan max min C.s0 C.ss C.w C.h C.mask C.ms) := by
  have hc : InGrid C.w C.h 0 0 := by unfold InGrid; omega
  have hf0 := Fwd.start C
  have hw1 := Fwd.writeCell hC hf0 hc (C.s0 (cellAddr C.ss 0 0)) (hf0.src_self hC hc) le_rfl
    (by
      intro x1 y1 hc1 _ hb
      unfold InGrid at hc1; unfold Before at hb
      omega)
  have hrow := fwdFirstRow8_fwd hC hadj (by omega) (C.w - 1) 1 _ le_rfl (by omega)
    (by simpa using hw1)
  have hnext := hrow.nextRow
  have hrows := fwdRows8_fwd hC hadj hw (C.h - 1) 1 _ le_rfl (by omega) (by simpa using hnext)
  obtain ⟨hf, h1, h2⟩ := hrows
  have hinv := scanRows8_inv hC hadj C.h _ le_rfl (Fwd.toInv hC hf)
  rw [← h1, ← h2] at hinv
  simp only [Nat.cast_one, sub_self, cellAddr_zero, Ctx.M, view] at hinv
  rw [min_comm] at hinv
  simp only [seedFill8Scan, add_zero]
  exact hinv

theorem seedFill8_main_done {C : Ctx α} (hC : C.WF) (hadj : C.adj = Adj8) (hsm : C.ss = C.ms)
    (hw : 2 ≤ C.w) (hh : 2 ≤ C.h) :
    ∃ n r, seedFill8 n max min C.s0 C.ss C.w C.h C.mask C.ms = some r ∧ Done C r := by
  obtain ⟨r, hr, hd⟩ :=
    spread8_terminates hC hadj hsm _ _ (seedFill8Scan_inv hC hadj hw hh) le_rfl
  refine ⟨(seedFill8Scan max min C.s0 C.ss C.w C.h C.mask C.ms).queue.length +
    2 * Phi C (seedFill8Scan max min C.s0 C.ss C.w C.h C.mask C.ms).seed + 1, r, ?_, hd⟩
  unfold seedFill8
  rw [if_neg (by omega), if_neg (by omega)]
  exact hr

/-! ## The single-line sweep -/

theorem singleLineFwd_fwd {C : Ctx α} (hC : C.WF) {n : Nat} {ls lm : Int} {X Y : Int → Int}
    (hL : Line C n ls lm X Y) :
    ∀ (k : Nat) (i : Int) (buf : Int → α), 0 ≤ i → i + 1 + k = n →
      Fwd C (X (i + 1)) (Y (i + 1)) buf →
      Fwd C (X n) (Y n) (singleLineFwd max min C.mask ls lm k (i * ls) (i * lm) buf).1 ∧
      (singleLineFwd max min C.mask ls lm k (i * ls) (i * lm) buf).2.1 = ((n : Int) - 1) * ls ∧
      (singleLineFwd max min C.mask ls lm k (i * ls) (i * lm) buf).2.2 = ((n : Int) - 1) * lm := by
  intro k
  induction k with
  | zero =>
    intro i buf _ hi hf
    have : i + 1 = n := by omega
    have h2 : i = (n : Int) - 1 := by omega
    rw [this] at hf
    simp only [singleLineFwd]
    exact ⟨hf, by rw [h2], by rw [h2]⟩
  | succ k ih =>
    intro i buf hi0 hi hf
    have hc := hL.inGrid (i + 1) (by omega) (by omega)
    have hcp := hL.inGrid i hi0 (by omega)
    have hsP : Src C (X (i + 1)) (Y (i + 1)) (buf (cellAddr C.ss (X i) (Y i))) := by
      refine hf.src_nbr hC hc hcp (Or.inr ⟨?_, ?_⟩)
      · exact (hL.adj i (i + 1) hi0 (by omega) (by omega) (by omega)).2 (Or.inl rfl)
      · exact (hL.before i (i + 1)).2 (by omega)
    have hw := Fwd.writeCell hC hf hc
      (max (buf (cellAddr C.ss (X (i + 1)) (Y (i + 1)))) (buf (cellAddr C.ss (X i) (Y i))))
      (Src.max (hf.src_self hC hc) hsP) (le_max_left _ _)
      (by
        intro x1 y1 hc1 ha hb
        obtain ⟨j, hj0, hj1, rfl, rfl⟩ := hL.surj x1 y1 hc1
        have h1 := (hL.adj j (i + 1) hj0 hj1 (by omega) (by omega)).1 ha
        have h2 := (hL.before j (i + 1)).1 hb
        have : j = i := by omega
        subst this
        exact le_max_right _ _)
    have hnext : Fwd C (X (i + 1 + 1)) (Y (i + 1 + 1)) _ :=
      hw.congrPos (fun a b hab => hL.next (i + 1) a b hab)
    have e1 : i * ls + ls = (i + 1) * ls := by ring
    have e2 : i * lm + lm = (i + 1) * lm := by ring
    have e3 : (i + 1) * ls - ls = i * ls := by ring
    have := ih (i + 1) _ (by omega) (by push_cast at hi ⊢; omega) hnext
    simp only [hL.addrS, hL.addrM, Ctx.M, view] at this
    simp only [singleLineFwd, e1, e2, e3]
    exact this

theorem singleLineBwd_bwd {C : Ctx α} (hC : C.WF) {n : Nat} {ls lm : Int} {X Y : Int → Int}
    (hL : Line C n ls lm X Y) :
    ∀ (k : Nat) (i : Int) (buf : Int → α), i = k → i < n → BwdL C n X Y i buf →
      BwdL C n X Y 0 (singleLineBwd max min C.mask ls lm k (i * ls) (i * lm) buf) := by
  intro k
  induction k with
  | zero =>
    intro i buf hi _ hb
    have : i = 0 := by simpa using hi
    subst this
    exact hb
  | succ k ih =>
    intro i buf hi hin hb
    have hi1 : (1 : Int) ≤ i := by push_cast at hi; omega
    have hc := hL.inGrid (i - 1) (by omega) (by omega)
    have hcn := hL.inGrid i (by omega) hin
    have hokc := hb.good.ok _ _ hc trivial
    have hokn := hb.good.ok _ _ hcn trivial
    have hadj : C.adj (X i) (Y i) (X (i - 1)) (Y (i - 1)) :=
      (hL.adj i (i - 1) (by omega) hin (by omega) (by omega)).2 (Or.inr (by omega))
    have hnew : CellOK C (X (i - 1)) (Y (i - 1))
        (min (C.M (X (i - 1)) (Y (i - 1)))
          (max (buf (cellAddr C.ss (X (i - 1)) (Y (i - 1)))) (buf (cellAddr C.ss (X i) (Y i))))) :=
      CellOK.clamp hC hc (Src.max (Src.self hokc) (Src.nbr hcn hc hadj hokn))
        (le_trans hokc.2.1 (le_max_left _ _))
    have hge : buf (cellAddr C.ss (X (i - 1)) (Y (i - 1))) ≤
        min (C.M (X (i - 1)) (Y (i - 1)))
          (max (buf (cellAddr C.ss (X (i - 1)) (Y (i - 1)))) (buf (cellAddr C.ss (X i) (Y i)))) :=
      le_min hokc.1 (le_max_left _ _)
    have hinj : ∀ j : Int, 0 ≤ j → j < n → j ≠ i - 1 →
        ¬ (X j = X (i - 1) ∧ Y j = Y (i - 1)) := by
      intro j hj0 hj1 hne ⟨h1, h2⟩
      have hlt := hL.before j (i - 1)
      have hgt := hL.before (i - 1) j
      rw [h1, h2] at hlt hgt
      unfold Before at hlt hgt
      rcases lt_or_gt_of_ne hne with h | h
      · have := hlt.2 h; omega
      · have := hgt.2 h; omega
    have hstep : BwdL C n X Y (i - 1)
        (Function.update buf (cellAddr C.ss (X (i - 1)) (Y (i - 1)))
          (min (C.M (X (i - 1)) (Y (i - 1)))
            (max (buf (cellAddr C.ss (X (i - 1)) (Y (i - 1))))
              (buf (cellAddr C.ss (X i) (Y i)))))) := by
      refine ⟨(GoodOn.store hC hb.good hc hnew).congrP (fun _ _ _ => by simp), ?_, ?_⟩
      · intro j hj0 hj1
        have hcj := hL.inGrid j hj0 (by omega)
        have hcj1 := hL.inGrid (j + 1) (by omega) hj1
        rw [update_cell hC buf _ hc hcj, update_cell hC buf _ hc hcj1]
        by_cases h1 : j = i - 1
        · subst h1
          have e : i - 1 + 1 = i := by ring
          rw [e] at hcj1 ⊢
          rw [if_pos ⟨rfl, rfl⟩, if_neg (hinj i (by omega) hin (by omega))]
          have hold := hb.fsat (i - 1) (by omega) (by omega)
          rw [e] at hold
          refine le_trans (min_le_min le_rfl (min_le_right _ _)) ?_
          rw [min_max_distrib_left]
          exact max_le hold (min_le_right _ _)
        · rw [if_neg (hinj j hj0 (by omega) h1)]
          split_ifs with h2
          · refine le_trans (hb.fsat j hj0 hj1) ?_
            rw [h2.1, h2.2]
            exact hge
          · exact hb.fsat j hj0 hj1
      · intro j hj0 hj1
        have hcj := hL.inGrid j (by omega) (by omega)
        have hcj1 := hL.inGrid (j + 1) (by omega) hj1
        rw [update_cell hC buf _ hc hcj, update_cell hC buf _ hc hcj1]
        rw [if_neg (hinj (j + 1) (by omega) hj1 (by omega))]
        by_cases h1 : j = i - 1
        · subst h1
          have e : i - 1 + 1 = i := by ring
          rw [e]
          rw [if_pos ⟨rfl, rfl⟩]
          exact min_le_min le_rfl (le_max_right _ _)
        · rw [if_neg (hinj j (by omega) (by omega) h1)]
          exact hb.bsat j (by omega) hj1
    have e1 : i * ls - ls = (i - 1) * ls := by ring
    have e2 : i * lm - lm = (i - 1) * lm := by ring
    have e3 : (i - 1) * ls + ls = i * ls := by ring
    have := ih (i - 1) _ (by push_cast at hi; omega) (by omega) hstep
    simp only [hL.addrS, hL.addrM, Ctx.M, view] at this
    simp only [singleLineBwd, e1, e2, e3]
    exact this

theorem BwdL.lineDone {C : Ctx α} {n : Nat} {ls lm : Int} {X Y : Int → Int}
    (hL : Line C n ls lm X Y) {buf : Int → α} (hb : BwdL C n X Y 0 buf) : Done C buf := by
  refine ⟨hb.good, fun x y x' y' hc hc' ha => ?_⟩
  obtain ⟨i, hi0, hi1, rfl, rfl⟩ := hL.surj x y hc
  obtain ⟨j, hj0, hj1, rfl, rfl⟩ := hL.surj x' y' hc'
  rcases (hL.adj i j hi0 hi1 hj0 hj1).1 ha with rfl | rfl
  · exact hb.fsat i hi0 hj1
  · exact hb.bsat j hj0 hi1

theorem seedFillSingleLine_done {C : Ctx α} (hC : C.WF) {n : Nat} {ls lm : Int}
    {X Y : Int → Int} (hL : Line C n ls lm X Y) (hn : 0 < n) :
    Done C (seedFillSingleLine max min n C.s0 ls C.mask lm) := by
  have hc0 := hL.inGrid 0 le_rfl (by omega)
  have hnone : ∀ a b, InGrid C.w C.h a b → ¬ Before a b (X 0) (Y 0) := by
    intro a b hab hbf
    obtain ⟨k, hk0, _, rfl, rfl⟩ := hL.surj a b hab
    have := (hL.before k 0).1 hbf
    omega
  have hf0 : Fwd C (X 0) (Y 0) C.s0 := (Fwd.start C).congrPos (by
    intro a b hab
    constructor
    · intro h
      exact (hnone a b hab h).elim
    · intro h
      unfold InGrid at hab; unfold Before at h
      omega)
  have hw := Fwd.writeCell hC hf0 hc0 (C.s0 (cellAddr C.ss (X 0) (Y 0))) (hf0.src_self hC hc0)
    le_rfl (fun x1 y1 hc1 _ hb => (hnone x1 y1 hc1 hb).elim)
  have hf1 : Fwd C (X (0 + 1)) (Y (0 + 1)) _ := hw.congrPos (fun a b hab => hL.next 0 a b hab)
  have hk : (0 : Int) + 1 + ((n - 1 : Nat) : Int) = n := by omega
  obtain ⟨hfn, h1, h2⟩ := singleLineFwd_fwd hC hL (n - 1) 0 _ le_rfl hk hf1
  have hb0 : BwdL C n X Y ((n : Int) - 1)
      (singleLineFwd max min C.mask ls lm (n - 1) (0 * ls) (0 * lm)
        (Function.update C.s0 (cellAddr C.ss (X 0) (Y 0))
          (min (C.M (X 0) (Y 0)) (C.s0 (cellAddr C.ss (X 0) (Y 0)))))).1 := by
    refine ⟨hfn.good.congrP ?_, ?_, ?_⟩
    · intro a b hab
      obtain ⟨k, hk0, hk1, rfl, rfl⟩ := hL.surj a b hab
      constructor
      · intro _
        exact (hL.before k n).2 hk1
      · intro _; trivial
    · intro j hj0 hj1
      exact hfn.sat _ _ _ _ (hL.inGrid j hj0 (by omega)) (hL.inGrid (j + 1) (by omega) hj1)
        ((hL.adj j (j + 1) hj0 (by omega) (by omega) hj1).2 (Or.inl rfl))
        ((hL.before j (j + 1)).2 (by omega)) ((hL.before (j + 1) n).2 hj1)
    · intro j hj0 hj1
      omega
  have hb := singleLineBwd_bwd hC hL (n - 1) ((n : Int) - 1) _ (by omega) (by omega) hb0
  have hd := BwdL.lineDone hL hb
  rw [← h1, ← h2] at hd
  simp only [hL.addrS, hL.addrM, Ctx.M, view, zero_mul] at hd
  rw [min_comm] at hd
  unfold seedFillSingleLine
  rw [if_neg (by omega)]
  exact hd

omit [LinearOrder α] in
/-- A grid of width one is a vertical line. -/
theorem line_vertical {C : Ctx α} (hadj : C.adj = Adj8) (hw : C.w = 1) :
    Line C C.h C.ss C.ms (fun _ => 0) (fun i => i) where
  addrS i := by unfold cellAddr; ring
  addrM i := by unfold cellAddr; ring
  inGrid i h0 h1 := by unfold InGrid; omega
  surj x y hc := by
    unfold InGrid at hc
    exact ⟨y, by omega, by omega, by omega, rfl⟩
  before i j := by unfold Before; omega
  next i a b hab := by unfold InGrid at hab; unfold Before; omega
  adj i j _ _ _ _ := by rw [hadj]; unfold Adj8; omega

omit [LinearOrder α] in
/-- A grid of height one is a horizontal line of elements that are one apart. -/
theorem line_horizontal {C : Ctx α} (hadj : C.adj = Adj8) (hh : C.h = 1) :
    Line C C.w 1 1 (fun i => i) (fun _ => 0) where
  addrS i := by unfold cellAddr; ring
  addrM i := by unfold cellAddr; ring
  inGrid i h0 h1 := by unfold InGrid; omega
  surj x y hc := by
    unfold InGrid at hc
    exact ⟨x, by omega, by omega, rfl, by omega⟩
  before i j := by unfold Before; omega
  next i a b hab := by unfold InGrid at hab; unfold Before; omega
  adj i j _ _ _ _ := by rw [hadj]; unfold Adj8; omega

theorem seedFill8_done {C : Ctx α} (hC : C.WF) (hadj : C.adj = Adj8) (hsm : C.ss = C.ms)
    (hw : 0 < C.w) (hh : 0 < C.h) :
    ∃ n r, seedFill8 n max min C.s0 C.ss C.w C.h C.mask C.ms = some r ∧ Done C r := by
  by_cases h1 : C.w = 1
  · refine ⟨0, _, ?_, seedFillSingleLine_done hC (line_vertical hadj h1) hh⟩
    unfold seedFill8
    rw [if_pos h1]
  · by_cases h2 : C.h = 1
    · refine ⟨0, _, ?_, seedFillSingleLine_done hC (line_horizontal hadj h2) hw⟩
      unfold seedFill8
      rw [if_neg h1, if_pos h2]
    · exact seedFill8_main_done hC hadj hsm (by omega) (by omega)

/-! ## The entry point -/

theorem mkCtx_wf (conn : Connectivity) (w h : Nat) (ss ms : Int) (s0 mask : Int → α)
    (hss : (w : Int) ≤ ss) (hms : (w : Int) ≤ ms) : (mkCtx conn w h ss ms s0 mask).WF where
  hss := hss
  hms := hms
  hS x y hc := Finset.mem_union_left _ (Finset.mem_image.2 ⟨(x, y), mem_cells.2 hc, rfl⟩)
  hM x y hc := Finset.mem_union_right _ (Finset.mem_image.2 ⟨(x, y), mem_cells.2 hc, rfl⟩)
  hirr x y x' y' ha := by
    cases conn
    · have h : Adj4 x y x' y' := ha
      unfold Adj4 at h; omega
    · have h : Adj8 x y x' y' := ha
      unfold Adj8 at h; omega

omit [LinearOrder α] in
theorem seedFillGenericInPlace_nonempty [DecidableEq α] (n : Nat) (spread_op mask_op : α → α → α)
    (conn : Connectivity) (seed : Int → α) (ss : Int) (w h : Nat) (hw : 0 < w) (hh : 0 < h)
    (mask : Int → α) (ms : Int) :
    seedFillGenericInPlace n spread_op mask_op conn seed ss ⟨w, h⟩ mask ms =
      match conn with
      | Connectivity.CONN4 => seedFill4 n spread_op mask_op seed ss w h mask ms
      | Connectivity.CONN8 => seedFill8 n spread_op mask_op seed ss w h mask ms := by
  have h1 : ¬ ((w : Int) < 1) := by omega
  have h2 : ¬ ((h : Int) < 1) := by omega
  simp [seedFillGenericInPlace, QSize.isEmpty, h1, h2]

/-- Reconstruction by the code: with `max`/`min`, strides at least the width and, for
eight neighbours, a common stride, the call returns for some fuel, and the result is the
reconstruction of the seed under the mask. -/
theorem fill_done (conn : Connectivity) (w h : Nat) (hw : 0 < w) (hh : 0 < h) (ss ms : Int)
    (hss : (w : Int) ≤ ss) (hms : (w : Int) ≤ ms)
    (hconn : conn = Connectivity.CONN8 → ss = ms) (seed mask : Int → α) :
    ∃ n r, seedFillGenericInPlace n max min conn seed ss ⟨w, h⟩ mask ms = some r ∧
      Done (mkCtx conn w h ss ms seed mask) r := by
  have hC := mkCtx_wf conn w h ss ms seed mask hss hms
  cases conn with
  | CONN4 =>
    obtain ⟨n, r, hr, hd⟩ := seedFill4_done hC rfl hw
    exact ⟨n, r, by rw [seedFillGenericInPlace_nonempty _ _ _ _ _ _ _ _ hw hh]; exact hr, hd⟩
  | CONN8 =>
    obtain ⟨n, r, hr, hd⟩ := seedFill8_done hC rfl (hconn rfl) hw hh
    exact ⟨n, r, by rw [seedFillGenericInPlace_nonempty _ _ _ _ _ _ _ _ hw hh]; exact hr, hd⟩

omit [LinearOrder α] in
/-- More fuel does not change the result of a call that returned. -/
theorem fill_fuel_mono [DecidableEq α] (spread_op mask_op : α → α → α) (conn : Connectivity)
    (seed : Int → α) (ss : Int) (size : QSize) (mask : Int → α) (ms : Int) (n k : Nat)
    (r : Int → α)
    (hr : seedFillGenericInPlace n spread_op mask_op conn seed ss size mask ms = some r) :
    seedFillGenericInPlace (n + k) spread_op mask_op conn seed ss size mask ms = some r := by
  unfold seedFillGenericInPlace at hr ⊢
  split_ifs at hr ⊢ with he
  · exact hr
  · cases conn with
    | CONN4 => exact spread4_fuel_mono _ _ _ _ _ _ _ n _ r hr k
    | CONN8 =>
      simp only [seedFill8] at hr ⊢
      split_ifs at hr ⊢ with h1 h2
      · exact hr
      · exact hr
      · exact spread8_fuel_mono _ _ _ _ _ _ _ n _ r hr k

omit [LinearOrder α] in
/-- The result of a call does not depend on the fuel. -/
theorem fill_fuel_unique [DecidableEq α] (spread_op mask_op : α → α → α) (conn : Connectivity)
    (seed : Int → α) (ss : Int) (size : QSize) (mask : Int → α) (ms : Int) (n n' : Nat)
    (r r' : Int → α)
    (hr : seedFillGenericInPlace n spread_op mask_op conn seed ss size mask ms = some r)
    (hr' : seedFillGenericInPlace n' spread_op mask_op conn seed ss size mask ms = some r') :
    r = r' := by
  have h1 := fill_fuel_mono spread_op mask_op conn seed ss size mask ms n n' r hr
  have h2 := fill_fuel_mono spread_op mask_op conn seed ss size mask ms n' n r' hr'
  rw [Nat.add_comm] at h2
  rw [h1] at h2
  exact Option.some.inj h2

/-- The statement of `fill_done` for an arbitrary instance of decidable equality, in terms
of grids. -/
theorem fill_recon (inst : DecidableEq α) (conn : Connectivity) (w h : Nat) (hw : 0 < w)
    (hh : 0 < h) (ss ms : Int) (hss : (w : Int) ≤ ss) (hms : (w : Int) ≤ ms)
    (hconn : conn = Connectivity.CONN8 → ss = ms) (seed mask : Int → α) :
    ∃ n r, @seedFillGenericInPlace α inst n max min conn seed ss ⟨w, h⟩ mask ms = some r ∧
      IsRecon w h (Adj conn) (view seed ss) (view mask ms) (view r ss) ∧
      (∀ a, (∀ x y, InGrid w h x y → a ≠ cellAddr ss x y) → r a = seed a) := by
  obtain ⟨n, r, hr, hd⟩ := fill_done conn w h hw hh ss ms hss hms hconn seed mask
  have hi : inst = (fun a b => instDecidableEq_mathlib a b) := Subsingleton.elim _ _
  refine ⟨n, r, ?_, hd.isRecon, hd.frame⟩
  rw [← hr]
  congr

theorem c2_maxmin (inst : DecidableEq α) (conn : Connectivity) (w h : Nat) (hw : 0 < w)
    (hh : 0 < h) (stride : Int) (hs : (w : Int) ≤ stride) (seed mask : Int → α) :
    ∃ n r, @seedFillGenericInPlace α inst n max min conn seed stride ⟨w, h⟩ mask stride =
        some r ∧
      ∀ x y x' y', InGrid w h x y → InGrid w h x' y' → Adj conn x y x' y' →
        min (mask (cellAddr stride x' y'))
          (max (r (cellAddr stride x y)) (r (cellAddr stride x' y'))) =
          r (cellAddr stride x' y') := by
  obtain ⟨n, r, hr, hrec, _⟩ :=
    fill_recon inst conn w h hw hh stride stride hs hs (fun _ => rfl) seed mask
  refine ⟨n, r, hr, fun x y x' y' hc hc' ha => ?_⟩
  have h1 := hrec.stable x y x' y' hc hc' ha
  have h2 := hrec.clamped x' y' hc'
  simp only [view] at h1 h2
  rw [min_max_distrib_left, min_eq_right h2]
  exact max_eq_right h1

/-- Claim C2.  After `seedFillGenericInPlace` returns on a non-empty grid (common stride,
`max`/`min` or `min`/`max` in a linear order, four or eight neighbours) the seed is a
fixpoint of propagation: for every cell `p` and every in-grid neighbour `q` of `p`,
`mask_op(mask[q], spread_op(seed[p], seed[q]))` equals `seed[q]`.  The call does return:
some fuel suffices. -/
theorem C2_result_is_fixpoint (spread_op mask_op : α → α → α)
    (hop : IsOpPair spread_op mask_op) (conn : Connectivity) (w h : Nat) (hw : 0 < w)
    (hh : 0 < h) (stride : Int) (hs : (w : Int) ≤ stride) (seed mask : Int → α) :
    ∃ n r, seedFillGenericInPlace n spread_op mask_op conn seed stride ⟨w, h⟩ mask stride =
        some r ∧
      ∀ x y x' y', InGrid w h x y → InGrid w h x' y' → Adj conn x y x' y' →
        mask_op (mask (cellAddr stride x' y'))
          (spread_op (r (cellAddr stride x y)) (r (cellAddr stride x' y'))) =
          r (cellAddr stride x' y') := by
  rcases hop with ⟨rfl, rfl⟩ | ⟨rfl, rfl⟩
  · exact c2_maxmin _ conn w h hw hh stride hs seed mask
  · exact c2_maxmin (α := αᵒᵈ) (fun a b => instDecidableEq_mathlib (α := α) a b)
      conn w h hw hh stride hs seed mask

/-- Witness for C2: a `2 × 2` grid of naturals, eight neighbours, one bright seed. -/
theorem C2_result_is_fixpoint_witness :
    IsOpPair (max : Nat → Nat → Nat) min ∧ 0 < 2 ∧ ((2 : Nat) : Int) ≤ 2 ∧
    ∃ n r, seedFillGenericInPlace n (max : Nat → Nat → Nat) min Connectivity.CONN8
        (fun i => if i = 0 then 5 else 0) 2 ⟨(2 : Nat), (2 : Nat)⟩ (fun _ => 7) 2 = some r ∧
      ∀ x y x' y', InGrid 2 2 x y → InGrid 2 2 x' y' → Adj Connectivity.CONN8 x y x' y' →
        min ((fun _ => 7 : Int → Nat) (cellAddr 2 x' y'))
          (max (r (cellAddr 2 x y)) (r (cellAddr 2 x' y'))) = r (cellAddr 2 x' y') :=
  ⟨Or.inl ⟨rfl, rfl⟩, by decide, by decide,
    C2_result_is_fixpoint max min (Or.inl ⟨rfl, rfl⟩) Connectivity.CONN8 2 2 (by decide)
      (by decide) 2 (by decide) (fun i => if i = 0 then 5 else 0) (fun _ => 7)⟩

/-! ## Idempotence, monotonicity, termination, degenerate shapes, layout -/

/-- A reconstruction is its own reconstruction. -/
theorem IsRecon.ofSelf {w h : Nat} {adj : Int → Int → Int → Int → Prop}
    {S0 M R : Int → Int → α} (hR : IsRecon w h adj S0 M R) : IsRecon w h adj R M R where
  clamped := hR.clamped
  above x y _ := min_le_left _ _
  stable := hR.stable
  sound f hf x y hc := by
    have := hf.1 x y hc
    rwa [min_eq_left (hR.clamped x y hc)] at this

omit [LinearOrder α] in
/-- Two buffers that agree on the grid and outside of it are equal. -/
theorem buf_ext {w h : Nat} {ss : Int} {r r' : Int → α}
    (hin : ∀ x y, InGrid w h x y → r (cellAddr ss x y) = r' (cellAddr ss x y))
    (hout : ∀ a, (∀ x y, InGrid w h x y → a ≠ cellAddr ss x y) → r a = r' a) : r = r' := by
  funext a
  by_cases h : ∃ x y, InGrid w h x y ∧ a = cellAddr ss x y
  · obtain ⟨x, y, hc, rfl⟩ := h
    exact hin x y hc
  · exact hout a (fun x y hc he => h ⟨x, y, hc, he⟩)

theorem c5_maxmin (inst : DecidableEq α) (conn : Connectivity) (w h : Nat) (hw : 0 < w)
    (hh : 0 < h) (stride : Int) (hs : (w : Int) ≤ stride) (seed mask : Int → α) :
    ∃ n r, @seedFillGenericInPlace α inst n max min conn seed stride ⟨w, h⟩ mask stride =
        some r ∧
      ∃ n', @seedFillGenericInPlace α inst n' max min conn r stride ⟨w, h⟩ mask stride =
        some r := by
  obtain ⟨n, r, hr, hrec, _⟩ :=
    fill_recon inst conn w h hw hh stride stride hs hs (fun _ => rfl) seed mask
  obtain ⟨n', r', hr', hrec', hfr'⟩ :=
    fill_recon inst conn w h hw hh stride stride hs hs (fun _ => rfl) r mask
  have heq : r' = r :=
    buf_ext (fun x y hc => hrec'.unique hrec.ofSelf x y hc) hfr'
  exact ⟨n, r, hr, n', heq ▸ hr'⟩

/-- Claim C5.  `seedFillGenericInPlace` is idempotent: on a non-empty grid (common stride,
`max`/`min` or `min`/`max` in a linear order, four or eight neighbours) the call returns a
buffer `r`, and a second call on `r` with the same mask, operators and connectivity returns
`r` again. -/
theorem C5_idempotent (spread_op mask_op : α → α → α)
    (hop : IsOpPair spread_op mask_op) (conn : Connectivity) (w h : Nat) (hw : 0 < w)
    (hh : 0 < h) (stride : Int) (hs : (w : Int) ≤ stride) (seed mask : Int → α) :
    ∃ n r, seedFillGenericInPlace n spread_op mask_op conn seed stride ⟨w, h⟩ mask stride =
        some r ∧
      ∃ n', seedFillGenericInPlace n' spread_op mask_op conn r stride ⟨w, h⟩ mask stride =
        some r := by
  rcases hop with ⟨rfl, rfl⟩ | ⟨rfl, rfl⟩
  · exact c5_maxmin _ conn w h hw hh stride hs seed mask
  · exact c5_maxmin (α := αᵒᵈ) (fun a b => instDecidableEq_mathlib (α := α) a b)
      conn w h hw hh stride hs seed mask

/-- Witness for C5: erosion on a `3 × 2` grid of naturals stored with stride four.  The
first call changes the grid, from `3` in the first cell and `9` elsewhere to `6` in every
cell; the second call is run on that result. -/
theorem C5_idempotent_witness :
    IsOpPair (min : Nat → Nat → Nat) max ∧ 0 < 3 ∧ 0 < 2 ∧ ((3 : Nat) : Int) ≤ 4 ∧
    (seedFillGenericInPlace 1 (min : Nat → Nat → Nat) max Connectivity.CONN4
        (fun i => if i = 0 then 3 else 9) 4 ⟨(3 : Nat), (2 : Nat)⟩
        (fun i => if i = 5 then 2 else 6) 4).map
          (fun r => [r 0, r 1, r 2, r 4, r 5, r 6]) = some [6, 6, 6, 6, 6, 6] ∧
    ∃ n r, seedFillGenericInPlace n (min : Nat → Nat → Nat) max Connectivity.CONN4
        (fun i => if i = 0 then 3 else 9) 4 ⟨(3 : Nat), (2 : Nat)⟩
        (fun i => if i = 5 then 2 else 6) 4 = some r ∧
      ∃ n', seedFillGenericInPlace n' (min : Nat → Nat → Nat) max Connectivity.CONN4
        r 4 ⟨(3 : Nat), (2 : Nat)⟩ (fun i => if i = 5 then 2 else 6) 4 = some r :=
  ⟨Or.inr ⟨rfl, rfl⟩, by decide, by decide, by decide, by with_unfolding_all rfl,
    C5_idempotent min max (Or.inr ⟨rfl, rfl⟩) Connectivity.CONN4 3 2 (by decide)
      (by decide) 4 (by decide) (fun i => if i = 0 then 3 else 9)
      (fun i => if i = 5 then 2 else 6)⟩

theorem c6_maxmin (inst : DecidableEq α) (conn : Connectivity) (w h : Nat) (hw : 0 < w)
    (hh : 0 < h) (stride : Int) (hs : (w : Int) ≤ stride) (seed m m' : Int → α)
    (hm : ∀ x y, InGrid w h x y → m (cellAddr stride x y) ≤ m' (cellAddr stride x y)) :
    ∃ n r n' r',
      @seedFillGenericInPlace α inst n max min conn seed stride ⟨w, h⟩ m stride = some r ∧
      @seedFillGenericInPlace α inst n' max min conn seed stride ⟨w, h⟩ m' stride = some r' ∧
      ∀ x y, InGrid w h x y → r (cellAddr stride x y) ≤ r' (cellAddr stride x y) := by
  obtain ⟨n, r, hr, hrec, _⟩ :=
    fill_recon inst conn w h hw hh stride stride hs hs (fun _ => rfl) seed m
  obtain ⟨n', r', hr', hrec', _⟩ :=
    fill_recon inst conn w h hw hh stride stride hs hs (fun _ => rfl) seed m'
  refine ⟨n, r, n', r', hr, hr', fun x y hc => ?_⟩
  refine hrec.sound (view r' stride) ⟨fun x y hc => ?_, fun x y x' y' hc hc' ha => ?_⟩ x y hc
  · exact le_trans (min_le_min le_rfl (hm x y hc)) (hrec'.above x y hc)
  · exact le_trans (min_le_min (hm x' y' hc') le_rfl) (hrec'.stable x y x' y' hc hc' ha)

/-- Claim C6.  `seedFillGenericInPlace` is monotone in the mask.  With `max`/`min`: if
`m ≤ m'` at every cell then the result computed with `m` is `≤` the result computed with
`m'` at every cell.  With `min`/`max` the same holds for the reversed order: if `m ≥ m'` at
every cell then the result with `m` is `≥` the result with `m'`.  (Common stride, same
connectivity; both calls return.) -/
theorem C6_monotone_in_mask (conn : Connectivity) (w h : Nat) (hw : 0 < w)
    (hh : 0 < h) (stride : Int) (hs : (w : Int) ≤ stride) (seed m m' : Int → α) :
    ((∀ x y, InGrid w h x y → m (cellAddr stride x y) ≤ m' (cellAddr stride x y)) →
      ∃ n r n' r',
        seedFillGenericInPlace n max min conn seed stride ⟨w, h⟩ m stride = some r ∧
        seedFillGenericInPlace n' max min conn seed stride ⟨w, h⟩ m' stride = some r' ∧
        ∀ x y, InGrid w h x y → r (cellAddr stride x y) ≤ r' (cellAddr stride x y)) ∧
    ((∀ x y, InGrid w h x y → m' (cellAddr stride x y) ≤ m (cellAddr stride x y)) →
      ∃ n r n' r',
        seedFillGenericInPlace n min max conn seed stride ⟨w, h⟩ m stride = some r ∧
        seedFillGenericInPlace n' min max conn seed stride ⟨w, h⟩ m' stride = some r' ∧
        ∀ x y, InGrid w h x y → r' (cellAddr stride x y) ≤ r (cellAddr stride x y)) := by
  constructor
  · intro hm
    exact c6_maxmin _ conn w h hw hh stride hs seed m m' hm
  · intro hm
    exact c6_maxmin (α := αᵒᵈ) (fun a b => instDecidableEq_mathlib (α := α) a b)
      conn w h hw hh stride hs seed m m' hm

/-- Witness for C6: two masks on a `2 × 2` grid of naturals, `7 ≤ 8` everywhere. -/
theorem C6_monotone_in_mask_witness :
    0 < 2 ∧ ((2 : Nat) : Int) ≤ 2 ∧
    (∀ x y, InGrid 2 2 x y →
      (fun _ => 7 : Int → Nat) (cellAddr 2 x y) ≤ (fun _ => 8 : Int → Nat) (cellAddr 2 x y)) ∧
    ∃ n r n' r',
      seedFillGenericInPlace n (max : Nat → Nat → Nat) min Connectivity.CONN8
        (fun i => if i = 0 then 9 else 0) 2 ⟨(2 : Nat), (2 : Nat)⟩ (fun _ => 7) 2 = some r ∧
      seedFillGenericInPlace n' (max : Nat → Nat → Nat) min Connectivity.CONN8
        (fun i => if i = 0 then 9 else 0) 2 ⟨(2 : Nat), (2 : Nat)⟩ (fun _ => 8) 2 = some r' ∧
      ∀ x y, InGrid 2 2 x y → r (cellAddr 2 x y) ≤ r' (cellAddr 2 x y) :=
  ⟨by decide, by decide, fun _ _ _ => Nat.le_succ 7,
    (C6_monotone_in_mask Connectivity.CONN8 2 2 (by decide) (by decide) 2 (by decide)
      (fun i => if i = 0 then 9 else 0) (fun _ => 7) (fun _ => 8)).1
      (fun _ _ _ => Nat.le_succ 7)⟩

theorem push_strict_maxmin (inst : DecidableEq α) (mask : Int → α) (st : FillState α)
    (this_val : α) (nb nbm : Int) (pos : Position) (dx dy : Int)
    (hcl : min (mask nbm) (st.seed nb) = st.seed nb) :
    @processNeighbor α inst max min mask st this_val nb nbm pos dx dy = st ∨
    ((@processNeighbor α inst max min mask st this_val nb nbm pos dx dy).queue =
        st.queue ++ [⟨nb, nbm, pos.x + dx, pos.y + dy⟩] ∧
      (@processNeighbor α inst max min mask st this_val nb nbm pos dx dy).seed nb ≠ st.seed nb ∧
      max (st.seed nb) ((@processNeighbor α inst max min mask st this_val nb nbm pos dx dy).seed nb) =
        (@processNeighbor α inst max min mask st this_val nb nbm pos dx dy).seed nb ∧
      min (mask nbm) ((@processNeighbor α inst max min mask st this_val nb nbm pos dx dy).seed nb) =
        (@processNeighbor α inst max min mask st this_val nb nbm pos dx dy).seed nb) := by
  unfold processNeighbor
  by_cases hch : min (mask nbm) (max this_val (st.seed nb)) ≠ st.seed nb
  · right
    simp only [if_pos hch, Function.update_same]
    have hle : st.seed nb ≤ mask nbm := min_eq_right_iff.1 hcl
    exact ⟨trivial, hch, max_eq_right (le_min hle (le_max_right _ _)),
      min_eq_right (min_le_left _ _)⟩
  · left
    simp only [if_neg hch]

/-- Claim C7.  The algorithm halts: on every non-empty grid (common stride, `max`/`min` or
`min`/`max` in a linear order, four or eight neighbours) some fuel suffices for the
queue-draining loop, so the call returns.  The reason is recorded as well: when the
neighbour respects its mask bound, `processNeighbor` either leaves the state alone or pushes
exactly one work item after moving the neighbour strictly in the spread direction, not
beyond its mask bound. -/
theorem C7_terminates (spread_op mask_op : α → α → α)
    (hop : IsOpPair spread_op mask_op) (conn : Connectivity) (w h : Nat) (hw : 0 < w)
    (hh : 0 < h) (stride : Int) (hs : (w : Int) ≤ stride) (seed mask : Int → α) :
    (∃ n r, seedFillGenericInPlace n spread_op mask_op conn seed stride ⟨w, h⟩ mask stride =
      some r) ∧
    ∀ (st : FillState α) (this_val : α) (nb nbm : Int) (pos : Position) (dx dy : Int),
      mask_op (mask nbm) (st.seed nb) = st.seed nb →
      processNeighbor spread_op mask_op mask st this_val nb nbm pos dx dy = st ∨
      ((processNeighbor spread_op mask_op mask st this_val nb nbm pos dx dy).queue =
          st.queue ++ [⟨nb, nbm, pos.x + dx, pos.y + dy⟩] ∧
        (processNeighbor spread_op mask_op mask st this_val nb nbm pos dx dy).seed nb ≠
          st.seed nb ∧
        spread_op (st.seed nb)
            ((processNeighbor spread_op mask_op mask st this_val nb nbm pos dx dy).seed nb) =
          (processNeighbor spread_op mask_op mask st this_val nb nbm pos dx dy).seed nb ∧
        mask_op (mask nbm)
            ((processNeighbor spread_op mask_op mask st this_val nb nbm pos dx dy).seed nb) =
          (processNeighbor spread_op mask_op mask st this_val nb nbm pos dx dy).seed nb) := by
  rcases hop with ⟨rfl, rfl⟩ | ⟨rfl, rfl⟩
  · refine ⟨?_, fun st tv nb nbm pos dx dy hcl =>
      push_strict_maxmin _ mask st tv nb nbm pos dx dy hcl⟩
    obtain ⟨n, r, hr, _⟩ :=
      fill_recon _ conn w h hw hh stride stride hs hs (fun _ => rfl) seed mask
    exact ⟨n, r, hr⟩
  · refine ⟨?_, fun st tv nb nbm pos dx dy hcl =>
      push_strict_maxmin (α := αᵒᵈ) (fun a b => instDecidableEq_mathlib (α := α) a b)
        mask st tv nb nbm pos dx dy hcl⟩
    obtain ⟨n, r, hr, _⟩ :=
      fill_recon (α := αᵒᵈ) (fun a b => instDecidableEq_mathlib (α := α) a b)
        conn w h hw hh stride stride hs hs (fun _ => rfl) seed mask
    exact ⟨n, r, hr⟩

set_option maxRecDepth 8000 in
/-- Witness for C7: a `4 × 3` grid of naturals, eight neighbours, stride four, with the
seed `5` in the first cell of the last row and a mask that is `7` except for three cells
with `0`.  The backward scan leaves one work item in the queue, the queue-draining loop of
`spread8` pops five items (those pushed by `processNeighbor` included): the fuel `5` does
not suffice and the fuel `6` does. -/
theorem C7_terminates_witness :
    IsOpPair (max : Nat → Nat → Nat) min ∧ 0 < 4 ∧ 0 < 3 ∧ ((4 : Nat) : Int) ≤ 4 ∧
    (seedFill8Scan (max : Nat → Nat → Nat) min (fun i => if i = 8 then 5 else 0) 4 4 3
        (fun i => if i = 5 ∨ i = 6 ∨ i = 9 then 0 else 7) 4).queue.length = 1 ∧
    (seedFillGenericInPlace 5 (max : Nat → Nat → Nat) min Connectivity.CONN8
        (fun i => if i = 8 then 5 else 0) 4 ⟨(4 : Nat), (3 : Nat)⟩
        (fun i => if i = 5 ∨ i = 6 ∨ i = 9 then 0 else 7) 4).isSome = false ∧
    (seedFillGenericInPlace 6 (max : Nat → Nat → Nat) min Connectivity.CONN8
        (fun i => if i = 8 then 5 else 0) 4 ⟨(4 : Nat), (3 : Nat)⟩
        (fun i => if i = 5 ∨ i = 6 ∨ i = 9 then 0 else 7) 4).isSome = true ∧
    ∃ n r, seedFillGenericInPlace n (max : Nat → Nat → Nat) min Connectivity.CONN8
        (fun i => if i = 8 then 5 else 0) 4 ⟨(4 : Nat), (3 : Nat)⟩
        (fun i => if i = 5 ∨ i = 6 ∨ i = 9 then 0 else 7) 4 = some r :=
  ⟨Or.inl ⟨rfl, rfl⟩, by decide, by decide, by decide, by with_unfolding_all rfl,
    by with_unfolding_all rfl, by with_unfolding_all rfl,
    (C7_terminates max min (Or.inl ⟨rfl, rfl⟩) Connectivity.CONN8 4 3 (by decide)
      (by decide) 4 (by decide) (fun i => if i = 8 then 5 else 0)
      (fun i => if i = 5 ∨ i = 6 ∨ i = 9 then 0 else 7)).1⟩

/-- The reconstruction only depends on the neighbourhood relation inside the grid. -/
theorem IsRecon.congrAdj {w h : Nat} {adj adj' : Int → Int → Int → Int → Prop}
    {S0 M R : Int → Int → α} (hR : IsRecon w h adj S0 M R)
    (hadj : ∀ x y x' y', InGrid w h x y → InGrid w h x' y' → (adj' x y x' y' ↔ adj x y x' y')) :
    IsRecon w h adj' S0 M R where
  clamped := hR.clamped
  above := hR.above
  stable x y x' y' hc hc' ha := hR.stable x y x' y' hc hc' ((hadj x y x' y' hc hc').1 ha)
  sound f hf x y hc := by
    apply hR.sound f _ x y hc
    exact ⟨hf.1, fun x y x' y' hc hc' ha => hf.2 x y x' y' hc hc' ((hadj x y x' y' hc hc').2 ha)⟩

theorem c8_maxmin (inst : DecidableEq α) (w h : Nat) (hw : 0 < w) (hh : 0 < h)
    (hdeg : w = 1 ∨ h = 1) (stride : Int) (hs : (w : Int) ≤ stride) (seed mask : Int → α) :
    ∃ n r, @seedFillGenericInPlace α inst n max min Connectivity.CONN4 seed stride ⟨w, h⟩
        mask stride = some r ∧
      ∃ n', @seedFillGenericInPlace α inst n' max min Connectivity.CONN8 seed stride ⟨w, h⟩
        mask stride = some r := by
  obtain ⟨n, r, hr, hrec, hfr⟩ := fill_recon inst Connectivity.CONN4 w h hw hh stride stride
    hs hs (fun _ => rfl) seed mask
  obtain ⟨n', r', hr', hrec', hfr'⟩ := fill_recon inst Connectivity.CONN8 w h hw hh stride
    stride hs hs (fun _ => rfl) seed mask
  have h8 : IsRecon w h (Adj Connectivity.CONN4) (view seed stride) (view mask stride)
      (view r' stride) := by
    refine hrec'.congrAdj ?_
    intro x y x' y' hc hc'
    show Adj4 x y x' y' ↔ Adj8 x y x' y'
    unfold InGrid at hc hc'
    unfold Adj4 Adj8
    rcases hdeg with rfl | rfl
    · constructor <;> intro h <;> omega
    · constructor <;> intro h <;> omega
  have heq : r' = r :=
    buf_ext (fun x y hc => h8.unique hrec x y hc) (fun a ha => (hfr' a ha).trans (hfr a ha).symm)
  exact ⟨n, r, hr, n', heq ▸ hr'⟩

/-- Claim C8.  On degenerate shapes the two connectivities agree: for a grid with width one
or height one (common stride, `max`/`min` or `min`/`max`), the call with `CONN4` and the call
with `CONN8` return the same seed buffer. -/
theorem C8_degenerate_conn_agree (spread_op mask_op : α → α → α)
    (hop : IsOpPair spread_op mask_op) (w h : Nat) (hw : 0 < w) (hh : 0 < h)
    (hdeg : w = 1 ∨ h = 1) (stride : Int) (hs : (w : Int) ≤ stride) (seed mask : Int → α) :
    ∃ n r, seedFillGenericInPlace n spread_op mask_op Connectivity.CONN4 seed stride ⟨w, h⟩
        mask stride = some r ∧
      ∃ n', seedFillGenericInPlace n' spread_op mask_op Connectivity.CONN8 seed stride ⟨w, h⟩
        mask stride = some r := by
  rcases hop with ⟨rfl, rfl⟩ | ⟨rfl, rfl⟩
  · exact c8_maxmin _ w h hw hh hdeg stride hs seed mask
  · exact c8_maxmin (α := αᵒᵈ) (fun a b => instDecidableEq_mathlib (α := α) a b)
      w h hw hh hdeg stride hs seed mask

/-- Witness for C8: a column of four naturals stored with stride two. -/
theorem C8_degenerate_conn_agree_witness :
    IsOpPair (max : Nat → Nat → Nat) min ∧ 0 < 1 ∧ 0 < 4 ∧ ((1 : Nat) = 1 ∨ (4 : Nat) = 1) ∧
    ((1 : Nat) : Int) ≤ 2 ∧
    ∃ n r, seedFillGenericInPlace n (max : Nat → Nat → Nat) min Connectivity.CONN4
        (fun i => if i = 4 then 5 else 0) 2 ⟨(1 : Nat), (4 : Nat)⟩ (fun _ => 7) 2 = some r ∧
      ∃ n', seedFillGenericInPlace n' (max : Nat → Nat → Nat) min Connectivity.CONN8
        (fun i => if i = 4 then 5 else 0) 2 ⟨(1 : Nat), (4 : Nat)⟩ (fun _ => 7) 2 = some r :=
  ⟨Or.inl ⟨rfl, rfl⟩, by decide, by decide, Or.inl rfl, by decide,
    C8_degenerate_conn_agree max min (Or.inl ⟨rfl, rfl⟩) 1 4 (by decide) (by decide)
      (Or.inl rfl) 2 (by decide) (fun i => if i = 4 then 5 else 0) (fun _ => 7)⟩

theorem c10_maxmin (inst : DecidableEq α) (w h : Nat) (hw : 0 < w) (hh : 0 < h)
    (ss ms : Int) (hss : (w : Int) ≤ ss) (hms : (w : Int) ≤ ms)
    (seed mask seedD maskD : Int → α)
    (hS : ∀ x y, InGrid w h x y → seedD (cellAddr w x y) = seed (cellAddr ss x y))
    (hM : ∀ x y, InGrid w h x y → maskD (cellAddr w x y) = mask (cellAddr ms x y)) :
    ∃ n r n' r',
      @seedFillGenericInPlace α inst n max min Connectivity.CONN4 seed ss ⟨w, h⟩ mask ms =
        some r ∧
      @seedFillGenericInPlace α inst n' max min Connectivity.CONN4 seedD w ⟨w, h⟩ maskD w =
        some r' ∧
      ∀ x y, InGrid w h x y → r (cellAddr ss x y) = r' (cellAddr w x y) := by
  obtain ⟨n, r, hr, hrec, _⟩ := fill_recon inst Connectivity.CONN4 w h hw hh ss ms
    hss hms (fun hc => by cases hc) seed mask
  obtain ⟨n', r', hr', hrec', _⟩ := fill_recon inst Connectivity.CONN4 w h hw hh w w
    le_rfl le_rfl (fun _ => rfl) seedD maskD
  refine ⟨n, r, n', r', hr, hr', fun x y hc => ?_⟩
  exact hrec.unique (hrec'.congrData hS hM) x y hc

/-- Claim C10.  For four neighbours the result does not depend on the layout of the
buffers: if a seed and a mask grid are stored with strides `seed_stride ≥ w` and
`mask_stride ≥ w` (not necessarily equal, any padding content), and `seedD`, `maskD` hold the
same two grids densely (both strides `w`), then both calls return and leave the same
`w × h` grid in the seed. -/
theorem C10_layout_independent_conn4 (spread_op mask_op : α → α → α)
    (hop : IsOpPair spread_op mask_op) (w h : Nat) (hw : 0 < w) (hh : 0 < h)
    (seed_stride mask_stride : Int) (hss : (w : Int) ≤ seed_stride)
    (hms : (w : Int) ≤ mask_stride) (seed mask seedD maskD : Int → α)
    (hS : ∀ x y, InGrid w h x y → seedD (cellAddr w x y) = seed (cellAddr seed_stride x y))
    (hM : ∀ x y, InGrid w h x y → maskD (cellAddr w x y) = mask (cellAddr mask_stride x y)) :
    ∃ n r n' r',
      seedFillGenericInPlace n spread_op mask_op Connectivity.CONN4 seed seed_stride ⟨w, h⟩
        mask mask_stride = some r ∧
      seedFillGenericInPlace n' spread_op mask_op Connectivity.CONN4 seedD w ⟨w, h⟩ maskD w =
        some r' ∧
      ∀ x y, InGrid w h x y → r (cellAddr seed_stride x y) = r' (cellAddr w x y) := by
  rcases hop with ⟨rfl, rfl⟩ | ⟨rfl, rfl⟩
  · exact c10_maxmin _ w h hw hh seed_stride mask_stride hss hms seed mask seedD maskD hS hM
  · exact c10_maxmin (α := αᵒᵈ) (fun a b => instDecidableEq_mathlib (α := α) a b)
      w h hw hh seed_stride mask_stride hss hms seed mask seedD maskD hS hM

/-- Witness for C10: a `2 × 2` grid of naturals stored with strides three and four. -/
theorem C10_layout_independent_conn4_witness :
    IsOpPair (max : Nat → Nat → Nat) min ∧ 0 < 2 ∧ ((2 : Nat) : Int) ≤ 3 ∧
    ((2 : Nat) : Int) ≤ 4 ∧
    ∃ n r n' r',
      seedFillGenericInPlace n (max : Nat → Nat → Nat) min Connectivity.CONN4
        (fun i => if i = 4 then 9 else 0) 3 ⟨(2 : Nat), (2 : Nat)⟩ (fun _ => 5) 4 = some r ∧
      seedFillGenericInPlace n' (max : Nat → Nat → Nat) min Connectivity.CONN4
        (fun i => if i = 3 then 9 else 0) (2 : Nat) ⟨(2 : Nat), (2 : Nat)⟩ (fun _ => 5)
        (2 : Nat) = some r' ∧
      ∀ x y, InGrid 2 2 x y → r (cellAddr 3 x y) = r' (cellAddr (2 : Nat) x y) :=
  ⟨Or.inl ⟨rfl, rfl⟩, by decide, by decide, by decide,
    C10_layout_independent_conn4 max min (Or.inl ⟨rfl, rfl⟩) 2 2 (by decide) (by decide)
      3 4 (by decide) (by decide) (fun i => if i = 4 then 9 else 0) (fun _ => 5)
      (fun i => if i = 3 then 9 else 0) (fun _ => 5)
      (by
        intro x y hc
        unfold InGrid at hc
        have hx : x = 0 ∨ x = 1 := by omega
        have hy : y = 0 ∨ y = 1 := by omega
        rcases hx with rfl | rfl <;> rcases hy with rfl | rfl <;> simp [cellAddr])
      (fun _ _ _ => rfl)⟩

/-! ## Frame: nothing but the cells of the seed grid is written -/

section Frame

variable {β : Type} [DecidableEq β]

omit [DecidableEq β] in
theorem FrameOK.storeCell {w h : Nat} {ss : Int} {s0 buf : Int → β} (hf : FrameOK w h ss s0 buf)
    {x y : Int} (hc : InGrid w h x y) (v : β) :
    FrameOK w h ss s0 (Function.update buf (cellAddr ss x y) v) := by
  intro a ha
  rw [Function.update_noteq (ha x y hc)]
  exact hf a ha

theorem processNeighbor_frame {w h : Nat} {ss : Int} {s0 : Int → β}
    (spread_op mask_op : β → β → β) (maskBuf : Int → β) {st : FillState β}
    (hinv : FInv w h ss s0 st) (tv : β) (nb nbm : Int) (pos : Position) (dx dy : Int)
    (hq : InGrid w h (pos.x + dx) (pos.y + dy))
    (hn : nb = cellAddr ss (pos.x + dx) (pos.y + dy)) :
    FInv w h ss s0 (processNeighbor spread_op mask_op maskBuf st tv nb nbm pos dx dy) := by
  subst hn
  simp only [processNeighbor]
  split_ifs with hch
  · refine ⟨hinv.frame.storeCell hq _, fun p hp => ?_⟩
    simp only [List.mem_append, List.mem_singleton] at hp
    rcases hp with hp | rfl
    · exact hinv.q p hp
    · exact ⟨hq, rfl⟩
  · exact hinv

theorem spread4Body_frame {w h : Nat} {ss : Int} {s0 : Int → β}
    (spread_op mask_op : β → β → β) (maskBuf : Int → β) (ms : Int) {seed : Int → β}
    {pos : Position} {rest : List Position} (hinv : FInv w h ss s0 ⟨seed, pos :: rest⟩) :
    FInv w h ss s0 (spread4Body spread_op mask_op maskBuf (initHorTransitions w)
      (initVertTransitions h) ss ms pos ⟨seed, rest⟩) := by
  obtain ⟨hp, hps⟩ := hinv.q pos (List.mem_cons_self _ _)
  obtain ⟨hx0, hx1, hy0, hy1⟩ := id hp
  have a0 : FInv w h ss s0 ⟨seed, rest⟩ :=
    ⟨hinv.frame, fun p hpm => hinv.q p (List.mem_cons_of_mem _ hpm)⟩
  have a1 := processNeighbor_frame spread_op mask_op maskBuf a0 (seed pos.seed)
    (pos.seed + westD pos.x) (pos.mask + westD pos.x) pos (westD pos.x) 0
    (delta_inGrid hp (Or.inl rfl) (Or.inr (Or.inl rfl))) (by rw [hps]; unfold cellAddr; ring)
  have a2 := processNeighbor_frame spread_op mask_op maskBuf a1 (seed pos.seed)
    (pos.seed + eastD w pos.x) (pos.mask + eastD w pos.x) pos (eastD w pos.x) 0
    (delta_inGrid hp (Or.inr (Or.inr rfl)) (Or.inr (Or.inl rfl)))
    (by rw [hps]; unfold cellAddr; ring)
  have a3 := processNeighbor_frame spread_op mask_op maskBuf a2 (seed pos.seed)
    (pos.seed - -northD pos.y * ss) (pos.mask - -northD pos.y * ms) pos 0 (northD pos.y)
    (delta_inGrid hp (Or.inr (Or.inl rfl)) (Or.inl rfl)) (by rw [hps]; unfold cellAddr; ring)
  have a4 := processNeighbor_frame spread_op mask_op maskBuf a3 (seed pos.seed)
    (pos.seed + southD h pos.y * ss) (pos.mask + southD h pos.y * ms) pos 0 (southD h pos.y)
    (delta_inGrid hp (Or.inr (Or.inl rfl)) (Or.inr (Or.inr rfl)))
    (by rw [hps]; unfold cellAddr; ring)
  simp only [spread4Body, hAt_init w pos.x hx0 hx1, vAt_init h pos.y hy0 hy1,
    land_north, land_south, mul_one, mul_neg, neg_neg]
  exact a4

theorem spread8Body_frame {w h : Nat} {ss : Int} {s0 : Int → β}
    (spread_op mask_op : β → β → β) (maskBuf : Int → β) (ms : Int) {seed : Int → β}
    {pos : Position} {rest : List Position} (hinv : FInv w h ss s0 ⟨seed, pos :: rest⟩) :
    FInv w h ss s0 (spread8Body spread_op mask_op maskBuf (initHorTransitions w)
      (initVertTransitions h) ss ms pos ⟨seed, rest⟩) := by
  obtain ⟨hp, hps⟩ := hinv.q pos (List.mem_cons_self _ _)
  obtain ⟨hx0, hx1, hy0, hy1⟩ := id hp
  have a0 : FInv w h ss s0 ⟨seed, rest⟩ :=
    ⟨hinv.frame, fun p hpm => hinv.q p (List.mem_cons_of_mem _ hpm)⟩
  have a1 := processNeighbor_frame spread_op mask_op maskBuf a0 (seed pos.seed)
    (pos.seed - -northD pos.y * ss) (pos.mask - -northD pos.y * ms) pos 0 (northD pos.y)
    (delta_inGrid hp (Or.inr (Or.inl rfl)) (Or.inl rfl)) (by rw [hps]; unfold cellAddr; ring)
  have a2 := processNeighbor_frame spread_op mask_op maskBuf a1 (seed pos.seed)
    (pos.seed - -northD pos.y * ss + westD pos.x) (pos.mask - -northD pos.y * ms + westD pos.x)
    pos (westD pos.x) (northD pos.y)
    (delta_inGrid hp (Or.inl rfl) (Or.inl rfl)) (by rw [hps]; unfold cellAddr; ring)
  have a3 := processNeighbor_frame spread_op mask_op maskBuf a2 (seed pos.seed)
    (pos.seed - -northD pos.y * ss + eastD w pos.x)
    (pos.mask - -northD pos.y * ms + eastD w pos.x) pos (eastD w pos.x) (northD pos.y)
    (delta_inGrid hp (Or.inr (Or.inr rfl)) (Or.inl rfl)) (by rw [hps]; unfold cellAddr; ring)
  have a4 := processNeighbor_frame spread_op mask_op maskBuf a3 (seed pos.seed)
    (pos.seed + eastD w pos.x) (pos.mask + eastD w pos.x) pos (eastD w pos.x) 0
    (delta_inGrid hp (Or.inr (Or.inr rfl)) (Or.inr (Or.inl rfl)))
    (by rw [hps]; unfold cellAddr; ring)
  have a5 := processNeighbor_frame spread_op mask_op maskBuf a4 (seed pos.seed)
    (pos.seed + westD pos.x) (pos.mask + westD pos.x) pos (westD pos.x) 0
    (delta_inGrid hp (Or.inl rfl) (Or.inr (Or.inl rfl))) (by rw [hps]; unfold cellAddr; ring)
  have a6 := processNeighbor_frame spread_op mask_op maskBuf a5 (seed pos.seed)
    (pos.seed + southD h pos.y * ss) (pos.mask + southD h pos.y * ms) pos 0 (southD h pos.y)
    (delta_inGrid hp (Or.inr (Or.inl rfl)) (Or.inr (Or.inr rfl)))
    (by rw [hps]; unfold cellAddr; ring)
  have a7 := processNeighbor_frame spread_op mask_op maskBuf a6 (seed pos.seed)
    (pos.seed + southD h pos.y * ss + eastD w pos.x)
    (pos.mask + southD h pos.y * ms + eastD w pos.x) pos (eastD w pos.x) (southD h pos.y)
    (delta_inGrid hp (Or.inr (Or.inr rfl)) (Or.inr (Or.inr rfl)))
    (by rw [hps]; unfold cellAddr; ring)
  have a8 := processNeighbor_frame spread_op mask_op maskBuf a7 (seed pos.seed)
    (pos.seed + southD h pos.y * ss + westD pos.x)
    (pos.mask + southD h pos.y * ss + westD pos.x) pos (westD pos.x) (southD h pos.y)
    (delta_inGrid hp (Or.inl rfl) (Or.inr (Or.inr rfl))) (by rw [hps]; unfold cellAddr; ring)
  simp only [spread8Body, hAt_init w pos.x hx0 hx1, vAt_init h pos.y hy0 hy1,
    land_north, land_south, mul_one, mul_neg, neg_neg]
  exact a8

theorem spread4_frame {w h : Nat} {ss : Int} {s0 : Int → β}
    (spread_op mask_op : β → β → β) (maskBuf : Int → β) (ms : Int) :
    ∀ (n : Nat) (st : FillState β) (r : Int → β), FInv w h ss s0 st →
      spread4 spread_op mask_op maskBuf (initHorTransitions w) (initVertTransitions h)
        ss ms n st = some r → FrameOK w h ss s0 r := by
  intro n
  induction n with
  | zero => intro st r _ hr; simp [spread4] at hr
  | succ n ih =>
    intro st r hinv hr
    obtain ⟨seed, queue⟩ := st
    cases queue with
    | nil =>
      simp only [spread4, Option.some.injEq] at hr
      exact hr ▸ hinv.frame
    | cons pos rest =>
      simp only [spread4] at hr
      exact ih _ r (spread4Body_frame spread_op mask_op maskBuf ms hinv) hr

theorem spread8_frame {w h : Nat} {ss : Int} {s0 : Int → β}
    (spread_op mask_op : β → β → β) (maskBuf : Int → β) (ms : Int) :
    ∀ (n : Nat) (st : FillState β) (r : Int → β), FInv w h ss s0 st →
      spread8 spread_op mask_op maskBuf (initHorTransitions w) (initVertTransitions h)
        ss ms n st = some r → FrameOK w h ss s0 r := by
  intro n
  induction n with
  | zero => intro st r _ hr; simp [spread8] at hr
  | succ n ih =>
    intro st r hinv hr
    obtain ⟨seed, queue⟩ := st
    cases queue with
    | nil =>
      simp only [spread8, Option.some.injEq] at hr
      exact hr ▸ hinv.frame
    | cons pos rest =>
      simp only [spread8] at hr
      exact ih _ r (spread8Body_frame spread_op mask_op maskBuf ms hinv) hr

omit [DecidableEq β] in
theorem fwdRow4_frame {w h : Nat} {ss : Int} {s0 : Int → β}
    (spread_op mask_op : β → β → β) (maskBuf : Int → β) (ml pl : Int) {y : Int}
    (hy0 : 0 ≤ y) (hy1 : y < h) :
    ∀ (n x : Nat) (prev : β) (buf : Int → β), x + n ≤ w → FrameOK w h ss s0 buf →
      FrameOK w h ss s0
        (fwdRow4 spread_op mask_op maskBuf (cellAddr ss 0 y) ml pl n x prev buf) := by
  intro n
  induction n with
  | zero => intro x prev buf _ hf; exact hf
  | succ n ih =>
    intro x prev buf hx hf
    have hc : InGrid w h x y := by unfold InGrid; omega
    simp only [fwdRow4, cellAddr_col]
    exact ih (x + 1) _ _ (by omega) (hf.storeCell hc _)

omit [DecidableEq β] in
theorem fwdRows4_frame {w h : Nat} {ss : Int} {s0 : Int → β}
    (spread_op mask_op : β → β → β) (maskBuf : Int → β) (ms : Int) (hw : 0 < w) :
    ∀ (n y : Nat) (ml pl : Int) (buf : Int → β), y + n ≤ h → FrameOK w h ss s0 buf →
      FrameOK w h ss s0
        (fwdRows4 spread_op mask_op maskBuf ss ms w n (cellAddr ss 0 y) ml pl buf).1 ∧
      (fwdRows4 spread_op mask_op maskBuf ss ms w n (cellAddr ss 0 y) ml pl buf).2.1 =
        cellAddr ss 0 ((y : Int) + n) := by
  intro n
  induction n with
  | zero => intro y ml pl buf _ hf; exact ⟨hf, by simp [fwdRows4]⟩
  | succ n ih =>
    intro y ml pl buf hy hf
    have hc : InGrid w h 0 y := by unfold InGrid; omega
    have h1 := hf.storeCell hc
      (mask_op (maskBuf ml) (spread_op (buf (cellAddr ss 0 y)) (buf pl)))
    have h2 := fwdRow4_frame spread_op mask_op maskBuf ml pl (Int.natCast_nonneg y)
      (by omega : (y : Int) < h) (w - 1) 1
      (mask_op (maskBuf ml) (spread_op (buf (cellAddr ss 0 y)) (buf pl))) _
      (by omega) h1
    have hcast : (y : Int) + 1 = ((y + 1 : Nat) : Int) := by push_cast; ring
    have h3 := ih (y + 1) (ml + ms) (cellAddr ss 0 y) _ (by omega) h2
    simp only [fwdRows4, add_zero, cellAddr_row, hcast]
    refine ⟨h3.1, ?_⟩
    rw [h3.2]
    congr 1
    push_cast
    ring

theorem scanCell4_frame {w h : Nat} {ss : Int} {s0 : Int → β}
    (spread_op mask_op : β → β → β) (maskBuf : Int → β) (ms ml : Int) {x y : Int}
    (hc : InGrid w h x y) {st : FillState β} (hinv : FInv w h ss s0 st) :
    FInv w h ss s0
      (scanCell4 spread_op mask_op maskBuf (initHorTransitions w)
        ⟨if y = 0 then 0 else -1, if y + 1 = h then 0 else -1⟩
        ss ms (cellAddr ss 0 y) ml x y st) := by
  obtain ⟨hx0, hx1, hy0, hy1⟩ := id hc
  simp only [scanCell4, hAt_init w x hx0 hx1, land_south, mul_one, cellAddr_col]
  split_ifs with heq
  · exact hinv
  · have a0 : FInv w h ss s0 ⟨Function.update st.seed (cellAddr ss x y)
        (mask_op (maskBuf (ml + x))
          (spread_op (st.seed (cellAddr ss x y))
            (spread_op (st.seed (cellAddr ss x y + eastD w x))
              (st.seed (cellAddr ss x y + southD h y * ss))))), st.queue⟩ :=
      ⟨hinv.frame.storeCell hc _, hinv.q⟩
    have a1 := processNeighbor_frame spread_op mask_op maskBuf a0
      (mask_op (maskBuf (ml + x))
        (spread_op (st.seed (cellAddr ss x y))
          (spread_op (st.seed (cellAddr ss x y + eastD w x))
            (st.seed (cellAddr ss x y + southD h y * ss)))))
      (cellAddr ss x y + eastD w x) (ml + x + eastD w x)
      ⟨cellAddr ss x y, ml + x, x, y⟩ (eastD w x) 0
      (delta_inGrid hc (Or.inr (Or.inr rfl)) (Or.inr (Or.inl rfl)))
      (by unfold cellAddr; ring)
    exact processNeighbor_frame spread_op mask_op maskBuf a1 _
      (cellAddr ss x y + southD h y * ss) (ml + x + southD h y * ms)
      ⟨cellAddr ss x y, ml + x, x, y⟩ 0 (southD h y)
      (delta_inGrid hc (Or.inr (Or.inl rfl)) (Or.inr (Or.inr rfl)))
      (by unfold cellAddr; ring)

theorem scanRow4_frame {w h : Nat} {ss : Int} {s0 : Int → β}
    (spread_op mask_op : β → β → β) (maskBuf : Int → β) (ms ml : Int) {y : Int}
    (hy0 : 0 ≤ y) (hy1 : y < h) :
    ∀ (n : Nat) (st : FillState β), n ≤ w → FInv w h ss s0 st →
      FInv w h ss s0
        (scanRow4 spread_op mask_op maskBuf (initHorTransitions w)
          ⟨if y = 0 then 0 else -1, if y + 1 = h then 0 else -1⟩
          ss ms (cellAddr ss 0 y) ml y n st) := by
  intro n
  induction n with
  | zero => intro st _ hinv; exact hinv
  | succ n ih =>
    intro st hn hinv
    have hc : InGrid w h n y := by unfold InGrid; omega
    exact ih _ (by omega) (scanCell4_frame spread_op mask_op maskBuf ms ml hc hinv)

theorem scanRows4_frame {w h : Nat} {ss : Int} {s0 : Int → β}
    (spread_op mask_op : β → β → β) (maskBuf : Int → β) (ms : Int) :
    ∀ (n : Nat) (ml : Int) (st : FillState β), n ≤ h → FInv w h ss s0 st →
      FInv w h ss s0
        (scanRows4 spread_op mask_op maskBuf (initHorTransitions w) (initVertTransitions h)
          ss ms w n (cellAddr ss 0 ((n : Int) - 1)) ml st) := by
  intro n
  induction n with
  | zero => intro ml st _ hinv; exact hinv
  | succ n ih =>
    intro ml st hn hinv
    have hcast : ((n + 1 : Nat) : Int) - 1 = (n : Int) := by push_cast; ring
    rw [hcast]
    have hrow := scanRow4_frame spread_op mask_op maskBuf ms ml (Int.natCast_nonneg n)
      (by omega : (n : Int) < h) w st le_rfl hinv
    have := ih (ml - ms) _ (by omega) hrow
    simp only [scanRows4, vAt_init h n (Int.natCast_nonneg n) (by omega), cellAddr_row_sub]
    exact this

theorem seedFill4_frame {w h : Nat} {ss : Int} (spread_op mask_op : β → β → β)
    (s0 maskBuf : Int → β) (ms : Int) (hw : 0 < w) (n : Nat) (r : Int → β)
    (hr : seedFill4 n spread_op mask_op s0 ss w h maskBuf ms = some r) :
    FrameOK w h ss s0 r := by
  have h0 := fwdRows4_frame spread_op mask_op maskBuf ms hw h 0 0 0 s0 (by omega)
    (fun _ _ => rfl : FrameOK w h ss s0 s0)
  simp only [Nat.cast_zero, cellAddr_zero, zero_add] at h0
  obtain ⟨hf, h1⟩ := h0
  have hscan := scanRows4_frame spread_op mask_op maskBuf ms h
    ((fwdRows4 spread_op mask_op maskBuf ss ms w h 0 0 0 s0).2.2 - ms)
    ⟨(fwdRows4 spread_op mask_op maskBuf ss ms w h 0 0 0 s0).1, []⟩ le_rfl
    ⟨hf, fun _ hp => by simp at hp⟩
  refine spread4_frame spread_op mask_op maskBuf ms n _ r ?_ hr
  unfold seedFill4Scan
  simp only [h1, cellAddr_row_sub]
  exact hscan

omit [DecidableEq β] in
theorem fwdFirstRow8_frame {w h : Nat} {ss : Int} {s0 : Int → β}
    (spread_op mask_op : β → β → β) (maskBuf : Int → β) (ml : Int) (hh : 0 < h) :
    ∀ (n x : Nat) (buf : Int → β), x + n ≤ w → FrameOK w h ss s0 buf →
      FrameOK w h ss s0
        (fwdFirstRow8 spread_op mask_op maskBuf (cellAddr ss 0 0) ml n x buf) := by
  intro n
  induction n with
  | zero => intro x buf _ hf; exact hf
  | succ n ih =>
    intro x buf hx hf
    have hc : InGrid w h x 0 := by unfold InGrid; omega
    simp only [fwdFirstRow8, cellAddr_col]
    exact ih (x + 1) _ (by omega) (hf.storeCell hc _)

omit [DecidableEq β] in
theorem fwdMid8_frame {w h : Nat} {ss : Int} {s0 : Int → β}
    (spread_op mask_op : β → β → β) (maskBuf : Int → β) (ml pl : Int) {y : Int}
    (hy0 : 0 ≤ y) (hy1 : y < h) :
    ∀ (n x : Nat) (buf : Int → β), x + n ≤ w → FrameOK w h ss s0 buf →
      FrameOK w h ss s0
        (fwdMid8 spread_op mask_op maskBuf (cellAddr ss 0 y) ml pl n x buf).1 ∧
      (fwdMid8 spread_op mask_op maskBuf (cellAddr ss 0 y) ml pl n x buf).2 = x + n := by
  intro n
  induction n with
  | zero => intro x buf _ hf; exact ⟨hf, rfl⟩
  | succ n ih =>
    intro x buf hx hf
    have hc : InGrid w h x y := by unfold InGrid; omega
    simp only [fwdMid8, cellAddr_col]
    have := ih (x + 1) _ (by omega) (hf.storeCell hc
      (mask_op (maskBuf (ml + x))
        (spread_op
          (spread_op
            (spread_op (buf (cellAddr ss x y)) (buf (cellAddr ss ((x : Int) - 1) y)))
            (spread_op (buf (pl + x)) (buf (pl + ((x : Int) - 1)))))
          (buf (pl + ((x : Int) + 1))))))
    exact ⟨this.1, by rw [this.2]; omega⟩

omit [DecidableEq β] in
theorem fwdRows8_frame {w h : Nat} {ss : Int} {s0 : Int → β}
    (spread_op mask_op : β → β → β) (maskBuf : Int → β) (ms : Int) (hw : 2 ≤ w) :
    ∀ (n y : Nat) (ml pl : Int) (buf : Int → β), y + n < h → FrameOK w h ss s0 buf →
      FrameOK w h ss s0
        (fwdRows8 spread_op mask_op maskBuf ss ms w n (cellAddr ss 0 y) ml pl buf).1 ∧
      (fwdRows8 spread_op mask_op maskBuf ss ms w n (cellAddr ss 0 y) ml pl buf).2.1 =
        cellAddr ss 0 ((y : Int) + n) := by
  intro n
  induction n with
  | zero => intro y ml pl buf _ hf; exact ⟨hf, by simp [fwdRows8]⟩
  | succ n ih =>
    intro y ml pl buf hy hf
    have hcast : (y : Int) + 1 = ((y + 1 : Nat) : Int) := by push_cast; ring
    have hc : InGrid w h 0 ((y + 1 : Nat) : Int) := by unfold InGrid; omega
    have h1 := hf.storeCell hc
      (mask_op (maskBuf (ml + ms))
        (spread_op (buf (cellAddr ss 0 ((y + 1 : Nat) : Int)))
          (spread_op (buf pl) (buf (pl + 1)))))
    obtain ⟨h2, h2x⟩ := fwdMid8_frame spread_op mask_op maskBuf (ml + ms) pl
      (Int.natCast_nonneg (y + 1)) (by omega : ((y + 1 : Nat) : Int) < h) (w - 2) 1 _
      (by omega) h1
    have hx : (1 : Nat) + (w - 2) = w - 1 := by omega
    rw [hx] at h2x
    have hcl : InGrid w h (((w - 1 : Nat)) : Int) ((y + 1 : Nat) : Int) := by
      unfold InGrid; omega
    have h3 := h2.storeCell hcl
    have e : (y : Int) + ((n + 1 : Nat) : Int) = ((y + 1 : Nat) : Int) + n := by
      push_cast; ring
    simp only [fwdRows8, add_zero, zero_add, cellAddr_row, hcast, cellAddr_col, h2x]
    rw [e]
    exact ih (y + 1) _ _ _ (by omega) (h3 _)

theorem scanCell8_frame {w h : Nat} {ss : Int} {s0 : Int → β}
    (spread_op mask_op : β → β → β) (maskBuf : Int → β) (ms ml : Int) {x y : Int}
    (hc : InGrid w h x y) {st : FillState β} (hinv : FInv w h ss s0 st) :
    FInv w h ss s0
      (scanCell8 spread_op mask_op maskBuf (initHorTransitions w)
        ⟨if y = 0 then 0 else -1, if y + 1 = h then 0 else -1⟩
        ss ms (cellAddr ss 0 y) ml x y st) := by
  obtain ⟨hx0, hx1, hy0, hy1⟩ := id hc
  simp only [scanCell8, hAt_init w x hx0 hx1, land_south, mul_one, cellAddr_col]
  split_ifs with heq
  · exact hinv
  · have a0 : FInv w h ss s0 ⟨Function.update st.seed (cellAddr ss x y)
        (mask_op (maskBuf (ml + x))
          (spread_op (st.seed (cellAddr ss x y))
            (spread_op
              (spread_op (st.seed (cellAddr ss x y + eastD w x))
                (st.seed (cellAddr ss x y + southD h y * ss + eastD w x)))
              (spread_op (st.seed (cellAddr ss x y + southD h y * ss))
                (st.seed (cellAddr ss x y + southD h y * ss + westD x)))))), st.queue⟩ :=
      ⟨hinv.frame.storeCell hc _, hinv.q⟩
    have a1 := processNeighbor_frame spread_op mask_op maskBuf a0
      (mask_op (maskBuf (ml + x))
        (spread_op (st.seed (cellAddr ss x y))
          (spread_op
            (spread_op (st.seed (cellAddr ss x y + eastD w x))
              (st.seed (cellAddr ss x y + southD h y * ss + eastD w x)))
            (spread_op (st.seed (cellAddr ss x y + southD h y * ss))
              (st.seed (cellAddr ss x y + southD h y * ss + westD x))))))
      (cellAddr ss x y + eastD w x) (ml + x + eastD w x)
      ⟨cellAddr ss x y, ml + x, x, y⟩ (eastD w x) 0
      (delta_inGrid hc (Or.inr (Or.inr rfl)) (Or.inr (Or.inl rfl)))
      (by unfold cellAddr; ring)
    have a2 := processNeighbor_frame spread_op mask_op maskBuf a1
      (mask_op (maskBuf (ml + x))
        (spread_op (st.seed (cellAddr ss x y))
          (spread_op
            (spread_op (st.seed (cellAddr ss x y + eastD w x))
              (st.seed (cellAddr ss x y + southD h y * ss + eastD w x)))
            (spread_op (st.seed (cellAddr ss x y + southD h y * ss))
              (st.seed (cellAddr ss x y + southD h y * ss + westD x))))))
      (cellAddr ss x y + southD h y * ss + eastD w x) (ml + x + southD h y * ms + eastD w x)
      ⟨cellAddr ss x y, ml + x, x, y⟩ (eastD w x) (southD h y)
      (delta_inGrid hc (Or.inr (Or.inr rfl)) (Or.inr (Or.inr rfl)))
      (by unfold cellAddr; ring)
    have a3 := processNeighbor_frame spread_op mask_op maskBuf a2
      (mask_op (maskBuf (ml + x))
        (spread_op (st.seed (cellAddr ss x y))
          (spread_op
            (spread_op (st.seed (cellAddr ss x y + eastD w x))
              (st.seed (cellAddr ss x y + southD h y * ss + eastD w x)))
            (spread_op (st.seed (cellAddr ss x y + southD h y * ss))
              (st.seed (cellAddr ss x y + southD h y * ss + westD x))))))
      (cellAddr ss x y + southD h y * ss) (ml + x + southD h y * ms)
      ⟨cellAddr ss x y, ml + x, x, y⟩ 0 (southD h y)
      (delta_inGrid hc (Or.inr (Or.inl rfl)) (Or.inr (Or.inr rfl)))
      (by unfold cellAddr; ring)
    exact processNeighbor_frame spread_op mask_op maskBuf a3 _
      (cellAddr ss x y + southD h y * ss + westD x) (ml + x + southD h y * ms + westD x)
      ⟨cellAddr ss x y, ml + x, x, y⟩ (westD x) (southD h y)
      (delta_inGrid hc (Or.inl rfl) (Or.inr (Or.inr rfl)))
      (by unfold cellAddr; ring)

theorem scanRow8_frame {w h : Nat} {ss : Int} {s0 : Int → β}
    (spread_op mask_op : β → β → β) (maskBuf : Int → β) (ms ml : Int) {y : Int}
    (hy0 : 0 ≤ y) (hy1 : y < h) :
    ∀ (n : Nat) (st : FillState β), n ≤ w → FInv w h ss s0 st →
      FInv w h ss s0
        (scanRow8 spread_op mask_op maskBuf (initHorTransitions w)
          ⟨if y = 0 then 0 else -1, if y + 1 = h then 0 else -1⟩
          ss ms (cellAddr ss 0 y) ml y n st) := by
  intro n
  induction n with
  | zero => intro st _ hinv; exact hinv
  | succ n ih =>
    intro st hn hinv
    have hc : InGrid w h n y := by unfold InGrid; omega
    exact ih _ (by omega) (scanCell8_frame spread_op mask_op maskBuf ms ml hc hinv)

theorem scanRows8_frame {w h : Nat} {ss : Int} {s0 : Int → β}
    (spread_op mask_op : β → β → β) (maskBuf : Int → β) (ms : Int) :
    ∀ (n : Nat) (ml : Int) (st : FillState β), n ≤ h → FInv w h ss s0 st →
      FInv w h ss s0
        (scanRows8 spread_op mask_op maskBuf (initHorTransitions w) (initVertTransitions h)
          ss ms w n (cellAddr ss 0 ((n : Int) - 1)) ml st) := by
  intro n
  induction n with
  | zero => intro ml st _ hinv; exact hinv
  | succ n ih =>
    intro ml st hn hinv
    have hcast : ((n + 1 : Nat) : Int) - 1 = (n : Int) := by push_cast; ring
    rw [hcast]
    have hrow := scanRow8_frame spread_op mask_op maskBuf ms ml (Int.natCast_nonneg n)
      (by omega : (n : Int) < h) w st le_rfl hinv
    have := ih (ml - ms) _ (by omega) hrow
    simp only [scanRows8, vAt_init h n (Int.natCast_nonneg n) (by omega), cellAddr_row_sub]
    exact this

omit [DecidableEq β] in
theorem singleLineFwd_frame {w h : Nat} {ss : Int} {s0 : Int → β}
    (spread_op mask_op : β → β → β) (maskBuf : Int → β) (ls lm : Int) (len : Nat)
    (haddr : ∀ i : Int, 0 ≤ i → i < len → ∃ x y, InGrid w h x y ∧ i * ls = cellAddr ss x y) :
    ∀ (k : Nat) (i m : Int) (buf : Int → β), 0 ≤ i → i + k < len → FrameOK w h ss s0 buf →
      FrameOK w h ss s0 (singleLineFwd spread_op mask_op maskBuf ls lm k (i * ls) m buf).1 ∧
      (singleLineFwd spread_op mask_op maskBuf ls lm k (i * ls) m buf).2.1 = (i + k) * ls := by
  intro k
  induction k with
  | zero => intro i m buf _ _ hf; exact ⟨hf, by simp [singleLineFwd]⟩
  | succ k ih =>
    intro i m buf hi0 hi hf
    obtain ⟨x, y, hc, he⟩ := haddr (i + 1) (by omega) (by push_cast at hi; omega)
    have e1 : i * ls + ls = (i + 1) * ls := by ring
    simp only [singleLineFwd, e1]
    have := ih (i + 1) (m + lm) (Function.update buf ((i + 1) * ls)
      (mask_op (maskBuf (m + lm)) (spread_op (buf ((i + 1) * ls)) (buf ((i + 1) * ls - ls)))))
      (by omega) (by push_cast at hi ⊢; omega) (by rw [he]; exact hf.storeCell hc _)
    refine ⟨this.1, ?_⟩
    rw [this.2]
    push_cast
    ring

omit [DecidableEq β] in
theorem singleLineBwd_frame {w h : Nat} {ss : Int} {s0 : Int → β}
    (spread_op mask_op : β → β → β) (maskBuf : Int → β) (ls lm : Int) (len : Nat)
    (haddr : ∀ i : Int, 0 ≤ i → i < len → ∃ x y, InGrid w h x y ∧ i * ls = cellAddr ss x y) :
    ∀ (k : Nat) (i m : Int) (buf : Int → β), (k : Int) ≤ i → i < len → FrameOK w h ss s0 buf →
      FrameOK w h ss s0 (singleLineBwd spread_op mask_op maskBuf ls lm k (i * ls) m buf) := by
  intro k
  induction k with
  | zero => intro i m buf _ _ hf; exact hf
  | succ k ih =>
    intro i m buf hi0 hi hf
    obtain ⟨x, y, hc, he⟩ := haddr (i - 1) (by push_cast at hi0; omega) (by omega)
    have e1 : i * ls - ls = (i - 1) * ls := by ring
    simp only [singleLineBwd, e1]
    exact ih (i - 1) (m - lm) _ (by push_cast at hi0; omega) (by omega)
      (by rw [he]; exact hf.storeCell hc _)

omit [DecidableEq β] in
theorem seedFillSingleLine_frame {w h : Nat} {ss : Int} (spread_op mask_op : β → β → β)
    (s0 maskBuf : Int → β) (ls lm : Int) (len : Nat)
    (haddr : ∀ i : Int, 0 ≤ i → i < len → ∃ x y, InGrid w h x y ∧ i * ls = cellAddr ss x y) :
    FrameOK w h ss s0 (seedFillSingleLine spread_op mask_op len s0 ls maskBuf lm) := by
  unfold seedFillSingleLine
  split_ifs with h0
  · exact fun _ _ => rfl
  · obtain ⟨x, y, hc, he⟩ := haddr 0 le_rfl (by omega)
    have hf0 : FrameOK w h ss s0 (Function.update s0 0 (mask_op (s0 0) (maskBuf 0))) := by
      have : (0 : Int) = cellAddr ss x y := by rw [← he]; ring
      rw [this]
      exact FrameOK.storeCell (fun _ _ => rfl) hc _
    have h1 := singleLineFwd_frame spread_op mask_op maskBuf ls lm len haddr (len - 1) 0 0 _
      le_rfl (by omega) hf0
    simp only [zero_mul, zero_add] at h1
    obtain ⟨hf1, hp⟩ := h1
    simp only [hp]
    exact singleLineBwd_frame spread_op mask_op maskBuf ls lm len haddr (len - 1) _ _ _
      le_rfl (by omega) hf1

theorem seedFill8_frame {w h : Nat} {ss : Int} (spread_op mask_op : β → β → β)
    (s0 maskBuf : Int → β) (ms : Int) (hw : 0 < w) (hh : 0 < h) (n : Nat) (r : Int → β)
    (hr : seedFill8 n spread_op mask_op s0 ss w h maskBuf ms = some r) :
    FrameOK w h ss s0 r := by
  unfold seedFill8 at hr
  split_ifs at hr with h1 h2
  · simp only [Option.some.injEq] at hr
    rw [← hr]
    refine seedFillSingleLine_frame spread_op mask_op s0 maskBuf ss ms h ?_
    intro i hi0 hi1
    exact ⟨0, i, by unfold InGrid; omega, by unfold cellAddr; ring⟩
  · simp only [Option.some.injEq] at hr
    rw [← hr]
    refine seedFillSingleLine_frame spread_op mask_op s0 maskBuf 1 1 w ?_
    intro i hi0 hi1
    exact ⟨i, 0, by unfold InGrid; omega, by unfold cellAddr; ring⟩
  · have hc : InGrid w h 0 0 := by unfold InGrid; omega
    have hf0 : FrameOK w h ss s0 (Function.update s0 (cellAddr ss 0 0)
        (mask_op (s0 0) (maskBuf 0))) := FrameOK.storeCell (fun _ _ => rfl) hc _
    have hf1 := fwdFirstRow8_frame spread_op mask_op maskBuf 0 hh (w - 1) 1 _ (by omega) hf0
    have h3 := fwdRows8_frame spread_op mask_op maskBuf ms (by omega : 2 ≤ w) (h - 1) 0 0 0 _
      (by omega) hf1
    simp only [Nat.cast_zero, cellAddr_zero, zero_add] at h3
    obtain ⟨hf, hp⟩ := h3
    have hcast : (((h - 1 : Nat)) : Int) = (h : Int) - 1 := by omega
    rw [hcast] at hp
    have hscan := scanRows8_frame spread_op mask_op maskBuf ms h
      (fwdRows8 spread_op mask_op maskBuf ss ms w (h - 1) 0 0 0
        (fwdFirstRow8 spread_op mask_op maskBuf 0 0 (w - 1) 1
          (Function.update s0 0 (mask_op (s0 0) (maskBuf 0))))).2.2
      ⟨_, []⟩ le_rfl ⟨hf, fun _ hp => by simp at hp⟩
    refine spread8_frame spread_op mask_op maskBuf ms n _ r ?_ hr
    unfold seedFill8Scan
    simp only [add_zero, hp]
    exact hscan

/-- Claim C9.  Whenever `seedFillGenericInPlace` returns, every element of the seed buffer
that is not at an index `y * seed_stride + x` with `0 ≤ x < width`, `0 ≤ y < height` is
unchanged: for both connectivities, arbitrary operators, arbitrary contents and every pair of
strides (the two strides need not be equal, and nothing is assumed about them).  The mask is
reached through a pointer to constant data; in the model it is an argument that is never
written or returned, so every mask element is unchanged as well. -/
theorem C9_frame (spread_op mask_op : β → β → β) (conn : Connectivity) (seed mask : Int → β)
    (w h : Nat) (seed_stride mask_stride : Int) (n : Nat) (r : Int → β)
    (hr : seedFillGenericInPlace n spread_op mask_op conn seed seed_stride ⟨w, h⟩ mask
      mask_stride = some r) :
    ∀ a, (∀ x y, InGrid w h x y → a ≠ cellAddr seed_stride x y) → r a = seed a := by
  by_cases hw : 0 < w ∧ 0 < h
  · rw [seedFillGenericInPlace_nonempty _ _ _ _ _ _ _ _ hw.1 hw.2] at hr
    cases conn with
    | CONN4 => exact seedFill4_frame spread_op mask_op seed mask mask_stride hw.1 n r hr
    | CONN8 => exact seedFill8_frame spread_op mask_op seed mask mask_stride hw.1 hw.2 n r hr
  · have he : (QSize.mk (w : Int) (h : Int)).isEmpty = true := by
      have : (w : Int) < 1 ∨ (h : Int) < 1 := by omega
      rcases this with h1 | h1 <;> simp [QSize.isEmpty, h1]
    simp only [seedFillGenericInPlace, he, if_true, Option.some.injEq] at hr
    intro a _
    rw [hr]

/-- Witness for C9: a column of three naturals stored with stride two, eight neighbours; the
padding element at index one keeps its content. -/
theorem C9_frame_witness :
    seedFillGenericInPlace 0 (max : Nat → Nat → Nat) min Connectivity.CONN8
        (fun i => if i = 0 then 9 else 1) 2 ⟨((1 : Nat) : Int), ((3 : Nat) : Int)⟩ (fun _ => 5) 7 =
      some (seedFillSingleLine (max : Nat → Nat → Nat) min 3 (fun i => if i = 0 then 9 else 1) 2
        (fun _ => 5) 7) ∧
    seedFillSingleLine (max : Nat → Nat → Nat) min 3 (fun i => if i = 0 then 9 else 1) 2
        (fun _ => 5) 7 1 = (fun i => if i = 0 then 9 else 1 : Int → Nat) 1 :=
  ⟨rfl, C9_frame (max : Nat → Nat → Nat) min Connectivity.CONN8 (fun i => if i = 0 then 9 else 1)
    (fun _ => 5) 1 3 2 7 0 _ rfl 1 (by
      intro x y hc
      unfold InGrid at hc
      unfold cellAddr
      omega)⟩

end Frame

end imageproc

/-! ## The naive loop and the cross-check -/

namespace imageproc

open detail.seed_fill_generic

theorem mem_neighbours (conn : Connectivity) (w h : Nat) (x y x' y' : Int) :
    (x', y') ∈ neighbours conn w h x y ↔ InGrid w h x' y' ∧ Adj conn x y x' y' := by
  cases conn
  · simp only [neighbours, neighbourOffsets, List.map_cons, List.map_nil, List.mem_filter,
      List.mem_cons, Prod.mk.injEq, List.mem_nil_iff, or_false, decide_eq_true_eq, InGrid,
      Adj, Adj4]
    constructor
    · rintro ⟨h1, h2⟩
      refine ⟨h2, ?_⟩
      omega
    · rintro ⟨h1, h2⟩
      refine ⟨?_, h1⟩
      omega
  · simp only [neighbours, neighbourOffsets, List.map_cons, List.map_nil, List.mem_filter,
      List.mem_cons, Prod.mk.injEq, List.mem_nil_iff, or_false, decide_eq_true_eq, InGrid,
      Adj, Adj8]
    constructor
    · rintro ⟨h1, h2⟩
      refine ⟨h2, ?_⟩
      omega
    · rintro ⟨h1, h2⟩
      refine ⟨?_, h1⟩
      omega

theorem gridUnchanged_iff {β : Type} [DecidableEq β] (w h : Nat) (g g' : Int → Int → β) :
    gridUnchanged w h g g' = true ↔ ∀ x y, InGrid w h x y → g x y = g' x y := by
  simp only [gridUnchanged, List.all_eq_true, List.mem_range, decide_eq_true_eq]
  constructor
  · intro hall x y hc
    obtain ⟨hx0, hx1, hy0, hy1⟩ := hc
    obtain ⟨a, rfl⟩ := Int.eq_ofNat_of_zero_le hx0
    obtain ⟨b, rfl⟩ := Int.eq_ofNat_of_zero_le hy0
    exact hall b (by omega) a (by omega)
  · intro hall b hb a ha
    exact hall a b ⟨by omega, by omega, by omega, by omega⟩

variable {α : Type} [LinearOrder α]

theorem foldl_max_ge (g : Int → Int → α) :
    ∀ (l : List (Int × Int)) (a : α),
      a ≤ l.foldl (fun acc c => max acc (g c.1 c.2)) a ∧
      ∀ c ∈ l, g c.1 c.2 ≤ l.foldl (fun acc c => max acc (g c.1 c.2)) a := by
  intro l
  induction l with
  | nil => intro a; exact ⟨le_rfl, fun c hc => by simp at hc⟩
  | cons d l ih =>
    intro a
    obtain ⟨h1, h2⟩ := ih (max a (g d.1 d.2))
    simp only [List.foldl_cons]
    refine ⟨le_trans (le_max_left _ _) h1, fun c hc => ?_⟩
    rcases List.mem_cons.1 hc with rfl | hc
    · exact le_trans (le_max_right _ _) h1
    · exact h2 c hc

theorem foldl_max_src {C : Ctx α} (x y : Int) (g : Int → Int → α) :
    ∀ (l : List (Int × Int)) (a : α), Src C x y a → (∀ c ∈ l, Src C x y (g c.1 c.2)) →
      Src C x y (l.foldl (fun acc c => max acc (g c.1 c.2)) a) := by
  intro l
  induction l with
  | nil => intro a ha _; exact ha
  | cons d l ih =>
    intro a ha hl
    simp only [List.foldl_cons]
    exact ih _ (Src.max ha (hl d (List.mem_cons_self _ _)))
      (fun c hc => hl c (List.mem_cons_of_mem _ hc))

theorem PhiG_lt (V : Finset α) (w h : Nat) (g g' : Int → Int → α)
    (hmono : ∀ x y, InGrid w h x y → g x y ≤ g' x y)
    (hstrict : ∃ x y, InGrid w h x y ∧ g x y < g' x y ∧ g' x y ∈ V) :
    PhiG V w h g' < PhiG V w h g := by
  unfold PhiG
  apply Finset.sum_lt_sum
  · intro c hc
    apply Finset.card_le_card
    intro u hu
    simp only [Finset.mem_filter] at hu ⊢
    exact ⟨hu.1, lt_of_le_of_lt (hmono c.1 c.2 (mem_cells.1 hc)) hu.2⟩
  · obtain ⟨x, y, hc, hlt, hv⟩ := hstrict
    refine ⟨(x, y), mem_cells.2 hc, ?_⟩
    apply Finset.card_lt_card
    refine ⟨fun u hu => ?_, fun hsub => ?_⟩
    · simp only [Finset.mem_filter] at hu ⊢
      exact ⟨hu.1, lt_trans hlt hu.2⟩
    · have : g' x y ∈ V.filter (fun u => g' x y < u) := hsub (by simp [hv, hlt])
      simp at this

/-- One sweep of the naive loop keeps every cell admissible and does not lower any cell. -/
theorem naiveSweep_ok {C : Ctx α} (hC : C.WF) (conn : Connectivity) (hadj : C.adj = Adj conn)
    (g : Int → Int → α) (hg : ∀ x y, InGrid C.w C.h x y → CellOK C x y (g x y))
    (x y : Int) (hc : InGrid C.w C.h x y) :
    CellOK C x y (naiveSweep max min conn C.w C.h C.M g x y) ∧
      g x y ≤ naiveSweep max min conn C.w C.h C.M g x y ∧
      ∀ x' y', InGrid C.w C.h x' y' → C.adj x' y' x y →
        min (C.M x y) (g x' y') ≤ naiveSweep max min conn C.w C.h C.M g x y := by
  have hsym : ∀ x' y', C.adj x' y' x y → Adj conn x y x' y' := by
    intro x' y' ha
    rw [hadj] at ha
    cases conn
    · exact adj4_symm ha
    · exact adj8_symm ha
  have hsym' : ∀ x' y', Adj conn x y x' y' → C.adj x' y' x y := by
    intro x' y' ha
    rw [hadj]
    cases conn
    · exact adj4_symm ha
    · exact adj8_symm ha
  have hif : (0 ≤ x ∧ x < (C.w : Int) ∧ 0 ≤ y ∧ y < (C.h : Int)) := hc
  simp only [naiveSweep, if_pos hif]
  obtain ⟨h1, h2⟩ := foldl_max_ge g (neighbours conn C.w C.h x y) (g x y)
  have hsrc := foldl_max_src (C := C) x y g (neighbours conn C.w C.h x y) (g x y)
    (Src.self (hg x y hc)) (by
      intro c hcm
      obtain ⟨hc', ha⟩ := (mem_neighbours conn C.w C.h x y c.1 c.2).1 hcm
      exact Src.nbr hc' hc (hsym' _ _ ha) (hg _ _ hc'))
  refine ⟨CellOK.clamp hC hc hsrc (le_trans (hg x y hc).2.1 h1),
    le_min (hg x y hc).1 h1, fun x' y' hc' ha => ?_⟩
  exact min_le_min le_rfl
    (h2 (x', y') ((mem_neighbours conn C.w C.h x y x' y').2 ⟨hc', hsym _ _ ha⟩))

theorem naiveLoop_converges {C : Ctx α} (hC : C.WF) (conn : Connectivity)
    (hadj : C.adj = Adj conn) :
    ∀ (n : Nat) (g : Int → Int → α), (∀ x y, InGrid C.w C.h x y → CellOK C x y (g x y)) →
      PhiG C.V C.w C.h g ≤ n →
      ∃ r, naiveLoop max min conn C.w C.h C.M (n + 1) g = some r ∧
        IsRecon C.w C.h C.adj C.S0 C.M r := by
  intro n
  induction n using Nat.strong_induction_on with
  | _ n ih =>
    intro g hg hn
    by_cases hun : gridUnchanged C.w C.h g (naiveSweep max min conn C.w C.h C.M g) = true
    · refine ⟨g, by simp [naiveLoop, hun], ?_⟩
      rw [gridUnchanged_iff] at hun
      refine ⟨fun x y hc => (hg x y hc).1, fun x y hc => (hg x y hc).2.1,
        fun x y x' y' hc hc' ha => ?_, fun f hf x y hc => (hg x y hc).2.2.2 f hf⟩
      rw [hun x' y' hc']
      exact (naiveSweep_ok hC conn hadj g hg x' y' hc').2.2 x y hc ha
    · have hstep : ∀ x y, InGrid C.w C.h x y →
          CellOK C x y (naiveSweep max min conn C.w C.h C.M g x y) :=
        fun x y hc => (naiveSweep_ok hC conn hadj g hg x y hc).1
      have hne : ¬ ∀ x y, InGrid C.w C.h x y → g x y = naiveSweep max min conn C.w C.h C.M g x y :=
        fun h => hun ((gridUnchanged_iff _ _ _ _).2 h)
      push_neg at hne
      obtain ⟨x, y, hc, hxy⟩ := hne
      have hlt := PhiG_lt C.V C.w C.h g (naiveSweep max min conn C.w C.h C.M g)
        (fun x y hc => (naiveSweep_ok hC conn hadj g hg x y hc).2.1)
        ⟨x, y, hc, lt_of_le_of_ne (naiveSweep_ok hC conn hadj g hg x y hc).2.1 hxy,
          (hstep x y hc).2.2.1⟩
      cases n with
      | zero => omega
      | succ m =>
        obtain ⟨r, hr, hrec⟩ := ih m (by omega) _ hstep (by omega)
        refine ⟨r, ?_, hrec⟩
        have hun' : gridUnchanged C.w C.h g (naiveSweep max min conn C.w C.h C.M g) = false := by
          simpa using hun
        rw [naiveLoop, hun']
        simpa using hr

theorem naiveLoop_fuel_mono {β : Type} [DecidableEq β] (spread_op mask_op : β → β → β)
    (conn : Connectivity) (w h : Nat) (M : Int → Int → β) :
    ∀ (n : Nat) (g r : Int → Int → β),
      naiveLoop spread_op mask_op conn w h M n g = some r →
      ∀ k, naiveLoop spread_op mask_op conn w h M (n + k) g = some r := by
  intro n
  induction n with
  | zero => intro g r hr; simp [naiveLoop] at hr
  | succ n ih =>
    intro g r hr k
    have e : n + 1 + k = (n + k) + 1 := by omega
    rw [e]
    simp only [naiveLoop] at hr ⊢
    split_ifs at hr ⊢ with hun
    · exact hr
    · exact ih _ r hr k

theorem naiveLoop_fuel_unique {β : Type} [DecidableEq β] (spread_op mask_op : β → β → β)
    (conn : Connectivity) (w h : Nat) (M : Int → Int → β) (n n' : Nat)
    (g r r' : Int → Int → β)
    (hr : naiveLoop spread_op mask_op conn w h M n g = some r)
    (hr' : naiveLoop spread_op mask_op conn w h M n' g = some r') : r = r' := by
  have h1 := naiveLoop_fuel_mono spread_op mask_op conn w h M n g r hr n'
  have h2 := naiveLoop_fuel_mono spread_op mask_op conn w h M n' g r' hr' n
  rw [Nat.add_comm] at h2
  rw [h1] at h2
  exact Option.some.inj h2

theorem c1_maxmin (inst : DecidableEq α) (conn : Connectivity) (w h : Nat) (hw : 0 < w)
    (hh : 0 < h) (stride : Int) (hs : (w : Int) ≤ stride) (seed mask : Int → α) :
    ∃ n k r g,
      @seedFillGenericInPlace α inst n max min conn seed stride ⟨w, h⟩ mask stride = some r ∧
      @naiveLoop α inst max min conn w h (view mask stride) k
        (fun x y => min (view mask stride x y) (view seed stride x y)) = some g ∧
      ∀ x y, InGrid w h x y → r (cellAddr stride x y) = g x y := by
  obtain ⟨n, r, hr, hrec, _⟩ :=
    fill_recon inst conn w h hw hh stride stride hs hs (fun _ => rfl) seed mask
  have hC := mkCtx_wf conn w h stride stride seed mask hs hs
  obtain ⟨g, hg, hrec'⟩ := naiveLoop_converges hC conn rfl _
    (fun x y => min (view mask stride x y) (view seed stride x y))
    (fun x y hc => CellOK.clamp hC hc (Src.seed hC hc) (min_le_left _ _)) le_rfl
  refine ⟨n, PhiG (mkCtx conn w h stride stride seed mask).V w h
    (fun x y => min (view mask stride x y) (view seed stride x y)) + 1, r, g, hr, ?_,
    fun x y hc => hrec.unique hrec' x y hc⟩
  rw [← hg]
  congr
  exact Subsingleton.elim _ _

/-- Claim C1 as stated fails.  On the `3 × 1` grid with seed `[0, 9, 0]` and mask `[9, 0, 9]`
(`max`/`min`, four neighbours, stride three) the code leaves `[0, 0, 0]`: it clamps a cell by
its mask before the cell is spread.  The naive loop of the claim, started from the seed
itself, lets the unclamped `9` of the middle cell spread into its two neighbours and ends
with `[9, 0, 9]`.  So no choice of fuel makes the two results agree. -/
theorem C1_unclamped_seed_counterexample :
    ¬ ∃ n k r g,
      seedFillGenericInPlace n (max : Nat → Nat → Nat) min Connectivity.CONN4 c1Seed 3
        ⟨(3 : Nat), (1 : Nat)⟩ c1Mask 3 = some r ∧
      naiveLoop (max : Nat → Nat → Nat) min Connectivity.CONN4 3 1 (view c1Mask 3) k
        (view c1Seed 3) = some g ∧
      ∀ x y, InGrid 3 1 x y → r (cellAddr 3 x y) = g x y := by
  rintro ⟨n, k, r, g, hr, hg, heq⟩
  have e1 : (seedFillGenericInPlace 1 (max : Nat → Nat → Nat) min Connectivity.CONN4 c1Seed 3
      ⟨(3 : Nat), (1 : Nat)⟩ c1Mask 3).map (fun r => [r 0, r 1, r 2]) = some [0, 0, 0] := by
    with_unfolding_all rfl
  have e2 : (naiveLoop (max : Nat → Nat → Nat) min Connectivity.CONN4 3 1 (view c1Mask 3) 2
      (view c1Seed 3)).map (fun g => [g 0 0, g 1 0, g 2 0]) = some [9, 0, 9] := by
    with_unfolding_all rfl
  obtain ⟨r1, hr1, h0⟩ := Option.map_eq_some'.1 e1
  obtain ⟨g1, hg1, h9⟩ := Option.map_eq_some'.1 e2
  have hrr := fill_fuel_unique _ _ _ _ _ _ _ _ _ _ _ _ hr hr1
  have hgg := naiveLoop_fuel_unique _ _ _ _ _ _ _ _ _ _ _ hg hg1
  have := heq 0 0 (by unfold InGrid; omega)
  rw [hrr, hgg, cellAddr_zero] at this
  have h0' : r1 0 = 0 := (List.cons.inj h0).1
  have h9' : g1 0 0 = 9 := (List.cons.inj h9).1
  omega

/-- Claim C1, amended.  On every non-empty grid (common stride, `max`/`min` or `min`/`max` in
a linear order, four or eight neighbours) `seedFillGenericInPlace` returns, the naive loop
returns when it is started from the seed clamped cell by cell to
`mask_op(mask[c], seed[c])`, and the two leave the same grid. -/
theorem C1_equals_naive_from_clamped_seed (spread_op mask_op : α → α → α)
    (hop : IsOpPair spread_op mask_op) (conn : Connectivity) (w h : Nat) (hw : 0 < w)
    (hh : 0 < h) (stride : Int) (hs : (w : Int) ≤ stride) (seed mask : Int → α) :
    ∃ n k r g,
      seedFillGenericInPlace n spread_op mask_op conn seed stride ⟨w, h⟩ mask stride = some r ∧
      naiveLoop spread_op mask_op conn w h (view mask stride) k
        (fun x y => mask_op (view mask stride x y) (view seed stride x y)) = some g ∧
      ∀ x y, InGrid w h x y → r (cellAddr stride x y) = g x y := by
  rcases hop with ⟨rfl, rfl⟩ | ⟨rfl, rfl⟩
  · exact c1_maxmin _ conn w h hw hh stride hs seed mask
  · exact c1_maxmin (α := αᵒᵈ) (fun a b => instDecidableEq_mathlib (α := α) a b)
      conn w h hw hh stride hs seed mask

/-- Witness for the amended C1: the grid of the counterexample. -/
theorem C1_equals_naive_from_clamped_seed_witness :
    IsOpPair (max : Nat → Nat → Nat) min ∧ 0 < 3 ∧ 0 < 1 ∧ ((3 : Nat) : Int) ≤ 3 ∧
    ∃ n k r g,
      seedFillGenericInPlace n (max : Nat → Nat → Nat) min Connectivity.CONN4 c1Seed 3
        ⟨(3 : Nat), (1 : Nat)⟩ c1Mask 3 = some r ∧
      naiveLoop (max : Nat → Nat → Nat) min Connectivity.CONN4 3 1 (view c1Mask 3) k
        (fun x y => min (view c1Mask 3 x y) (view c1Seed 3 x y)) = some g ∧
      ∀ x y, InGrid 3 1 x y → r (cellAddr 3 x y) = g x y :=
  ⟨Or.inl ⟨rfl, rfl⟩, by decide, by decide, by decide,
    C1_equals_naive_from_clamped_seed max min (Or.inl ⟨rfl, rfl⟩) Connectivity.CONN4 3 1
      (by decide) (by decide) 3 (by decide) c1Seed c1Mask⟩

/-! ## Differing strides with eight neighbours -/

/-- Claim C3 at its failing input.  With eight neighbours, a `4 × 2` grid, seed stride five
and mask stride four (both at least the width), the call returns a seed whose cell `(1, 1)`
holds `1` although the mask of that cell is `0`: `mask_op(mask[1,1], seed[1,1]) = 0` differs
from `seed[1,1] = 1`.  The last call of `processNeighbor` in `spread8` computes the mask
pointer of the south-west neighbour with `seed_stride` instead of `mask_stride`. -/
theorem C3_conn8_differing_strides_break_mask_bound :
    (seedFillGenericInPlace 5 (max : Nat → Nat → Nat) min Connectivity.CONN8 c3Seed 5
      ⟨4, 2⟩ c3Mask 4).map
        (fun r => (r (cellAddr 5 1 1), min (c3Mask (cellAddr 4 1 1)) (r (cellAddr 5 1 1)))) =
      some (1, 0) := by
  with_unfolding_all rfl

/-- Claim C4 at its failing input.  With eight neighbours, a `3 × 2` grid, seed stride three
and mask stride four, the backward scan leaves the work item of cell `(2, 0)` in the queue.
Spreading from it pushes a work item for cell `(1, 1)` whose mask pointer is `4`, the element
of row one, column zero (the mask element of cell `(1, 1)` is at `5`); and for that item the
mask pointer of the north-west neighbour, `pos.mask - (mask_stride & north_mask) +
west_delta`, is `-1`: an element before the start of the mask buffer. -/
theorem C4_conn8_differing_strides_leave_mask_buffer :
    (seedFill8Scan (max : Nat → Nat → Nat) min c4Seed 3 3 2 c4Mask 4).queue = [⟨2, 2, 2, 0⟩] ∧
    (spread8Body (max : Nat → Nat → Nat) min c4Mask (initHorTransitions 3)
      (initVertTransitions 2) 3 4 ⟨2, 2, 2, 0⟩
      ⟨(seedFill8Scan (max : Nat → Nat → Nat) min c4Seed 3 3 2 c4Mask 4).seed, []⟩).queue =
        [⟨4, 4, 1, 1⟩] ∧
    cellAddr 4 1 1 = 5 ∧
    (4 : Int) - Int.land 4 (vAt (initVertTransitions 2) 1).north_mask +
      (hAt (initHorTransitions 3) 1).west_delta = -1 := by
  refine ⟨?_, ?_, ?_, ?_⟩
  · with_unfolding_all rfl
  · with_unfolding_all rfl
  · rfl
  · with_unfolding_all rfl

end imageproc

/-! ## Empty size, flood and checkerboard -/

namespace imageproc

open detail.seed_fill_generic

variable {α : Type} [LinearOrder α]

omit [LinearOrder α] in
/-- Claim C11.  An empty size is a no-op: if the width or the height is zero then
`seedFillGenericInPlace` returns at once (with any fuel, also none) and the seed buffer it
leaves is the seed buffer it was given, whatever the operators, the connectivity, the
strides and the contents of the two buffers are.  The result does not depend on the mask
or on the operators: the body is the `return` of the emptiness test, in front of every
access to `seed` or `mask`. -/
theorem C11_empty_size_is_noop [DecidableEq α] (fuel : Nat) (spread_op mask_op : α → α → α)
    (conn : Connectivity) (seed mask : Int → α) (seed_stride mask_stride : Int) (size : QSize)
    (hempty : size.width = 0 ∨ size.height = 0) :
    seedFillGenericInPlace fuel spread_op mask_op conn seed seed_stride size mask mask_stride =
      some seed := by
  have he : size.isEmpty = true := by
    rcases hempty with h | h <;> simp [QSize.isEmpty, h]
  simp [seedFillGenericInPlace, he]

/-- Witness for C11: width three, height zero, no fuel. -/
theorem C11_empty_size_is_noop_witness :
    ((3 : Int) = 0 ∨ (0 : Int) = 0) ∧
    seedFillGenericInPlace 0 (max : Nat → Nat → Nat) min Connectivity.CONN8 (fun _ => 5) 3
      ⟨3, 0⟩ (fun _ => 1) 3 = some (fun _ => 5) :=
  ⟨Or.inr rfl, C11_empty_size_is_noop 0 max min Connectivity.CONN8 (fun _ => 5) (fun _ => 1) 3 3
    ⟨3, 0⟩ (Or.inr rfl)⟩

/-- On a grid whose mask is the constant `c` and whose seed holds `c` in the cell `(0, 0)`,
a reconstruction is `c` in every cell. -/
theorem IsRecon.flood {w h : Nat} {adj : Int → Int → Int → Int → Prop}
    {S0 M R : Int → Int → α} (hR : IsRecon w h adj S0 M R) (c : α)
    (hadj : ∀ x y x' y', Adj4 x y x' y' → adj x y x' y')
    (hS : S0 0 0 = c) (hM : ∀ x y, InGrid w h x y → M x y = c) :
    ∀ x y, InGrid w h x y → R x y = c := by
  have hge : ∀ (k : Nat) (x y : Int), InGrid w h x y → x + y = k → c ≤ R x y := by
    intro k
    induction k with
    | zero =>
      intro x y hc hk
      have hx : x = 0 := by unfold InGrid at hc; omega
      have hy : y = 0 := by unfold InGrid at hc; omega
      subst hx hy
      have := hR.above 0 0 hc
      rw [hS, hM 0 0 hc, min_self] at this
      exact this
    | succ k ih =>
      intro x y hc hk
      by_cases hx : 0 < x
      · have hc' : InGrid w h (x - 1) y := by unfold InGrid at hc ⊢; omega
        have h1 := ih (x - 1) y hc' (by push_cast at hk; omega)
        have h2 := hR.stable (x - 1) y x y hc' hc (hadj _ _ _ _ (by unfold Adj4; omega))
        rw [hM x y hc] at h2
        exact le_trans (le_min le_rfl h1) h2
      · have hc' : InGrid w h x (y - 1) := by unfold InGrid at hc ⊢; push_cast at hk; omega
        have h1 := ih x (y - 1) hc' (by push_cast at hk; omega)
        have h2 := hR.stable x (y - 1) x y hc' hc (hadj _ _ _ _ (by unfold Adj4; omega))
        rw [hM x y hc] at h2
        exact le_trans (le_min le_rfl h1) h2
  intro x y hc
  refine le_antisymm ((hM x y hc) ▸ hR.clamped x y hc) ?_
  have hxy : 0 ≤ x + y := by unfold InGrid at hc; omega
  obtain ⟨k, hk⟩ := Int.eq_ofNat_of_zero_le hxy
  exact hge k x y hc hk

/-- Claim C12.  Full flood: for every width and height of at least one, with a seed that
holds `255` in the cell `(0, 0)` (the other cells may hold anything, in particular `0` as in
the scenario), a mask that is `255` in every cell, eight neighbours, `spread_op = max` and
`mask_op = min`, the call returns and leaves `255` in every cell of the seed grid.  (Seed
and mask share a stride of at least the width; the stride padding is arbitrary.) -/
theorem C12_full_flood (w h : Nat) (hw : 1 ≤ w) (hh : 1 ≤ h) (stride : Int)
    (hs : (w : Int) ≤ stride) (seed mask : Int → Nat)
    (hseed0 : seed (cellAddr stride 0 0) = 255)
    (hmask : ∀ x y, InGrid w h x y → mask (cellAddr stride x y) = 255) :
    ∃ n r, seedFillGenericInPlace n (max : Nat → Nat → Nat) min Connectivity.CONN8 seed stride
        ⟨w, h⟩ mask stride = some r ∧
      ∀ x y, InGrid w h x y → r (cellAddr stride x y) = 255 := by
  obtain ⟨n, r, hr, hrec, -⟩ := fill_recon (α := Nat) inferInstance Connectivity.CONN8 w h
    hw hh stride stride hs hs (fun _ => rfl) seed mask
  refine ⟨n, r, ?_, ?_⟩
  · convert hr
  · exact hrec.flood 255 (fun x y x' y' ha => by unfold Adj4 at ha; unfold Adj Adj8; omega)
      hseed0 hmask

/-- Witness for C12: the scenario on a `3 × 2` grid stored with stride four. -/
theorem C12_full_flood_witness :
    1 ≤ 3 ∧ 1 ≤ 2 ∧ ((3 : Nat) : Int) ≤ 4 ∧ c12Seed (cellAddr 4 0 0) = 255 ∧
    (∀ x y, InGrid 3 2 x y → (x ≠ 0 ∨ y ≠ 0) → c12Seed (cellAddr 4 x y) = 0) ∧
    (∀ x y, InGrid 3 2 x y → c12Mask (cellAddr 4 x y) = 255) ∧
    ∃ n r, seedFillGenericInPlace n (max : Nat → Nat → Nat) min Connectivity.CONN8 c12Seed 4
        ⟨(3 : Nat), (2 : Nat)⟩ c12Mask 4 = some r ∧
      ∀ x y, InGrid 3 2 x y → r (cellAddr 4 x y) = 255 :=
  have hm : ∀ x y, InGrid 3 2 x y → c12Mask (cellAddr 4 x y) = 255 := by
    intro x y hc
    unfold InGrid at hc
    unfold c12Mask cellAddr
    rw [if_neg (by omega)]
  ⟨by decide, by decide, by decide, by decide, by
    intro x y hc hne
    unfold InGrid at hc
    unfold c12Seed cellAddr
    rw [if_neg (by omega), if_neg (by omega)], hm,
    C12_full_flood 3 2 (by decide) (by decide) 4 (by decide) c12Seed c12Mask (by decide) hm⟩

/-- A seed that is constant on the grid and lies below the mask is its own reconstruction. -/
theorem IsRecon.const_seed {w h : Nat} {adj : Int → Int → Int → Int → Prop}
    {S0 M R : Int → Int → α} (hR : IsRecon w h adj S0 M R) (c : α)
    (hS : ∀ x y, InGrid w h x y → S0 x y = c) (hM : ∀ x y, InGrid w h x y → c ≤ M x y) :
    ∀ x y, InGrid w h x y → R x y = c := by
  intro x y hc
  apply le_antisymm
  · refine hR.sound (fun _ _ => c) ⟨fun x y hc => ?_, fun x y x' y' _ _ _ => min_le_right _ _⟩ x y hc
    rw [hS x y hc]
    exact min_le_left _ _
  · have := hR.above x y hc
    rwa [hS x y hc, min_eq_left (hM x y hc)] at this

theorem c13_maxmin (inst : DecidableEq α) (w h : Nat) (hw : 0 < w) (hh : 0 < h)
    (seed_stride mask_stride : Int) (hss : (w : Int) ≤ seed_stride)
    (hms : (w : Int) ≤ mask_stride) (seed mask : Int → α) (c : α)
    (hseed : ∀ x y, InGrid w h x y → seed (cellAddr seed_stride x y) = c)
    (hmask : ∀ x y, InGrid w h x y → c ≤ mask (cellAddr mask_stride x y)) :
    ∃ n r, @seedFillGenericInPlace α inst n max min Connectivity.CONN4 seed seed_stride ⟨w, h⟩
        mask mask_stride = some r ∧
      ∀ x y, InGrid w h x y → r (cellAddr seed_stride x y) = c := by
  obtain ⟨n, r, hr, hrec, -⟩ := fill_recon inst Connectivity.CONN4 w h hw hh seed_stride
    mask_stride hss hms (fun h => by cases h) seed mask
  exact ⟨n, r, hr, hrec.const_seed c hseed hmask⟩

/-- Claim C13 as stated fails.  On the `3 × 3` grid with seed `255` everywhere and the
checkerboard mask that is `0` where `x + y` is even (four neighbours, `spread_op = min`,
`mask_op = max`) the call leaves `255` in the cell `(0, 0)`, whose mask is `0`: no run
leaves `0` in every cell whose mask is `0`. -/
theorem C13_checkerboard_counterexample :
    ¬ ∃ n r, seedFillGenericInPlace n (min : Nat → Nat → Nat) max Connectivity.CONN4
        (fun _ => 255) 3 ⟨(3 : Nat), (3 : Nat)⟩ (checkerMask 3) 3 = some r ∧
      ∀ x y, InGrid 3 3 x y → checkerMask 3 (cellAddr 3 x y) = 0 → r (cellAddr 3 x y) = 0 := by
  rintro ⟨n, r, hr, h0⟩
  have e1 : (seedFillGenericInPlace 1 (min : Nat → Nat → Nat) max Connectivity.CONN4
      (fun _ => 255) 3 ⟨(3 : Nat), (3 : Nat)⟩ (checkerMask 3) 3).map
        (fun r => (List.range 9).map (fun i => r i)) =
      some [255, 255, 255, 255, 255, 255, 255, 255, 255] := by
    with_unfolding_all rfl
  obtain ⟨r1, hr1, h1⟩ := Option.map_eq_some'.1 e1
  have hrr := fill_fuel_unique _ _ _ _ _ _ _ _ _ _ _ _ hr hr1
  have := h0 0 0 (by unfold InGrid; omega) (by decide)
  rw [hrr, cellAddr_zero] at this
  have h1' : r1 0 = 255 := (List.cons.inj h1).1
  omega

/-- Claim C13, amended.  Checkerboard scenario: for every width and height of at least one,
with a seed that is `255` in every cell, a mask whose cells hold `0` or `255` (a
checkerboard in particular), four neighbours, `spread_op = min` and `mask_op = max`, the
call returns and leaves the seed as it was: `255` in every cell, also in the cells whose
mask is `0`.  (Strides of at least the width, not necessarily equal.) -/
theorem C13_checkerboard_keeps_seed (w h : Nat) (hw : 1 ≤ w) (hh : 1 ≤ h)
    (seed_stride mask_stride : Int) (hss : (w : Int) ≤ seed_stride)
    (hms : (w : Int) ≤ mask_stride) (seed mask : Int → Nat)
    (hseed : ∀ x y, InGrid w h x y → seed (cellAddr seed_stride x y) = 255)
    (hmask : ∀ x y, InGrid w h x y →
      mask (cellAddr mask_stride x y) = 0 ∨ mask (cellAddr mask_stride x y) = 255) :
    ∃ n r, seedFillGenericInPlace n (min : Nat → Nat → Nat) max Connectivity.CONN4 seed
        seed_stride ⟨w, h⟩ mask mask_stride = some r ∧
      ∀ x y, InGrid w h x y → r (cellAddr seed_stride x y) = 255 := by
  have hle : ∀ x y, InGrid w h x y → mask (cellAddr mask_stride x y) ≤ 255 := by
    intro x y hc
    rcases hmask x y hc with h0 | h0 <;> omega
  exact c13_maxmin (α := Natᵒᵈ) (fun a b => instDecidableEqNat a b) w h hw hh seed_stride
    mask_stride hss hms seed mask (255 : Nat) hseed hle

/-- Witness for the amended C13: the grid of the counterexample. -/
theorem C13_checkerboard_keeps_seed_witness :
    1 ≤ 3 ∧ ((3 : Nat) : Int) ≤ 3 ∧
    (∀ x y, InGrid 3 3 x y → (fun _ => 255 : Int → Nat) (cellAddr 3 x y) = 255) ∧
    (∀ x y, InGrid 3 3 x y →
      checkerMask 3 (cellAddr 3 x y) = 0 ∨ checkerMask 3 (cellAddr 3 x y) = 255) ∧
    ∃ n r, seedFillGenericInPlace n (min : Nat → Nat → Nat) max Connectivity.CONN4
        (fun _ => 255) 3 ⟨(3 : Nat), (3 : Nat)⟩ (checkerMask 3) 3 = some r ∧
      ∀ x y, InGrid 3 3 x y → r (cellAddr 3 x y) = 255 :=
  have hm : ∀ x y, InGrid 3 3 x y →
      checkerMask 3 (cellAddr 3 x y) = 0 ∨ checkerMask 3 (cellAddr 3 x y) = 255 := by
    intro x y _
    unfold checkerMask
    split_ifs
    · exact Or.inl rfl
    · exact Or.inr rfl
  ⟨by decide, by decide, fun _ _ _ => rfl, hm,
    C13_checkerboard_keeps_seed 3 3 (by decide) (by decide) 3 3 (by decide) (by decide)
      (fun _ => 255) (checkerMask 3) (fun _ _ _ => rfl) hm⟩

end imageproc

/-! ## The order of the queue -/

namespace imageproc

open detail.seed_fill_generic

variable {α : Type} [LinearOrder α]

omit [LinearOrder α] in
/-- With the FIFO choice the open loop is the loop of `spread4`. -/
theorem drainAnyOrder_fifo4 [DecidableEq α] (spread_op mask_op : α → α → α) (maskBuf : Int → α)
    (ht : List HTransition) (vt : List VTransition) (ss ms : Int) :
    ∀ (n t : Nat) (st : FillState α),
      drainAnyOrder (fun _ _ => 0) (spread4Body spread_op mask_op maskBuf ht vt ss ms) t n st =
        spread4 spread_op mask_op maskBuf ht vt ss ms n st := by
  intro n
  induction n with
  | zero => intro t st; rfl
  | succ n ih =>
    intro t st
    obtain ⟨seed, queue⟩ := st
    cases queue with
    | nil => rfl
    | cons pos rest =>
      simp only [drainAnyOrder, spread4, Nat.zero_mod, List.drop_zero, List.headD_cons,
        List.take_zero, List.tail_cons, List.nil_append]
      exact ih _ _

omit [LinearOrder α] in
/-- With the FIFO choice the open loop is the loop of `spread8`. -/
theorem drainAnyOrder_fifo8 [DecidableEq α] (spread_op mask_op : α → α → α) (maskBuf : Int → α)
    (ht : List HTransition) (vt : List VTransition) (ss ms : Int) :
    ∀ (n t : Nat) (st : FillState α),
      drainAnyOrder (fun _ _ => 0) (spread8Body spread_op mask_op maskBuf ht vt ss ms) t n st =
        spread8 spread_op mask_op maskBuf ht vt ss ms n st := by
  intro n
  induction n with
  | zero => intro t st; rfl
  | succ n ih =>
    intro t st
    obtain ⟨seed, queue⟩ := st
    cases queue with
    | nil => rfl
    | cons pos rest =>
      simp only [drainAnyOrder, spread8, Nat.zero_mod, List.drop_zero, List.headD_cons,
        List.take_zero, List.tail_cons, List.nil_append]
      exact ih _ _

theorem Inv.congrQueue {C : Ctx α} {ex : Int → Int → Int → Int → Prop} {seed : Int → α}
    {q q' : List Position} (hinv : Inv C ex ⟨seed, q⟩) (hq : ∀ p, p ∈ q ↔ p ∈ q') :
    Inv C ex ⟨seed, q'⟩ := by
  refine ⟨hinv.good, fun p hp => hinv.qvalid p ((hq p).2 hp), fun x y x' y' hc hc' ha => ?_⟩
  rcases hinv.edges x y x' y' hc hc' ha with h | ⟨p, hp, hpp⟩ | h
  · exact Or.inl h
  · exact Or.inr (Or.inl ⟨p, (hq p).1 hp, hpp⟩)
  · exact Or.inr (Or.inr h)

omit [LinearOrder α] in
/-- Taking the item at a valid index splits the queue around it. -/
theorem queue_split (q : List Position) (first : Position) (i : Nat) (hi : i < q.length) :
    q = q.take i ++ (q.drop i).headD first :: (q.drop i).tail := by
  have hne : q.drop i ≠ [] := by
    intro h
    have := congrArg List.length h
    simp at this
    omega
  conv_lhs => rw [← List.take_append_drop i q]
  congr 1
  cases hd : q.drop i with
  | nil => exact absurd hd hne
  | cons a l => rfl

/-- Whatever item is taken next, the loop drains the queue, and the state it ends in is
complete. -/
theorem drainAnyOrder_terminates {C : Ctx α} (pick : Nat → FillState α → Nat)
    (body : Position → FillState α → FillState α)
    (hbody : ∀ (seed : Int → α) (pos : Position) (rest : List Position),
      Inv C (fun _ _ _ _ => False) ⟨seed, pos :: rest⟩ →
      Inv C (fun _ _ _ _ => False) (body pos ⟨seed, rest⟩) ∧
      (body pos ⟨seed, rest⟩).queue.length + 2 * Phi C (body pos ⟨seed, rest⟩).seed <
        (pos :: rest).length + 2 * Phi C seed) :
    ∀ (n t : Nat) (st : FillState α), Inv C (fun _ _ _ _ => False) st →
      st.queue.length + 2 * Phi C st.seed ≤ n →
      ∃ r, drainAnyOrder pick body t (n + 1) st = some r ∧ Done C r := by
  intro n
  induction n with
  | zero =>
    intro t st hinv hm
    obtain ⟨seed, queue⟩ := st
    have hq : queue = [] := by
      cases queue with
      | nil => rfl
      | cons a l => simp at hm
    subst hq
    exact ⟨seed, rfl, hinv.toDone⟩
  | succ n ih =>
    intro t st hinv hm
    obtain ⟨seed, queue⟩ := st
    cases hq : queue with
    | nil => subst hq; exact ⟨seed, rfl, hinv.toDone⟩
    | cons first tl =>
      have hlen : 0 < queue.length := by rw [hq]; simp
      have hi : pick t ⟨seed, queue⟩ % queue.length < queue.length := Nat.mod_lt _ hlen
      have hsplit := queue_split queue first _ hi
      have hinv' : Inv C (fun _ _ _ _ => False)
          ⟨seed, (queue.drop (pick t ⟨seed, queue⟩ % queue.length)).headD first ::
            (queue.take (pick t ⟨seed, queue⟩ % queue.length) ++
              (queue.drop (pick t ⟨seed, queue⟩ % queue.length)).tail)⟩ := by
        refine hinv.congrQueue (fun p => ?_)
        conv_lhs => rw [hsplit]
        simp only [List.mem_append, List.mem_cons]
        tauto
      have hlen' : ((queue.drop (pick t ⟨seed, queue⟩ % queue.length)).headD first ::
            (queue.take (pick t ⟨seed, queue⟩ % queue.length) ++
              (queue.drop (pick t ⟨seed, queue⟩ % queue.length)).tail)).length = queue.length := by
        conv_rhs => rw [hsplit]
        simp only [List.length_cons, List.length_append]
        omega
      obtain ⟨h1, h2⟩ := hbody _ _ _ hinv'
      rw [hlen'] at h2
      obtain ⟨r, hr, hd⟩ := ih (t + 1) _ h1 (by simp only at hm; omega)
      refine ⟨r, ?_, hd⟩
      rw [← hq]
      rw [drainAnyOrder]
      simp only [hq]
      rw [← hq]
      exact hr

omit [LinearOrder α] in
theorem seedFillAnyOrder_nonempty [DecidableEq α] (pick : Nat → FillState α → Nat) (n : Nat)
    (spread_op mask_op : α → α → α) (conn : Connectivity) (seed : Int → α) (ss : Int)
    (w h : Nat) (hw : 0 < w) (hh : 0 < h) (mask : Int → α) (ms : Int) :
    seedFillAnyOrder pick n spread_op mask_op conn seed ss ⟨w, h⟩ mask ms =
      match conn with
      | Connectivity.CONN4 =>
        drainAnyOrder pick
          (spread4Body spread_op mask_op mask (initHorTransitions w) (initVertTransitions h)
            ss ms) 0 n (seedFill4Scan spread_op mask_op seed ss w h mask ms)
      | Connectivity.CONN8 =>
        if w = 1 then some (seedFillSingleLine spread_op mask_op h seed ss mask ms)
        else if h = 1 then some (seedFillSingleLine spread_op mask_op w seed 1 mask 1)
        else
          drainAnyOrder pick
            (spread8Body spread_op mask_op mask (initHorTransitions w) (initVertTransitions h)
              ss ms) 0 n (seedFill8Scan spread_op mask_op seed ss w h mask ms) := by
  have h1 : ¬ ((w : Int) < 1) := by omega
  have h2 : ¬ ((h : Int) < 1) := by omega
  simp [seedFillAnyOrder, QSize.isEmpty, h1, h2]

theorem fillAny_done (pick : Nat → FillState α → Nat) (conn : Connectivity) (w h : Nat)
    (hw : 0 < w) (hh : 0 < h) (ss ms : Int) (hss : (w : Int) ≤ ss) (hms : (w : Int) ≤ ms)
    (hconn : conn = Connectivity.CONN8 → ss = ms) (seed mask : Int → α) :
    ∃ n r, seedFillAnyOrder pick n max min conn seed ss ⟨w, h⟩ mask ms = some r ∧
      Done (mkCtx conn w h ss ms seed mask) r := by
  have hC := mkCtx_wf conn w h ss ms seed mask hss hms
  cases conn with
  | CONN4 =>
    obtain ⟨r, hr, hd⟩ := drainAnyOrder_terminates pick _
      (fun seed pos rest hinv => spread4Body_inv hC rfl hinv) _ 0 _
      (seedFill4Scan_inv hC rfl hw) le_rfl
    exact ⟨_, r, by rw [seedFillAnyOrder_nonempty _ _ _ _ _ _ _ _ _ hw hh]; exact hr, hd⟩
  | CONN8 =>
    by_cases h1 : w = 1
    · refine ⟨0, _, ?_, seedFillSingleLine_done hC (line_vertical rfl h1) hh⟩
      rw [seedFillAnyOrder_nonempty _ _ _ _ _ _ _ _ _ hw hh]
      simp only [if_pos h1]
      rfl
    · by_cases h2 : h = 1
      · refine ⟨0, _, ?_, seedFillSingleLine_done hC (line_horizontal rfl h2) hw⟩
        rw [seedFillAnyOrder_nonempty _ _ _ _ _ _ _ _ _ hw hh]
        simp only [if_neg h1, if_pos h2]
        rfl
      · obtain ⟨r, hr, hd⟩ := drainAnyOrder_terminates pick _
          (fun seed pos rest hinv => spread8Body_inv hC rfl (hconn rfl) hinv) _ 0 _
          (seedFill8Scan_inv hC rfl (show 2 ≤ w by omega) (show 2 ≤ h by omega)) le_rfl
        exact ⟨_, r, by
          rw [seedFillAnyOrder_nonempty _ _ _ _ _ _ _ _ _ hw hh]
          simp only [if_neg h1, if_neg h2]
          exact hr, hd⟩

theorem Done.uniqueBuf {C : Ctx α} {r r' : Int → α} (hd : Done C r) (hd' : Done C r') : r = r' :=
  @buf_ext α C.w C.h C.ss r r' (fun x y hc => hd.isRecon.unique hd'.isRecon x y hc)
    (fun a ha => by rw [hd.frame a ha, hd'.frame a ha])

theorem c14_maxmin (inst : DecidableEq α) (pick : Nat → FillState α → Nat) (conn : Connectivity)
    (w h : Nat) (hw : 0 < w) (hh : 0 < h) (stride : Int) (hs : (w : Int) ≤ stride)
    (seed mask : Int → α) :
    ∃ n r, @seedFillGenericInPlace α inst n max min conn seed stride ⟨w, h⟩ mask stride =
        some r ∧
      ∃ n', @seedFillAnyOrder α inst pick n' max min conn seed stride ⟨w, h⟩ mask stride =
        some r := by
  obtain ⟨n, r, hr, hd⟩ := fill_done conn w h hw hh stride stride hs hs (fun _ => rfl) seed mask
  obtain ⟨n', r', hr', hd'⟩ := fillAny_done pick conn w h hw hh stride stride hs hs
    (fun _ => rfl) seed mask
  have hi : inst = (fun a b => instDecidableEq_mathlib a b) := Subsingleton.elim _ _
  have e := hd.uniqueBuf hd'
  subst e hi
  exact ⟨n, r, hr, n', hr'⟩

/-- Claim C14.  The order in which pending work items are taken from the propagation queue
does not affect the result: on every non-empty grid (common stride, `max`/`min` or
`min`/`max` in a linear order, four or eight neighbours), whatever rule `pick` chooses the
next pending item in place of the FIFO discipline of `spread4`/`spread8` (any sequence of
choices is such a rule: `pick` sees the number of items taken so far and the state), the
loop still drains the queue and the seed buffer it leaves is the one that
`seedFillGenericInPlace` leaves. -/
theorem C14_queue_order_irrelevant (spread_op mask_op : α → α → α)
    (hop : IsOpPair spread_op mask_op) (pick : Nat → FillState α → Nat) (conn : Connectivity)
    (w h : Nat) (hw : 0 < w) (hh : 0 < h) (stride : Int) (hs : (w : Int) ≤ stride)
    (seed mask : Int → α) :
    ∃ n r, seedFillGenericInPlace n spread_op mask_op conn seed stride ⟨w, h⟩ mask stride =
        some r ∧
      ∃ n', seedFillAnyOrder pick n' spread_op mask_op conn seed stride ⟨w, h⟩ mask stride =
        some r := by
  rcases hop with ⟨rfl, rfl⟩ | ⟨rfl, rfl⟩
  · exact c14_maxmin _ pick conn w h hw hh stride hs seed mask
  · exact c14_maxmin (α := αᵒᵈ) (fun a b => instDecidableEq_mathlib (α := α) a b) pick
      conn w h hw hh stride hs seed mask

set_option maxRecDepth 8000 in
/-- Witness for C14: the LIFO discipline on a `4 × 3` grid of naturals, eight neighbours,
stride four, with the seed `5` in the last cell and a mask that is `7` except for the last
three cells of the middle row.  After the backward scan two work items are pending, those
of the cells `(1, 2)` and `(2, 0)`: FIFO takes the first of them, LIFO the second. -/
theorem C14_queue_order_irrelevant_witness :
    IsOpPair (max : Nat → Nat → Nat) min ∧ 0 < 4 ∧ 0 < 3 ∧ ((4 : Nat) : Int) ≤ 4 ∧
    (seedFill8Scan (max : Nat → Nat → Nat) min (fun i => if i = 11 then 5 else 0) 4 4 3
        (fun i => if i = 5 ∨ i = 6 ∨ i = 7 then 0 else 7) 4).queue.map
          (fun pos => (pos.x, pos.y)) = [(1, 2), (2, 0)] ∧
    ∃ n r, seedFillGenericInPlace n (max : Nat → Nat → Nat) min Connectivity.CONN8
        (fun i => if i = 11 then 5 else 0) 4 ⟨(4 : Nat), (3 : Nat)⟩
        (fun i => if i = 5 ∨ i = 6 ∨ i = 7 then 0 else 7) 4 = some r ∧
      ∃ n', seedFillAnyOrder (fun _ st => st.queue.length - 1) n' (max : Nat → Nat → Nat) min
        Connectivity.CONN8 (fun i => if i = 11 then 5 else 0) 4 ⟨(4 : Nat), (3 : Nat)⟩
        (fun i => if i = 5 ∨ i = 6 ∨ i = 7 then 0 else 7) 4 = some r :=
  ⟨Or.inl ⟨rfl, rfl⟩, by decide, by decide, by decide, by with_unfolding_all rfl,
    C14_queue_order_irrelevant max min (Or.inl ⟨rfl, rfl⟩) (fun _ st => st.queue.length - 1)
      Connectivity.CONN8 4 3 (by decide) (by decide) 4 (by decide)
      (fun i => if i = 11 then 5 else 0) (fun i => if i = 5 ∨ i = 6 ∨ i = 7 then 0 else 7)⟩

end imageproc

/-! ## Duality of dilation and erosion -/

namespace imageproc

open detail.seed_fill_generic

variable {α : Type} [LinearOrder α]

/-- An order isomorphism maps a reconstruction to the reconstruction of the mapped data. -/
theorem IsRecon.mapIso {β : Type} [LinearOrder β] (e : α ≃o β) {w h : Nat}
    {adj : Int → Int → Int → Int → Prop} {S0 M R : Int → Int → α}
    (hR : IsRecon w h adj S0 M R) :
    IsRecon w h adj (fun x y => e (S0 x y)) (fun x y => e (M x y)) (fun x y => e (R x y)) where
  clamped x y hc := e.monotone (hR.clamped x y hc)
  above x y hc := by
    have := e.monotone (hR.above x y hc)
    rwa [e.monotone.map_min] at this
  stable x y x' y' hc hc' ha := by
    have := e.monotone (hR.stable x y x' y' hc hc' ha)
    rwa [e.monotone.map_min] at this
  sound f hf x y hc := by
    have hf' : SuperSol w h adj S0 M (fun x y => e.symm (f x y)) := by
      refine ⟨fun x y hc => ?_, fun x y x' y' hc hc' ha => ?_⟩
      · have := e.symm.monotone (hf.1 x y hc)
        rwa [e.symm.monotone.map_min, e.symm_apply_apply, e.symm_apply_apply] at this
      · have := e.symm.monotone (hf.2 x y x' y' hc hc' ha)
        rwa [e.symm.monotone.map_min, e.symm_apply_apply] at this
    have := e.monotone (hR.sound _ hf' x y hc)
    rwa [e.apply_symm_apply] at this

theorem c15_dual (inst : DecidableEq α) (e : α ≃o αᵒᵈ) (conn : Connectivity) (w h : Nat)
    (hw : 0 < w) (hh : 0 < h) (stride : Int) (hs : (w : Int) ≤ stride) (seed mask : Int → α) :
    ∃ k r k',
      @seedFillGenericInPlace α inst k max min conn seed stride ⟨w, h⟩ mask stride = some r ∧
      @seedFillGenericInPlace αᵒᵈ (fun a b => inst a b) k' max min conn (fun a => e (seed a))
        stride ⟨w, h⟩ (fun a => e (mask a)) stride = some (fun a => e (r a)) := by
  obtain ⟨k, r, hr, hrec, hfr⟩ := fill_recon inst conn w h hw hh stride stride hs hs
    (fun _ => rfl) seed mask
  obtain ⟨k', r', hr', hrec', hfr'⟩ := fill_recon (α := αᵒᵈ) (fun a b => inst a b) conn w h
    hw hh stride stride hs hs (fun _ => rfl) (fun a => e (seed a)) (fun a => e (mask a))
  refine ⟨k, r, k', hr, ?_⟩
  have hrec2 := hrec.mapIso e
  have : r' = fun a => e (r a) := by
    refine @buf_ext αᵒᵈ w h stride _ _ (fun x y hc => ?_) (fun a ha => ?_)
    · exact hrec'.unique hrec2 x y hc
    · rw [hfr' a ha, hfr a ha]
  rw [← this]
  exact hr'

/-- Claim C15.  One kernel serves dilation and erosion by duality: for every
order-reversing bijection `n` of the value type, every non-empty grid, connectivity and
common stride, the call with `spread_op = max`, `mask_op = min` on `seed`, `mask` returns
some buffer `r`, and the call with `spread_op = min`, `mask_op = max` on the cellwise images
`n ∘ seed`, `n ∘ mask` returns the cellwise image `n ∘ r`. -/
theorem C15_duality (n : α → α) (hbij : Function.Bijective n)
    (hrev : ∀ a b, a ≤ b → n b ≤ n a) (conn : Connectivity) (w h : Nat) (hw : 0 < w)
    (hh : 0 < h) (stride : Int) (hs : (w : Int) ≤ stride) (seed mask : Int → α) :
    ∃ k r k',
      seedFillGenericInPlace k max min conn seed stride ⟨w, h⟩ mask stride = some r ∧
      seedFillGenericInPlace k' min max conn (fun a => n (seed a)) stride ⟨w, h⟩
        (fun a => n (mask a)) stride = some (fun a => n (r a)) := by
  have hiff : ∀ a b, n b ≤ n a ↔ a ≤ b := by
    intro a b
    refine ⟨fun hab => ?_, hrev a b⟩
    by_contra hlt
    push_neg at hlt
    have := le_antisymm (hrev b a hlt.le) hab
    exact absurd (hbij.1 this) (ne_of_gt hlt)
  let e : α ≃o αᵒᵈ :=
    { toEquiv := (Equiv.ofBijective n hbij).trans OrderDual.toDual
      map_rel_iff' := fun {a b} => hiff a b }
  obtain ⟨k, r, k', hr, hr'⟩ := c15_dual (fun a b => instDecidableEq_mathlib (α := α) a b) e
    conn w h hw hh stride hs seed mask
  refine ⟨k, r, k', ?_, ?_⟩
  · convert hr
  · convert hr'

/-- Witness for C15: the reflection `v ↦ -v` of the integers on a `2 × 2` grid. -/
theorem C15_duality_witness :
    Function.Bijective (fun v : Int => -v) ∧ (∀ a b : Int, a ≤ b → -b ≤ -a) ∧ 0 < 2 ∧
    ((2 : Nat) : Int) ≤ 2 ∧
    ∃ k r k',
      seedFillGenericInPlace k (max : Int → Int → Int) min Connectivity.CONN8
        (fun i => if i = 0 then 5 else 0) 2 ⟨(2 : Nat), (2 : Nat)⟩ (fun _ => 7) 2 = some r ∧
      seedFillGenericInPlace k' (min : Int → Int → Int) max Connectivity.CONN8
        (fun a => -(fun i => if i = 0 then 5 else 0 : Int → Int) a) 2 ⟨(2 : Nat), (2 : Nat)⟩
        (fun a => -(fun _ => 7 : Int → Int) a) 2 = some (fun a => -(r a)) :=
  ⟨⟨neg_injective, neg_surjective⟩, fun _ _ h => neg_le_neg h, by decide, by decide,
    C15_duality (fun v : Int => -v) ⟨neg_injective, neg_surjective⟩ (fun _ _ h => neg_le_neg h)
      Connectivity.CONN8 2 2 (by decide) (by decide) 2 (by decide)
      (fun i => if i = 0 then 5 else 0) (fun _ => 7)⟩

end imageproc

/-! ## The single line in closed form -/

namespace imageproc

open detail.seed_fill_generic

variable {α : Type} [LinearOrder α]

theorem foldl_max_bounds : ∀ (l : List α) (a : α),
    a ≤ l.foldl max a ∧ (∀ c ∈ l, c ≤ l.foldl max a) ∧ (l.foldl max a = a ∨ l.foldl max a ∈ l) := by
  intro l
  induction l with
  | nil => intro a; exact ⟨le_rfl, fun c hc => by simp at hc, Or.inl rfl⟩
  | cons d l ih =>
    intro a
    obtain ⟨h1, h2, h3⟩ := ih (max a d)
    simp only [List.foldl_cons]
    refine ⟨le_trans (le_max_left _ _) h1, fun c hc => ?_, ?_⟩
    · rcases List.mem_cons.1 hc with rfl | hc
      · exact le_trans (le_max_right _ _) h1
      · exact h2 c hc
    · rcases h3 with h3 | h3
      · rcases max_choice a d with h | h
        · left; rw [h3, h]
        · right; rw [h3, h]; exact List.mem_cons_self _ _
      · right; exact List.mem_cons_of_mem _ h3

theorem segMin_left (m : Int → α) : ∀ (len : Nat) (a : Int),
    segMin m a (len + 1) = min (m a) (segMin m (a + 1) len) := by
  intro len
  induction len with
  | zero =>
    intro a
    simp [segMin]
  | succ len ih =>
    intro a
    have e : a + 1 + ((len + 1 : Nat) : Int) = a + ((len + 1 + 1 : Nat) : Int) := by
      push_cast; ring
    rw [segMin, ih a, segMin, e, min_assoc]

theorem pathMin_self (s m : Int → α) (i : Int) : pathMin s m i i = min (s i) (m i) := by
  simp [pathMin, segMin]

theorem pathMin_up (s m : Int → α) (j i : Int) (d : Nat) (h : i = j + d) :
    pathMin s m j i = min (s j) (segMin m j d) := by
  unfold pathMin
  have h1 : min i j = j := min_eq_right (by omega)
  have h2 : max i j = i := max_eq_left (by omega)
  have h3 : (i - j).toNat = d := by omega
  rw [h1, h2, h3]

theorem pathMin_down (s m : Int → α) (j i : Int) (d : Nat) (h : j = i + d) :
    pathMin s m j i = min (s j) (segMin m i d) := by
  unfold pathMin
  have h1 : min i j = i := min_eq_left (by omega)
  have h2 : max i j = j := max_eq_right (by omega)
  have h3 : (j - i).toNat = d := by omega
  rw [h1, h2, h3]

/-- Moving the target by one position costs at most the mask of the new target. -/
theorem pathMin_step (s m : Int → α) (j i i' : Int) (h : i' = i + 1 ∨ i = i' + 1) :
    min (m i') (pathMin s m j i) ≤ pathMin s m j i' := by
  rcases h with h | h
  · rcases le_or_lt j i with hji | hji
    · obtain ⟨d, hd⟩ : ∃ d : Nat, i = j + d := ⟨(i - j).toNat, by omega⟩
      rw [pathMin_up s m j i d hd, pathMin_up s m j i' (d + 1) (by push_cast; omega), segMin]
      have e : j + ((d + 1 : Nat) : Int) = i' := by push_cast; omega
      rw [e]
      refine le_min (le_trans (min_le_right _ _) (min_le_left _ _)) (le_min ?_ (min_le_left _ _))
      exact le_trans (min_le_right _ _) (min_le_right _ _)
    · obtain ⟨d, hd⟩ : ∃ d : Nat, j = i' + d := ⟨(j - i').toNat, by omega⟩
      rw [pathMin_down s m j i (d + 1) (by push_cast; omega), pathMin_down s m j i' d hd,
        segMin_left]
      have e : i + 1 = i' := by omega
      rw [e]
      exact le_trans (min_le_right _ _) (min_le_min le_rfl (min_le_right _ _))
  · rcases le_or_lt j i' with hji | hji
    · obtain ⟨d, hd⟩ : ∃ d : Nat, i' = j + d := ⟨(i' - j).toNat, by omega⟩
      rw [pathMin_up s m j i (d + 1) (by push_cast; omega), pathMin_up s m j i' d hd, segMin]
      exact le_trans (min_le_right _ _) (min_le_min le_rfl (min_le_left _ _))
    · obtain ⟨d, hd⟩ : ∃ d : Nat, j = i + d := ⟨(j - i).toNat, by omega⟩
      rw [pathMin_down s m j i d hd, pathMin_down s m j i' (d + 1) (by push_cast; omega),
        segMin_left]
      have e : i' + 1 = i := by omega
      rw [e]
      refine le_min (le_trans (min_le_right _ _) (min_le_left _ _)) (le_min (min_le_left _ _) ?_)
      exact le_trans (min_le_right _ _) (min_le_right _ _)

theorem lineRecon_ge (s m : Int → α) (n : Nat) (i j : Int) (hj0 : 0 ≤ j) (hj : j < n) :
    pathMin s m j i ≤ lineRecon s m n i := by
  obtain ⟨k, rfl⟩ := Int.eq_ofNat_of_zero_le hj0
  refine (foldl_max_bounds _ _).2.1 _ ?_
  exact List.mem_map.2 ⟨k, List.mem_range.2 (by omega), rfl⟩

theorem lineRecon_attained (s m : Int → α) (n : Nat) (i : Int) (hi0 : 0 ≤ i) (hi : i < n) :
    ∃ j : Int, 0 ≤ j ∧ j < n ∧ lineRecon s m n i = pathMin s m j i := by
  rcases (foldl_max_bounds ((List.range n).map fun j : Nat => pathMin s m j i)
    (pathMin s m i i)).2.2 with h | h
  · exact ⟨i, hi0, hi, h⟩
  · obtain ⟨k, hk, hk'⟩ := List.mem_map.1 h
    exact ⟨k, by omega, by have := List.mem_range.1 hk; omega, hk'.symm⟩

/-- On a grid of width one a reconstruction is given by the closed formula. -/
theorem IsRecon.line {n : Nat} {adj : Int → Int → Int → Int → Prop} {S0 M R : Int → Int → α}
    (hR : IsRecon 1 n adj S0 M R)
    (hadj : ∀ y y' : Int, (y' = y + 1 ∨ y = y' + 1) → adj 0 y 0 y')
    (hadj' : ∀ x y x' y', InGrid 1 n x y → InGrid 1 n x' y' → adj x y x' y' →
      (y' = y + 1 ∨ y = y' + 1)) (i : Int) (hi0 : 0 ≤ i) (hi : i < n) :
    R 0 i = lineRecon (fun j => S0 0 j) (fun k => M 0 k) n i := by
  have hg : ∀ y : Int, 0 ≤ y → y < n → InGrid 1 n 0 y := fun y h0 h1 => by
    unfold InGrid; omega
  apply le_antisymm
  · refine hR.sound (fun _ y => lineRecon (fun j => S0 0 j) (fun k => M 0 k) n y)
      ⟨fun x y hc => ?_, fun x y x' y' hc hc' ha => ?_⟩ 0 i (hg i hi0 hi)
    · have hx : x = 0 := by unfold InGrid at hc; omega
      subst hx
      have := lineRecon_ge (fun j => S0 0 j) (fun k => M 0 k) n y y hc.2.2.1 hc.2.2.2
      rwa [pathMin_self] at this
    · have hx : x = 0 := by unfold InGrid at hc; omega
      have hx' : x' = 0 := by unfold InGrid at hc'; omega
      subst hx hx'
      obtain ⟨j, hj0, hj, he⟩ := lineRecon_attained (fun j => S0 0 j) (fun k => M 0 k) n y
        hc.2.2.1 hc.2.2.2
      simp only [he]
      exact le_trans (pathMin_step _ _ j y y' (hadj' _ _ _ _ hc hc' ha))
        (lineRecon_ge _ _ n y' j hj0 hj)
  · obtain ⟨j, hj0, hj, he⟩ := lineRecon_attained (fun j => S0 0 j) (fun k => M 0 k) n i hi0 hi
    rw [he]
    -- every term is below the reconstruction, by induction on the distance
    have hup : ∀ (d : Nat) (a : Int), 0 ≤ a → a + d < n →
        pathMin (fun j => S0 0 j) (fun k => M 0 k) a (a + d) ≤ R 0 (a + d) := by
      intro d
      induction d with
      | zero =>
        intro a ha0 ha
        simp only [Nat.cast_zero, add_zero] at ha ⊢
        rw [pathMin_self]
        exact hR.above 0 a (hg a ha0 ha)
      | succ d ih =>
        intro a ha0 ha
        have h1 := ih a ha0 (by push_cast at ha; omega)
        have h2 := hR.stable 0 (a + d) 0 (a + (d + 1 : Nat)) (hg _ (by omega) (by push_cast at ha; omega))
          (hg _ (by omega) ha) (hadj _ _ (Or.inl (by push_cast; ring)))
        rw [pathMin_up _ _ a (a + d) d rfl] at h1
        rw [pathMin_up _ _ a (a + (d + 1 : Nat)) (d + 1) rfl, segMin]
        have e : a + ((d : Int) + 1) = a + ((d + 1 : Nat) : Int) := by push_cast; ring
        refine le_trans ?_ h2
        refine le_min (le_trans (min_le_right _ _) (min_le_right _ _)) (le_trans ?_ h1)
        exact min_le_min le_rfl (min_le_left _ _)
    have hdown : ∀ (d : Nat) (a : Int), 0 ≤ a → a + d < n →
        pathMin (fun j => S0 0 j) (fun k => M 0 k) (a + d) a ≤ R 0 a := by
      intro d
      induction d with
      | zero =>
        intro a ha0 ha
        simp only [Nat.cast_zero, add_zero] at ha ⊢
        rw [pathMin_self]
        exact hR.above 0 a (hg a ha0 ha)
      | succ d ih =>
        intro a ha0 ha
        have e : a + ((d + 1 : Nat) : Int) = (a + 1) + (d : Int) := by push_cast; ring
        have h1 := ih (a + 1) (by omega) (by rw [← e]; exact ha)
        have h2 := hR.stable 0 (a + 1) 0 a (hg _ (by omega) (by push_cast at ha; omega))
          (hg _ ha0 (by omega)) (hadj _ _ (Or.inr rfl))
        rw [pathMin_down _ _ (a + 1 + d) (a + 1) d rfl] at h1
        rw [pathMin_down _ _ (a + (d + 1 : Nat)) a (d + 1) rfl, segMin_left]
        refine le_trans ?_ h2
        refine le_min (le_trans (min_le_right _ _) (min_le_left _ _)) (le_trans ?_ h1)
        rw [e]
        exact min_le_min le_rfl (min_le_right _ _)
    rcases le_or_lt j i with hji | hji
    · obtain ⟨d, rfl⟩ : ∃ d : Nat, i = j + d := ⟨(i - j).toNat, by omega⟩
      exact hup d j hj0 hi
    · obtain ⟨d, rfl⟩ : ∃ d : Nat, j = i + d := ⟨(j - i).toNat, by omega⟩
      exact hdown d i hi0 hj

/-- Claim C16.  `seedFillSingleLine` computes the one-dimensional reconstruction in one
forward and one backward sweep: for a line of `n ≥ 1` elements (element `i` of the seed at
offset `i * seed_stride`, of the mask at `i * mask_stride`, both strides positive), with
`spread_op = max` and `mask_op = min`, after the call the element at each position `i`
equals the maximum over all positions `j` of `min(seed0[j], min of mask[k] for every k
between j and i inclusive)`, where `seed0` is the line before the call; and adjacent
elements are mutually stable: neither can raise the other under its mask. -/
theorem C16_single_line_formula (n : Nat) (hn : 1 ≤ n) (seed_stride mask_stride : Int)
    (hss : 1 ≤ seed_stride) (hms : 1 ≤ mask_stride) (seed mask : Int → α) :
    (∀ i : Int, 0 ≤ i → i < n →
      seedFillSingleLine max min n seed seed_stride mask mask_stride (i * seed_stride) =
        lineRecon (fun j => seed (j * seed_stride)) (fun k => mask (k * mask_stride)) n i) ∧
    (∀ i : Int, 0 ≤ i → i + 1 < n →
      min (mask ((i + 1) * mask_stride))
          (max (seedFillSingleLine max min n seed seed_stride mask mask_stride (i * seed_stride))
            (seedFillSingleLine max min n seed seed_stride mask mask_stride
              ((i + 1) * seed_stride))) =
        seedFillSingleLine max min n seed seed_stride mask mask_stride ((i + 1) * seed_stride) ∧
      min (mask (i * mask_stride))
          (max (seedFillSingleLine max min n seed seed_stride mask mask_stride
              ((i + 1) * seed_stride))
            (seedFillSingleLine max min n seed seed_stride mask mask_stride (i * seed_stride))) =
        seedFillSingleLine max min n seed seed_stride mask mask_stride (i * seed_stride)) := by
  have hC := mkCtx_wf Connectivity.CONN8 1 n seed_stride mask_stride seed mask
    (by exact_mod_cast hss) (by exact_mod_cast hms)
  have hL : Line (mkCtx Connectivity.CONN8 1 n seed_stride mask_stride seed mask) n seed_stride
      mask_stride (fun _ => 0) (fun i => i) := line_vertical rfl rfl
  have hrec : IsRecon 1 n Adj8 (view seed seed_stride) (view mask mask_stride)
      (view (seedFillSingleLine max min n seed seed_stride mask mask_stride) seed_stride) :=
    (seedFillSingleLine_done hC hL hn).isRecon
  have hv : ∀ (b : Int → α) (s y : Int), view b s 0 y = b (y * s) := by
    intro b s y
    simp [view, cellAddr]
  have hg : ∀ y : Int, 0 ≤ y → y < n → InGrid 1 n 0 y := fun y h0 h1 => by
    unfold InGrid; omega
  constructor
  · intro i hi0 hi
    have := hrec.line (fun y y' h => by unfold Adj8; omega)
      (fun x y x' y' hc hc' ha => by unfold InGrid at hc hc'; unfold Adj8 at ha; omega) i hi0 hi
    simpa only [hv] using this
  · intro i hi0 hi
    have hc := hg i hi0 (by omega)
    have hc' := hg (i + 1) (by omega) hi
    have s1 := hrec.stable 0 i 0 (i + 1) hc hc' (by unfold Adj8; omega)
    have s2 := hrec.stable 0 (i + 1) 0 i hc' hc (by unfold Adj8; omega)
    have c1 := hrec.clamped 0 i hc
    have c2 := hrec.clamped 0 (i + 1) hc'
    simp only [hv] at s1 s2 c1 c2
    constructor
    · apply le_antisymm
      · rw [min_max_distrib_left]
        exact max_le s1 (min_le_right _ _)
      · exact le_min c2 (le_max_right _ _)
    · apply le_antisymm
      · rw [min_max_distrib_left]
        exact max_le s2 (min_le_right _ _)
      · exact le_min c1 (le_max_right _ _)

/-- Witness for C16: a line of three naturals (seed `[9, 1, 1]` with stride two, mask
`[6, 4, 6]` with stride one), at the last position. -/
theorem C16_single_line_formula_witness :
    1 ≤ 3 ∧ (1 : Int) ≤ 2 ∧ (1 : Int) ≤ 1 ∧ (0 : Int) ≤ 2 ∧ (2 : Int) < (3 : Nat) ∧
    seedFillSingleLine (max : Nat → Nat → Nat) min 3 (fun a => if a = 0 then 9 else 1) 2
        (fun a => if a = 1 then 4 else 6) 1 (2 * 2) =
      lineRecon (fun j => (fun a => if a = 0 then 9 else 1 : Int → Nat) (j * 2))
        (fun k => (fun a => if a = 1 then 4 else 6 : Int → Nat) (k * 1)) 3 2 :=
  ⟨by decide, by decide, by decide, by decide, by decide,
    (C16_single_line_formula 3 (by decide) 2 1 (by decide) (by decide)
      (fun a => if a = 0 then 9 else 1) (fun a => if a = 1 then 4 else 6)).1 2
      (by decide) (by decide)⟩

end imageproc

/-! ## The propagation phase, store by store -/

namespace imageproc

open detail.seed_fill_generic

variable {α : Type} [LinearOrder α]

theorem TAfter.stepTraced {C : Ctx α} (hC : C.WF) {ex : Int → Int → Int → Int → Prop}
    {tv : α} {Q : Int → Int → Prop} {μ : Nat} {s : FillState α × List (Event α)}
    (pos : Position) (ha : TAfter C ex pos.x pos.y tv Q μ s) (hp : InGrid C.w C.h pos.x pos.y)
    (hps : pos.seed = cellAddr C.ss pos.x pos.y) (dx dy : Int) (n nm : Int)
    (hq : InGrid C.w C.h (pos.x + dx) (pos.y + dy))
    (hadj : (dx = 0 ∧ dy = 0) ∨ C.adj pos.x pos.y (pos.x + dx) (pos.y + dy))
    (hn : n = cellAddr C.ss (pos.x + dx) (pos.y + dy))
    (hnm : nm = cellAddr C.ms (pos.x + dx) (pos.y + dy)) :
    TAfter C ex pos.x pos.y tv (fun x y => Q x y ∨ (x = pos.x + dx ∧ y = pos.y + dy)) μ
      (processNeighborTraced max min C.mask s tv n nm pos dx dy) := by
  refine ⟨After.step hC pos ha.1 hp dx dy n nm hq hadj hn hnm, fun e he => ?_⟩
  simp only [processNeighborTraced, List.mem_append, List.mem_singleton] at he
  rcases he with he | rfl
  · exact ha.2 e he
  · exact ⟨ha.1.inv.good, hp, hps, by rw [hps]; exact ha.1.keep, hq, hn, hnm⟩

theorem TInv.congrExTraced {C : Ctx α} {ex ex' : Int → Int → Int → Int → Prop}
    {s : FillState α × List (Event α)} (hinv : TInv C ex s)
    (h : ∀ x y x' y', InGrid C.w C.h x y → InGrid C.w C.h x' y' → ex x y x' y' → ex' x y x' y') :
    TInv C ex' s :=
  ⟨hinv.1.congr_ex h, hinv.2⟩

theorem spread4BodyTraced_inv {C : Ctx α} (hC : C.WF) (hadj : C.adj = Adj4) {seed : Int → α}
    {pos : Position} {rest : List Position} {log : List (Event α)}
    (hinv : TInv C (fun _ _ _ _ => False) (⟨seed, pos :: rest⟩, log)) :
    TInv C (fun _ _ _ _ => False)
      (spread4BodyTraced max min C.mask (initHorTransitions C.w) (initVertTransitions C.h)
        C.ss C.ms pos (⟨seed, rest⟩, log)) ∧
    (spread4BodyTraced max min C.mask (initHorTransitions C.w) (initVertTransitions C.h)
        C.ss C.ms pos (⟨seed, rest⟩, log)).1.queue.length +
      2 * Phi C (spread4BodyTraced max min C.mask (initHorTransitions C.w)
        (initVertTransitions C.h) C.ss C.ms pos (⟨seed, rest⟩, log)).1.seed <
        (pos :: rest).length + 2 * Phi C seed := by
  obtain ⟨h1, h2⟩ := spread4Body_inv hC hadj hinv.1
  refine ⟨⟨h1, ?_⟩, h2⟩
  have hv := hinv.1.qvalid pos (List.mem_cons_self _ _)
  obtain ⟨hp, hps, hpm⟩ := hv
  obtain ⟨hx0, hx1, hy0, hy1⟩ := id hp
  have a0 : TAfter C _ pos.x pos.y (seed pos.seed) (fun _ _ => False) _ (⟨seed, rest⟩, log) :=
    ⟨After.pop hinv.1, hinv.2⟩
  have a1 := TAfter.stepTraced hC pos a0 hp hps (westD pos.x) 0
    (pos.seed + westD pos.x) (pos.mask + westD pos.x)
    (delta_inGrid hp (Or.inl rfl) (Or.inr (Or.inl rfl)))
    (by rw [hadj]; exact delta_adj4_hor hp (Or.inl rfl))
    (by rw [hps]; unfold cellAddr; ring) (by rw [hpm]; unfold cellAddr; ring)
  have a2 := TAfter.stepTraced hC pos a1 hp hps (eastD C.w pos.x) 0
    (pos.seed + eastD C.w pos.x) (pos.mask + eastD C.w pos.x)
    (delta_inGrid hp (Or.inr (Or.inr rfl)) (Or.inr (Or.inl rfl)))
    (by rw [hadj]; exact delta_adj4_hor hp (Or.inr rfl))
    (by rw [hps]; unfold cellAddr; ring) (by rw [hpm]; unfold cellAddr; ring)
  have a3 := TAfter.stepTraced hC pos a2 hp hps 0 (northD pos.y)
    (pos.seed - -northD pos.y * C.ss) (pos.mask - -northD pos.y * C.ms)
    (delta_inGrid hp (Or.inr (Or.inl rfl)) (Or.inl rfl))
    (by rw [hadj]; exact delta_adj4_ver hp (Or.inl rfl))
    (by rw [hps]; unfold cellAddr; ring) (by rw [hpm]; unfold cellAddr; ring)
  have a4 := TAfter.stepTraced hC pos a3 hp hps 0 (southD C.h pos.y)
    (pos.seed + southD C.h pos.y * C.ss) (pos.mask + southD C.h pos.y * C.ms)
    (delta_inGrid hp (Or.inr (Or.inl rfl)) (Or.inr (Or.inr rfl)))
    (by rw [hadj]; exact delta_adj4_ver hp (Or.inr rfl))
    (by rw [hps]; unfold cellAddr; ring) (by rw [hpm]; unfold cellAddr; ring)
  have hlog := a4.2
  simp only [spread4BodyTraced, hAt_init C.w pos.x hx0 hx1, vAt_init C.h pos.y hy0 hy1,
    land_north, land_south, mul_one, mul_neg, neg_neg]
  exact hlog

theorem spread8BodyTraced_inv {C : Ctx α} (hC : C.WF) (hadj : C.adj = Adj8) (hsm : C.ss = C.ms)
    {seed : Int → α} {pos : Position} {rest : List Position} {log : List (Event α)}
    (hinv : TInv C (fun _ _ _ _ => False) (⟨seed, pos :: rest⟩, log)) :
    TInv C (fun _ _ _ _ => False)
      (spread8BodyTraced max min C.mask (initHorTransitions C.w) (initVertTransitions C.h)
        C.ss C.ms pos (⟨seed, rest⟩, log)) ∧
    (spread8BodyTraced max min C.mask (initHorTransitions C.w) (initVertTransitions C.h)
        C.ss C.ms pos (⟨seed, rest⟩, log)).1.queue.length +
      2 * Phi C (spread8BodyTraced max min C.mask (initHorTransitions C.w)
        (initVertTransitions C.h) C.ss C.ms pos (⟨seed, rest⟩, log)).1.seed <
        (pos :: rest).length + 2 * Phi C seed := by
  obtain ⟨h1, h2⟩ := spread8Body_inv hC hadj hsm hinv.1
  refine ⟨⟨h1, ?_⟩, h2⟩
  have hv := hinv.1.qvalid pos (List.mem_cons_self _ _)
  obtain ⟨hp, hps, hpm⟩ := hv
  obtain ⟨hx0, hx1, hy0, hy1⟩ := id hp
  have a0 : TAfter C _ pos.x pos.y (seed pos.seed) (fun _ _ => False) _ (⟨seed, rest⟩, log) :=
    ⟨After.pop hinv.1, hinv.2⟩
  have a1 := TAfter.stepTraced hC pos a0 hp hps 0 (northD pos.y)
    (pos.seed - -northD pos.y * C.ss) (pos.mask - -northD pos.y * C.ms)
    (delta_inGrid hp (Or.inr (Or.inl rfl)) (Or.inl rfl))
    (by rw [hadj]; exact delta_adj8 C.w C.h (Or.inr (Or.inl rfl)) (Or.inl rfl))
    (by rw [hps]; unfold cellAddr; ring) (by rw [hpm]; unfold cellAddr; ring)
  have a2 := TAfter.stepTraced hC pos a1 hp hps (westD pos.x) (northD pos.y)
    (pos.seed - -northD pos.y * C.ss + westD pos.x)
    (pos.mask - -northD pos.y * C.ms + westD pos.x)
    (delta_inGrid hp (Or.inl rfl) (Or.inl rfl))
    (by rw [hadj]; exact delta_adj8 C.w C.h (Or.inl rfl) (Or.inl rfl))
    (by rw [hps]; unfold cellAddr; ring) (by rw [hpm]; unfold cellAddr; ring)
  have a3 := TAfter.stepTraced hC pos a2 hp hps (eastD C.w pos.x) (northD pos.y)
    (pos.seed - -northD pos.y * C.ss + eastD C.w pos.x)
    (pos.mask - -northD pos.y * C.ms + eastD C.w pos.x)
    (delta_inGrid hp (Or.inr (Or.inr rfl)) (Or.inl rfl))
    (by rw [hadj]; exact delta_adj8 C.w C.h (Or.inr (Or.inr rfl)) (Or.inl rfl))
    (by rw [hps]; unfold cellAddr; ring) (by rw [hpm]; unfold cellAddr; ring)
  have a4 := TAfter.stepTraced hC pos a3 hp hps (eastD C.w pos.x) 0
    (pos.seed + eastD C.w pos.x) (pos.mask + eastD C.w pos.x)
    (delta_inGrid hp (Or.inr (Or.inr rfl)) (Or.inr (Or.inl rfl)))
    (by rw [hadj]; exact delta_adj8 C.w C.h (Or.inr (Or.inr rfl)) (Or.inr (Or.inl rfl)))
    (by rw [hps]; unfold cellAddr; ring) (by rw [hpm]; unfold cellAddr; ring)
  have a5 := TAfter.stepTraced hC pos a4 hp hps (westD pos.x) 0
    (pos.seed + westD pos.x) (pos.mask + westD pos.x)
    (delta_inGrid hp (Or.inl rfl) (Or.inr (Or.inl rfl)))
    (by rw [hadj]; exact delta_adj8 C.w C.h (Or.inl rfl) (Or.inr (Or.inl rfl)))
    (by rw [hps]; unfold cellAddr; ring) (by rw [hpm]; unfold cellAddr; ring)
  have a6 := TAfter.stepTraced hC pos a5 hp hps 0 (southD C.h pos.y)
    (pos.seed + southD C.h pos.y * C.ss) (pos.mask + southD C.h pos.y * C.ms)
    (delta_inGrid hp (Or.inr (Or.inl rfl)) (Or.inr (Or.inr rfl)))
    (by rw [hadj]; exact delta_adj8 C.w C.h (Or.inr (Or.inl rfl)) (Or.inr (Or.inr rfl)))
    (by rw [hps]; unfold cellAddr; ring) (by rw [hpm]; unfold cellAddr; ring)
  have a7 := TAfter.stepTraced hC pos a6 hp hps (eastD C.w pos.x) (southD C.h pos.y)
    (pos.seed + southD C.h pos.y * C.ss + eastD C.w pos.x)
    (pos.mask + southD C.h pos.y * C.ms + eastD C.w pos.x)
    (delta_inGrid hp (Or.inr (Or.inr rfl)) (Or.inr (Or.inr rfl)))
    (by rw [hadj]; exact delta_adj8 C.w C.h (Or.inr (Or.inr rfl)) (Or.inr (Or.inr rfl)))
    (by rw [hps]; unfold cellAddr; ring) (by rw [hpm]; unfold cellAddr; ring)
  have a8 := TAfter.stepTraced hC pos a7 hp hps (westD pos.x) (southD C.h pos.y)
    (pos.seed + southD C.h pos.y * C.ss + westD pos.x)
    (pos.mask + southD C.h pos.y * C.ss + westD pos.x)
    (delta_inGrid hp (Or.inl rfl) (Or.inr (Or.inr rfl)))
    (by rw [hadj]; exact delta_adj8 C.w C.h (Or.inl rfl) (Or.inr (Or.inr rfl)))
    (by rw [hps]; unfold cellAddr; ring) (by rw [hpm, hsm]; unfold cellAddr; ring)
  have hlog := a8.2
  simp only [spread8BodyTraced, hAt_init C.w pos.x hx0 hx1, vAt_init C.h pos.y hy0 hy1,
    land_north, land_south, mul_one, mul_neg, neg_neg]
  exact hlog

/-- With enough fuel the logged loop drains the queue; the state it ends in is complete and
every logged event is in order. -/
theorem spreadTraced_terminates {C : Ctx α}
    (body : Position → FillState α × List (Event α) → FillState α × List (Event α))
    (hbody : ∀ (seed : Int → α) (pos : Position) (rest : List Position) (log : List (Event α)),
      TInv C (fun _ _ _ _ => False) (⟨seed, pos :: rest⟩, log) →
      TInv C (fun _ _ _ _ => False) (body pos (⟨seed, rest⟩, log)) ∧
      (body pos (⟨seed, rest⟩, log)).1.queue.length +
        2 * Phi C (body pos (⟨seed, rest⟩, log)).1.seed <
        (pos :: rest).length + 2 * Phi C seed) :
    ∀ (n : Nat) (s : FillState α × List (Event α)), TInv C (fun _ _ _ _ => False) s →
      s.1.queue.length + 2 * Phi C s.1.seed ≤ n →
      ∃ r log, spreadTraced body (n + 1) s = some (r, log) ∧ Done C r ∧
        ∀ e ∈ log, EventOK C e := by
  intro n
  induction n with
  | zero =>
    intro s hinv hm
    obtain ⟨⟨seed, queue⟩, log⟩ := s
    have hq : queue = [] := by
      cases queue with
      | nil => rfl
      | cons a l => simp at hm
    subst hq
    exact ⟨seed, log, rfl, hinv.1.toDone, hinv.2⟩
  | succ n ih =>
    intro s hinv hm
    obtain ⟨⟨seed, queue⟩, log⟩ := s
    cases queue with
    | nil => exact ⟨seed, log, rfl, hinv.1.toDone, hinv.2⟩
    | cons pos rest =>
      obtain ⟨h1, h2⟩ := hbody seed pos rest log hinv
      obtain ⟨r, log', hr, hd, hl⟩ := ih _ h1 (by simp only [List.length_cons] at hm h2; omega)
      exact ⟨r, log', hr, hd, hl⟩

omit [LinearOrder α] in
theorem scanCell4Traced_fst [DecidableEq α] (spread_op mask_op : α → α → α) (maskBuf : Int → α)
    (ht : List HTransition) (vt : VTransition) (ss ms sl ml x y : Int)
    (s : FillState α × List (Event α)) :
    (scanCell4Traced spread_op mask_op maskBuf ht vt ss ms sl ml x y s).1 =
      scanCell4 spread_op mask_op maskBuf ht vt ss ms sl ml x y s.1 := by
  unfold scanCell4Traced scanCell4
  dsimp only
  split_ifs <;> rfl

omit [LinearOrder α] in
theorem scanCell8Traced_fst [DecidableEq α] (spread_op mask_op : α → α → α) (maskBuf : Int → α)
    (ht : List HTransition) (vt : VTransition) (ss ms sl ml x y : Int)
    (s : FillState α × List (Event α)) :
    (scanCell8Traced spread_op mask_op maskBuf ht vt ss ms sl ml x y s).1 =
      scanCell8 spread_op mask_op maskBuf ht vt ss ms sl ml x y s.1 := by
  unfold scanCell8Traced scanCell8
  dsimp only
  split_ifs <;> rfl

/-- The store of a backward scan, as a logged event. -/
theorem scan_store_ok {C : Ctx α} (hC : C.WF) {x y : Int} {s : FillState α × List (Event α)}
    (hinv : TInv C (exScan (x + 1) y) s) (hc : InGrid C.w C.h x y) (e : α)
    (hsrc : Src C x y e) (hself : s.1.seed (cellAddr C.ss x y) ≤ e)
    (hne : ¬ min (C.M x y) e = s.1.seed (cellAddr C.ss x y)) :
    ∀ ev ∈ s.2 ++ [Event.store s.1 (cellAddr C.ss x y) (cellAddr C.ms x y) (min (C.M x y) e)],
      EventOK C ev := by
  intro ev hev
  simp only [List.mem_append, List.mem_singleton] at hev
  rcases hev with hev | rfl
  · exact hinv.2 ev hev
  · have hokc := hinv.1.good.ok x y hc trivial
    have hnew : CellOK C x y (min (C.M x y) e) :=
      CellOK.clamp hC hc hsrc (le_trans hokc.2.1 hself)
    have hge : s.1.seed (cellAddr C.ss x y) ≤ min (C.M x y) e := le_min hokc.1 hself
    exact ⟨x, y, hc, rfl, rfl, hinv.1.good, lt_of_le_of_ne hge (Ne.symm hne), hnew⟩

theorem scanCell4Traced_inv {C : Ctx α} (hC : C.WF) (hadj : C.adj = Adj4) {x y : Int}
    (hc : InGrid C.w C.h x y) {s : FillState α × List (Event α)}
    (hinv : TInv C (exScan (x + 1) y) s) :
    TInv C (exScan x y)
      (scanCell4Traced max min C.mask (initHorTransitions C.w)
        ⟨if y = 0 then 0 else -1, if y + 1 = C.h then 0 else -1⟩
        C.ss C.ms (cellAddr C.ss 0 y) (cellAddr C.ms 0 y) x y s) := by
  refine ⟨by rw [scanCell4Traced_fst]; exact scanCell4_inv hC hadj hc hinv.1, ?_⟩
  obtain ⟨st, log⟩ := s
  have e1 : cellAddr C.ss x y + eastD C.w x = cellAddr C.ss (x + eastD C.w x) (y + 0) := by
    unfold cellAddr; ring
  have e2 : cellAddr C.ss x y + southD C.h y * C.ss =
      cellAddr C.ss (x + 0) (y + southD C.h y) := by
    unfold cellAddr; ring
  have hcE : InGrid C.w C.h (x + eastD C.w x) (y + 0) :=
    delta_inGrid hc (Or.inr (Or.inr rfl)) (Or.inr (Or.inl rfl))
  have hcS : InGrid C.w C.h (x + 0) (y + southD C.h y) :=
    delta_inGrid hc (Or.inr (Or.inl rfl)) (Or.inr (Or.inr rfl))
  have haE := delta_adj4_hor hc (Or.inr rfl : eastD C.w x = westD x ∨ eastD C.w x = eastD C.w x)
  have haS := delta_adj4_ver hc
    (Or.inr rfl : southD C.h y = northD y ∨ southD C.h y = southD C.h y)
  obtain ⟨hx0, hx1, hy0, hy1⟩ := id hc
  have hsE : Src C x y (st.seed (cellAddr C.ss (x + eastD C.w x) (y + 0))) := by
    refine hinv.1.src hc hcE ?_
    rcases haE with h | h
    · left; omega
    · right; rw [hadj]; exact adj4_symm h
  have hsS : Src C x y (st.seed (cellAddr C.ss (x + 0) (y + southD C.h y))) := by
    refine hinv.1.src hc hcS ?_
    rcases haS with h | h
    · left; omega
    · right; rw [hadj]; exact adj4_symm h
  have hcov : ∀ x1 y1, InGrid C.w C.h x1 y1 → C.adj x1 y1 x y → Before x y x1 y1 →
      st.seed (cellAddr C.ss x1 y1) ≤
        max (st.seed (cellAddr C.ss x y))
          (max (st.seed (cellAddr C.ss (x + eastD C.w x) (y + 0)))
            (st.seed (cellAddr C.ss (x + 0) (y + southD C.h y)))) := by
    intro x1 y1 hc1 ha hb
    rw [hadj] at ha
    rcases adj4_after_cover hc1 (adj4_symm ha) hb with ⟨rfl, rfl⟩ | ⟨rfl, rfl⟩
    · exact le_trans (le_max_left _ _) (le_max_right _ _)
    · exact le_trans (le_max_right _ _) (le_max_right _ _)
  simp only [scanCell4Traced, hAt_init C.w x hx0 hx1, land_south, mul_one, cellAddr_col, e1, e2]
  split_ifs with heq
  · exact hinv.2
  · have hsrc := Src.max (hinv.1.src hc hc (Or.inl ⟨rfl, rfl⟩)) (Src.max hsE hsS)
    have a0 : TAfter C _ x y _ (fun _ _ => False) _
        (⟨Function.update st.seed (cellAddr C.ss x y) _, st.queue⟩,
          log ++ [Event.store st (cellAddr C.ss x y) (cellAddr C.ms x y) _]) :=
      ⟨scan_write hC hinv.1 hc _ hsrc (le_max_left _ _) hcov,
        scan_store_ok hC hinv hc _ hsrc (le_max_left _ _) heq⟩
    have a1 := TAfter.stepTraced hC ⟨cellAddr C.ss x y, cellAddr C.ms x y, x, y⟩ a0 hc rfl
      (eastD C.w x) 0 (cellAddr C.ss (x + eastD C.w x) (y + 0))
      (cellAddr C.ms x y + eastD C.w x) hcE (by rw [hadj]; exact haE) rfl
      (by unfold cellAddr; ring)
    have a2 := TAfter.stepTraced hC ⟨cellAddr C.ss x y, cellAddr C.ms x y, x, y⟩ a1 hc rfl
      0 (southD C.h y) (cellAddr C.ss (x + 0) (y + southD C.h y))
      (cellAddr C.ms x y + southD C.h y * C.ms) hcS (by rw [hadj]; exact haS) rfl
      (by unfold cellAddr; ring)
    exact a2.2

theorem scanCell8Traced_inv {C : Ctx α} (hC : C.WF) (hadj : C.adj = Adj8) {x y : Int}
    (hc : InGrid C.w C.h x y) {s : FillState α × List (Event α)}
    (hinv : TInv C (exScan (x + 1) y) s) :
    TInv C (exScan x y)
      (scanCell8Traced max min C.mask (initHorTransitions C.w)
        ⟨if y = 0 then 0 else -1, if y + 1 = C.h then 0 else -1⟩
        C.ss C.ms (cellAddr C.ss 0 y) (cellAddr C.ms 0 y) x y s) := by
  refine ⟨by rw [scanCell8Traced_fst]; exact scanCell8_inv hC hadj hc hinv.1, ?_⟩
  obtain ⟨st, log⟩ := s
  have e1 : cellAddr C.ss x y + eastD C.w x = cellAddr C.ss (x + eastD C.w x) (y + 0) := by
    unfold cellAddr; ring
  have e2 : cellAddr C.ss (x + 0) (y + southD C.h y) + eastD C.w x =
      cellAddr C.ss (x + eastD C.w x) (y + southD C.h y) := by
    unfold cellAddr; ring
  have e3 : cellAddr C.ss (x + 0) (y + southD C.h y) + westD x =
      cellAddr C.ss (x + westD x) (y + southD C.h y) := by
    unfold cellAddr; ring
  have e4 : cellAddr C.ss x y + southD C.h y * C.ss =
      cellAddr C.ss (x + 0) (y + southD C.h y) := by
    unfold cellAddr; ring
  have hcE : InGrid C.w C.h (x + eastD C.w x) (y + 0) :=
    delta_inGrid hc (Or.inr (Or.inr rfl)) (Or.inr (Or.inl rfl))
  have hcSE : InGrid C.w C.h (x + eastD C.w x) (y + southD C.h y) :=
    delta_inGrid hc (Or.inr (Or.inr rfl)) (Or.inr (Or.inr rfl))
  have hcS : InGrid C.w C.h (x + 0) (y + southD C.h y) :=
    delta_inGrid hc (Or.inr (Or.inl rfl)) (Or.inr (Or.inr rfl))
  have hcSW : InGrid C.w C.h (x + westD x) (y + southD C.h y) :=
    delta_inGrid hc (Or.inl rfl) (Or.inr (Or.inr rfl))
  have haE : (eastD C.w x = 0 ∧ (0 : Int) = 0) ∨ Adj8 x y (x + eastD C.w x) (y + 0) :=
    delta_adj8 C.w C.h (Or.inr (Or.inr rfl)) (Or.inr (Or.inl rfl))
  have haSE : (eastD C.w x = 0 ∧ southD C.h y = 0) ∨
      Adj8 x y (x + eastD C.w x) (y + southD C.h y) :=
    delta_adj8 C.w C.h (Or.inr (Or.inr rfl)) (Or.inr (Or.inr rfl))
  have haS : ((0 : Int) = 0 ∧ southD C.h y = 0) ∨ Adj8 x y (x + 0) (y + southD C.h y) :=
    delta_adj8 C.w C.h (Or.inr (Or.inl rfl)) (Or.inr (Or.inr rfl))
  have haSW : (westD x = 0 ∧ southD C.h y = 0) ∨ Adj8 x y (x + westD x) (y + southD C.h y) :=
    delta_adj8 C.w C.h (Or.inl rfl) (Or.inr (Or.inr rfl))
  obtain ⟨hx0, hx1, hy0, hy1⟩ := id hc
  have hsrc : ∀ dx dy, InGrid C.w C.h (x + dx) (y + dy) →
      ((dx = 0 ∧ dy = 0) ∨ Adj8 x y (x + dx) (y + dy)) →
      Src C x y (st.seed (cellAddr C.ss (x + dx) (y + dy))) := by
    intro dx dy hcd had
    refine hinv.1.src hc hcd ?_
    rcases had with h | h
    · left; omega
    · right; rw [hadj]; exact adj8_symm h
  have hcov : ∀ x1 y1, InGrid C.w C.h x1 y1 → C.adj x1 y1 x y → Before x y x1 y1 →
      st.seed (cellAddr C.ss x1 y1) ≤
        max (st.seed (cellAddr C.ss x y))
          (max (max (st.seed (cellAddr C.ss (x + eastD C.w x) (y + 0)))
              (st.seed (cellAddr C.ss (x + eastD C.w x) (y + southD C.h y))))
            (max (st.seed (cellAddr C.ss (x + 0) (y + southD C.h y)))
              (st.seed (cellAddr C.ss (x + westD x) (y + southD C.h y))))) := by
    intro x1 y1 hc1 ha hb
    rw [hadj] at ha
    rcases adj8_after_cover hc hc1 (adj8_symm ha) hb with
      ⟨rfl, rfl⟩ | ⟨rfl, rfl⟩ | ⟨rfl, rfl⟩ | ⟨rfl, rfl⟩
    · exact le_trans (le_max_left _ _) (le_trans (le_max_left _ _) (le_max_right _ _))
    · exact le_trans (le_max_right _ _) (le_trans (le_max_left _ _) (le_max_right _ _))
    · exact le_trans (le_max_left _ _) (le_trans (le_max_right _ _) (le_max_right _ _))
    · exact le_trans (le_max_right _ _) (le_trans (le_max_right _ _) (le_max_right _ _))
  simp only [scanCell8Traced, hAt_init C.w x hx0 hx1, land_south, mul_one, cellAddr_col, e1, e4,
    e2, e3]
  split_ifs with heq
  · exact hinv.2
  · have hsrc' := Src.max (hinv.1.src hc hc (Or.inl ⟨rfl, rfl⟩))
      (Src.max (Src.max (hsrc _ _ hcE haE) (hsrc _ _ hcSE haSE))
        (Src.max (hsrc _ _ hcS haS) (hsrc _ _ hcSW haSW)))
    have a0 : TAfter C _ x y _ (fun _ _ => False) _
        (⟨Function.update st.seed (cellAddr C.ss x y) _, st.queue⟩,
          log ++ [Event.store st (cellAddr C.ss x y) (cellAddr C.ms x y) _]) :=
      ⟨scan_write hC hinv.1 hc _ hsrc' (le_max_left _ _) hcov,
        scan_store_ok hC hinv hc _ hsrc' (le_max_left _ _) heq⟩
    have a1 := TAfter.stepTraced hC ⟨cellAddr C.ss x y, cellAddr C.ms x y, x, y⟩ a0 hc rfl
      (eastD C.w x) 0 (cellAddr C.ss (x + eastD C.w x) (y + 0))
      (cellAddr C.ms x y + eastD C.w x) hcE (by rw [hadj]; exact haE) rfl
      (by unfold cellAddr; ring)
    have a2 := TAfter.stepTraced hC ⟨cellAddr C.ss x y, cellAddr C.ms x y, x, y⟩ a1 hc rfl
      (eastD C.w x) (southD C.h y) (cellAddr C.ss (x + eastD C.w x) (y + southD C.h y))
      (cellAddr C.ms x y + southD C.h y * C.ms + eastD C.w x) hcSE (by rw [hadj]; exact haSE) rfl
      (by unfold cellAddr; ring)
    have a3 := TAfter.stepTraced hC ⟨cellAddr C.ss x y, cellAddr C.ms x y, x, y⟩ a2 hc rfl
      0 (southD C.h y) (cellAddr C.ss (x + 0) (y + southD C.h y))
      (cellAddr C.ms x y + southD C.h y * C.ms) hcS (by rw [hadj]; exact haS) rfl
      (by unfold cellAddr; ring)
    have a4 := TAfter.stepTraced hC ⟨cellAddr C.ss x y, cellAddr C.ms x y, x, y⟩ a3 hc rfl
      (westD x) (southD C.h y) (cellAddr C.ss (x + westD x) (y + southD C.h y))
      (cellAddr C.ms x y + southD C.h y * C.ms + westD x) hcSW (by rw [hadj]; exact haSW) rfl
      (by unfold cellAddr; ring)
    exact a4.2

theorem scanRowTraced_inv {C : Ctx α} {y : Int} (hy0 : 0 ≤ y) (hy1 : y < C.h)
    (cell : Int → FillState α × List (Event α) → FillState α × List (Event α))
    (hcell : ∀ (x : Int) (s : FillState α × List (Event α)), InGrid C.w C.h x y →
      TInv C (exScan (x + 1) y) s → TInv C (exScan x y) (cell x s)) :
    ∀ (n : Nat) (s : FillState α × List (Event α)), n ≤ C.w → TInv C (exScan n y) s →
      TInv C (exScan 0 y) (scanRowTraced cell n s) := by
  intro n
  induction n with
  | zero => intro s _ hinv; exact hinv
  | succ n ih =>
    intro s hn hinv
    have hc : InGrid C.w C.h n y := by unfold InGrid; omega
    have hcast : ((n + 1 : Nat) : Int) = (n : Int) + 1 := by push_cast; ring
    rw [hcast] at hinv
    exact ih _ (by omega) (hcell n s hc hinv)

theorem scanRowsTraced_inv {C : Ctx α}
    (cell : VTransition → Int → Int → Int → Int →
      FillState α × List (Event α) → FillState α × List (Event α))
    (hcell : ∀ (x y : Int) (s : FillState α × List (Event α)), InGrid C.w C.h x y →
      TInv C (exScan (x + 1) y) s →
      TInv C (exScan x y)
        (cell ⟨if y = 0 then 0 else -1, if y + 1 = C.h then 0 else -1⟩
          (cellAddr C.ss 0 y) (cellAddr C.ms 0 y) x y s)) :
    ∀ (n : Nat) (s : FillState α × List (Event α)), n ≤ C.h →
      TInv C (exScan C.w ((n : Int) - 1)) s →
      TInv C (fun _ _ _ _ => False)
        (scanRowsTraced cell (initVertTransitions C.h) C.ss C.ms C.w n
          (cellAddr C.ss 0 ((n : Int) - 1)) (cellAddr C.ms 0 ((n : Int) - 1)) s) := by
  intro n
  induction n with
  | zero =>
    intro s _ hinv
    refine hinv.congrExTraced ?_
    intro x y x' y' _ hc' h
    unfold InGrid at hc'; unfold exScan Before at h
    omega
  | succ n ih =>
    intro s hn hinv
    have hcast : ((n + 1 : Nat) : Int) - 1 = (n : Int) := by push_cast; ring
    rw [hcast] at hinv ⊢
    have hrow := scanRowTraced_inv (Int.natCast_nonneg n) (by omega : (n : Int) < C.h)
      (fun x => cell ⟨if (n : Int) = 0 then 0 else -1, if (n : Int) + 1 = C.h then 0 else -1⟩
        (cellAddr C.ss 0 n) (cellAddr C.ms 0 n) x n)
      (fun x s hc hs => hcell x n s hc hs) C.w s le_rfl hinv
    have hnext : TInv C (exScan C.w ((n : Int) - 1)) _ := hrow.congrExTraced (by
      intro x y x' y' _ hc' h
      unfold InGrid at hc'; unfold exScan Before at h ⊢
      omega)
    have := ih _ (by omega) hnext
    simp only [scanRowsTraced, vAt_init C.h n (Int.natCast_nonneg n) (by omega), cellAddr_row_sub]
    exact this

theorem seedFill4Traced_done {C : Ctx α} (hC : C.WF) (hadj : C.adj = Adj4) (hw : 0 < C.w) :
    ∃ n r log, seedFill4Traced n max min C.s0 C.ss C.w C.h C.mask C.ms = some (r, log) ∧
      Done C r ∧ ∀ e ∈ log, EventOK C e := by
  have h0 := fwdRows4_fwd hC hadj hw C.h 0 C.s0 (by omega) (by simpa using Fwd.start C)
  have hN : northD 0 = 0 := by simp [northD]
  simp only [Nat.cast_zero, hN, add_zero, cellAddr_zero] at h0
  obtain ⟨hf, h1, h2⟩ := h0
  have hscan := scanRowsTraced_inv
    (fun vt sl ml x y =>
      scanCell4Traced max min C.mask (initHorTransitions C.w) vt C.ss C.ms sl ml x y)
    (fun x y s hc hs => scanCell4Traced_inv hC hadj hc hs) C.h
    (⟨(fwdRows4 max min C.mask C.ss C.ms C.w C.h 0 0 0 C.s0).1, []⟩, []) le_rfl
    ⟨Fwd.toInv hC hf, fun e he => by simp at he⟩
  obtain ⟨r, log, hr, hd, hl⟩ := spreadTraced_terminates _
    (fun seed pos rest log hinv => spread4BodyTraced_inv hC hadj hinv) _ _ hscan le_rfl
  exact ⟨_, r, log, by
    unfold seedFill4Traced
    simp only [h1, h2, cellAddr_row_sub]
    exact hr, hd, hl⟩

theorem seedFill8Traced_done {C : Ctx α} (hC : C.WF) (hadj : C.adj = Adj8) (hsm : C.ss = C.ms)
    (hw : 0 < C.w) (hh : 0 < C.h) :
    ∃ n r log, seedFill8Traced n max min C.s0 C.ss C.w C.h C.mask C.ms = some (r, log) ∧
      Done C r ∧ ∀ e ∈ log, EventOK C e := by
  by_cases h1 : C.w = 1
  · refine ⟨0, _, [], ?_, seedFillSingleLine_done hC (line_vertical hadj h1) hh,
      fun e he => by simp at he⟩
    unfold seedFill8Traced
    rw [if_pos h1]
  · by_cases h2 : C.h = 1
    · refine ⟨0, _, [], ?_, seedFillSingleLine_done hC (line_horizontal hadj h2) hw,
        fun e he => by simp at he⟩
      unfold seedFill8Traced
      rw [if_neg h1, if_pos h2]
    · have hw2 : 2 ≤ C.w := by omega
      have hh2 : 2 ≤ C.h := by omega
      have hc : InGrid C.w C.h 0 0 := by unfold InGrid; omega
      have hf0 := Fwd.start C
      have hw1 := Fwd.writeCell hC hf0 hc (C.s0 (cellAddr C.ss 0 0)) (hf0.src_self hC hc) le_rfl
        (by
          intro x1 y1 hc1 _ hb
          unfold InGrid at hc1; unfold Before at hb
          omega)
      have hrow := fwdFirstRow8_fwd hC hadj (by omega) (C.w - 1) 1 _ le_rfl (by omega)
        (by simpa using hw1)
      have hnext := hrow.nextRow
      have hrows := fwdRows8_fwd hC hadj hw2 (C.h - 1) 1 _ le_rfl (by omega)
        (by simpa using hnext)
      obtain ⟨hf, e1, e2⟩ := hrows
      have hscan := scanRowsTraced_inv
        (fun vt sl ml x y =>
          scanCell8Traced max min C.mask (initHorTransitions C.w) vt C.ss C.ms sl ml x y)
        (fun x y s hc hs => scanCell8Traced_inv hC hadj hc hs) C.h
        (⟨_, []⟩, []) le_rfl ⟨Fwd.toInv hC hf, fun e he => by simp at he⟩
      rw [← e1, ← e2] at hscan
      simp only [Nat.cast_one, sub_self, cellAddr_zero, Ctx.M, view] at hscan
      rw [min_comm] at hscan
      obtain ⟨r, log, hr, hd, hl⟩ := spreadTraced_terminates _
        (fun seed pos rest log hinv => spread8BodyTraced_inv hC hadj hsm hinv) _ _ hscan le_rfl
      exact ⟨_, r, log, by
        unfold seedFill8Traced
        rw [if_neg h1, if_neg h2]
        simp only [add_zero]
        exact hr, hd, hl⟩

theorem fillTraced_done (conn : Connectivity) (w h : Nat) (hw : 0 < w) (hh : 0 < h)
    (ss ms : Int) (hss : (w : Int) ≤ ss) (hms : (w : Int) ≤ ms)
    (hconn : conn = Connectivity.CONN8 → ss = ms) (seed mask : Int → α) :
    ∃ n r log, seedFillTraced n max min conn seed ss ⟨w, h⟩ mask ms = some (r, log) ∧
      Done (mkCtx conn w h ss ms seed mask) r ∧
      ∀ e ∈ log, EventOK (mkCtx conn w h ss ms seed mask) e := by
  have hC := mkCtx_wf conn w h ss ms seed mask hss hms
  have h1 : ¬ ((w : Int) < 1) := by omega
  have h2 : ¬ ((h : Int) < 1) := by omega
  cases conn with
  | CONN4 =>
    obtain ⟨n, r, log, hr, hd, hl⟩ := seedFill4Traced_done hC rfl hw
    exact ⟨n, r, log, by simpa [seedFillTraced, QSize.isEmpty, h1, h2] using hr, hd, hl⟩
  | CONN8 =>
    obtain ⟨n, r, log, hr, hd, hl⟩ := seedFill8Traced_done hC rfl (hconn rfl) hw hh
    exact ⟨n, r, log, by simpa [seedFillTraced, QSize.isEmpty, h1, h2] using hr, hd, hl⟩

theorem EventOK.raises {conn : Connectivity} {w h : Nat} {stride : Int} {seed mask : Int → α}
    {e : Event α} (he : EventOK (mkCtx conn w h stride stride seed mask) e) :
    RaisesWithinMask w h stride mask e := by
  cases e with
  | store st p pm v =>
    obtain ⟨x, y, hc, hp, -, hgood, hlt, hok⟩ := he
    exact ⟨fun x' y' hc' => (hgood.ok x' y' hc' trivial).1, x, y, hc, hp, hlt, hok.1⟩
  | call st tv nb nbm pos dx dy =>
    obtain ⟨hgood, -, -, -, hq, hn, hnm⟩ := he
    refine ⟨fun x' y' hc' => (hgood.ok x' y' hc' trivial).1, ?_⟩
    have hokq := (hgood.ok _ _ hq trivial).1
    change st.seed (cellAddr stride (pos.x + dx) (pos.y + dy)) ≤
      mask (cellAddr stride (pos.x + dx) (pos.y + dy)) at hokq
    change nb = cellAddr stride (pos.x + dx) (pos.y + dy) at hn
    change nbm = cellAddr stride (pos.x + dx) (pos.y + dy) at hnm
    subst hn hnm
    unfold processNeighbor
    by_cases hch : min (mask (cellAddr stride (pos.x + dx) (pos.y + dy)))
        (max tv (st.seed (cellAddr stride (pos.x + dx) (pos.y + dy)))) ≠
        st.seed (cellAddr stride (pos.x + dx) (pos.y + dy))
    · right
      simp only [if_pos hch]
      exact ⟨_, _, _, hq, rfl, rfl,
        lt_of_le_of_ne (le_min hokq (le_max_right _ _)) (Ne.symm hch), min_le_left _ _⟩
    · left
      simp only [if_neg hch]

theorem EventOK.selfNoop {C : Ctx α} (hC : C.WF) {e : Event α} (he : EventOK C e) :
    SelfCallIsNoop max min C.mask e := by
  cases e with
  | store st p pm v => trivial
  | call st tv nb nbm pos dx dy =>
    obtain ⟨hgood, hp, hps, hkeep, hq, hn, hnm⟩ := he
    intro hself
    have hxy := cellAddr_inj hC.hss hq hp (by rw [← hn, ← hps, hself])
    have hdx : dx = 0 := by omega
    have hdy : dy = 0 := by omega
    subst hdx hdy
    simp only [add_zero] at hn hnm
    have hokp := (hgood.ok _ _ hp trivial).1
    have hM : C.mask nbm = C.M pos.x pos.y := by rw [hnm]; rfl
    have hv : st.seed nb = tv := by rw [hself]; exact hkeep
    unfold processNeighbor
    rw [hM, hv, max_self]
    have : min (C.M pos.x pos.y) tv = tv := by
      apply min_eq_right
      rw [← hkeep, hps]
      exact hokp
    simp only [this, ne_eq, not_true_eq_false, if_false]

/-- Claim C17.  During the propagation phase (the backward scan of `seedFill4`/`seedFill8`
and the loops `spread4`/`spread8`), with `spread_op = max`, `mask_op = min` and a common
stride, every store to a seed cell stores a value strictly greater than the cell held and
not greater than the mask of that cell, and in every state of the phase no cell of the grid
exceeds its mask.  The run with a log returns the buffer that `seedFillGenericInPlace`
returns, and the property holds for every store of the scan and every call of
`processNeighbor` in its log. -/
theorem C17_propagation_stores_raise_within_mask (conn : Connectivity) (w h : Nat)
    (hw : 0 < w) (hh : 0 < h) (stride : Int) (hs : (w : Int) ≤ stride) (seed mask : Int → α) :
    ∃ n r n' log,
      seedFillGenericInPlace n max min conn seed stride ⟨w, h⟩ mask stride = some r ∧
      seedFillTraced n' max min conn seed stride ⟨w, h⟩ mask stride = some (r, log) ∧
      ∀ e ∈ log, RaisesWithinMask w h stride mask e := by
  obtain ⟨n, r, hr, hd⟩ := fill_done conn w h hw hh stride stride hs hs (fun _ => rfl) seed mask
  obtain ⟨n', r', log, hr', hd', hl⟩ := fillTraced_done conn w h hw hh stride stride hs hs
    (fun _ => rfl) seed mask
  have e := hd.uniqueBuf hd'
  subst e
  exact ⟨n, r, n', log, hr, hr', fun e he => (hl e he).raises⟩

/-- Witness for C17: a `3 × 3` grid of naturals, eight neighbours. -/
theorem C17_propagation_stores_raise_within_mask_witness :
    0 < 3 ∧ ((3 : Nat) : Int) ≤ 3 ∧
    ∃ n r n' log,
      seedFillGenericInPlace n (max : Nat → Nat → Nat) min Connectivity.CONN8
        (fun i => if i = 8 then 5 else 0) 3 ⟨(3 : Nat), (3 : Nat)⟩
        (fun i => if i = 4 then 0 else 7) 3 = some r ∧
      seedFillTraced n' (max : Nat → Nat → Nat) min Connectivity.CONN8
        (fun i => if i = 8 then 5 else 0) 3 ⟨(3 : Nat), (3 : Nat)⟩
        (fun i => if i = 4 then 0 else 7) 3 = some (r, log) ∧
      ∀ e ∈ log, RaisesWithinMask 3 3 3 (fun i => if i = 4 then 0 else 7) e :=
  ⟨by decide, by decide,
    C17_propagation_stores_raise_within_mask Connectivity.CONN8 3 3 (by decide) (by decide) 3
      (by decide) (fun i => if i = 8 then 5 else 0) (fun i => if i = 4 then 0 else 7)⟩

theorem c18_maxmin (inst : DecidableEq α) (conn : Connectivity) (w h : Nat) (hw : 0 < w)
    (hh : 0 < h) (stride : Int) (hs : (w : Int) ≤ stride) (seed mask : Int → α) :
    ∃ n r n' log,
      @seedFillGenericInPlace α inst n max min conn seed stride ⟨w, h⟩ mask stride = some r ∧
      @seedFillTraced α inst n' max min conn seed stride ⟨w, h⟩ mask stride = some (r, log) ∧
      ∀ e ∈ log, @SelfCallIsNoop α inst max min mask e := by
  obtain ⟨n, r, hr, hd⟩ := fill_done conn w h hw hh stride stride hs hs (fun _ => rfl) seed mask
  obtain ⟨n', r', log, hr', hd', hl⟩ := fillTraced_done conn w h hw hh stride stride hs hs
    (fun _ => rfl) seed mask
  have hi : inst = (fun a b => instDecidableEq_mathlib a b) := Subsingleton.elim _ _
  have e := hd.uniqueBuf hd'
  subst e hi
  exact ⟨n, r, n', log, hr, hr', fun e he =>
    (hl e he).selfNoop (mkCtx_wf conn w h stride stride seed mask hs hs)⟩

/-- Claim C18.  A border self-update never fires: on every non-empty grid (common stride,
`max`/`min` or `min`/`max` in a linear order, four or eight neighbours), among the calls of
`processNeighbor` that the backward scan and `spread4`/`spread8` make, every call that
receives the current cell itself as the neighbour (the neighbour pointer is the pointer of
the base position, because the horizontal and the vertical offset are suppressed) leaves
the state as it is: the cell keeps its value and no work item is pushed. -/
theorem C18_border_self_update_never_fires (spread_op mask_op : α → α → α)
    (hop : IsOpPair spread_op mask_op) (conn : Connectivity) (w h : Nat) (hw : 0 < w)
    (hh : 0 < h) (stride : Int) (hs : (w : Int) ≤ stride) (seed mask : Int → α) :
    ∃ n r n' log,
      seedFillGenericInPlace n spread_op mask_op conn seed stride ⟨w, h⟩ mask stride = some r ∧
      seedFillTraced n' spread_op mask_op conn seed stride ⟨w, h⟩ mask stride =
        some (r, log) ∧
      ∀ e ∈ log, SelfCallIsNoop spread_op mask_op mask e := by
  rcases hop with ⟨rfl, rfl⟩ | ⟨rfl, rfl⟩
  · exact c18_maxmin _ conn w h hw hh stride hs seed mask
  · exact c18_maxmin (α := αᵒᵈ) (fun a b => instDecidableEq_mathlib (α := α) a b)
      conn w h hw hh stride hs seed mask

/-- Witness for C18: a row of two naturals, four neighbours. -/
theorem C18_border_self_update_never_fires_witness :
    IsOpPair (max : Nat → Nat → Nat) min ∧ 0 < 2 ∧ 0 < 1 ∧ ((2 : Nat) : Int) ≤ 2 ∧
    ∃ n r n' log,
      seedFillGenericInPlace n (max : Nat → Nat → Nat) min Connectivity.CONN4
        (fun i => if i = 1 then 5 else 0) 2 ⟨(2 : Nat), (1 : Nat)⟩ (fun _ => 7) 2 = some r ∧
      seedFillTraced n' (max : Nat → Nat → Nat) min Connectivity.CONN4
        (fun i => if i = 1 then 5 else 0) 2 ⟨(2 : Nat), (1 : Nat)⟩ (fun _ => 7) 2 =
        some (r, log) ∧
      ∀ e ∈ log, SelfCallIsNoop (max : Nat → Nat → Nat) min (fun _ => 7) e :=
  ⟨Or.inl ⟨rfl, rfl⟩, by decide, by decide, by decide,
    C18_border_self_update_never_fires max min (Or.inl ⟨rfl, rfl⟩) Connectivity.CONN4 2 1
      (by decide) (by decide) 2 (by decide) (fun i => if i = 1 then 5 else 0) (fun _ => 7)⟩

/-- Self calls do occur: on the row `[0, 5]` under the mask `[7, 7]` (four neighbours) the
backward scan raises the first cell and then calls `processNeighbor` for its east neighbour
and, the south offset being suppressed, for the cell itself. -/
theorem self_call_occurs :
    (seedFillTraced 1 (max : Nat → Nat → Nat) min Connectivity.CONN4
      (fun i => if i = 1 then 5 else 0) 2 ⟨2, 1⟩ (fun _ => 7) 2).map
        (fun p => p.2.map isSelfCall) = some [false, false, true] := by
  decide

end imageproc

/-! ## The pseudocode of the documentation -/

namespace imageproc

open detail.seed_fill_generic

variable {α : Type} [LinearOrder α]

omit [LinearOrder α] in
theorem mem_gridPoints (w h : Nat) (x y : Int) :
    (x, y) ∈ gridPoints w h ↔ InGrid w h x y := by
  unfold gridPoints InGrid
  rw [List.mem_flatMap]
  constructor
  · rintro ⟨b, hb, hm⟩
    rw [List.mem_map] at hm
    obtain ⟨a, ha, he⟩ := hm
    rw [List.mem_range] at hb ha
    simp only [Prod.mk.injEq] at he
    obtain ⟨rfl, rfl⟩ := he
    omega
  · rintro ⟨hx0, hx1, hy0, hy1⟩
    refine ⟨y.toNat, List.mem_range.2 (by omega), List.mem_map.2 ⟨x.toNat, List.mem_range.2 (by omega), ?_⟩⟩
    simp only [Prod.mk.injEq]
    omega

omit [LinearOrder α] in
theorem setCell_same (g : Int → Int → α) (x y : Int) : setCell g x y (g x y) = g := by
  funext x' y'
  unfold setCell
  split_ifs with h
  · rw [h.1, h.2]
  · rfl

omit [LinearOrder α] in
theorem docNeighbours_false [DecidableEq α] (spread_op mask_op : α → α → α)
    (M : Int → Int → α) (val : α) :
    ∀ (ns : List (Int × Int)) (s : (Int → Int → α) × Bool),
      (docNeighbours spread_op mask_op M val ns s).2 = false →
      s.2 = false ∧ (docNeighbours spread_op mask_op M val ns s).1 = s.1 ∧
        ∀ n ∈ ns, mask_op (M n.1 n.2) (spread_op (s.1 n.1 n.2) val) = s.1 n.1 n.2 := by
  intro ns
  induction ns with
  | nil => intro s h; exact ⟨h, rfl, fun n hn => by simp at hn⟩
  | cons n ns ih =>
    intro s h
    simp only [docNeighbours] at h ⊢
    obtain ⟨h1, h2, h3⟩ := ih _ h
    simp only [Bool.or_eq_false_iff, decide_eq_false_iff_not, ne_eq, not_not] at h1
    have e : setCell s.1 n.1 n.2 (mask_op (M n.1 n.2) (spread_op (s.1 n.1 n.2) val)) = s.1 := by
      rw [h1.2]; exact setCell_same _ _ _
    dsimp only at h2 h3
    rw [e] at h3
    refine ⟨h1.1, h2.trans e, fun n' hn' => ?_⟩
    rcases List.mem_cons.1 hn' with rfl | hn'
    · exact h1.2
    · exact h3 n' hn'

omit [LinearOrder α] in
theorem docPoints_false [DecidableEq α] (spread_op mask_op : α → α → α) (conn : Connectivity)
    (w h : Nat) (M : Int → Int → α) :
    ∀ (ps : List (Int × Int)) (s : (Int → Int → α) × Bool),
      (docPoints spread_op mask_op conn w h M ps s).2 = false →
      s.2 = false ∧ (docPoints spread_op mask_op conn w h M ps s).1 = s.1 ∧
        ∀ p ∈ ps, ∀ n ∈ neighbours conn w h p.1 p.2,
          mask_op (M n.1 n.2) (spread_op (s.1 n.1 n.2) (mask_op (M p.1 p.2) (s.1 p.1 p.2))) =
            s.1 n.1 n.2 := by
  intro ps
  induction ps with
  | nil => intro s h; exact ⟨h, rfl, fun n hn => by simp at hn⟩
  | cons p ps ih =>
    intro s h
    simp only [docPoints] at h ⊢
    obtain ⟨h1, h2, h3⟩ := ih _ h
    obtain ⟨k1, k2, k3⟩ := docNeighbours_false spread_op mask_op M _ _ _ h1
    rw [k2] at h3
    refine ⟨k1, h2.trans k2, fun p' hp' => ?_⟩
    rcases List.mem_cons.1 hp' with rfl | hp'
    · exact k3
    · exact h3 p' hp'

/-- One store of the pseudocode: the value written to a neighbour `n` of `p` is admissible. -/
theorem docWrite_ok {C : Ctx α} (hC : C.WF) {p n : Int × Int} {val : α} {g : Int → Int → α}
    (hp : InGrid C.w C.h p.1 p.2) (hn : InGrid C.w C.h n.1 n.2) (ha : C.adj p.1 p.2 n.1 n.2)
    (hval : CellOK C p.1 p.2 val)
    (hg : g n.1 n.2 = C.S0 n.1 n.2 ∨ CellOK C n.1 n.2 (g n.1 n.2)) :
    CellOK C n.1 n.2 (min (C.M n.1 n.2) (max (g n.1 n.2) val)) := by
  have h1 : Src C n.1 n.2 (g n.1 n.2) := by
    rcases hg with h | h
    · rw [h]; exact Src.seed hC hn
    · exact Src.self h
  have h2 : Src C n.1 n.2 val := Src.nbr hp hn ha hval
  refine CellOK.clamp hC hn (Src.max h1 h2) ?_
  rcases hg with h | h
  · rw [h]; exact le_trans (min_le_left _ _) (le_max_left _ _)
  · exact le_trans h.2.1 (le_max_left _ _)

/-- The value `val = mask_op(mask[p], seed[p])` that a point spreads is admissible. -/
theorem docVal_ok {C : Ctx α} (hC : C.WF) {p : Int × Int} {g : Int → Int → α}
    (hp : InGrid C.w C.h p.1 p.2)
    (hg : g p.1 p.2 = C.S0 p.1 p.2 ∨ CellOK C p.1 p.2 (g p.1 p.2)) :
    CellOK C p.1 p.2 (min (C.M p.1 p.2) (g p.1 p.2)) := by
  rcases hg with h | h
  · rw [h]
    refine CellOK.clamp hC hp (Src.seed hC hp) (min_le_left _ _)
  · rw [min_eq_right h.1]; exact h

theorem docNeighbours_mixed {C : Ctx α} (hC : C.WF) {p : Int × Int} {val : α}
    (hp : InGrid C.w C.h p.1 p.2) (hval : CellOK C p.1 p.2 val) :
    ∀ (ns : List (Int × Int)) (s : (Int → Int → α) × Bool),
      (∀ n ∈ ns, InGrid C.w C.h n.1 n.2 ∧ C.adj p.1 p.2 n.1 n.2) → Mixed C s.1 →
      Mixed C (docNeighbours max min C.M val ns s).1 ∧
      (∀ x y, InGrid C.w C.h x y → CellOK C x y (s.1 x y) →
        CellOK C x y ((docNeighbours max min C.M val ns s).1 x y)) ∧
      ∀ n ∈ ns, CellOK C n.1 n.2 ((docNeighbours max min C.M val ns s).1 n.1 n.2) := by
  intro ns
  induction ns with
  | nil => intro s _ hm; exact ⟨hm, fun _ _ _ h => h, fun n hn => by simp at hn⟩
  | cons n ns ih =>
    intro s hns hm
    obtain ⟨hn, ha⟩ := hns n (List.mem_cons_self _ _)
    have hw := docWrite_ok hC hp hn ha hval (hm n.1 n.2 hn)
    have hm1 : Mixed C (setCell s.1 n.1 n.2 (min (C.M n.1 n.2) (max (s.1 n.1 n.2) val))) := by
      intro x y hc
      unfold setCell
      split_ifs with h
      · right; rw [h.1, h.2]; exact hw
      · exact hm x y hc
    have hk1 : ∀ x y, InGrid C.w C.h x y → CellOK C x y (s.1 x y) →
        CellOK C x y (setCell s.1 n.1 n.2 (min (C.M n.1 n.2) (max (s.1 n.1 n.2) val)) x y) := by
      intro x y _ hok
      unfold setCell
      split_ifs with h
      · rw [h.1, h.2]; exact hw
      · exact hok
    have hn1 : CellOK C n.1 n.2
        (setCell s.1 n.1 n.2 (min (C.M n.1 n.2) (max (s.1 n.1 n.2) val)) n.1 n.2) := by
      unfold setCell
      rw [if_pos ⟨rfl, rfl⟩]; exact hw
    obtain ⟨i1, i2, i3⟩ := ih (setCell s.1 n.1 n.2 (min (C.M n.1 n.2) (max (s.1 n.1 n.2) val)),
      s.2 || decide (min (C.M n.1 n.2) (max (s.1 n.1 n.2) val) ≠ s.1 n.1 n.2))
      (fun n' hn' => hns n' (List.mem_cons_of_mem _ hn')) hm1
    simp only [docNeighbours]
    refine ⟨i1, fun x y hc hok => i2 x y hc (hk1 x y hc hok), fun n' hn' => ?_⟩
    rcases List.mem_cons.1 hn' with rfl | hn'
    · exact i2 _ _ hn hn1
    · exact i3 n' hn'

theorem docPoints_mixed {C : Ctx α} (hC : C.WF) (conn : Connectivity) (hadj : C.adj = Adj conn) :
    ∀ (ps : List (Int × Int)) (s : (Int → Int → α) × Bool),
      (∀ p ∈ ps, InGrid C.w C.h p.1 p.2) → Mixed C s.1 →
      Mixed C (docPoints max min conn C.w C.h C.M ps s).1 ∧
      (∀ x y, InGrid C.w C.h x y → CellOK C x y (s.1 x y) →
        CellOK C x y ((docPoints max min conn C.w C.h C.M ps s).1 x y)) ∧
      ∀ p ∈ ps, ∀ n ∈ neighbours conn C.w C.h p.1 p.2,
        CellOK C n.1 n.2 ((docPoints max min conn C.w C.h C.M ps s).1 n.1 n.2) := by
  intro ps
  induction ps with
  | nil => intro s _ hm; exact ⟨hm, fun _ _ _ h => h, fun n hn => by simp at hn⟩
  | cons p ps ih =>
    intro s hps hm
    have hp := hps p (List.mem_cons_self _ _)
    have hnb : ∀ n ∈ neighbours conn C.w C.h p.1 p.2,
        InGrid C.w C.h n.1 n.2 ∧ C.adj p.1 p.2 n.1 n.2 := by
      intro n hn
      rw [hadj]
      exact (mem_neighbours conn C.w C.h p.1 p.2 n.1 n.2).1 hn
    obtain ⟨k1, k2, k3⟩ := docNeighbours_mixed hC hp (docVal_ok hC hp (hm p.1 p.2 hp))
      (neighbours conn C.w C.h p.1 p.2) s hnb hm
    obtain ⟨i1, i2, i3⟩ := ih _ (fun p' hp' => hps p' (List.mem_cons_of_mem _ hp')) k1
    simp only [docPoints]
    refine ⟨i1, fun x y hc hok => i2 x y hc (k2 x y hc hok), fun p' hp' n hn => ?_⟩
    rcases List.mem_cons.1 hp' with rfl | hp'
    · exact i2 _ _ (hnb n hn).1 (k3 n hn)
    · exact i3 p' hp' n hn

theorem docNeighbours_meas {C : Ctx α} (hC : C.WF) {p : Int × Int} {val : α}
    (hp : InGrid C.w C.h p.1 p.2) (hval : CellOK C p.1 p.2 val) :
    ∀ (ns : List (Int × Int)) (s : (Int → Int → α) × Bool),
      (∀ n ∈ ns, InGrid C.w C.h n.1 n.2 ∧ C.adj p.1 p.2 n.1 n.2) →
      (∀ x y, InGrid C.w C.h x y → CellOK C x y (s.1 x y)) →
      PhiG C.V C.w C.h (docNeighbours max min C.M val ns s).1 ≤ PhiG C.V C.w C.h s.1 ∧
      ((docNeighbours max min C.M val ns s).2 = true →
        s.2 = true ∨ PhiG C.V C.w C.h (docNeighbours max min C.M val ns s).1 <
          PhiG C.V C.w C.h s.1) := by
  intro ns
  induction ns with
  | nil => intro s _ _; exact ⟨le_rfl, fun h => Or.inl h⟩
  | cons n ns ih =>
    intro s hns hok
    obtain ⟨hn, ha⟩ := hns n (List.mem_cons_self _ _)
    have hw := docWrite_ok hC hp hn ha hval (Or.inr (hok n.1 n.2 hn))
    have hge : s.1 n.1 n.2 ≤ min (C.M n.1 n.2) (max (s.1 n.1 n.2) val) :=
      le_min (hok n.1 n.2 hn).1 (le_max_left _ _)
    have hok1 : ∀ x y, InGrid C.w C.h x y →
        CellOK C x y (setCell s.1 n.1 n.2 (min (C.M n.1 n.2) (max (s.1 n.1 n.2) val)) x y) := by
      intro x y hc
      unfold setCell
      split_ifs with h
      · rw [h.1, h.2]; exact hw
      · exact hok x y hc
    obtain ⟨i1, i2⟩ := ih (setCell s.1 n.1 n.2 (min (C.M n.1 n.2) (max (s.1 n.1 n.2) val)),
      s.2 || decide (min (C.M n.1 n.2) (max (s.1 n.1 n.2) val) ≠ s.1 n.1 n.2))
      (fun n' hn' => hns n' (List.mem_cons_of_mem _ hn')) hok1
    simp only [docNeighbours]
    dsimp only at i1 i2
    by_cases hv : min (C.M n.1 n.2) (max (s.1 n.1 n.2) val) = s.1 n.1 n.2
    · have e : setCell s.1 n.1 n.2 (min (C.M n.1 n.2) (max (s.1 n.1 n.2) val)) = s.1 := by
        rw [hv]; exact setCell_same _ _ _
      have e' : PhiG C.V C.w C.h
          (setCell s.1 n.1 n.2 (min (C.M n.1 n.2) (max (s.1 n.1 n.2) val))) =
          PhiG C.V C.w C.h s.1 := by rw [e]
      refine ⟨le_trans i1 e'.le, fun h => ?_⟩
      rcases i2 h with h' | h'
      · left
        simpa [hv] using h'
      · exact Or.inr (lt_of_lt_of_le h' e'.le)
    · have hlt : PhiG C.V C.w C.h
          (setCell s.1 n.1 n.2 (min (C.M n.1 n.2) (max (s.1 n.1 n.2) val))) <
          PhiG C.V C.w C.h s.1 := by
        refine PhiG_lt C.V C.w C.h _ _ (fun x y _ => ?_) ⟨n.1, n.2, hn, ?_, ?_⟩
        · unfold setCell
          split_ifs with h
          · rw [h.1, h.2]; exact hge
          · exact le_rfl
        · unfold setCell
          rw [if_pos ⟨rfl, rfl⟩]
          exact lt_of_le_of_ne hge (Ne.symm hv)
        · unfold setCell
          rw [if_pos ⟨rfl, rfl⟩]
          exact hw.2.2.1
      exact ⟨le_trans i1 hlt.le, fun _ => Or.inr (lt_of_le_of_lt i1 hlt)⟩

theorem docPoints_meas {C : Ctx α} (hC : C.WF) (conn : Connectivity) (hadj : C.adj = Adj conn) :
    ∀ (ps : List (Int × Int)) (s : (Int → Int → α) × Bool),
      (∀ p ∈ ps, InGrid C.w C.h p.1 p.2) →
      (∀ x y, InGrid C.w C.h x y → CellOK C x y (s.1 x y)) →
      (∀ x y, InGrid C.w C.h x y →
        CellOK C x y ((docPoints max min conn C.w C.h C.M ps s).1 x y)) ∧
      PhiG C.V C.w C.h (docPoints max min conn C.w C.h C.M ps s).1 ≤ PhiG C.V C.w C.h s.1 ∧
      ((docPoints max min conn C.w C.h C.M ps s).2 = true →
        s.2 = true ∨ PhiG C.V C.w C.h (docPoints max min conn C.w C.h C.M ps s).1 <
          PhiG C.V C.w C.h s.1) := by
  intro ps
  induction ps with
  | nil => intro s _ hok; exact ⟨hok, le_rfl, fun h => Or.inl h⟩
  | cons p ps ih =>
    intro s hps hok
    have hp := hps p (List.mem_cons_self _ _)
    have hnb : ∀ n ∈ neighbours conn C.w C.h p.1 p.2,
        InGrid C.w C.h n.1 n.2 ∧ C.adj p.1 p.2 n.1 n.2 := by
      intro n hn
      rw [hadj]
      exact (mem_neighbours conn C.w C.h p.1 p.2 n.1 n.2).1 hn
    have hval := docVal_ok hC hp (Or.inr (hok p.1 p.2 hp))
    obtain ⟨-, k2, -⟩ := docNeighbours_mixed hC hp hval
      (neighbours conn C.w C.h p.1 p.2) s hnb (fun x y hc => Or.inr (hok x y hc))
    obtain ⟨m1, m2⟩ := docNeighbours_meas hC hp hval (neighbours conn C.w C.h p.1 p.2) s hnb hok
    obtain ⟨i1, i2, i3⟩ := ih _ (fun p' hp' => hps p' (List.mem_cons_of_mem _ hp'))
      (fun x y hc => k2 x y hc (hok x y hc))
    simp only [docPoints]
    refine ⟨i1, le_trans i2 m1, fun h => ?_⟩
    rcases i3 h with h' | h'
    · rcases m2 h' with h'' | h''
      · exact Or.inl h''
      · exact Or.inr (lt_of_le_of_lt i2 h'')
    · exact Or.inr (lt_of_lt_of_le h' m1)

/-- A sweep of the pseudocode that made no change ends in a reconstruction, provided that
every cell is admissible. -/
theorem docPoints_stable {C : Ctx α} (conn : Connectivity) (hadj : C.adj = Adj conn)
    (g : Int → Int → α) (hok : ∀ x y, InGrid C.w C.h x y → CellOK C x y (g x y))
    (hno : (docPoints max min conn C.w C.h C.M (gridPoints C.w C.h) (g, false)).2 = false) :
    (docPoints max min conn C.w C.h C.M (gridPoints C.w C.h) (g, false)).1 = g ∧
      IsRecon C.w C.h C.adj C.S0 C.M g := by
  obtain ⟨-, h2, h3⟩ := docPoints_false max min conn C.w C.h C.M _ _ hno
  refine ⟨h2, fun x y hc => (hok x y hc).1, fun x y hc => (hok x y hc).2.1,
    fun x y x' y' hc hc' ha => ?_, fun f hf x y hc => (hok x y hc).2.2.2 f hf⟩
  rw [hadj] at ha
  have := h3 (x, y) ((mem_gridPoints _ _ _ _).2 hc) (x', y')
    ((mem_neighbours conn C.w C.h x y x' y').2 ⟨hc', ha⟩)
  dsimp only at this
  rw [min_eq_right (hok x y hc).1] at this
  rw [← this]
  exact min_le_min le_rfl (le_max_right _ _)

theorem docLoop_converges {C : Ctx α} (hC : C.WF) (conn : Connectivity)
    (hadj : C.adj = Adj conn) :
    ∀ (n : Nat) (g : Int → Int → α), (∀ x y, InGrid C.w C.h x y → CellOK C x y (g x y)) →
      PhiG C.V C.w C.h g ≤ n →
      ∃ r, docLoop max min conn C.w C.h C.M (n + 1) g = some r ∧
        IsRecon C.w C.h C.adj C.S0 C.M r := by
  intro n
  induction n with
  | zero =>
    intro g hok hn
    obtain ⟨m1, m2, m3⟩ := docPoints_meas hC conn hadj (gridPoints C.w C.h) (g, false)
      (fun p hp => (mem_gridPoints _ _ _ _).1 hp) hok
    have hno : (docPoints max min conn C.w C.h C.M (gridPoints C.w C.h) (g, false)).2 = false := by
      by_contra h
      rcases m3 (by simpa using h) with h' | h'
      · simp at h'
      · dsimp only at h'; omega
    obtain ⟨e, hrec⟩ := docPoints_stable conn hadj g hok hno
    exact ⟨g, by simp [docLoop, hno, e], hrec⟩
  | succ n ih =>
    intro g hok hn
    obtain ⟨m1, m2, m3⟩ := docPoints_meas hC conn hadj (gridPoints C.w C.h) (g, false)
      (fun p hp => (mem_gridPoints _ _ _ _).1 hp) hok
    by_cases hno : (docPoints max min conn C.w C.h C.M (gridPoints C.w C.h) (g, false)).2 = false
    · obtain ⟨e, hrec⟩ := docPoints_stable conn hadj g hok hno
      exact ⟨g, by simp [docLoop, hno, e], hrec⟩
    · have hyes : (docPoints max min conn C.w C.h C.M (gridPoints C.w C.h) (g, false)).2 = true := by
        simpa using hno
      have hlt : PhiG C.V C.w C.h
          (docPoints max min conn C.w C.h C.M (gridPoints C.w C.h) (g, false)).1 <
          PhiG C.V C.w C.h g := by
        rcases m3 hyes with h' | h'
        · simp at h'
        · exact h'
      obtain ⟨r, hr, hrec⟩ := ih _ m1 (by omega)
      refine ⟨r, ?_, hrec⟩
      rw [docLoop]
      simp only [hyes, if_true]
      exact hr

/-- From the seed itself the pseudocode reaches the reconstruction, provided that the grid
has at least two cells (so that every cell is a neighbour of some point). -/
theorem docLoop_from_seed {C : Ctx α} (hC : C.WF) (conn : Connectivity)
    (hadj : C.adj = Adj conn) (h2 : 1 < C.w ∨ 1 < C.h) :
    ∃ k r, docLoop max min conn C.w C.h C.M k C.S0 = some r ∧
      IsRecon C.w C.h C.adj C.S0 C.M r := by
  obtain ⟨-, -, k3⟩ := docPoints_mixed hC conn hadj (gridPoints C.w C.h) (C.S0, false)
    (fun p hp => (mem_gridPoints _ _ _ _).1 hp) (fun x y _ => Or.inl rfl)
  have hall : ∀ x y, InGrid C.w C.h x y → CellOK C x y
      ((docPoints max min conn C.w C.h C.M (gridPoints C.w C.h) (C.S0, false)).1 x y) := by
    intro x y hc
    have hex : ∃ px py, InGrid C.w C.h px py ∧ Adj4 px py x y := by
      unfold InGrid at hc ⊢
      unfold Adj4
      rcases h2 with h2 | h2
      · by_cases hx : x + 1 < C.w
        · exact ⟨x + 1, y, by omega, by omega⟩
        · exact ⟨x - 1, y, by omega, by omega⟩
      · by_cases hy : y + 1 < C.h
        · exact ⟨x, y + 1, by omega, by omega⟩
        · exact ⟨x, y - 1, by omega, by omega⟩
    obtain ⟨px, py, hpc, hpa⟩ := hex
    have hpa' : Adj conn px py x y := by
      cases conn
      · exact hpa
      · unfold Adj4 at hpa; unfold Adj Adj8; omega
    exact k3 (px, py) ((mem_gridPoints _ _ _ _).2 hpc) (x, y)
      ((mem_neighbours conn C.w C.h px py x y).2 ⟨hc, hpa'⟩)
  by_cases hno : (docPoints max min conn C.w C.h C.M (gridPoints C.w C.h) (C.S0, false)).2 = false
  · obtain ⟨-, e, -⟩ := docPoints_false max min conn C.w C.h C.M _ _ hno
    dsimp only at e
    rw [e] at hall
    obtain ⟨e', hrec⟩ := docPoints_stable conn hadj C.S0 hall hno
    exact ⟨1, C.S0, by simp [docLoop, hno, e'], hrec⟩
  · have hyes : (docPoints max min conn C.w C.h C.M (gridPoints C.w C.h) (C.S0, false)).2 = true := by
      simpa using hno
    obtain ⟨r, hr, hrec⟩ := docLoop_converges hC conn hadj _ _ hall le_rfl
    exact ⟨_ + 1, r, by
      rw [docLoop]
      simp only [hyes, if_true]
      exact hr, hrec⟩

theorem c19_maxmin (inst : DecidableEq α) (conn : Connectivity) (w h : Nat) (hw : 0 < w)
    (hh : 0 < h) (h2 : 1 < w ∨ 1 < h) (stride : Int) (hs : (w : Int) ≤ stride)
    (seed mask : Int → α) :
    ∃ n k r g,
      @seedFillGenericInPlace α inst n max min conn seed stride ⟨w, h⟩ mask stride = some r ∧
      @docLoop α inst max min conn w h (view mask stride) k (view seed stride) = some g ∧
      ∀ x y, InGrid w h x y → r (cellAddr stride x y) = g x y := by
  obtain ⟨n, r, hr, hrec, -⟩ := fill_recon inst conn w h hw hh stride stride hs hs
    (fun _ => rfl) seed mask
  obtain ⟨k, g, hg, hrec'⟩ := docLoop_from_seed
    (mkCtx_wf conn w h stride stride seed mask hs hs) conn rfl h2
  have hi : inst = (fun a b => instDecidableEq_mathlib a b) := Subsingleton.elim _ _
  subst hi
  exact ⟨n, k, r, g, hr, hg, fun x y hc => hrec.unique hrec' x y hc⟩

/-- Claim C19 as stated fails on the `1 × 1` grid.  With seed `9` and mask `0` (`max`/`min`)
the code clamps the only cell and leaves `0`; the documented loop writes to neighbours only,
the cell has none, so the loop leaves `9`. -/
theorem C19_one_cell_counterexample :
    ¬ ∃ n k r g,
      seedFillGenericInPlace n (max : Nat → Nat → Nat) min Connectivity.CONN4 (fun _ => 9) 1
        ⟨(1 : Nat), (1 : Nat)⟩ (fun _ => 0) 1 = some r ∧
      docLoop (max : Nat → Nat → Nat) min Connectivity.CONN4 1 1 (view (fun _ => 0) 1) k
        (view (fun _ => 9) 1) = some g ∧
      ∀ x y, InGrid 1 1 x y → r (cellAddr 1 x y) = g x y := by
  rintro ⟨n, k, r, g, hr, hg, heq⟩
  have e1 : (seedFillGenericInPlace 1 (max : Nat → Nat → Nat) min Connectivity.CONN4
      (fun _ => 9) 1 ⟨(1 : Nat), (1 : Nat)⟩ (fun _ => 0) 1).map (fun r => r 0) = some 0 := by
    decide
  obtain ⟨r1, hr1, h0⟩ := Option.map_eq_some'.1 e1
  have hrr := fill_fuel_unique _ _ _ _ _ _ _ _ _ _ _ _ hr hr1
  have hs : docPoints (max : Nat → Nat → Nat) min Connectivity.CONN4 1 1 (view (fun _ => 0) 1)
      (gridPoints 1 1) (view (fun _ => 9) 1, false) = (view (fun _ => 9) 1, false) := by
    rfl
  have hg9 : g 0 0 = 9 := by
    cases k with
    | zero => simp [docLoop] at hg
    | succ k =>
      rw [docLoop] at hg
      simp only [hs] at hg
      have := Option.some.inj hg
      rw [← this]
      rfl
  have := heq 0 0 (by unfold InGrid; omega)
  rw [hrr, cellAddr_zero] at this
  have h0' : r1 0 = 0 := h0
  omega

/-- Claim C19, amended.  On every grid with at least two cells (common stride, `max`/`min`
or `min`/`max` in a linear order, four or eight neighbours) `seedFillGenericInPlace`
returns, the documented loop returns, and the two leave the same seed grid. -/
theorem C19_equals_documented_loop (spread_op mask_op : α → α → α)
    (hop : IsOpPair spread_op mask_op) (conn : Connectivity) (w h : Nat) (hw : 0 < w)
    (hh : 0 < h) (h2 : 1 < w ∨ 1 < h) (stride : Int) (hs : (w : Int) ≤ stride)
    (seed mask : Int → α) :
    ∃ n k r g,
      seedFillGenericInPlace n spread_op mask_op conn seed stride ⟨w, h⟩ mask stride = some r ∧
      docLoop spread_op mask_op conn w h (view mask stride) k (view seed stride) = some g ∧
      ∀ x y, InGrid w h x y → r (cellAddr stride x y) = g x y := by
  rcases hop with ⟨rfl, rfl⟩ | ⟨rfl, rfl⟩
  · exact c19_maxmin _ conn w h hw hh h2 stride hs seed mask
  · exact c19_maxmin (α := αᵒᵈ) (fun a b => instDecidableEq_mathlib (α := α) a b)
      conn w h hw hh h2 stride hs seed mask

/-- Witness for the amended C19: the `3 × 1` grid with seed `[0, 9, 0]` and mask
`[9, 0, 9]`. -/
theorem C19_equals_documented_loop_witness :
    IsOpPair (max : Nat → Nat → Nat) min ∧ 0 < 3 ∧ 0 < 1 ∧ (1 < 3 ∨ 1 < 1) ∧
    ((3 : Nat) : Int) ≤ 3 ∧
    ∃ n k r g,
      seedFillGenericInPlace n (max : Nat → Nat → Nat) min Connectivity.CONN4 (fun i => if i = 1 then 9 else 0) 3
        ⟨(3 : Nat), (1 : Nat)⟩ (fun i => if i = 1 then 0 else 9) 3 = some r ∧
      docLoop (max : Nat → Nat → Nat) min Connectivity.CONN4 3 1 (view (fun i => if i = 1 then 0 else 9) 3) k
        (view (fun i => if i = 1 then 9 else 0) 3) = some g ∧
      ∀ x y, InGrid 3 1 x y → r (cellAddr 3 x y) = g x y :=
  ⟨Or.inl ⟨rfl, rfl⟩, by decide, by decide, Or.inl (by decide), by decide,
    C19_equals_documented_loop max min (Or.inl ⟨rfl, rfl⟩) Connectivity.CONN4 3 1
      (by decide) (by decide) (Or.inl (by decide)) 3 (by decide) (fun i => if i = 1 then 9 else 0) (fun i => if i = 1 then 0 else 9)⟩

omit [LinearOrder α] in
/-- On the `1 × 1` grid the documented loop writes nothing: the only point has no neighbour,
so one iteration leaves every seed grid as it is and reports no change. -/
theorem docLoop_one_cell [DecidableEq α] (spread_op mask_op : α → α → α) (conn : Connectivity)
    (M g : Int → Int → α) : docLoop spread_op mask_op conn 1 1 M 1 g = some g := by
  cases conn <;> rfl

theorem one_cell_maxmin (inst : DecidableEq α) (conn : Connectivity) (stride : Int)
    (hs : 1 ≤ stride) (seed mask : Int → α) :
    ∃ n r, @seedFillGenericInPlace α inst n max min conn seed stride ⟨(1 : Nat), (1 : Nat)⟩
        mask stride = some r ∧ r 0 = min (mask 0) (seed 0) := by
  obtain ⟨n, r, hr, hrec, _⟩ := fill_recon inst conn 1 1 (by decide) (by decide) stride stride
    (by exact_mod_cast hs) (by exact_mod_cast hs) (fun _ => rfl) seed mask
  have hc : InGrid 1 1 0 0 := by unfold InGrid; omega
  have e0 : cellAddr stride 0 0 = 0 := cellAddr_zero stride
  have h1 := hrec.above 0 0 hc
  have h2 := hrec.sound (fun _ _ => min (seed 0) (mask 0))
    ⟨fun x y hxy => by
        unfold InGrid at hxy
        have hx : x = 0 := by omega
        have hy : y = 0 := by omega
        subst hx hy
        simp only [view, e0]
        exact le_rfl,
      fun x y x' y' hxy hxy' ha => by
        exfalso
        unfold InGrid at hxy hxy'
        cases conn with
        | CONN4 =>
          have h : Adj4 x y x' y' := ha
          unfold Adj4 at h; omega
        | CONN8 =>
          have h : Adj8 x y x' y' := ha
          unfold Adj8 at h; omega⟩ 0 0 hc
  simp only [view, e0] at h1 h2
  exact ⟨n, r, hr, by rw [min_comm]; exact le_antisymm h2 h1⟩

/-- On every `1 × 1` grid (`max`/`min` or `min`/`max` in a linear order, four or eight
neighbours) the call returns and leaves `mask_op(mask, seed)` in the only cell, while one
iteration of the documented loop ends it and leaves the seed as it was. -/
theorem one_cell_code_and_documented_loop [DecidableEq α] (spread_op mask_op : α → α → α)
    (hop : IsOpPair spread_op mask_op) (conn : Connectivity) (stride : Int) (hs : 1 ≤ stride)
    (seed mask : Int → α) :
    (∃ n r, seedFillGenericInPlace n spread_op mask_op conn seed stride
        ⟨(1 : Nat), (1 : Nat)⟩ mask stride = some r ∧ r 0 = mask_op (mask 0) (seed 0)) ∧
    docLoop spread_op mask_op conn 1 1 (view mask stride) 1 (view seed stride) =
      some (view seed stride) := by
  refine ⟨?_, docLoop_one_cell spread_op mask_op conn _ _⟩
  rcases hop with ⟨rfl, rfl⟩ | ⟨rfl, rfl⟩
  · exact one_cell_maxmin _ conn stride hs seed mask
  · exact one_cell_maxmin (α := αᵒᵈ) _ conn stride hs seed mask

end imageproc

/-! ## Serialisation of the page-detection parameters -/

namespace select_content

theorem toXml_attributes {R : Type} (c : Conversions R) (p : Dependencies.Params R)
    (name : String) :
    (p.toXml c name).attributes =
      [("contentDetectionMode", c.autoManualModeToString p.m_contentDetectionMode),
        ("pageDetectionMode", c.autoManualModeToString p.m_pageDetectionMode),
        ("fineTuneCorners", if p.m_enableAxisCorrecion then "1" else "0"),
        ("xAxisCorrectionValue", c.numberToString p.m_axisCorrectoinValue.y)] := by
  simp [Dependencies.Params.toXml, createElement, QDomElement.setAttribute]

/-- Claim C20.  `Dependencies::Params::toXml` writes two pairs of fields to one key each,
so serialisation loses data: for every `Params p`, reading the element returned by
`p.toXml` back with `Params(QDomElement)` yields a fine-tune-corners flag equal to the
enable-axis-correction flag of `p` and an enable-axis-correction flag that is `false`; the
keys `enableAxisCorrection` and `yAxisCorrectionValue` are not among the attributes
written. -/
theorem C20_toXml_loses_flags {R : Type} (c : Conversions R) (p : Dependencies.Params R)
    (name : String) :
    (Dependencies.Params.fromElement c (p.toXml c name)).m_fineTuneCorners =
      p.m_enableAxisCorrecion ∧
    (Dependencies.Params.fromElement c (p.toXml c name)).m_enableAxisCorrecion = false ∧
    ∀ kv ∈ (p.toXml c name).attributes,
      kv.1 ≠ "enableAxisCorrection" ∧ kv.1 ≠ "yAxisCorrectionValue" := by
  refine ⟨?_, ?_, ?_⟩
  · simp only [Dependencies.Params.fromElement, QDomElement.attribute, toXml_attributes]
    cases p.m_enableAxisCorrecion <;> simp [List.find?]
  · simp only [Dependencies.Params.fromElement, QDomElement.attribute, toXml_attributes]
    simp [List.find?]
  · intro kv hkv
    rw [toXml_attributes] at hkv
    simp only [List.mem_cons, List.mem_singleton, List.mem_nil_iff, or_false] at hkv
    rcases hkv with rfl | rfl | rfl | rfl <;> constructor <;> dsimp only <;> decide

end select_content

/-! ## Lower bound, reconstructed input, four against eight neighbours -/

namespace imageproc

open detail.seed_fill_generic

variable {α : Type} [LinearOrder α]

/-- Claim C21.  Reconstruction never loses what the mask permits of the seed: with `max`/`min`
over a linear order, on every non-empty grid (common stride, four or eight neighbours) the
call returns, and at every cell the result is at least the minimum of the seed before the
call and the mask. -/
theorem C21_result_above_clamped_seed [DecidableEq α] (conn : Connectivity) (w h : Nat)
    (hw : 0 < w) (hh : 0 < h) (stride : Int) (hs : (w : Int) ≤ stride) (seed mask : Int → α) :
    ∃ n r, seedFillGenericInPlace n max min conn seed stride ⟨w, h⟩ mask stride = some r ∧
      ∀ x y, InGrid w h x y →
        min (seed (cellAddr stride x y)) (mask (cellAddr stride x y)) ≤
          r (cellAddr stride x y) := by
  obtain ⟨n, r, hr, hrec, _⟩ :=
    fill_recon inferInstance conn w h hw hh stride stride hs hs (fun _ => rfl) seed mask
  exact ⟨n, r, hr, fun x y hc => hrec.above x y hc⟩

/-- Witness for C21: a `3 × 2` grid of naturals, stride four, eight neighbours. -/
theorem C21_result_above_clamped_seed_witness :
    0 < 3 ∧ 0 < 2 ∧ ((3 : Nat) : Int) ≤ 4 ∧
    ∃ n r, seedFillGenericInPlace n (max : Nat → Nat → Nat) min Connectivity.CONN8
        (fun i => if i = 5 then 9 else 1) 4 ⟨(3 : Nat), (2 : Nat)⟩
        (fun i => if i = 1 then 0 else 6) 4 = some r ∧
      ∀ x y, InGrid 3 2 x y →
        min ((fun i : Int => if i = 5 then 9 else 1) (cellAddr 4 x y))
            ((fun i : Int => if i = 1 then 0 else 6) (cellAddr 4 x y)) ≤ r (cellAddr 4 x y) :=
  ⟨by decide, by decide, by decide,
    C21_result_above_clamped_seed Connectivity.CONN8 3 2 (by decide) (by decide) 4 (by decide)
      (fun i => if i = 5 then 9 else 1) (fun i => if i = 1 then 0 else 6)⟩

omit [LinearOrder α] in
/-- The backward scan of `seedFill4` at a cell either leaves state and log as they are or
logs a store to the cell. -/
theorem scanCell4Traced_cases [DecidableEq α] (spread_op mask_op : α → α → α)
    (maskBuf : Int → α) (hts : List HTransition) (vt : VTransition) (ss ms sl ml x y : Int)
    (s : FillState α × List (Event α)) :
    scanCell4Traced spread_op mask_op maskBuf hts vt ss ms sl ml x y s = s ∨
    ∃ v, s.1.seed (sl + x) ≠ v ∧ Event.store s.1 (sl + x) (ml + x) v ∈
      (scanCell4Traced spread_op mask_op maskBuf hts vt ss ms sl ml x y s).2 := by
  unfold scanCell4Traced
  dsimp only
  split_ifs with heq
  · exact Or.inl rfl
  · exact Or.inr ⟨_, fun h => heq h.symm, by simp [processNeighborTraced]⟩

omit [LinearOrder α] in
/-- The backward scan of `seedFill8` at a cell either leaves state and log as they are or
logs a store to the cell. -/
theorem scanCell8Traced_cases [DecidableEq α] (spread_op mask_op : α → α → α)
    (maskBuf : Int → α) (hts : List HTransition) (vt : VTransition) (ss ms sl ml x y : Int)
    (s : FillState α × List (Event α)) :
    scanCell8Traced spread_op mask_op maskBuf hts vt ss ms sl ml x y s = s ∨
    ∃ v, s.1.seed (sl + x) ≠ v ∧ Event.store s.1 (sl + x) (ml + x) v ∈
      (scanCell8Traced spread_op mask_op maskBuf hts vt ss ms sl ml x y s).2 := by
  unfold scanCell8Traced
  dsimp only
  split_ifs with heq
  · exact Or.inl rfl
  · exact Or.inr ⟨_, fun h => heq h.symm, by simp [processNeighborTraced]⟩

/-- The seed of the context is already reconstructed: it is below the mask and stable along
every edge. -/
theorem settled_inv {C : Ctx α} (hC : C.WF)
    (hcl : ∀ x y, InGrid C.w C.h x y → C.S0 x y ≤ C.M x y)
    (hst : ∀ x y x' y', InGrid C.w C.h x y → InGrid C.w C.h x' y' → C.adj x y x' y' →
      min (C.M x' y') (C.S0 x y) ≤ C.S0 x' y')
    (ex : Int → Int → Int → Int → Prop) : Inv C ex ⟨C.s0, []⟩ where
  good :=
    { ok := fun x y hc _ =>
        ⟨hcl x y hc, min_le_left _ _, hC.hS x y hc, fun f hf => by
          have := hf.1 x y hc
          rwa [min_eq_left (hcl x y hc)] at this⟩
      untouched := fun x y _ hn => (hn trivial).elim
      frame := fun _ _ => rfl }
  qvalid := fun _ hp => by simp at hp
  edges := fun x y x' y' hc hc' ha => Or.inl (hst x y x' y' hc hc' ha)

/-- On an already reconstructed seed an admissible buffer is the seed itself. -/
theorem settled_eq {C : Ctx α}
    (hcl : ∀ x y, InGrid C.w C.h x y → C.S0 x y ≤ C.M x y)
    (hst : ∀ x y x' y', InGrid C.w C.h x y → InGrid C.w C.h x' y' → C.adj x y x' y' →
      min (C.M x' y') (C.S0 x y) ≤ C.S0 x' y')
    {buf : Int → α} (hg : GoodOn C (fun _ _ => True) buf) : buf = C.s0 := by
  refine @buf_ext α C.w C.h C.ss buf C.s0 (fun x y hc => ?_) hg.frame
  have hok := hg.ok x y hc trivial
  refine le_antisymm ?_ ?_
  · exact hok.2.2.2 C.S0
      ⟨fun x y _ => min_le_left _ _, hst⟩
  · have := hok.2.1
    rwa [min_eq_left (hcl x y hc)] at this

/-- On an already reconstructed seed no store of the propagation phase is possible: a logged
store would raise its cell above the seed, which bounds every admissible value. -/
theorem settled_cell {C : Ctx α}
    (hst : ∀ x y x' y', InGrid C.w C.h x y → InGrid C.w C.h x' y' → C.adj x y x' y' →
      min (C.M x' y') (C.S0 x y) ≤ C.S0 x' y')
    {ex : Int → Int → Int → Int → Prop} {log : List (Event α)} {p pm : Int}
    {out : FillState α × List (Event α)}
    (hcases : out = (⟨C.s0, []⟩, log) ∨
      ∃ v, C.s0 p ≠ v ∧ Event.store ⟨C.s0, []⟩ p pm v ∈ out.2)
    (hT : TInv C ex out) : out = (⟨C.s0, []⟩, log) := by
  rcases hcases with h | ⟨v, _, hmem⟩
  · exact h
  · exfalso
    obtain ⟨x, y, hc, hp, _, _, hlt, hok⟩ := hT.2 _ hmem
    have hle := hok.2.2.2 C.S0 ⟨fun x y _ => min_le_left _ _, hst⟩
    have e : C.S0 x y = C.s0 p := by rw [hp]; rfl
    rw [e] at hle
    exact absurd hlt (not_lt.2 hle)

omit [LinearOrder α] in
theorem scanRowTraced_fix
    (cell : Int → FillState α × List (Event α) → FillState α × List (Event α))
    (s : FillState α × List (Event α)) :
    ∀ n : Nat, (∀ x : Int, 0 ≤ x → x < n → cell x s = s) → scanRowTraced cell n s = s := by
  intro n
  induction n with
  | zero => intro _; rfl
  | succ n ih =>
    intro hcell
    rw [scanRowTraced, hcell n (Int.natCast_nonneg n) (by push_cast; omega)]
    exact ih (fun x h0 h1 => hcell x h0 (by push_cast; omega))

omit [LinearOrder α] in
theorem scanRowsTraced_fix (w h : Nat) (ss ms : Int)
    (cell : VTransition → Int → Int → Int → Int →
      FillState α × List (Event α) → FillState α × List (Event α))
    (s : FillState α × List (Event α))
    (hcell : ∀ x y : Int, InGrid w h x y →
      cell ⟨if y = 0 then 0 else -1, if y + 1 = h then 0 else -1⟩
        (cellAddr ss 0 y) (cellAddr ms 0 y) x y s = s) :
    ∀ n : Nat, n ≤ h →
      scanRowsTraced cell (initVertTransitions h) ss ms w n
        (cellAddr ss 0 ((n : Int) - 1)) (cellAddr ms 0 ((n : Int) - 1)) s = s := by
  intro n
  induction n with
  | zero => intro _; rfl
  | succ n ih =>
    intro hn
    have hcast : ((n + 1 : Nat) : Int) - 1 = (n : Int) := by push_cast; ring
    rw [hcast]
    simp only [scanRowsTraced, vAt_init h n (Int.natCast_nonneg n) (by omega), cellAddr_row_sub]
    rw [scanRowTraced_fix _ s w (fun x h0 h1 =>
      hcell x n (by unfold InGrid; omega))]
    exact ih (by omega)

/-- On an already reconstructed seed the propagation phase of `seedFill4` leaves the seed as
it is and logs nothing. -/
theorem seedFill4Traced_settled {C : Ctx α} (hC : C.WF) (hadj : C.adj = Adj4) (hw : 0 < C.w)
    (hcl : ∀ x y, InGrid C.w C.h x y → C.S0 x y ≤ C.M x y)
    (hst : ∀ x y x' y', InGrid C.w C.h x y → InGrid C.w C.h x' y' → C.adj x y x' y' →
      min (C.M x' y') (C.S0 x y) ≤ C.S0 x' y') :
    seedFill4Traced 1 max min C.s0 C.ss C.w C.h C.mask C.ms = some (C.s0, []) := by
  have h0 := fwdRows4_fwd hC hadj hw C.h 0 C.s0 (by omega) (by simpa using Fwd.start C)
  have hN : northD 0 = 0 := by simp [northD]
  simp only [Nat.cast_zero, hN, add_zero, cellAddr_zero] at h0
  obtain ⟨hf, h1, h2⟩ := h0
  have hb : (fwdRows4 max min C.mask C.ss C.ms C.w C.h 0 0 0 C.s0).1 = C.s0 :=
    settled_eq hcl hst (Fwd.toInv hC hf).good
  have hscan := scanRowsTraced_fix C.w C.h C.ss C.ms
    (fun vt sl ml x y =>
      scanCell4Traced max min C.mask (initHorTransitions C.w) vt C.ss C.ms sl ml x y)
    (⟨C.s0, []⟩, [])
    (fun x y hc => settled_cell hst
      (scanCell4Traced_cases max min C.mask (initHorTransitions C.w) _ C.ss C.ms _ _ x y _)
      (scanCell4Traced_inv hC hadj hc
        ⟨settled_inv hC hcl hst _, fun e he => by simp at he⟩)) C.h le_rfl
  unfold seedFill4Traced
  simp only [h1, h2, cellAddr_row_sub]
  rw [hb, hscan]
  rfl

/-- On an already reconstructed seed the propagation phase of `seedFill8` leaves the seed as
it is and logs nothing. -/
theorem seedFill8Traced_settled {C : Ctx α} (hC : C.WF) (hadj : C.adj = Adj8)
    (hw : 0 < C.w) (hh : 0 < C.h)
    (hcl : ∀ x y, InGrid C.w C.h x y → C.S0 x y ≤ C.M x y)
    (hst : ∀ x y x' y', InGrid C.w C.h x y → InGrid C.w C.h x' y' → C.adj x y x' y' →
      min (C.M x' y') (C.S0 x y) ≤ C.S0 x' y') :
    seedFill8Traced 1 max min C.s0 C.ss C.w C.h C.mask C.ms = some (C.s0, []) := by
  by_cases h1 : C.w = 1
  · have hd := seedFillSingleLine_done hC (line_vertical hadj h1) hh
    unfold seedFill8Traced
    rw [if_pos h1, settled_eq hcl hst hd.good]
  · by_cases h2 : C.h = 1
    · have hd := seedFillSingleLine_done hC (line_horizontal hadj h2) hw
      unfold seedFill8Traced
      rw [if_neg h1, if_pos h2, settled_eq hcl hst hd.good]
    · have hw2 : 2 ≤ C.w := by omega
      have hh2 : 2 ≤ C.h := by omega
      have hc : InGrid C.w C.h 0 0 := by unfold InGrid; omega
      have hf0 := Fwd.start C
      have hw1 := Fwd.writeCell hC hf0 hc (C.s0 (cellAddr C.ss 0 0)) (hf0.src_self hC hc) le_rfl
        (by
          intro x1 y1 hc1 _ hb
          unfold InGrid at hc1; unfold Before at hb
          omega)
      have hrow := fwdFirstRow8_fwd hC hadj (by omega) (C.w - 1) 1 _ le_rfl (by omega)
        (by simpa using hw1)
      have hnext := hrow.nextRow
      have hrows := fwdRows8_fwd hC hadj hw2 (C.h - 1) 1 _ le_rfl (by omega)
        (by simpa using hnext)
      obtain ⟨hf, e1, e2⟩ := hrows
      have hb := settled_eq hcl hst (Fwd.toInv hC hf).good
      have hscan := scanRowsTraced_fix C.w C.h C.ss C.ms
        (fun vt sl ml x y =>
          scanCell8Traced max min C.mask (initHorTransitions C.w) vt C.ss C.ms sl ml x y)
        (⟨C.s0, []⟩, [])
        (fun x y hc => settled_cell hst
          (scanCell8Traced_cases max min C.mask (initHorTransitions C.w) _ C.ss C.ms _ _ x y _)
          (scanCell8Traced_inv hC hadj hc
            ⟨settled_inv hC hcl hst _, fun e he => by simp at he⟩)) C.h le_rfl
      rw [← e1, ← e2] at hscan
      simp only [Nat.cast_one, sub_self, cellAddr_zero, Ctx.M, view] at hb hscan
      rw [min_comm] at hb hscan
      unfold seedFill8Traced
      rw [if_neg h1, if_neg h2]
      simp only [add_zero]
      rw [hb, hscan]
      rfl

theorem c22_maxmin (inst : DecidableEq α) (conn : Connectivity) (w h : Nat) (hw : 0 < w)
    (hh : 0 < h) (stride : Int) (hs : (w : Int) ≤ stride) (seed mask : Int → α)
    (hcl : ∀ x y, InGrid w h x y →
      seed (cellAddr stride x y) = min (mask (cellAddr stride x y)) (seed (cellAddr stride x y)))
    (hst : ∀ x y x' y', InGrid w h x y → InGrid w h x' y' → Adj conn x y x' y' →
      min (mask (cellAddr stride x' y'))
          (max (seed (cellAddr stride x y)) (seed (cellAddr stride x' y'))) =
        seed (cellAddr stride x' y')) :
    ∃ n, @seedFillGenericInPlace α inst n max min conn seed stride ⟨w, h⟩ mask stride =
        some seed ∧
      @seedFillTraced α inst 1 max min conn seed stride ⟨w, h⟩ mask stride = some (seed, []) := by
  have hi : inst = (fun a b => instDecidableEq_mathlib a b) := Subsingleton.elim _ _
  subst hi
  have hC := mkCtx_wf conn w h stride stride seed mask hs hs
  have hcl' : ∀ x y, InGrid w h x y →
      (mkCtx conn w h stride stride seed mask).S0 x y ≤
        (mkCtx conn w h stride stride seed mask).M x y := by
    intro x y hc
    have := hcl x y hc
    show seed (cellAddr stride x y) ≤ mask (cellAddr stride x y)
    rw [this]
    exact min_le_left _ _
  have hst' : ∀ x y x' y', InGrid w h x y → InGrid w h x' y' → Adj conn x y x' y' →
      min ((mkCtx conn w h stride stride seed mask).M x' y')
          ((mkCtx conn w h stride stride seed mask).S0 x y) ≤
        (mkCtx conn w h stride stride seed mask).S0 x' y' := by
    intro x y x' y' hc hc' ha
    have := hst x y x' y' hc hc' ha
    show min (mask (cellAddr stride x' y')) (seed (cellAddr stride x y)) ≤
      seed (cellAddr stride x' y')
    calc min (mask (cellAddr stride x' y')) (seed (cellAddr stride x y))
        ≤ min (mask (cellAddr stride x' y'))
            (max (seed (cellAddr stride x y)) (seed (cellAddr stride x' y'))) :=
          min_le_min le_rfl (le_max_left _ _)
      _ = seed (cellAddr stride x' y') := this
  obtain ⟨n, r, hr, hd⟩ := fill_done conn w h hw hh stride stride hs hs (fun _ => rfl) seed mask
  have hr0 : r = seed := settled_eq hcl' hst' hd.good
  subst hr0
  refine ⟨n, hr, ?_⟩
  have h1 : ¬ ((w : Int) < 1) := by omega
  have h2 : ¬ ((h : Int) < 1) := by omega
  cases conn with
  | CONN4 =>
    have := seedFill4Traced_settled hC rfl hw hcl' hst'
    simpa [seedFillTraced, QSize.isEmpty, h1, h2] using this
  | CONN8 =>
    have := seedFill8Traced_settled hC rfl hw hh hcl' hst'
    simpa [seedFillTraced, QSize.isEmpty, h1, h2] using this

/-- Claim C22.  An already reconstructed input passes through untouched.  On a non-empty
grid (common stride, `max`/`min` or `min`/`max` in a linear order, four or eight
neighbours), if every seed cell is clamped, `seed[c] = mask_op(mask[c], seed[c])`, and no
cell `p` can change a neighbour `q`, `mask_op(mask[q], spread_op(seed[p], seed[q])) =
seed[q]`, then the call returns the seed buffer it was given, and the propagation phase
(backward scan and queue loop) makes no store and no call of `processNeighbor`, the only
place where a work item is pushed: its log is empty. -/
theorem C22_reconstructed_input_is_untouched [DecidableEq α] (spread_op mask_op : α → α → α)
    (hop : IsOpPair spread_op mask_op) (conn : Connectivity) (w h : Nat) (hw : 0 < w)
    (hh : 0 < h) (stride : Int) (hs : (w : Int) ≤ stride) (seed mask : Int → α)
    (hcl : ∀ x y, InGrid w h x y →
      seed (cellAddr stride x y) =
        mask_op (mask (cellAddr stride x y)) (seed (cellAddr stride x y)))
    (hst : ∀ x y x' y', InGrid w h x y → InGrid w h x' y' → Adj conn x y x' y' →
      mask_op (mask (cellAddr stride x' y'))
          (spread_op (seed (cellAddr stride x y)) (seed (cellAddr stride x' y'))) =
        seed (cellAddr stride x' y')) :
    ∃ n, seedFillGenericInPlace n spread_op mask_op conn seed stride ⟨w, h⟩ mask stride =
        some seed ∧
      seedFillTraced 1 spread_op mask_op conn seed stride ⟨w, h⟩ mask stride =
        some (seed, []) := by
  rcases hop with ⟨rfl, rfl⟩ | ⟨rfl, rfl⟩
  · exact c22_maxmin _ conn w h hw hh stride hs seed mask hcl hst
  · exact c22_maxmin (α := αᵒᵈ) _ conn w h hw hh stride hs seed mask hcl hst

/-- Witness for C22: a `2 × 2` grid of naturals that is its own reconstruction, four
neighbours. -/
theorem C22_reconstructed_input_is_untouched_witness :
    ∃ n, seedFillGenericInPlace n (max : Nat → Nat → Nat) min Connectivity.CONN4
        (fun i => if i = 0 then 1 else 3) 2 ⟨(2 : Nat), (2 : Nat)⟩
        (fun i => if i = 0 then 1 else 5) 2 = some (fun i => if i = 0 then 1 else 3) ∧
      seedFillTraced 1 (max : Nat → Nat → Nat) min Connectivity.CONN4
        (fun i => if i = 0 then 1 else 3) 2 ⟨(2 : Nat), (2 : Nat)⟩
        (fun i => if i = 0 then 1 else 5) 2 = some (fun i => if i = 0 then 1 else 3, []) :=
  C22_reconstructed_input_is_untouched max min (Or.inl ⟨rfl, rfl⟩) Connectivity.CONN4 2 2
    (by decide) (by decide) 2 (by decide) (fun i => if i = 0 then 1 else 3)
    (fun i => if i = 0 then 1 else 5)
    (by
      intro x y hc
      unfold InGrid at hc
      have hx : x = 0 ∨ x = 1 := by omega
      have hy : y = 0 ∨ y = 1 := by omega
      rcases hx with rfl | rfl <;> rcases hy with rfl | rfl <;> decide)
    (by
      intro x y x' y' hc hc' _
      unfold InGrid at hc hc'
      have hx : x = 0 ∨ x = 1 := by omega
      have hy : y = 0 ∨ y = 1 := by omega
      have hx' : x' = 0 ∨ x' = 1 := by omega
      have hy' : y' = 0 ∨ y' = 1 := by omega
      rcases hx with rfl | rfl <;> rcases hy with rfl | rfl <;>
        rcases hx' with rfl | rfl <;> rcases hy' with rfl | rfl <;> decide)

omit [LinearOrder α] in
theorem Adj4.toAdj8 {x y x' y' : Int} (h : Adj4 x y x' y') : Adj8 x y x' y' := by
  unfold Adj4 at h
  unfold Adj8
  omega

/-- Claim C23.  More neighbours never spread less: with `max`/`min` over a linear order, on
every non-empty grid (common stride) the calls with `CONN4` and with `CONN8` both return,
and the result with `CONN4` is at most the result with `CONN8` at every cell. -/
theorem C23_conn4_below_conn8 [DecidableEq α] (w h : Nat) (hw : 0 < w) (hh : 0 < h)
    (stride : Int) (hs : (w : Int) ≤ stride) (seed mask : Int → α) :
    ∃ n r n' r',
      seedFillGenericInPlace n max min Connectivity.CONN4 seed stride ⟨w, h⟩ mask stride =
        some r ∧
      seedFillGenericInPlace n' max min Connectivity.CONN8 seed stride ⟨w, h⟩ mask stride =
        some r' ∧
      ∀ x y, InGrid w h x y → r (cellAddr stride x y) ≤ r' (cellAddr stride x y) := by
  obtain ⟨n, r, hr, hrec, _⟩ := fill_recon inferInstance Connectivity.CONN4 w h hw hh stride
    stride hs hs (fun _ => rfl) seed mask
  obtain ⟨n', r', hr', hrec', _⟩ := fill_recon inferInstance Connectivity.CONN8 w h hw hh stride
    stride hs hs (fun _ => rfl) seed mask
  refine ⟨n, r, n', r', hr, hr', fun x y hc => ?_⟩
  exact hrec.sound (view r' stride)
    ⟨hrec'.above, fun x y x' y' hc hc' ha => hrec'.stable x y x' y' hc hc' ha.toAdj8⟩ x y hc

/-- Witness for C23: a `3 × 3` grid of naturals on which the two results differ. -/
theorem C23_conn4_below_conn8_witness :
    0 < 3 ∧ ((3 : Nat) : Int) ≤ 3 ∧
    ∃ n r n' r',
      seedFillGenericInPlace n (max : Nat → Nat → Nat) min Connectivity.CONN4
        (fun i => if i = 0 then 5 else 0) 3 ⟨(3 : Nat), (3 : Nat)⟩
        (fun i => if i = 1 ∨ i = 3 then 0 else 7) 3 = some r ∧
      seedFillGenericInPlace n' (max : Nat → Nat → Nat) min Connectivity.CONN8
        (fun i => if i = 0 then 5 else 0) 3 ⟨(3 : Nat), (3 : Nat)⟩
        (fun i => if i = 1 ∨ i = 3 then 0 else 7) 3 = some r' ∧
      ∀ x y, InGrid 3 3 x y → r (cellAddr 3 x y) ≤ r' (cellAddr 3 x y) :=
  ⟨by decide, by decide,
    C23_conn4_below_conn8 3 3 (by decide) (by decide) 3 (by decide)
      (fun i => if i = 0 then 5 else 0) (fun i => if i = 1 ∨ i = 3 then 0 else 7)⟩

end imageproc

/-! ## The two overloads of `compatibleWith` -/

namespace select_content

theorem needUpdateContentBox_iff {R : Type} (p q : Dependencies.Params R) :
    p.needUpdateContentBox q = true ↔
      (p.m_contentDetectionMode ≠ AutoManualMode.MODE_MANUAL ∧
          p.m_contentDetectionMode ≠ q.m_contentDetectionMode) ∨
        (p.m_contentDetectionMode = AutoManualMode.MODE_MANUAL ∧
          p.m_enableAxisCorrecion ≠ q.m_enableAxisCorrecion) := by
  unfold Dependencies.Params.needUpdateContentBox
  split_ifs with h1 h2
  · simp only [true_iff]; exact Or.inl h1
  · simp only [true_iff]; exact Or.inr h2
  · simp only [Bool.false_eq_true, false_iff]; exact fun h => h.elim h1 h2

theorem needUpdatePageBox_iff {R : Type} (p q : Dependencies.Params R) :
    p.needUpdatePageBox q = true ↔
      (p.m_pageDetectionMode ≠ AutoManualMode.MODE_MANUAL ∧
          p.m_pageDetectionMode ≠ q.m_pageDetectionMode) ∨
        (p.m_pageDetectionMode = AutoManualMode.MODE_AUTO ∧
          p.m_fineTuneCorners ≠ q.m_fineTuneCorners) := by
  unfold Dependencies.Params.needUpdatePageBox
  split_ifs with h1 h2
  · simp only [true_iff]; exact Or.inl h1
  · simp only [true_iff]; exact Or.inr h2
  · simp only [Bool.false_eq_true, false_iff]; exact fun h => h.elim h1 h2

/-- The verdict of `Dependencies::Params::compatibleWith` in terms of the two update
tests: it ignores the enable-axis-correction flags. -/
theorem Params_compatibleWith_iff {R : Type} (p q : Dependencies.Params R) :
    p.compatibleWith q = true ↔
      ¬ (p.m_contentDetectionMode ≠ AutoManualMode.MODE_MANUAL ∧
          p.m_contentDetectionMode ≠ q.m_contentDetectionMode) ∧
        p.needUpdatePageBox q = false := by
  have hp := needUpdatePageBox_iff p q
  unfold Dependencies.Params.compatibleWith
  cases hnp : p.needUpdatePageBox q <;> rw [hnp] at hp <;> split_ifs <;>
    simp only [Bool.false_eq_true, false_iff, true_iff, iff_true, not_or, and_true,
      and_false, not_false_eq_true] at hp ⊢ <;> tauto

/-- The two overloads of `Dependencies::compatibleWith` disagree exactly when the outlines
compare equal, the content mode of the receiver is `MODE_MANUAL`, the enable-axis-correction
flags differ and the page box needs no update. -/
theorem compatibleWith_overloads_differ_iff {P R : Type} (fuzzyCompare : P → P → Bool)
    (a b : Dependencies P R) (u v : Option Bool) :
    a.compatibleWith fuzzyCompare b ≠ (a.compatibleWithUpdate fuzzyCompare b u v).1 ↔
      (fuzzyCompare a.m_rotatedPageOutline b.m_rotatedPageOutline = true ∧
        a.m_params.m_contentDetectionMode = AutoManualMode.MODE_MANUAL ∧
        a.m_params.m_enableAxisCorrecion ≠ b.m_params.m_enableAxisCorrecion ∧
        a.m_params.needUpdatePageBox b.m_params = false) := by
  have hc := Params_compatibleWith_iff a.m_params b.m_params
  have hn := needUpdateContentBox_iff a.m_params b.m_params
  unfold Dependencies.compatibleWith Dependencies.compatibleWithUpdate
  cases hfc : fuzzyCompare a.m_rotatedPageOutline b.m_rotatedPageOutline <;>
    cases hcw : a.m_params.compatibleWith b.m_params <;>
    cases hnc : a.m_params.needUpdateContentBox b.m_params <;>
    cases hnp : a.m_params.needUpdatePageBox b.m_params <;>
    simp only [hcw, hnc, hnp] at hc hn <;> simp <;> tauto

/-- Claim C24, evaluated at the failing input.  With equal outlines, content mode
`MODE_MANUAL` on both sides, page mode `MODE_DISABLED` on both sides and differing
enable-axis-correction flags, `compatibleWith(other)` returns `true` and
`compatibleWith(other, &c, &p)` returns `false` (reporting that the content box needs an
update). -/
theorem C24_overloads_disagree :
    Dependencies.compatibleWith (fun (p q : Nat) => decide (p = q))
      ⟨0, ⟨AutoManualMode.MODE_MANUAL, AutoManualMode.MODE_DISABLED, false, true,
        ⟨(0 : Int), 0⟩⟩⟩
      ⟨0, ⟨AutoManualMode.MODE_MANUAL, AutoManualMode.MODE_DISABLED, false, false,
        ⟨(0 : Int), 0⟩⟩⟩ = true ∧
    Dependencies.compatibleWithUpdate (fun (p q : Nat) => decide (p = q))
      ⟨0, ⟨AutoManualMode.MODE_MANUAL, AutoManualMode.MODE_DISABLED, false, true,
        ⟨(0 : Int), 0⟩⟩⟩
      ⟨0, ⟨AutoManualMode.MODE_MANUAL, AutoManualMode.MODE_DISABLED, false, false,
        ⟨(0 : Int), 0⟩⟩⟩ (some false) (some false) = (false, some true, some false) := by
  decide

/-- Claim C25.  For all `Dependencies` `a` and `b` and non-null out-parameters, the
three-argument `compatibleWith` returns `true` exactly when it reports both flags as
`false`; when the outlines do not fuzzy-compare equal it returns `false` with both flags
`true`; otherwise the content flag is `true` iff the content mode of `a` is not
`MODE_MANUAL` and differs from that of `b`, or is `MODE_MANUAL` and the
enable-axis-correction flags differ, and the page flag is `true` iff the page mode of `a` is
not `MODE_MANUAL` and differs from that of `b`, or is `MODE_AUTO` and the fine-tune-corners
flags differ. -/
theorem C25_compatibleWith_flags {P R : Type} (fuzzyCompare : P → P → Bool)
    (a b : Dependencies P R) (u v : Bool) :
    ((a.compatibleWithUpdate fuzzyCompare b (some u) (some v)).1 = true ↔
      (a.compatibleWithUpdate fuzzyCompare b (some u) (some v)).2 =
        (some false, some false)) ∧
    (fuzzyCompare a.m_rotatedPageOutline b.m_rotatedPageOutline = false →
      a.compatibleWithUpdate fuzzyCompare b (some u) (some v) =
        (false, some true, some true)) ∧
    (fuzzyCompare a.m_rotatedPageOutline b.m_rotatedPageOutline = true →
      ((a.compatibleWithUpdate fuzzyCompare b (some u) (some v)).2.1 = some true ↔
        (a.m_params.m_contentDetectionMode ≠ AutoManualMode.MODE_MANUAL ∧
            a.m_params.m_contentDetectionMode ≠ b.m_params.m_contentDetectionMode) ∨
          (a.m_params.m_contentDetectionMode = AutoManualMode.MODE_MANUAL ∧
            a.m_params.m_enableAxisCorrecion ≠ b.m_params.m_enableAxisCorrecion)) ∧
      ((a.compatibleWithUpdate fuzzyCompare b (some u) (some v)).2.2 = some true ↔
        (a.m_params.m_pageDetectionMode ≠ AutoManualMode.MODE_MANUAL ∧
            a.m_params.m_pageDetectionMode ≠ b.m_params.m_pageDetectionMode) ∨
          (a.m_params.m_pageDetectionMode = AutoManualMode.MODE_AUTO ∧
            a.m_params.m_fineTuneCorners ≠ b.m_params.m_fineTuneCorners))) := by
  have hn := needUpdateContentBox_iff a.m_params b.m_params
  have hp := needUpdatePageBox_iff a.m_params b.m_params
  unfold Dependencies.compatibleWithUpdate
  cases hfc : fuzzyCompare a.m_rotatedPageOutline b.m_rotatedPageOutline <;>
    cases hnc : a.m_params.needUpdateContentBox b.m_params <;>
    cases hnp : a.m_params.needUpdatePageBox b.m_params <;>
    simp only [hnc, hnp] at hn hp <;> simp <;> tauto

end select_content

/-! ## The page parameters of `Settings` -/

namespace select_content

variable {K V R P : Type} [LinearOrder K]

theorem mem_keys_mapInsert (m : List (K × V)) (key : K) (val : V) (k : K) :
    k ∈ (mapInsert m key val).map Prod.fst ↔ k = key ∨ k ∈ m.map Prod.fst := by
  induction m with
  | nil => simp [mapInsert]
  | cons kv rest ih =>
    unfold mapInsert
    split_ifs with h1 h2
    · simp
    · simp only [List.map_cons, List.mem_cons, ih]
      tauto
    · have e : kv.1 = key := le_antisymm (not_lt.1 h1) (not_lt.1 h2)
      simp only [List.map_cons, List.mem_cons, e]
      tauto

theorem mem_keys_mapSetValue (m : List (K × V)) (key : K) (val : V) (k : K) :
    k ∈ (mapSetValue m key val).map Prod.fst ↔ k = key ∨ k ∈ m.map Prod.fst := by
  induction m with
  | nil => simp [mapSetValue]
  | cons kv rest ih =>
    unfold mapSetValue
    split_ifs with h1 h2
    · simp
    · simp only [List.map_cons, List.mem_cons, ih]
      tauto
    · have e : kv.1 = key := le_antisymm (not_lt.1 h1) (not_lt.1 h2)
      simp only [List.map_cons, List.mem_cons, e]
      tauto

theorem mem_keys_mapErase (m : List (K × V)) (key : K) (k : K) :
    k ∈ (mapErase m key).map Prod.fst ↔ k ≠ key ∧ k ∈ m.map Prod.fst := by
  simp only [mapErase, List.mem_map, List.mem_filter, decide_eq_true_eq]
  constructor
  · rintro ⟨kv, ⟨hm, hne⟩, rfl⟩
    exact ⟨hne, kv, hm, rfl⟩
  · rintro ⟨hne, kv, hm, rfl⟩
    exact ⟨kv, ⟨hm, hne⟩, rfl⟩

theorem tracks_addOrUpdate (d : DeviationProvider K R) (f : K → R) (key k : K) :
    (d.addOrUpdate f key).tracks k = true ↔ k = key ∨ d.tracks k = true := by
  unfold DeviationProvider.addOrUpdate DeviationProvider.tracks
  by_cases h : k = key
  · subst h
    simp
  · simp [Function.update_noteq h, h]

theorem tracks_remove (d : DeviationProvider K R) (key k : K) :
    (d.remove key).tracks k = true ↔ k ≠ key ∧ d.tracks k = true := by
  unfold DeviationProvider.remove DeviationProvider.tracks
  by_cases h : k = key
  · subst h
    simp
  · simp [Function.update_noteq h, h]

theorem tracks_foldl (f : K → R) (l : List (K × V)) :
    ∀ (d : DeviationProvider K R) (k : K),
      (l.foldl (fun provider kv => provider.addOrUpdate f kv.1) d).tracks k = true ↔
        k ∈ l.map Prod.fst ∨ d.tracks k = true := by
  induction l with
  | nil => intro d k; simp
  | cons kv rest ih =>
    intro d k
    simp only [List.foldl_cons, ih, tracks_addOrUpdate, List.map_cons, List.mem_cons]
    tauto

theorem sorted_mapInsert (m : List (K × V)) (key : K) (val : V)
    (hm : m.Pairwise (fun a b => a.1 < b.1)) :
    (mapInsert m key val).Pairwise (fun a b => a.1 < b.1) := by
  induction m with
  | nil => simp [mapInsert]
  | cons kv rest ih =>
    rw [List.pairwise_cons] at hm
    unfold mapInsert
    split_ifs with h1 h2
    · refine List.pairwise_cons.2 ⟨?_, List.pairwise_cons.2 hm⟩
      intro b hb
      rcases List.mem_cons.1 hb with rfl | hb
      · exact h1
      · exact lt_trans h1 (hm.1 b hb)
    · refine List.pairwise_cons.2 ⟨?_, ih hm.2⟩
      intro b hb
      have hk : b.1 ∈ (mapInsert rest key val).map Prod.fst := List.mem_map_of_mem _ hb
      rcases (mem_keys_mapInsert rest key val b.1).1 hk with e | hk
      · rw [e]; exact h2
      · obtain ⟨c, hc, e⟩ := List.mem_map.1 hk
        rw [← e]; exact hm.1 c hc
    · exact List.pairwise_cons.2 hm

theorem sorted_mapSetValue (m : List (K × V)) (key : K) (val : V)
    (hm : m.Pairwise (fun a b => a.1 < b.1)) :
    (mapSetValue m key val).Pairwise (fun a b => a.1 < b.1) := by
  induction m with
  | nil => simp [mapSetValue]
  | cons kv rest ih =>
    rw [List.pairwise_cons] at hm
    unfold mapSetValue
    split_ifs with h1 h2
    · refine List.pairwise_cons.2 ⟨?_, List.pairwise_cons.2 hm⟩
      intro b hb
      rcases List.mem_cons.1 hb with rfl | hb
      · exact h1
      · exact lt_trans h1 (hm.1 b hb)
    · refine List.pairwise_cons.2 ⟨?_, ih hm.2⟩
      intro b hb
      have hk : b.1 ∈ (mapSetValue rest key val).map Prod.fst := List.mem_map_of_mem _ hb
      rcases (mem_keys_mapSetValue rest key val b.1).1 hk with e | hk
      · rw [e]; exact h2
      · obtain ⟨c, hc, e⟩ := List.mem_map.1 hk
        rw [← e]; exact hm.1 c hc
    · have e : kv.1 = key := le_antisymm (not_lt.1 h1) (not_lt.1 h2)
      refine List.pairwise_cons.2 ⟨fun b hb => ?_, hm.2⟩
      show key < b.1
      rw [← e]; exact hm.1 b hb

theorem sorted_foldl_mapInsert (g : K → K) (l : List (K × V)) :
    ∀ acc : List (K × V), acc.Pairwise (fun a b => a.1 < b.1) →
      (l.foldl (fun new_params kv => mapInsert new_params (g kv.1) kv.2) acc).Pairwise
        (fun a b => a.1 < b.1) := by
  induction l with
  | nil => intro acc h; exact h
  | cons kv rest ih =>
    intro acc h
    exact ih _ (sorted_mapInsert acc _ _ h)

/-- In every reachable state the page parameters are in strictly ascending key order, as
the entries of a `std::map` are. -/
theorem Reachable.sorted (dv : DeviationValues V R) (ids : PageIdAccess K P)
    (s : Settings K V R) (hs : Settings.Reachable dv ids s) :
    s.m_pageParams.Pairwise (fun a b => a.1 < b.1) := by
  induction hs with
  | init => exact List.Pairwise.nil
  | clear _ _ => exact List.Pairwise.nil
  | performRelinking relinker _ _ =>
    exact sorted_foldl_mapInsert
      (fun k => ids.setFilePath k (relinker.substitutionPathFor (ids.filePath k))) _ []
      List.Pairwise.nil
  | setPageParams page_id params _ ih => exact sorted_mapSetValue _ _ _ ih
  | clearPageParams page_id _ ih => exact List.Pairwise.filter _ ih

theorem getPPrevParams_find_append (page_id : K) (it : K × V) (hit : it.1 = page_id)
    (rest : List (K × V)) :
    ∀ front : List (K × V), (∀ kv ∈ front, kv.1 ≠ page_id) →
      getPPrevParams.find (front ++ it :: rest) page_id = it :: rest := by
  intro front
  induction front with
  | nil => intro _; simp [getPPrevParams.find, hit]
  | cons kv front ih =>
    intro h
    have hne : kv.1 ≠ page_id := h kv (List.mem_cons_self _ _)
    simp only [List.cons_append, getPPrevParams.find, if_neg hne]
    exact ih (fun c hc => h c (List.mem_cons_of_mem _ hc))

theorem isParamsNull_of_mem (s : Settings K V R) (page_id : K) (v : V)
    (h : (page_id, v) ∈ s.m_pageParams) : s.isParamsNull page_id = false := by
  unfold Settings.isParamsNull mapFind
  cases hf : s.m_pageParams.find? (fun kv => decide (kv.1 = page_id)) with
  | some kv => rfl
  | none =>
    have := List.find?_eq_none.1 hf (page_id, v) h
    simp at this

theorem isParamsNull_of_not_mem (s : Settings K V R) (page_id : K)
    (h : ∀ kv ∈ s.m_pageParams, kv.1 ≠ page_id) : s.isParamsNull page_id = true := by
  unfold Settings.isParamsNull mapFind
  rw [Option.isNone_iff_eq_none, List.find?_eq_none]
  intro kv hkv
  simpa using h kv hkv

/-- The function `getPPrevParams` on a map in which `page_id` has the predecessors `pre`
(in ascending order) and the successors `post`. -/
theorem getPPrevParams_split (s : Settings K V R)
    (hs : s.m_pageParams.Pairwise (fun a b => a.1 < b.1)) (page_id : K) (v : V)
    (pre post : List (K × V)) (hm : s.m_pageParams = pre ++ (page_id, v) :: post) :
    s.getPPrevParams page_id = getPPrevParams.count ((page_id, v) :: pre.reverse) 2 := by
  have hnull := isParamsNull_of_mem s page_id v (by rw [hm]; simp)
  have hpost : ∀ kv ∈ post.reverse, kv.1 ≠ page_id := by
    intro kv hkv
    rw [hm, List.pairwise_append] at hs
    have := (List.pairwise_cons.1 hs.2.1).1 kv (List.mem_reverse.1 hkv)
    exact fun e => absurd this (by rw [e]; exact lt_irrefl _)
  unfold Settings.getPPrevParams
  rw [hnull]
  simp only [Bool.false_eq_true, if_false]
  rw [hm, List.reverse_append, List.reverse_cons, List.append_assoc, List.singleton_append,
    getPPrevParams_find_append page_id (page_id, v) rfl _ _ hpost]

/-- Claim C26.  On a page-parameter map in key order, `getPPrevParams(p)` returns the
parameters stored for the page that lies exactly two positions before `p`; it returns null
when `p` has one predecessor or none, and when `p` has no stored parameters.  (The function
is `const`: it returns no changed state.) -/
theorem C26_getPPrevParams_two_before (s : Settings K V R)
    (hs : s.m_pageParams.Pairwise (fun a b => a.1 < b.1)) (page_id : K) :
    (∀ (pre : List (K × V)) (a b : K × V) (v : V) (post : List (K × V)),
      s.m_pageParams = pre ++ a :: b :: (page_id, v) :: post →
        s.getPPrevParams page_id = some a.2) ∧
    (∀ (b : K × V) (v : V) (post : List (K × V)),
      s.m_pageParams = b :: (page_id, v) :: post → s.getPPrevParams page_id = none) ∧
    (∀ (v : V) (post : List (K × V)),
      s.m_pageParams = (page_id, v) :: post → s.getPPrevParams page_id = none) ∧
    ((∀ kv ∈ s.m_pageParams, kv.1 ≠ page_id) → s.getPPrevParams page_id = none) := by
  refine ⟨?_, ?_, ?_, ?_⟩
  · intro pre a b v post hm
    rw [getPPrevParams_split s hs page_id v (pre ++ [a, b]) post (by rw [hm]; simp)]
    simp [getPPrevParams.count]
  · intro b v post hm
    rw [getPPrevParams_split s hs page_id v [b] post (by rw [hm]; simp)]
    simp [getPPrevParams.count]
  · intro v post hm
    rw [getPPrevParams_split s hs page_id v [] post (by rw [hm]; simp)]
    simp [getPPrevParams.count]
  · intro h
    unfold Settings.getPPrevParams
    rw [isParamsNull_of_not_mem s page_id h]
    rfl

/-- Witness for C26: four pages with the keys `1` to `4`; two positions before the page `4`
lies the page `2`. -/
theorem C26_getPPrevParams_two_before_witness :
    Settings.getPPrevParams
      (⟨[(1, 10), (2, 20), (3, 30), (4, 40)], ⟨fun _ => none⟩⟩ : Settings Nat Nat Nat) 4 =
        some 20 :=
  (C26_getPPrevParams_two_before
    (⟨[(1, 10), (2, 20), (3, 30), (4, 40)], ⟨fun _ => none⟩⟩ : Settings Nat Nat Nat)
    (by decide) 4).1 [(1, 10)] (2, 20) (3, 30) 40 [] rfl

/-- Claim C27.  In every state of `Settings` that is reachable from construction by `clear`,
`setPageParams`, `clearPageParams` and `performRelinking`, the page ids that the deviation
provider tracks are the page ids that have stored parameters, the keys of `m_pageParams`;
this includes relinkings that map two pages to the same new id. -/
theorem C27_tracked_ids_are_stored_ids (dv : DeviationValues V R) (ids : PageIdAccess K P)
    (s : Settings K V R) (hs : Settings.Reachable dv ids s) (k : K) :
    s.m_deviationProvider.tracks k = true ↔ k ∈ s.m_pageParams.map Prod.fst := by
  induction hs with
  | init => simp [Settings.init, DeviationProvider.tracks]
  | clear _ _ => simp [Settings.clear, DeviationProvider.clear, DeviationProvider.tracks]
  | performRelinking relinker _ _ =>
    simp only [Settings.performRelinking, tracks_foldl]
    simp [DeviationProvider.clear, DeviationProvider.tracks]
  | setPageParams page_id params _ ih =>
    simp only [Settings.setPageParams, tracks_addOrUpdate, mem_keys_mapSetValue, ih]
  | clearPageParams page_id _ ih =>
    simp only [Settings.clearPageParams, tracks_remove, mem_keys_mapErase, ih]

/-- Witness for C27: two pages are stored and then relinked to the same new id. -/
theorem C27_tracked_ids_are_stored_ids_witness :
    (((((Settings.init : Settings Nat Nat Nat).setPageParams ⟨fun v => v, 0⟩ 1 10).setPageParams
        ⟨fun v => v, 0⟩ 2 20).performRelinking ⟨fun v => v, 0⟩
          (⟨fun k => k, fun _ p => p⟩ : PageIdAccess Nat Nat)
          ⟨fun _ => 7⟩).m_deviationProvider.tracks 7 = true ↔
      7 ∈ ((((Settings.init : Settings Nat Nat Nat).setPageParams ⟨fun v => v, 0⟩ 1
          10).setPageParams ⟨fun v => v, 0⟩ 2 20).performRelinking ⟨fun v => v, 0⟩
            (⟨fun k => k, fun _ p => p⟩ : PageIdAccess Nat Nat)
            ⟨fun _ => 7⟩).m_pageParams.map Prod.fst) :=
  C27_tracked_ids_are_stored_ids _ _ _
    (Settings.Reachable.performRelinking _
      (Settings.Reachable.setPageParams _ _
        (Settings.Reachable.setPageParams _ _ Settings.Reachable.init))) 7

/-- The relinking of the witness for C27: both pages get the id `7`, the parameters of the
first page in key order are kept, and the id `7` is tracked. -/
theorem performRelinking_collision :
    ((((Settings.init : Settings Nat Nat Nat).setPageParams ⟨fun v => v, 0⟩ 1 10).setPageParams
        ⟨fun v => v, 0⟩ 2 20).performRelinking ⟨fun v => v, 0⟩
          (⟨fun k => k, fun _ p => p⟩ : PageIdAccess Nat Nat) ⟨fun _ => 7⟩).m_pageParams =
      [(7, 10)] := by
  decide

end select_content
